
import Mathlib

/-!
Verification development for the non-consecutive-Sudoku SAT project.

The definitions below are a shallow embedding of the Python sources:
  * `src/utils/sat.py`   — shared solver state, 2-watched-literal propagation,
                           decision bookkeeping (class `SATSolver` and the
                           `FirstPick` heuristic);
  * `src/utils/cdcl.py`  — the CDCL engine (class `CDCL`);
  * `src/utils/dpll.py`  — the chronological-backtracking engine (class `DPLL`,
                           a subclass of `FirstPick`);
  * `src/encoder.py`     — the puzzle → CNF encoder (`to_cnf`).

Modelling conventions:
  * Python `dict`s keyed by variables or literals become total functions
    `Int → _`.  The Python dicts only hold keys in `[1, numVars]`
    (resp. nonzero literals in `[-numVars, numVars]`); accessing any other key
    raises `KeyError`.  Theorems that quantify over inputs therefore carry
    range hypotheses keeping all accesses inside the dict domains.
  * Loops whose bound is not structural take a fuel argument and return
    `Option _`; `none` marks fuel exhaustion or a path on which the Python
    code would raise.  Concrete executions are run with ample fuel.
  * `collections.deque` used as a queue (`unit_clause_lits`) is a list
    consumed from the head; used as a stack (`assignment_trail`) it is a list
    grown and popped at the tail, indexed from the left like the Python code.
  * Python `set` objects inside `analyze_conflict` are modelled as
    duplicate-free lists.  Membership, insertion and removal are order
    independent; the one place where iteration ORDER is observable is
    `list(learnt_clause_lits)`.  CPython iterates a set of small ints in
    ascending hash-slot order of its table; for at most four elements with
    pairwise distinct slots the table has size 8 and no probing happens, so
    the order is ascending `hash(v) mod 8` (with `hash (-1) = -2`).
    `pySetList` reproduces exactly that; every concrete run below keeps the
    learnt set within this regime.
-/

/-- Absolute value on `Int`, mirroring Python `abs`. -/
def iabs (i : Int) : Int := if i < 0 then -i else i

/-- Value stored for a literal assignment: `1 if lit > 0 else -1`. -/
def signVal (l : Int) : Int := if 0 < l then 1 else -1

/-- Pointwise update of a function modelling a Python dict entry write. -/
def updFn {α : Type} (f : Int → α) (k : Int) (v : α) : Int → α :=
  fun x => if x = k then v else f x

/-- Remove the first occurrence of `x`, mirroring Python `list.remove`
(which is only called when the element is present). -/
def removeFirst (l : List Nat) (x : Nat) : List Nat :=
  match l with
  | [] => []
  | a :: rest => if a = x then rest else a :: removeFirst rest x

/-- Solver state shared by `SATSolver`, `DPLL` and `CDCL`
(`src/utils/sat.py` lines 25-62, `src/utils/cdcl.py` lines 5-8).
The CDCL-only fields `reasonOf`/`levelOf` are carried by every state and are
simply never read by the DPLL functions. -/
structure Solver where
  numVars : Nat
  clauses : List (List Int)
  assignment : Int → Int
  trail : List Int
  decisions : List (Int × Bool)
  levelStart : List Nat
  watches : Int → List Nat
  propIndex : Nat
  unitQueue : List Int
  reasonOf : Int → Option Nat
  levelOf : Int → Int

/-- Register clause index `ci` on literal `l` (`self.watches[l].append(ci)`). -/
def addWatch (w : Int → List Nat) (l : Int) (ci : Nat) : Int → List Nat :=
  fun x => if x = l then w x ++ [ci] else w x

/-- Remove clause index `ci` from literal `l` (`self.watches[l].remove(ci)`). -/
def removeWatch (w : Int → List Nat) (l : Int) (ci : Nat) : Int → List Nat :=
  fun x => if x = l then removeFirst (w x) ci else w x

/-- Constructor loop of `SATSolver.__init__` (`src/utils/sat.py` lines 67-83):
empty clauses inject the contradictory pair `1, -1` into the unit queue,
unit clauses enqueue their literal, longer clauses watch positions 0 and 1. -/
def initClausesLoop (cs : List (List Int)) (ci : Nat) (s : Solver) : Solver :=
  match cs with
  | [] => s
  | c :: rest =>
    let s1 :=
      match c with
      | [] => { s with unitQueue := s.unitQueue ++ [1, -1] }
      | [l] => { s with unitQueue := s.unitQueue ++ [l] }
      | l1 :: l2 :: _ => { s with watches := addWatch (addWatch s.watches l1 ci) l2 ci }
    initClausesLoop rest (ci + 1) s1

/-- Full constructor `SATSolver.__init__` (plus the `CDCL.__init__` fields
`reason_of = None`, `level_of = -1`).  The clause list is copied
(`[list(c) for c in clauses]`); under value semantics the copy is the list
itself (the aliasing content of the copy is treated separately below). -/
def mkSolver (clauses : List (List Int)) (numVars : Nat) : Solver :=
  let base : Solver :=
    { numVars := numVars
      clauses := clauses
      assignment := fun _ => 0
      trail := []
      decisions := []
      levelStart := []
      watches := fun _ => []
      propIndex := 0
      unitQueue := []
      reasonOf := fun _ => none
      levelOf := fun _ => -1 }
  initClausesLoop clauses 0 base

/-- `SATSolver.assign`: write the assignment dict (keyed by the absolute
value) and append the signed literal to the trail.  The Python parameter is
called `variable`, a reserved word here. -/
def assign (s : Solver) (vlit value : Int) : Solver :=
  { s with assignment := updFn s.assignment (iabs vlit) value
           trail := s.trail ++ [vlit] }

/-- `SATSolver.unassign`: clear the assignment dict entry. -/
def unassignBase (s : Solver) (var : Int) : Solver :=
  { s with assignment := updFn s.assignment var 0 }

/-- `CDCL.unassign`: additionally clear `reason_of` and `level_of`, with the
early return when the variable is already unassigned. -/
def unassignCDCL (s : Solver) (var : Int) : Solver :=
  if s.assignment var == 0 then s
  else
    unassignBase
      { s with reasonOf := updFn s.reasonOf var none
               levelOf := updFn s.levelOf var (-1) } var

/-- `SATSolver.lit_is_true`. -/
def litIsTrue (s : Solver) (l : Int) : Bool :=
  s.assignment (iabs l) == (if 0 < l then 1 else -1)

/-- `SATSolver.lit_is_false`. -/
def litIsFalse (s : Solver) (l : Int) : Bool :=
  s.assignment (iabs l) == (if 0 < l then -1 else 1)

/-- `SATSolver.lit_is_unassigned`. -/
def litIsUnassigned (s : Solver) (l : Int) : Bool :=
  s.assignment (iabs l) == 0

/-- `CDCL._assign_internal`: record level and reason, then assign. -/
def assignInternalC (s : Solver) (lit : Int) (level : Int) (reason : Option Nat) : Solver :=
  let var := iabs lit
  assign
    { s with levelOf := updFn s.levelOf var level
             reasonOf := updFn s.reasonOf var reason }
    lit (signVal lit)

/-- Drain of `unit_clause_lits` (`process_initial_unit_clauses` in
`src/utils/sat.py` lines 146-163 / `src/utils/dpll.py` lines 8-21, and the
inlined copy at the top of `CDCL.propagate`).  The assignment action is a
parameter: the CDCL variant records level 0 and no reason, the DPLL variant
plainly assigns.  Returns `false` at the state where a queued literal is
already false. -/
def drainQueue (ai : Solver → Int → Solver) : List Int → Solver → Bool × Solver
  | [], s => (true, s)
  | l :: rest, s =>
    let s1 := { s with unitQueue := rest }
    if litIsTrue s1 l then drainQueue ai rest s1
    else if litIsFalse s1 l then (false, s1)
    else drainQueue ai rest (ai s1 l)

/-- Scan of `_find_new_watcher_for_clause` from position `i`, with
`remaining` a structural bound (the clause length, never reached since `i`
starts at 2).  On success the watcher moves from the falsified literal to the
replacement and the clause swaps positions 0 and `i`. -/
def fnwLoop (s : Solver) (ci : Nat) (fw : Int) (clause : List Int) (i : Nat)
    (remaining : Nat) : Bool × Solver :=
  match remaining with
  | 0 => (false, s)
  | r + 1 =>
    match clause.get? i with
    | none => (false, s)
    | some newLit =>
      if litIsFalse s newLit then fnwLoop s ci fw clause (i + 1) r
      else
        let w2 := addWatch (removeWatch s.watches fw ci) newLit ci
        let cl2 := (clause.set 0 newLit).set i fw
        (true, { s with watches := w2, clauses := s.clauses.set ci cl2 })

/-- `SATSolver._find_new_watcher_for_clause` (identical override in
`src/utils/dpll.py`, inlined copy inside `CDCL.propagate`). -/
def findNewWatcher (s : Solver) (ci : Nat) (fw : Int) : Bool × Solver :=
  let clause := (s.clauses.get? ci).getD []
  fnwLoop s ci fw clause 2 clause.length

/-- Body of the `for ci in list(self.watches[falsified_lit])` loop in
`propagate`: ensure the falsified watcher sits at position 0, keep the clause
if the other watcher is true, otherwise look for a replacement watcher, and
failing that propagate the other watcher or report the conflict.  `ai2`
performs the unit assignment (with reason/level bookkeeping for CDCL). -/
def processWatchClause (ai2 : Solver → Int → Nat → Solver) (falsifiedLit : Int)
    (ci : Nat) (s : Solver) : Option Nat × Solver :=
  let clause0 := (s.clauses.get? ci).getD []
  let a := (clause0.get? 0).getD 0
  let b := (clause0.get? 1).getD 0
  let step :=
    if a ≠ falsifiedLit then
      let cl2 := (clause0.set 0 b).set 1 a
      (b, a, { s with clauses := s.clauses.set ci cl2 })
    else (a, b, s)
  match step with
  | (w1, w2, s1) =>
    if litIsTrue s1 w2 then (none, s1)
    else
      match findNewWatcher s1 ci w1 with
      | (true, s2) => (none, s2)
      | (false, s2) =>
        if litIsUnassigned s2 w2 then (none, ai2 s2 w2 ci)
        else if litIsFalse s2 w2 then (some ci, s2)
        else (none, s2)

/-- Iteration over the snapshot of a watch list; stops at the first
conflict. -/
def processWatchList (ai2 : Solver → Int → Nat → Solver) (falsifiedLit : Int) :
    List Nat → Solver → Option Nat × Solver
  | [], s => (none, s)
  | ci :: rest, s =>
    match processWatchClause ai2 falsifiedLit ci s with
    | (some c, s2) => (some c, s2)
    | (none, s2) => processWatchList ai2 falsifiedLit rest s2

/-- Main propagation loop over the trail (`while self.prop_index <
len(self.assignment_trail)`), fuelled because unit assignments extend the
trail while it runs. -/
def propTrailLoop (ai2 : Solver → Int → Nat → Solver) (fuel : Nat) (s : Solver) :
    Option (Option Nat × Solver) :=
  match fuel with
  | 0 => none
  | f + 1 =>
    if s.propIndex < s.trail.length then
      let lit := (s.trail.get? s.propIndex).getD 0
      let s1 := { s with propIndex := s.propIndex + 1 }
      let fl := -lit
      match processWatchList ai2 fl (s1.watches fl) s1 with
      | (some c, s2) => some (some c, s2)
      | (none, s2) => propTrailLoop ai2 f s2
    else some (none, s)

/-- `CDCL.propagate` (`src/utils/cdcl.py` lines 73-135).  The conflict result
is an `Int` because the inlined queue drain reports the dummy index `-1`. -/
def cdclPropagate (fuel : Nat) (s : Solver) : Option (Option Int × Solver) :=
  let curLevel : Int := Int.ofNat s.decisions.length
  match drainQueue (fun st l => assignInternalC st l 0 none) s.unitQueue s with
  | (false, s1) => some (some (-1), s1)
  | (true, s1) =>
    match propTrailLoop (fun st l ci => assignInternalC st l curLevel (some ci)) fuel s1 with
    | none => none
    | some (some ci, s2) => some (some (Int.ofNat ci), s2)
    | some (none, s2) => some (none, s2)

/-- `DPLL.propagate` (`src/utils/dpll.py` lines 44-87): same machinery
without CDCL bookkeeping, returning only a success flag. -/
def dpllPropagate (fuel : Nat) (s : Solver) : Option (Bool × Solver) :=
  match drainQueue (fun st l => assign st l (signVal l)) s.unitQueue s with
  | (false, s1) => some (false, s1)
  | (true, s1) =>
    match propTrailLoop (fun st l _ => assign st l (signVal l)) fuel s1 with
    | none => none
    | some (some _, s2) => some (false, s2)
    | some (none, s2) => some (true, s2)

/-- Variables `1, …, n` in the iteration order of the assignment dict. -/
def intRange (n : Nat) : List Int :=
  (List.range n).map (fun i => Int.ofNat (i + 1))

/-- `FirstPick.pick_unassigned_literal`: first unassigned variable, positive
polarity (`src/utils/sat.py` lines 279-287). -/
def firstPick (s : Solver) : Option Int :=
  (intRange s.numVars).find? (fun v => s.assignment v == 0)

/-- Positive model extraction `[i for i, v in self.assignment.items() if v == 1]`. -/
def trueVars (s : Solver) : List Int :=
  (intRange s.numVars).filter (fun v => s.assignment v == 1)

/-- `CDCL.push_decision_level` (`src/utils/cdcl.py` lines 313-336). -/
def cdclPushDecision (s : Solver) (lit : Int) : Solver :=
  let newLevel : Int := Int.ofNat s.decisions.length + 1
  let var := iabs lit
  let s1 :=
    { s with levelStart := s.levelStart ++ [s.trail.length]
             decisions := s.decisions ++ [(var, decide (lit < 0))]
             reasonOf := updFn s.reasonOf var none
             levelOf := updFn s.levelOf var newLevel }
  assign s1 lit (signVal lit)

/-- `DPLL.push_decision_level` (`src/utils/dpll.py` lines 89-103). -/
def dpllPushDecision (s : Solver) (lit : Int) : Solver :=
  let var := iabs lit
  let s1 :=
    { s with levelStart := s.levelStart ++ [s.trail.length]
             decisions := s.decisions ++ [(var, decide (lit < 0))] }
  assign s1 lit (signVal lit)

/-- Pop trail entries down to `target`, unassigning each popped variable; the
unassignment action is `SATSolver.unassign` for DPLL and `CDCL.unassign` for
CDCL.  Fuelled by the current trail length. -/
def popTrailLoop (un : Solver → Int → Solver) (fuel target : Nat) (s : Solver) : Solver :=
  match fuel with
  | 0 => s
  | f + 1 =>
    if target < s.trail.length then
      match s.trail.getLast? with
      | none => s
      | some lit => popTrailLoop un f target (un { s with trail := s.trail.dropLast } (iabs lit))
    else s

/-- `DPLL.backtrack` (`src/utils/dpll.py` lines 105-136), fuelled by the
decision-stack depth since each recursive call pops one decision. -/
def dpllBacktrack (fuel : Nat) (s : Solver) : Option (Bool × Solver) :=
  match fuel with
  | 0 => none
  | f + 1 =>
    match s.decisions.getLast? with
    | none => some (false, s)
    | some d =>
      match s.levelStart.getLast? with
      | none => none
      | some lsi =>
        let s1 := { s with decisions := s.decisions.dropLast
                           levelStart := s.levelStart.dropLast }
        let s2 := popTrailLoop unassignBase s1.trail.length lsi s1
        let s3 := { s2 with propIndex := lsi }
        if !d.2 then
          let s4 :=
            { s3 with levelStart := s3.levelStart ++ [s3.trail.length]
                      decisions := s3.decisions ++ [(d.1, true)] }
          some (true, assign s4 (-d.1) (-1))
        else dpllBacktrack f s3

/-- `DPLL.backtrack` with the fuel the recursion actually needs. -/
def dpllBacktrackTop (s : Solver) : Option (Bool × Solver) :=
  dpllBacktrack (s.decisions.length + 1) s

/-- CPython hashes small ints as themselves except `hash (-1) = -2`. -/
def pyHash (v : Int) : Int := if v == -1 then -2 else v

/-- Hash slot of a small int in a set table of size 8. -/
def pySlot (v : Int) : Nat := (pyHash v % 8).toNat

/-- Iteration order of a CPython set of at most four small ints whose slots
in the size-8 table are pairwise distinct: ascending slot order.  All
concrete runs below stay inside this regime. -/
def pySetList (l : List Int) : List Int :=
  ((List.range 8).map (fun slot => l.filter (fun v => pySlot v == slot))).flatten

/-- Set insertion for a duplicate-free list model of a Python set. -/
def setAdd (l : List Int) (x : Int) : List Int :=
  if l.contains x then l else l ++ [x]

/-- Python `set.remove`. -/
def setRemove (l : List Int) (x : Int) : List Int :=
  l.filter (fun y => y != x)

/-- Accumulator of `analyze_conflict`: seen variables, variables of the
current level still to process, learnt lower-level literals (in insertion
order), candidate backjump level. -/
structure AnalyzeAcc where
  seen : List Int
  inflight : List Int
  learnt : List Int
  bj : Int

/-- Initialization loop of `analyze_conflict` (`for lit in
current_clause_lits`): partition the conflicting clause by decision level. -/
def analyzeInit (s : Solver) (curLevel : Int) : List Int → AnalyzeAcc → AnalyzeAcc
  | [], acc => acc
  | lit :: rest, acc =>
    let var := iabs lit
    let seen2 := setAdd acc.seen var
    if s.levelOf var == curLevel then
      analyzeInit s curLevel rest
        { acc with seen := seen2, inflight := setAdd acc.inflight var }
    else
      analyzeInit s curLevel rest
        { acc with seen := seen2, learnt := setAdd acc.learnt lit
                   bj := max acc.bj (s.levelOf var) }

/-- Resolution step of `analyze_conflict` (`for r_lit in
self.clauses[reason_ci]`): merge the reason clause, skipping the pivot
variable and already-seen variables. -/
def analyzeReason (s : Solver) (curLevel : Int) (pivotVar : Int) :
    List Int → AnalyzeAcc → AnalyzeAcc
  | [], acc => acc
  | rLit :: rest, acc =>
    let rVar := iabs rLit
    if rVar == pivotVar then analyzeReason s curLevel pivotVar rest acc
    else if acc.seen.contains rVar then analyzeReason s curLevel pivotVar rest acc
    else
      let acc1 := { acc with seen := acc.seen ++ [rVar] }
      if s.levelOf rVar == curLevel then
        analyzeReason s curLevel pivotVar rest
          { acc1 with inflight := setAdd acc1.inflight rVar }
      else
        analyzeReason s curLevel pivotVar rest
          { acc1 with learnt := setAdd acc1.learnt rLit
                      bj := max acc1.bj (s.levelOf rVar) }

/-- Backward walk over the trail in `analyze_conflict`.  `tidx` is the Python
`trail_idx`; when the walk would fall off the left end of the trail (where
the Python code would index negatively) the result is `none`.  Returns the
asserting literal (negation of the First-UIP trail literal), the learnt
lower-level literals and the backjump level. -/
def analyzeWalk (s : Solver) (curLevel : Int) (fuel : Nat) (tidx : Int)
    (acc : AnalyzeAcc) : Option (Int × List Int × Int) :=
  match fuel with
  | 0 => none
  | f + 1 =>
    if tidx < 0 then none
    else
      match s.trail.get? tidx.toNat with
      | none => none
      | some litOnTrail =>
        let varOnTrail := iabs litOnTrail
        if !(acc.inflight.contains varOnTrail) then
          analyzeWalk s curLevel f (tidx - 1) acc
        else
          let acc1 := { acc with inflight := setRemove acc.inflight varOnTrail }
          if acc1.inflight.isEmpty then some (-litOnTrail, acc1.learnt, acc1.bj)
          else
            match s.reasonOf varOnTrail with
            | none => none
            | some rci =>
              match s.clauses.get? rci with
              | none => none
              | some reasonClause =>
                analyzeWalk s curLevel f (tidx - 1)
                  (analyzeReason s curLevel varOnTrail reasonClause acc1)

/-- Python list indexing with negative wrap-around (used for
`self.clauses[conf_ci]`, whose index is `-1` only on dead paths). -/
def pyIndex (l : List (List Int)) (i : Int) : Option (List Int) :=
  if 0 ≤ i then l.get? i.toNat
  else if (-i).toNat ≤ l.length then l.get? (l.length - (-i).toNat)
  else none

/-- Duplicate-free list of the elements of `l` in insertion order, modelling
`set(l)` where only membership is observed. -/
def pySetOfList (l : List Int) : List Int := l.foldl setAdd []

/-- `CDCL.analyze_conflict` (`src/utils/cdcl.py` lines 137-231). -/
def analyzeConflict (s : Solver) (confCi : Int) : Option (List Int × Int) :=
  let curLevel : Int := Int.ofNat s.decisions.length
  if curLevel == 0 then some ([], -1)
  else
    match pyIndex s.clauses confCi with
    | none => none
    | some confClause =>
      let acc0 := analyzeInit s curLevel (pySetOfList confClause)
        { seen := [], inflight := [], learnt := [], bj := 0 }
      match analyzeWalk s curLevel (s.trail.length + 1)
          (Int.ofNat s.trail.length - 1) acc0 with
      | none => none
      | some (uip, learntFinal, bjFinal) =>
        some (uip :: pySetList learntFinal, bjFinal)

/-- `CDCL.add_clause` (`src/utils/cdcl.py` lines 233-256): append the clause
and, when it has at least two literals, watch positions 0 and 1. -/
def addClause (s : Solver) (lits : List Int) : Nat × Solver :=
  let newCi := s.clauses.length
  let s1 := { s with clauses := s.clauses ++ [lits] }
  match lits with
  | l1 :: l2 :: _ =>
    (newCi, { s1 with watches := addWatch (addWatch s1.watches l1 newCi) l2 newCi })
  | _ => (newCi, s1)

/-- Target trail index of `CDCL.backjump` (`src/utils/cdcl.py` lines
258-309): 0 for a root backjump, otherwise `self.level_start[backjump_level]`
— `none` models the `IndexError` when that entry does not exist. -/
def bjTarget (s : Solver) (bjLevel : Int) : Option Nat :=
  if bjLevel == 0 then some 0 else s.levelStart.get? bjLevel.toNat

/-- `CDCL.backjump` continued: pop the trail past the target, truncate the
decision and level stacks, reset the propagation index, assert the learnt
literal. -/
def cdclBackjump (s : Solver) (bjLevel : Int) (learntCi : Nat) (assertingLit : Int) :
    Option Solver :=
  match bjTarget s bjLevel with
  | none => none
  | some target =>
    let s1 := popTrailLoop unassignCDCL s.trail.length target s
    let s2 :=
      { s1 with decisions := s1.decisions.take bjLevel.toNat
                levelStart := s1.levelStart.take bjLevel.toNat
                propIndex := s1.trail.length }
    let var := iabs assertingLit
    let s3 :=
      { s2 with levelOf := updFn s2.levelOf var bjLevel
                reasonOf := updFn s2.reasonOf var (some learntCi) }
    some (assign s3 assertingLit (signVal assertingLit))

/-- Inner conflict loop of `CDCL.solve` (`src/utils/cdcl.py` lines 40-62):
propagate; on conflict analyze, learn, backjump, repeat.  `Sum.inl` resumes
the decision loop, `Sum.inr` is the UNSAT exit. -/
def cdclInnerLoop (pfuel : Nat) (fuel : Nat) (s : Solver) :
    Option (Sum Solver (String × Option (List Int))) :=
  match fuel with
  | 0 => none
  | f + 1 =>
    match cdclPropagate pfuel s with
    | none => none
    | some (none, s1) => some (Sum.inl s1)
    | some (some confCi, s1) =>
      match analyzeConflict s1 confCi with
      | none => none
      | some (learnt, bjLevel) =>
        if bjLevel < 0 then some (Sum.inr ("UNSAT", none))
        else
          match addClause s1 learnt with
          | (newCi, s2) =>
            match learnt.get? 0 with
            | none => none
            | some assertingLit =>
              match cdclBackjump s2 bjLevel newCi assertingLit with
              | none => none
              | some s3 => cdclInnerLoop pfuel f s3

/-- Main decision loop of `CDCL.solve`, parametric in the branching heuristic
(the `CDCL` class leaves `pick_unassigned_literal` abstract; concrete runs
instantiate `firstPick`). -/
def cdclSolveLoop (pick : Solver → Option Int) (pfuel fuel : Nat) (s : Solver) :
    Option (String × Option (List Int)) :=
  match fuel with
  | 0 => none
  | f + 1 =>
    match pick s with
    | none => some ("SAT", some (trueVars s))
    | some lit =>
      match cdclInnerLoop pfuel fuel (cdclPushDecision s lit) with
      | none => none
      | some (Sum.inr r) => some r
      | some (Sum.inl s1) => cdclSolveLoop pick pfuel f s1

/-- `CDCL.solve` from a freshly constructed solver (`src/utils/cdcl.py`
lines 10-62): initial propagation at level 0, then the decision loop. -/
def cdclSolve (pick : Solver → Option Int) (pfuel fuel : Nat)
    (clauses : List (List Int)) (numVars : Nat) :
    Option (String × Option (List Int)) :=
  let s0 := mkSolver clauses numVars
  match cdclPropagate pfuel s0 with
  | none => none
  | some (some _, _) => some ("UNSAT", none)
  | some (none, s1) => cdclSolveLoop pick pfuel fuel s1

/-- Conflict loop of `DPLL.solve`: backtrack until a flip propagates without
conflict (`Sum.inl`) or no decision remains (`Sum.inr` UNSAT). -/
def dpllConflictLoop (pfuel fuel : Nat) (s : Solver) :
    Option (Sum Solver (String × Option (List Int))) :=
  match fuel with
  | 0 => none
  | f + 1 =>
    match dpllBacktrackTop s with
    | none => none
    | some (false, _) => some (Sum.inr ("UNSAT", none))
    | some (true, s1) =>
      match dpllPropagate pfuel s1 with
      | none => none
      | some (true, s2) => some (Sum.inl s2)
      | some (false, s2) => dpllConflictLoop pfuel f s2

/-- Main loop of `DPLL.solve` (`src/utils/dpll.py` lines 138-170), including
the duplicated (dead) second pick of the source. -/
def dpllSolveLoop (pfuel fuel : Nat) (s : Solver) :
    Option (String × Option (List Int)) :=
  match fuel with
  | 0 => none
  | f + 1 =>
    match firstPick s with
    | none => some ("SAT", some (trueVars s))
    | some _ =>
      match firstPick s with
      | none => some ("UNSAT", none)
      | some lit =>
        let s1 := dpllPushDecision s lit
        match dpllPropagate pfuel s1 with
        | none => none
        | some (true, s2) => dpllSolveLoop pfuel f s2
        | some (false, s2) =>
          match dpllConflictLoop pfuel fuel s2 with
          | none => none
          | some (Sum.inr r) => some r
          | some (Sum.inl s3) => dpllSolveLoop pfuel f s3

/-- `DPLL.solve` from a freshly constructed solver. -/
def dpllSolve (pfuel fuel : Nat) (clauses : List (List Int)) (numVars : Nat) :
    Option (String × Option (List Int)) :=
  let s0 := mkSolver clauses numVars
  match dpllPropagate pfuel s0 with
  | none => none
  | some (false, _) => some ("UNSAT", none)
  | some (true, s1) => dpllSolveLoop pfuel fuel s1

/-- Truth of a literal under the model convention of the solver output: the
variables listed in the model are true, every other variable is false. -/
def modelSatLit (model : List Int) (l : Int) : Bool :=
  if 0 < l then model.contains l else !(model.contains (-l))

/-- Truth of a clause under a returned model: some literal is true. -/
def modelSatClause (model : List Int) (c : List Int) : Bool :=
  c.any (modelSatLit model)

/-- All total assignments over variables `1, …, n`, each given as its list of
true variables (the model convention of the solver output). -/
def subsetModels (n : Nat) : List (List Int) :=
  (List.range (2 ^ n)).map
    (fun m => (List.range n).filterMap
      (fun i => if (m >>> i) % 2 == 1 then some (Int.ofNat (i + 1)) else none))

/-- Brute-force satisfiability of a clause list over variables `1, …, n`. -/
def bruteForceSat (clauses : List (List Int)) (n : Nat) : Bool :=
  (subsetModels n).any (fun m => clauses.all (modelSatClause m))

/-- All literals of all clauses are nonzero and within `[-n, n]`. -/
def clausesInRange (clauses : List (List Int)) (n : Nat) : Bool :=
  clauses.all (fun c => c.all (fun l => l != 0 && iabs l ≤ Int.ofNat n))

/-- Input on which `CDCL.solve` mis-answers: the unit clause `[4]` is wiped
by a backjump to level 0 and never re-propagated. -/
def cnfBug : List (List Int) := [[4], [-2, -4, 3], [-2, -4, -3], [2, -5], [2, 5, -4]]

/-- States of the `CDCL`+`FirstPick` run on `cnfBug` (5 variables), following
exactly the call sequence of `CDCL.solve`:
initial propagation, decisions on 1 and 2, conflict in clause 2, learning
`[-2, -4]` with backjump level 0. -/
def bugS0 : Solver := mkSolver cnfBug 5

/-- State after the initial propagation of the `cnfBug` run (assigns 4 at
level 0 from the unit clause). -/
def bugS1 : Solver := ((cdclPropagate 100 bugS0).getD (none, bugS0)).2

/-- State after the decision on variable 1 in the `cnfBug` run. -/
def bugS2 : Solver := cdclPushDecision bugS1 1

/-- State after the (conflict-free) propagation at level 1. -/
def bugS3 : Solver := ((cdclPropagate 100 bugS2).getD (none, bugS2)).2

/-- State after the decision on variable 2 in the `cnfBug` run. -/
def bugS4 : Solver := cdclPushDecision bugS3 2

/-- State at the conflict returned by propagation at level 2 (clause 2). -/
def bugS5 : Solver := ((cdclPropagate 100 bugS4).getD (none, bugS4)).2

/-- State after appending the learnt clause `[-2, -4]` (index 5). -/
def bugS6 : Solver := (addClause bugS5 [-2, -4]).2

/-- State after `backjump(0, 5, -2)` in the `cnfBug` run: the trail is popped
to index 0, erasing the level-0 assignment of variable 4. -/
def bugS7 : Solver := (cdclBackjump bugS6 0 5 (-2)).getD bugS6

/-- Input whose run shows the learnt-clause watcher convention and the watch
invariant failing: the first conflict learns `[-3, -5, -2]` (backjump level
2) whose position-1 literal `-5` was assigned at level 1. -/
def cnfWatch : List (List Int) :=
  [[-1, 5], [-3, -5, -2, 6], [-3, -2, -6], [-4, -5, 7], [-4, -5, -7]]

/-- States of the `CDCL`+`FirstPick` run on `cnfWatch` (7 variables),
following exactly the call sequence of `CDCL.solve`. -/
def wchS0 : Solver := mkSolver cnfWatch 7

/-- State after the (empty) initial propagation of the `cnfWatch` run. -/
def wchS1 : Solver := ((cdclPropagate 100 wchS0).getD (none, wchS0)).2

/-- State after the decision on variable 1. -/
def wchS2 : Solver := cdclPushDecision wchS1 1

/-- State after propagation at level 1 (forces 5 via clause 0). -/
def wchS3 : Solver := ((cdclPropagate 100 wchS2).getD (none, wchS2)).2

/-- State after the decision on variable 2. -/
def wchS4 : Solver := cdclPushDecision wchS3 2

/-- State after the (conflict-free) propagation at level 2. -/
def wchS5 : Solver := ((cdclPropagate 100 wchS4).getD (none, wchS4)).2

/-- State after the decision on variable 3. -/
def wchS6 : Solver := cdclPushDecision wchS5 3

/-- State at the conflict returned by propagation at level 3 (clause 2). -/
def wchS7 : Solver := ((cdclPropagate 100 wchS6).getD (none, wchS6)).2

/-- State after appending the learnt clause `[-3, -5, -2]` (index 5). -/
def wchS8 : Solver := (addClause wchS7 [-3, -5, -2]).2

/-- State after `backjump(2, 5, -3)`. -/
def wchS9 : Solver := (cdclBackjump wchS8 2 5 (-3)).getD wchS8

/-- State after the (empty) propagation following the first backjump. -/
def wchS10 : Solver := ((cdclPropagate 100 wchS9).getD (none, wchS9)).2

/-- State after the decision on variable 4. -/
def wchS11 : Solver := cdclPushDecision wchS10 4

/-- State at the conflict returned by propagation at level 3 (clause 4). -/
def wchS12 : Solver := ((cdclPropagate 100 wchS11).getD (none, wchS11)).2

/-- State after appending the learnt clause `[-4, -5]` (index 6). -/
def wchS13 : Solver := (addClause wchS12 [-4, -5]).2

/-- State after `backjump(1, 6, -4)`: variables 2 and 3 are unassigned while
5 stays true, leaving learnt clause 5 watched on an unassigned literal and a
false literal. -/
def wchS14 : Solver := (cdclBackjump wchS13 1 6 (-4)).getD wchS13

/-- State after the conflict-free propagation following the second backjump:
the watch invariant is violated at clause 5. -/
def wchS15 : Solver := ((cdclPropagate 100 wchS14).getD (none, wchS14)).2

/-- Digit run of a decimal numeral, accumulator style. -/
def parseDigits (cs : List Char) (acc : Nat) : Option Nat :=
  match cs with
  | [] => some acc
  | c :: rest =>
    if c.isDigit then parseDigits rest (acc * 10 + (c.toNat - 48)) else none

/-- Python `int(token)` on the tokens produced by `line.split()`: an optional
sign followed by one or more decimal digits.  (CPython also accepts
surrounding whitespace and inner underscores; neither can occur in a token of
`str.split`, underscores aside, and no theorem below depends on accepting
more strings than CPython does.) -/
def parseIntToken (t : String) : Option Int :=
  match t.toList with
  | [] => none
  | c :: rest =>
    if c = '-' then
      if rest.isEmpty then none
      else (parseDigits rest 0).map (fun n => -(Int.ofNat n))
    else if c = '+' then
      if rest.isEmpty then none
      else (parseDigits rest 0).map Int.ofNat
    else (parseDigits (c :: rest) 0).map Int.ofNat

/-- One grid row: `[int(x) for x in line.split()]`; the first unparsable
token aborts the whole computation like the `ValueError` it raises. -/
def parseRow (ts : List String) : Option (List Int) :=
  ts.mapM parseIntToken

/-- Variable numbering `var(r, c, v) = r·N² + c·N + v` of `to_cnf`, with the
value argument an integer because clue values flow in unchecked. -/
def varId (N r c : Nat) (v : Int) : Int :=
  Int.ofNat (r * N * N + c * N) + v

/-- Pairwise at-most-one clauses of `exactly_one`: for each `i < j` the
binary clause `[-lits[i], -lits[j]]`, in the loop order of the source. -/
def pairsAtMostOne : List Int → List (List Int)
  | [] => []
  | x :: rest => rest.map (fun y => [-x, -y]) ++ pairsAtMostOne rest

/-- `exactly_one(lits)`: the at-least-one clause followed by the pairwise
at-most-one clauses. -/
def exactlyOne (lits : List Int) : List (List Int) :=
  lits :: pairsAtMostOne lits

/-- Constraint family (1) of `to_cnf`: exactly one value per cell. -/
def cellClauses (N : Nat) : List (List Int) :=
  (List.range N).flatMap (fun r => (List.range N).flatMap (fun c =>
    exactlyOne (((List.range N).map (· + 1)).map (fun v => varId N r c (Int.ofNat v)))))

/-- Constraint family (2): per value and row, exactly one column. -/
def rowClauses (N : Nat) : List (List Int) :=
  ((List.range N).map (· + 1)).flatMap (fun v => (List.range N).flatMap (fun r =>
    exactlyOne ((List.range N).map (fun c => varId N r c (Int.ofNat v)))))

/-- Constraint family (3): per value and column, exactly one row. -/
def colClauses (N : Nat) : List (List Int) :=
  ((List.range N).map (· + 1)).flatMap (fun v => (List.range N).flatMap (fun c =>
    exactlyOne ((List.range N).map (fun r => varId N r c (Int.ofNat v)))))

/-- Literals of one `B×B` box for one value, in the `(i, j)` loop order. -/
def boxLits (N B v br bc : Nat) : List Int :=
  (List.range B).flatMap (fun i => (List.range B).map (fun j =>
    varId N (br * B + i) (bc * B + j) (Int.ofNat v)))

/-- Constraint family (4): per value and box, exactly one cell. -/
def boxClauses (N B : Nat) : List (List Int) :=
  ((List.range N).map (· + 1)).flatMap (fun v =>
    (List.range B).flatMap (fun br => (List.range B).flatMap (fun bc =>
      exactlyOne (boxLits N B v br bc))))

/-- Non-consecutive clauses for one ordered cell pair: for each value, forbid
the neighbour holding `v - 1` and `v + 1` when those lie in `[1, N]`. -/
def nonConsecPair (N r c r2 c2 : Nat) : List (List Int) :=
  ((List.range N).map (· + 1)).flatMap (fun v =>
    (if 1 ≤ v - 1 then
      [[-(varId N r c (Int.ofNat v)), -(varId N r2 c2 (Int.ofNat (v - 1)))]] else []) ++
    (if v + 1 ≤ N then
      [[-(varId N r c (Int.ofNat v)), -(varId N r2 c2 (Int.ofNat (v + 1)))]] else []))

/-- Constraint family (5): the non-consecutive rule for right and down
neighbours. -/
def nonConsecClauses (N : Nat) : List (List Int) :=
  (List.range N).flatMap (fun r => (List.range N).flatMap (fun c =>
    (if c + 1 < N then nonConsecPair N r c r (c + 1) else []) ++
    (if r + 1 < N then nonConsecPair N r c (r + 1) c else [])))

/-- Constraint family (6): a unit clause per clue `grid[r][c] > 0`.  No check
constrains the clue value to `[0, N]`. -/
def clueClauses (N : Nat) (grid : List (List Int)) : List (List Int) :=
  (List.range N).flatMap (fun r => (List.range N).flatMap (fun c =>
    let v := (((grid.get? r).getD []).get? c).getD 0
    if 0 < v then [[varId N r c v]] else []))

/-- All clauses of `to_cnf`, in emission order. -/
def allCnfClauses (N B : Nat) (grid : List (List Int)) : List (List Int) :=
  cellClauses N ++ rowClauses N ++ colClauses N ++ boxClauses N B ++
    nonConsecClauses N ++ clueClauses N grid

/-- Grid-reading loop of `to_cnf`: parse every nonblank line (a blank line
is an empty token list and is skipped, as the stripped-empty check does);
the first unparsable token aborts, like the `ValueError` it raises. -/
def parseGrid (lines : List (List String)) : Option (List (List Int)) :=
  (lines.filter (fun l => !l.isEmpty)).mapM parseRow

/-- `to_cnf` of `src/encoder.py`: the input is the list of lines, each a list
of whitespace-separated tokens (a blank line is an empty token list and is
skipped, as the stripped-empty check does).  `Except.error` models the
`ValueError` of `int` and the two `assert` statements — in that order. -/
def toCnf (lines : List (List String)) : Except String (List (List Int) × Nat) :=
  match parseGrid lines with
  | none => Except.error "invalid literal for int"
  | some grid =>
    let N := grid.length
    if !(grid.all (fun r => r.length == N)) then
      Except.error "Input must be an NxN grid"
    else
      let B := Nat.sqrt N
      if !(B * B == N) then
        Except.error "N must be a perfect square"
      else Except.ok (allCnfClauses N B grid, N ^ 3)

/-- Object store for the aliasing analysis of the clause lists: each cell is
the contents of one Python list object. -/
structure ClauseStore where
  cells : List (List Int)

/-- Heap effect of `self.clauses = [list(c) for c in clauses]` in
`SATSolver.__init__`: the caller's clause objects are cells `0, …, k-1`;
`list(c)` allocates one fresh cell per input clause with the same contents,
appended at `k, …, 2k-1`, and the solver's clause references point at the
fresh copies only. -/
def initHeap (caller : List (List Int)) : ClauseStore × List Nat :=
  ({ cells := caller ++ caller },
    (List.range caller.length).map (fun i => caller.length + i))

/-- The two ways solver code touches clause objects after construction:
`writeTwo k i j a b` is the double position write performed on
`self.clauses[k]` by the watcher swaps (`clause[0], clause[1] = w1, w2` in
`propagate` and `clause[0], clause[i] = new_lit, falsified_watcher` in
`_find_new_watcher_for_clause`); `append c` is
`self.clauses.append(list(clause_lits))` in `CDCL.add_clause`, which
allocates a fresh cell for the copy. -/
inductive ClauseWrite where
  | writeTwo (k i j : Nat) (a b : Int)
  | append (c : List Int)

/-- Heap semantics of one clause write: position writes go through the
solver's own reference for clause `k`; an append allocates at the end of the
store and hands the solver the fresh reference. -/
def applyWrite (st : ClauseStore × List Nat) (w : ClauseWrite) : ClauseStore × List Nat :=
  match w with
  | ClauseWrite.writeTwo k i j a b =>
    match st.2.get? k with
    | none => st
    | some r =>
      let cell := (st.1.cells.get? r).getD []
      ({ cells := st.1.cells.set r ((cell.set i a).set j b) }, st.2)
  | ClauseWrite.append c =>
    ({ cells := st.1.cells ++ [c] }, st.2 ++ [st.1.cells.length])

/-- A whole run of the solver, as far as clause objects are concerned, is
some sequence of clause writes. -/
def applyWrites (st : ClauseStore × List Nat) : List ClauseWrite → ClauseStore × List Nat
  | [] => st
  | w :: rest => applyWrites (applyWrite st w) rest

/-- Assigned variables in dict iteration order, for the trail invariant. -/
def assignedVars (s : Solver) : List Int :=
  (intRange s.numVars).filter (fun v => s.assignment v != 0)

/-- Trail consistency (testable property 5, invariant I1): the multiset of
variables on the trail is exactly the set of assigned variables — hence each
assigned variable appears exactly once on the trail and the trail length is
the number of assigned variables — and every trail entry's sign matches the
assigned value. -/
def TrailConsistent (s : Solver) : Prop :=
  (s.trail.map iabs).Perm (assignedVars s) ∧
  ∀ l ∈ s.trail, s.assignment (iabs l) = signVal l

/-- All literals of the clause database are nonzero and within range. -/
def ClauseLitsInRange (s : Solver) : Prop :=
  ∀ c ∈ s.clauses, ∀ l ∈ c, l ≠ 0 ∧ iabs l ≤ Int.ofNat s.numVars

/-- All queued literals are nonzero and within range. -/
def QueueLitsInRange (s : Solver) : Prop :=
  ∀ l ∈ s.unitQueue, l ≠ 0 ∧ iabs l ≤ Int.ofNat s.numVars

/-- Keys of the `watches` dict: the nonzero literals in
`[-numVars, numVars]`. -/
def watchLits (n : Nat) : List Int :=
  intRange n ++ (intRange n).map (fun v => -v)

/-- Every watch-list entry (at any key of the watches dict) points at an
existing clause of length at least two — watchers are only ever registered
for such clauses. -/
def WatchedTwo (s : Solver) : Prop :=
  ∀ lit ∈ watchLits s.numVars, ∀ ci ∈ s.watches lit,
    ∃ c, s.clauses.get? ci = some c ∧ 2 ≤ c.length

/-- Watch-list well-formedness is checkable by evaluation. -/
instance watchedTwoDecidable (s : Solver) : Decidable (WatchedTwo s) := by
  refine decidable_of_iff
    (∀ lit ∈ watchLits s.numVars, ∀ ci ∈ s.watches lit,
      ci < s.clauses.length ∧ 2 ≤ ((s.clauses.get? ci).getD []).length) ?_
  constructor
  · intro h lit hlit ci hci
    obtain ⟨h1, h2⟩ := h lit hlit ci hci
    rcases hg : s.clauses.get? ci with _ | c
    · rw [List.get?_eq_getElem?, List.getElem?_eq_getElem h1] at hg
      exact Option.noConfusion hg
    · rw [hg] at h2
      exact ⟨c, rfl, by simpa using h2⟩
  · intro h lit hlit ci hci
    obtain ⟨c, hg, hc⟩ := h lit hlit ci hci
    constructor
    · by_contra hge
      rw [List.get?_eq_getElem?, List.getElem?_eq_none (by omega)] at hg
      exact Option.noConfusion hg
    · rw [hg]
      simpa using hc

/-- State invariant carried through propagation: trail consistency plus the
well-formedness of the clause database and watch lists. -/
def PropInv (s : Solver) : Prop :=
  TrailConsistent s ∧ ClauseLitsInRange s ∧ WatchedTwo s

/-- Trail consistency is checkable by evaluation. -/
instance trailConsistentDecidable (s : Solver) : Decidable (TrailConsistent s) := by
  unfold TrailConsistent
  infer_instance

/-- Clause-range well-formedness is checkable by evaluation. -/
instance clauseLitsInRangeDecidable (s : Solver) : Decidable (ClauseLitsInRange s) := by
  unfold ClauseLitsInRange
  infer_instance

/-- Queue-range well-formedness is checkable by evaluation. -/
instance queueLitsInRangeDecidable (s : Solver) : Decidable (QueueLitsInRange s) := by
  unfold QueueLitsInRange
  infer_instance

/-- The propagation invariant is checkable by evaluation. -/
instance propInvDecidable (s : Solver) : Decidable (PropInv s) := by
  unfold PropInv
  infer_instance

/-- Two clause databases with the same length and clause lengths (the only
clause mutations of propagation are position writes, which preserve both). -/
def SameShape (cs cs2 : List (List Int)) : Prop :=
  cs2.length = cs.length ∧
  ∀ j : Nat, (cs2.get? j).map List.length = (cs.get? j).map List.length

/-- Trail entry at a position (0 when out of range; every use is guarded by
a range fact). -/
def trailAt (s : Solver) (p : Nat) : Int := (s.trail.get? p).getD 0

/-- Maximum of the decision levels of the variables of `lits`, with the same
`max`-fold over 0 that `analyze_conflict` accumulates — 0 for an empty
list. -/
def maxLevelOf (s : Solver) (lits : List Int) : Int :=
  (lits.map (fun l => s.levelOf (iabs l))).foldl max 0

/-- Facts holding of the solver state whenever `propagate` reports a
conflict inside `CDCL.solve` at a decision level of at least 1, phrased over
the state so that a concrete conflict state can be checked by evaluation:
the conflicting clause exists and all its literals are false, at least one
of its variables sits at the current decision level, assigned levels lie in
`[0, level]`, the trail tail from the current level start is exactly the
current-level assignments, and every current-level trail entry after the
decision has a reason clause containing it whose other literals are false
and were assigned earlier on the trail. -/
def ConflictState (s : Solver) (confCi : Nat) : Prop :=
  1 ≤ s.decisions.length ∧
  TrailConsistent s ∧
  ClauseLitsInRange s ∧
  confCi < s.clauses.length ∧
  (∀ l ∈ (s.clauses.get? confCi).getD [], litIsFalse s l = true) ∧
  (∃ l ∈ (s.clauses.get? confCi).getD [],
    s.levelOf (iabs l) = Int.ofNat s.decisions.length) ∧
  (∀ v ∈ assignedVars s, 0 ≤ s.levelOf v ∧ s.levelOf v ≤ Int.ofNat s.decisions.length) ∧
  s.decisions.length - 1 < s.levelStart.length ∧
  (s.levelStart.get? (s.decisions.length - 1)).getD 0 ≤ s.trail.length ∧
  (∀ p ∈ List.range s.trail.length,
    (s.levelOf (iabs (trailAt s p)) = Int.ofNat s.decisions.length ↔
      (s.levelStart.get? (s.decisions.length - 1)).getD 0 ≤ p)) ∧
  (∀ p ∈ List.range s.trail.length,
    (s.levelStart.get? (s.decisions.length - 1)).getD 0 < p →
    ∃ rci ∈ List.range s.clauses.length,
      s.reasonOf (iabs (trailAt s p)) = some rci ∧
      trailAt s p ∈ (s.clauses.get? rci).getD [] ∧
      ∀ m ∈ (s.clauses.get? rci).getD [], iabs m ≠ iabs (trailAt s p) →
        litIsFalse s m = true ∧ ∃ q ∈ List.range p, iabs (trailAt s q) = iabs m)

/-- Conflict-state facts are checkable by evaluation. -/
instance conflictStateDecidable (s : Solver) (confCi : Nat) :
    Decidable (ConflictState s confCi) := by
  unfold ConflictState
  infer_instance


/-- The whole clause list satisfied by a model (model-list convention). -/
def satCnf (m : List Int) (cnf : List (List Int)) : Bool := cnf.all (modelSatClause m)

/-- A literal true under every model of `cnf`. -/
def Implied (cnf : List (List Int)) (l : Int) : Prop :=
  ∀ m, satCnf m cnf = true → modelSatLit m l = true

/-- A clause true under every model of `cnf`. -/
def ImpliedClause (cnf : List (List Int)) (c : List Int) : Prop :=
  ∀ m, satCnf m cnf = true → modelSatClause m c = true

/-- The signed trail literal an assigned variable carries, recomputed from
its assignment value. -/
def trailLitOf (s : Solver) (v : Int) : Int :=
  if s.assignment v == 1 then v else -v

/-- Every watch-list entry points at a clause holding the watched literal at
position 0 or 1. -/
def WatchPos (s : Solver) : Prop :=
  ∀ l : Int, ∀ ci ∈ s.watches l, ∃ c, s.clauses.get? ci = some c ∧
    (c.get? 0 = some l ∨ c.get? 1 = some l)

/-- Every clause of the database is implied by the original CNF. -/
def DbImplied (cnf : List (List Int)) (s : Solver) : Prop :=
  ∀ c ∈ s.clauses, ImpliedClause cnf c

/-- Every queued literal is implied by the original CNF. -/
def QueueImplied (cnf : List (List Int)) (s : Solver) : Prop :=
  ∀ l ∈ s.unitQueue, Implied cnf l

/-- A model agreeing with every trail literal. -/
def AgreeTrail (m : List Int) (s : Solver) : Prop :=
  ∀ l ∈ s.trail, modelSatLit m l = true

/-- Watch lists mention a clause at most twice per key, and a doubly listed
clause holds the watched literal at both positions 0 and 1. -/
def WatchDup (s : Solver) : Prop :=
  ∀ l : Int, ∀ ci : Nat, List.count ci (s.watches l) ≤ 2 ∧
    (List.count ci (s.watches l) = 2 → ∃ c, s.clauses.get? ci = some c ∧
      c.get? 0 = some l ∧ c.get? 1 = some l)

/-- Joint structural invariant of the propagation machinery used by the
soundness development: consistency and range facts, watcher positions and
multiplicities, and database implication. -/
def SemInv (cnf : List (List Int)) (s : Solver) : Prop :=
  PropInv s ∧ WatchPos s ∧ WatchDup s ∧ DbImplied cnf s

/-- Shape facts of the decision/level stacks: lengths agree, level starts
point strictly inside the trail and increase strictly. -/
def StackOk (s : Solver) : Prop :=
  s.levelStart.length = s.decisions.length ∧
  (∀ j, j < s.levelStart.length → (s.levelStart.get? j).getD 0 < s.trail.length) ∧
  (∀ i j, i < j → j < s.levelStart.length →
    (s.levelStart.get? i).getD 0 < (s.levelStart.get? j).getD 0)

/-- Decision bookkeeping: each decision's variable is in range and sits on
the trail exactly at its recorded level start. -/
def DecOk (s : Solver) : Prop :=
  ∀ j, j < s.decisions.length →
    1 ≤ ((s.decisions.get? j).getD (0, true)).1 ∧
    ((s.decisions.get? j).getD (0, true)).1 ≤ Int.ofNat s.numVars ∧
    iabs (trailAt s ((s.levelStart.get? j).getD 0)) = ((s.decisions.get? j).getD (0, true)).1

/-- A model that falsifies some still-unflipped decision: it agrees with the
trail strictly below that decision's level start and satisfies the flipped
(negative) branch of the decision. -/
def AltBranch (m : List Int) (s : Solver) : Prop :=
  ∃ j, j < s.decisions.length ∧ ((s.decisions.get? j).getD (0, true)).2 = false ∧
    (∀ p, p < (s.levelStart.get? j).getD 0 → modelSatLit m (trailAt s p) = true) ∧
    modelSatLit m (-(((s.decisions.get? j).getD (0, true)).1)) = true

/-- Search cover: the model either agrees with the whole trail or is covered
by a pending unflipped branch. -/
def DCov (m : List Int) (s : Solver) : Prop := AgreeTrail m s ∨ AltBranch m s

-- ===== C2 basic lemmas =====

/-- The tail of `processWatchClause` after the position-0 normalization:
both shapes of the step state funnel through this expression. -/
def pwcStep (ai2 : Solver → Int → Nat → Solver) (ci : Nat) (w1 w2 : Int)
    (s1 : Solver) : Option Nat × Solver :=
  if litIsTrue s1 w2 then (none, s1)
  else match findNewWatcher s1 ci w1 with
    | (true, s2) => (none, s2)
    | (false, s2) =>
      if litIsUnassigned s2 w2 then (none, ai2 s2 w2 ci)
      else if litIsFalse s2 w2 then (some ci, s2)
      else (none, s2)

/-- Number of level starts at or before trail position `p` — the decision
level of the literal at `p`. -/
def countLE (ls : List Nat) (p : Nat) : Nat := (ls.filter (fun e => e ≤ p)).length

/-- Level bookkeeping: every trail position's recorded level counts the
level starts at or before it. -/
def LevelChar (s : Solver) : Prop :=
  ∀ p, p < s.trail.length →
    s.levelOf (iabs (trailAt s p)) = Int.ofNat (countLE s.levelStart p)

/-- Reason bookkeeping: a recorded reason points at a stored clause that
contains the trail literal, all of whose other literals are falsified at
strictly earlier positions, no other literal sharing the variable. -/
def RInv (s : Solver) : Prop :=
  ∀ p, p < s.trail.length → 1 ≤ s.levelOf (iabs (trailAt s p)) →
    ∀ rci, s.reasonOf (iabs (trailAt s p)) = some rci →
    rci < s.clauses.length ∧
    trailAt s p ∈ (s.clauses.get? rci).getD [] ∧
    (∀ m ∈ (s.clauses.get? rci).getD [], iabs m ≠ iabs (trailAt s p) →
      litIsFalse s m = true ∧ ∃ q, q < p ∧ iabs (trailAt s q) = iabs m) ∧
    (∀ m ∈ (s.clauses.get? rci).getD [], iabs m = iabs (trailAt s p) →
      m = trailAt s p)

/-- Every positive-level trail literal that is not a decision (its position
is no level start) carries a reason. -/
def RPres (s : Solver) : Prop :=
  ∀ p, p < s.trail.length → 1 ≤ s.levelOf (iabs (trailAt s p)) →
    p ∉ s.levelStart →
    s.reasonOf (iabs (trailAt s p)) ≠ none

/-- Level-zero trail literals are consequences of the CNF. -/
def ZL (cnf : List (List Int)) (s : Solver) : Prop :=
  ∀ l ∈ s.trail, s.levelOf (iabs l) = 0 → Implied cnf l

/-- The joint CDCL bookkeeping invariant threaded through the solver. -/
def CInv (cnf : List (List Int)) (s : Solver) : Prop :=
  LevelChar s ∧ RInv s ∧ RPres s ∧ ZL cnf s

/-- The joint invariant threaded through the CDCL decision loop: structural
propagation invariants, watcher facts, database implication, stack shape,
level and reason bookkeeping, implied level-0 literals, and an empty unit
queue. -/
def CdclOk (cnf : List (List Int)) (s : Solver) : Prop :=
  PropInv s ∧ WatchPos s ∧ WatchDup s ∧ DbImplied cnf s ∧
  StackOk s ∧ LevelChar s ∧ RInv s ∧ RPres s ∧ ZL cnf s ∧ s.unitQueue = []

/-- C1: the claim fails on the code and the specification is clearly the
intent (model soundness is announced in the specification and the code must
"never silently misreport").  On `cnfBug` — whose literals are all nonzero
and within `[-5, 5]` — `CDCL.solve` with the `FirstPick` heuristic returns
`("SAT", [1, 3])`, yet the original clause `[4]` has no true literal under
the model convention, and in fact no total assignment over `[1, 5]` satisfies
all clauses (the formula is unsatisfiable).  The root cause: `backjump` to
level 0 pops the whole trail, erasing the root assignment of variable 4 that
came from the unit clause `[4]`, and the unit queue was already drained, so
nothing ever re-establishes it.  `DPLL.solve` answers `UNSAT` correctly on
the same input. -/
theorem c1_model_soundness_violation :
    clausesInRange cnfBug 5 = true ∧
    cdclSolve firstPick 100 100 cnfBug 5 = some ("SAT", some [1, 3]) ∧
    cnfBug.get? 0 = some [4] ∧
    modelSatClause [1, 3] [4] = false ∧
    bruteForceSat cnfBug 5 = false ∧
    dpllSolve 100 100 cnfBug 5 = some ("UNSAT", none) := by
  decide

/-- C3: the claim fails on the code.  In the `cnfBug` run (exact call
sequence of `CDCL.solve`): propagation after the decisions on 1 and 2
conflicts in clause 2, `analyze_conflict` returns the learnt clause
`[-2, -4]` with backjump level `L = 0`, the clause is appended at index 5,
and after `backjump(0, 5, -2)` the asserting literal is indeed assigned true
at level 0 with reason 5 — but the learnt clause is NOT unit: its other
literal `-4` is unassigned rather than false, because the backjump to level 0
popped the trail to index 0 and wiped the level-0 variable 4 (whose decision
level, 0, did not exceed `L`). -/
theorem c3_backjump_postcondition_violation :
    (cdclPropagate 100 bugS0).map Prod.fst = some none ∧
    firstPick bugS1 = some 1 ∧
    (cdclPropagate 100 bugS2).map Prod.fst = some none ∧
    firstPick bugS3 = some 2 ∧
    (cdclPropagate 100 bugS4).map Prod.fst = some (some 2) ∧
    analyzeConflict bugS5 2 = some ([-2, -4], 0) ∧
    (addClause bugS5 [-2, -4]).1 = 5 ∧
    (cdclBackjump bugS6 0 5 (-2)).isSome = true ∧
    bugS6.levelOf 4 = 0 ∧
    litIsTrue bugS7 (-2) = true ∧
    bugS7.levelOf 2 = 0 ∧
    bugS7.reasonOf 2 = some 5 ∧
    bugS7.assignment 4 = 0 ∧
    litIsFalse bugS7 (-4) = false := by
  decide

/-- C5: the claim fails on the code.  `add_clause` does register the two
watchers on positions 0 and 1, and position 0 is the asserting literal, but
nothing places a backjump-level literal at position 1: the learnt clause is
built as `list(learnt_clause_lits)` from a Python set, whose iteration order
is the hash-table order, not the level order.  In the `cnfWatch` run the
first conflict learns `[-3, -5, -2]` with backjump level 2; position 1 holds
`-5`, assigned at level 1 — while the level-2 literal `-2` sits unwatched at
position 2. -/
theorem c5_learned_watcher_position_violation :
    (cdclPropagate 100 wchS0).map Prod.fst = some none ∧
    firstPick wchS1 = some 1 ∧
    (cdclPropagate 100 wchS2).map Prod.fst = some none ∧
    firstPick wchS3 = some 2 ∧
    (cdclPropagate 100 wchS4).map Prod.fst = some none ∧
    firstPick wchS5 = some 3 ∧
    (cdclPropagate 100 wchS6).map Prod.fst = some (some 2) ∧
    analyzeConflict wchS7 2 = some ([-3, -5, -2], 2) ∧
    (addClause wchS7 [-3, -5, -2]).1 = 5 ∧
    wchS8.clauses.get? 5 = some [-3, -5, -2] ∧
    (wchS8.watches (-3)).contains 5 = true ∧
    (wchS8.watches (-5)).contains 5 = true ∧
    wchS8.levelOf 5 = 1 ∧
    wchS8.levelOf 2 = 2 ∧
    (1 : Int) ≠ 2 := by
  decide

/-- C6: the claim fails on the code (a consequence of the watcher choice
refuted in the previous theorem).  Continuing the `cnfWatch` run: after the
second conflict learns `[-4, -5]` and `backjump(1, 6, -4)` unassigns
variables 2 and 3 while 5 stays true at level 1, the following `propagate`
returns no conflict — yet learnt clause 5 (`[-3, -5, -2]`, length 3) has its
watched literals (positions 0 and 1) `-3` unassigned and `-5` false: neither
watched literal is true and they are not both unassigned. -/
theorem c6_watch_invariant_violation :
    firstPick wchS10 = some 4 ∧
    (cdclPropagate 100 wchS11).map Prod.fst = some (some 4) ∧
    analyzeConflict wchS12 4 = some ([-4, -5], 1) ∧
    (addClause wchS12 [-4, -5]).1 = 6 ∧
    (cdclBackjump wchS13 1 6 (-4)).isSome = true ∧
    (cdclPropagate 100 wchS14).map Prod.fst = some none ∧
    wchS15.clauses.get? 5 = some [-3, -5, -2] ∧
    (wchS15.watches (-3)).contains 5 = true ∧
    (wchS15.watches (-5)).contains 5 = true ∧
    litIsTrue wchS15 (-3) = false ∧
    litIsTrue wchS15 (-5) = false ∧
    litIsUnassigned wchS15 (-3) = true ∧
    litIsUnassigned wchS15 (-5) = false := by
  decide

/-- Truth of the negated literal is falsity of the literal, for nonzero
literals. -/
theorem litIsTrue_neg (s : Solver) (l : Int) (hl : l ≠ 0) :
    litIsTrue s (-l) = litIsFalse s l := by
  simp only [litIsTrue, litIsFalse, iabs]
  rcases lt_trichotomy l 0 with h | h | h
  · simp [h, not_lt.mpr (le_of_lt h), neg_neg]
  · exact absurd h hl
  · simp [not_lt.mpr (le_of_lt h), h, neg_neg, show ¬ (0 < -l) from by omega, show ¬ l < 0 from by omega]

theorem drain_true_mono (ai : Solver → Int → Solver)
    (hai : ∀ st l, (ai st l).assignment = updFn st.assignment (iabs l) (signVal l)) :
    ∀ (q : List Int) (s : Solver) (x : Int), litIsTrue s x = true →
      litIsTrue (drainQueue ai q s).2 x = true := by
  intro q
  induction q with
  | nil => intro s x hx; simpa [drainQueue] using hx
  | cons l rest ih =>
    intro s x hx
    have hx1 : litIsTrue { s with unitQueue := rest } x = true := by
      simpa [litIsTrue] using hx
    by_cases ht : litIsTrue { s with unitQueue := rest } l = true
    · simpa [drainQueue, ht] using ih _ x hx1
    · by_cases hf : litIsFalse { s with unitQueue := rest } l = true
      · simpa [drainQueue, ht, hf] using hx1
      · have hx2 : litIsTrue (ai { s with unitQueue := rest } l) x = true := by
          simp only [litIsTrue, hai, updFn] at hx1 ⊢
          by_cases hv : iabs x = iabs l
          · exfalso
            simp only [litIsTrue, litIsFalse] at ht hf
            rw [hv] at hx1
            by_cases hlx : 0 < x <;> by_cases hll : 0 < l <;>
              simp [hlx, hll] at hx1 ht hf <;> simp_all
          · simp [hv, hx1]
        simpa [drainQueue, ht, hf] using ih _ x hx2

theorem drain_all_true (ai : Solver → Int → Solver)
    (hai : ∀ st l, (ai st l).assignment = updFn st.assignment (iabs l) (signVal l)) :
    ∀ (q : List Int) (s s2 : Solver), drainQueue ai q s = (true, s2) →
      ∀ l ∈ q, litIsTrue s2 l = true := by
  intro q
  induction q with
  | nil => intro s s2 h l hl; simp at hl
  | cons a rest ih =>
    intro s s2 h l hl
    by_cases ht : litIsTrue { s with unitQueue := rest } a = true
    · simp only [drainQueue, ht, if_pos] at h
      rcases List.mem_cons.mp hl with rfl | hl2
      · have := drain_true_mono ai hai rest { s with unitQueue := rest } l ht
        rw [h] at this; exact this
      · exact ih _ _ h l hl2
    · by_cases hf : litIsFalse { s with unitQueue := rest } a = true
      · simp [drainQueue, ht, hf] at h
      · simp only [drainQueue, ht, hf, if_neg, Bool.not_eq_true] at h
        rcases List.mem_cons.mp hl with rfl | hl2
        · have hta : litIsTrue (ai { s with unitQueue := rest } l) l = true := by
            simp [litIsTrue, hai, updFn, signVal]
          have := drain_true_mono ai hai rest (ai { s with unitQueue := rest } l) l hta
          rw [h] at this; exact this
        · exact ih _ _ h l hl2

theorem drain_conflict (ai : Solver → Int → Solver)
    (hai : ∀ st l, (ai st l).assignment = updFn st.assignment (iabs l) (signVal l))
    (q : List Int) (s : Solver) (x : Int) (hx0 : x ≠ 0) (hx : x ∈ q) (hnx : -x ∈ q) :
    (drainQueue ai q s).1 = false := by
  rcases hq : drainQueue ai q s with ⟨b, s2⟩
  cases b with
  | false => rfl
  | true =>
    exfalso
    have h1 := drain_all_true ai hai q s s2 hq x hx
    have h2 := drain_all_true ai hai q s s2 hq (-x) hnx
    rw [litIsTrue_neg s2 x hx0] at h2
    simp only [litIsTrue, litIsFalse] at h1 h2
    by_cases hlx : 0 < x <;> simp [hlx] at h1 h2 <;> simp_all

theorem initLoop_fields : ∀ (cs : List (List Int)) (ci : Nat) (s : Solver),
    (initClausesLoop cs ci s).assignment = s.assignment ∧
    (initClausesLoop cs ci s).decisions = s.decisions ∧
    (initClausesLoop cs ci s).trail = s.trail ∧
    (initClausesLoop cs ci s).numVars = s.numVars := by
  intro cs
  induction cs with
  | nil => intro ci s; simp [initClausesLoop]
  | cons c rest ih =>
    intro ci s
    match c with
    | [] => simpa [initClausesLoop] using ih (ci + 1) _
    | [l] => simpa [initClausesLoop] using ih (ci + 1) _
    | l1 :: l2 :: tl => simpa [initClausesLoop] using ih (ci + 1) _

theorem initLoop_queue_mono : ∀ (cs : List (List Int)) (ci : Nat) (s : Solver) (x : Int),
    x ∈ s.unitQueue → x ∈ (initClausesLoop cs ci s).unitQueue := by
  intro cs
  induction cs with
  | nil => intro ci s x hx; simpa [initClausesLoop] using hx
  | cons c rest ih =>
    intro ci s x hx
    match c with
    | [] =>
      exact ih (ci + 1) _ x (by simp; exact Or.inl hx)
    | [l] =>
      exact ih (ci + 1) _ x (by simp; exact Or.inl hx)
    | l1 :: l2 :: tl =>
      exact ih (ci + 1) _ x hx

theorem initLoop_empty_clause_mem : ∀ (cs : List (List Int)) (ci : Nat) (s : Solver),
    [] ∈ cs →
    1 ∈ (initClausesLoop cs ci s).unitQueue ∧ -1 ∈ (initClausesLoop cs ci s).unitQueue := by
  intro cs
  induction cs with
  | nil => intro ci s h; simp at h
  | cons c rest ih =>
    intro ci s h
    rcases List.mem_cons.mp h with rfl | h2
    · constructor
      · exact initLoop_queue_mono rest (ci + 1) _ 1 (by simp [initClausesLoop, List.mem_append])
      · exact initLoop_queue_mono rest (ci + 1) _ (-1) (by simp [initClausesLoop, List.mem_append])
    · match c with
      | [] => exact ih (ci + 1) _ h2
      | [l] => exact ih (ci + 1) _ h2
      | l1 :: l2 :: tl => exact ih (ci + 1) _ h2

theorem initLoop_unit_clause_mem : ∀ (cs : List (List Int)) (ci : Nat) (s : Solver) (x : Int),
    [x] ∈ cs → x ∈ (initClausesLoop cs ci s).unitQueue := by
  intro cs
  induction cs with
  | nil => intro ci s x h; simp at h
  | cons c rest ih =>
    intro ci s x h
    rcases List.mem_cons.mp h with rfl | h2
    · exact initLoop_queue_mono rest (ci + 1) _ x (by simp [initClausesLoop, List.mem_append])
    · match c with
      | [] => exact ih (ci + 1) _ x h2
      | [l] => exact ih (ci + 1) _ x h2
      | l1 :: l2 :: tl => exact ih (ci + 1) _ x h2

theorem cdclPropagate_queue_conflict (pf : Nat) (s : Solver) (x : Int)
    (hx0 : x ≠ 0) (hx : x ∈ s.unitQueue) (hnx : -x ∈ s.unitQueue) :
    (cdclPropagate pf s).map Prod.fst = some (some (-1)) := by
  have hd := drain_conflict (fun st l => assignInternalC st l 0 none)
    (fun st l => rfl) s.unitQueue s x hx0 hx hnx
  rcases hq : drainQueue (fun st l => assignInternalC st l 0 none) s.unitQueue s with ⟨b, s1⟩
  rw [hq] at hd
  simp at hd
  subst hd
  simp [cdclPropagate, hq]

theorem dpllPropagate_queue_conflict (pf : Nat) (s : Solver) (x : Int)
    (hx0 : x ≠ 0) (hx : x ∈ s.unitQueue) (hnx : -x ∈ s.unitQueue) :
    (dpllPropagate pf s).map Prod.fst = some false := by
  have hd := drain_conflict (fun st l => assign st l (signVal l))
    (fun st l => rfl) s.unitQueue s x hx0 hx hnx
  rcases hq : drainQueue (fun st l => assign st l (signVal l)) s.unitQueue s with ⟨b, s1⟩
  rw [hq] at hd
  simp at hd
  subst hd
  simp [dpllPropagate, hq]

theorem mkSolver_queue_pair (clauses : List (List Int)) (numVars : Nat)
    (hr : clausesInRange clauses numVars = true)
    (h : [] ∈ clauses ∨ ∃ x : Int, [x] ∈ clauses ∧ [-x] ∈ clauses) :
    ∃ x : Int, x ≠ 0 ∧ x ∈ (mkSolver clauses numVars).unitQueue ∧
      -x ∈ (mkSolver clauses numVars).unitQueue := by
  rcases h with h | ⟨x, hx, hnx⟩
  · exact ⟨1, by decide, (initLoop_empty_clause_mem clauses 0 _ h).1,
      (initLoop_empty_clause_mem clauses 0 _ h).2⟩
  · have hx0 : x ≠ 0 := by
      simp only [clausesInRange, List.all_eq_true, Bool.and_eq_true, bne_iff_ne] at hr
      exact (hr [x] hx x (by simp)).1
    exact ⟨x, hx0, initLoop_unit_clause_mem clauses 0 _ x hx,
      initLoop_unit_clause_mem clauses 0 _ (-x) hnx⟩

/-- C8: confirmed.  For every clause list over at least one variable, with
literals nonzero and in range, that contains an empty clause or a pair of
contradictory unit clauses `[x]` and `[-x]`: both `CDCL.solve` (under any
branching heuristic) and `DPLL.solve` return `("UNSAT", None)`; the conflict
is detected by the initial propagation (the drain of the unit queue reports
it — `-1` for CDCL, `False` for DPLL) while the decision stack is still
empty; and in the empty-clause case the constructor has injected both `+1`
and `-1` into the initial unit queue. -/
theorem c8_trivially_unsat (clauses : List (List Int)) (numVars : Nat)
    (hn : 1 ≤ numVars) (hr : clausesInRange clauses numVars = true)
    (h : [] ∈ clauses ∨ ∃ x : Int, [x] ∈ clauses ∧ [-x] ∈ clauses) :
    (∀ pick pfuel fuel, cdclSolve pick pfuel fuel clauses numVars = some ("UNSAT", none)) ∧
    (∀ pfuel fuel, dpllSolve pfuel fuel clauses numVars = some ("UNSAT", none)) ∧
    (∀ pfuel, (cdclPropagate pfuel (mkSolver clauses numVars)).map Prod.fst = some (some (-1))) ∧
    (∀ pfuel, (dpllPropagate pfuel (mkSolver clauses numVars)).map Prod.fst = some false) ∧
    (mkSolver clauses numVars).decisions = [] ∧
    ([] ∈ clauses → 1 ∈ (mkSolver clauses numVars).unitQueue ∧
      -1 ∈ (mkSolver clauses numVars).unitQueue) := by
  obtain ⟨x, hx0, hxq, hnxq⟩ := mkSolver_queue_pair clauses numVars hr h
  have hc : ∀ pfuel, (cdclPropagate pfuel (mkSolver clauses numVars)).map Prod.fst
      = some (some (-1)) :=
    fun pfuel => cdclPropagate_queue_conflict pfuel _ x hx0 hxq hnxq
  have hdp : ∀ pfuel, (dpllPropagate pfuel (mkSolver clauses numVars)).map Prod.fst
      = some false :=
    fun pfuel => dpllPropagate_queue_conflict pfuel _ x hx0 hxq hnxq
  refine ⟨?_, ?_, hc, hdp, (initLoop_fields clauses 0 _).2.1, ?_⟩
  · intro pick pfuel fuel
    have := hc pfuel
    rcases hq : cdclPropagate pfuel (mkSolver clauses numVars) with _ | ⟨r, s1⟩
    · rw [hq] at this; simp at this
    · rw [hq] at this
      simp at this
      subst this
      simp [cdclSolve, hq]
  · intro pfuel fuel
    have := hdp pfuel
    rcases hq : dpllPropagate pfuel (mkSolver clauses numVars) with _ | ⟨r, s1⟩
    · rw [hq] at this; simp at this
    · rw [hq] at this
      simp at this
      subst this
      simp [dpllSolve, hq]
  · intro hemp
    exact initLoop_empty_clause_mem clauses 0 _ hemp

theorem c8_witness :
    cdclSolve firstPick 5 5 [[1], [-1]] 1 = some ("UNSAT", none) ∧
    dpllSolve 5 5 [[2], [], [-2]] 2 = some ("UNSAT", none) := by
  constructor
  · exact (c8_trivially_unsat [[1], [-1]] 1 (by decide) (by decide)
      (Or.inr ⟨1, by decide, by decide⟩)).1 firstPick 5 5
  · exact (c8_trivially_unsat [[2], [], [-2]] 2 (by decide) (by decide)
      (Or.inl (by decide))).2.1 5 5

/-- C9: the claim fails for one of its four malformed-input kinds.  A cell
value outside `[0, N]` does NOT make `to_cnf` fail: the grid `[[5]]` (N = 1,
value 5 > N) encodes successfully — emitting the out-of-range clue literal 5
with `num_vars = 1` — and the grid `[[-3]]` (value < 0) encodes successfully
with the clue silently dropped.  The other three kinds do fail fast, as
proved in the amended theorem below. -/
theorem c9_value_range_not_checked :
    toCnf [["5"]] = Except.ok ([[1], [1], [1], [1], [5]], 1) ∧
    toCnf [["-3"]] = Except.ok ([[1], [1], [1], [1]], 1) ∧
    ¬ ((5 : Int) ≤ 1) ∧ ¬ ((0 : Int) ≤ -3) :=
  ⟨rfl, rfl, by decide, by decide⟩

/-- C9 amended: `to_cnf` fails fast (raises) on every input whose grid has
an unparsable token, on every parsed grid with a row length different from
the number of rows, and on every square grid whose size is not a perfect
square — but it does not validate cell values against `[0, N]`. -/
theorem c9_failfast_amended :
    (∀ lines, parseGrid lines = none → ∃ msg, toCnf lines = Except.error msg) ∧
    (∀ lines grid, parseGrid lines = some grid →
      (∃ r ∈ grid, r.length ≠ grid.length) →
      ∃ msg, toCnf lines = Except.error msg) ∧
    (∀ lines grid, parseGrid lines = some grid →
      (∀ r ∈ grid, r.length = grid.length) →
      Nat.sqrt grid.length * Nat.sqrt grid.length ≠ grid.length →
      ∃ msg, toCnf lines = Except.error msg) := by
  refine ⟨?_, ?_, ?_⟩
  · intro lines h
    exact ⟨"invalid literal for int", by simp [toCnf, h]⟩
  · intro lines grid h hne
    have hall : grid.all (fun r => r.length == grid.length) = false := by
      rcases hne with ⟨r, hr, hlen⟩
      simp [List.all_eq_true]
      exact ⟨r, hr, hlen⟩
    exact ⟨"Input must be an NxN grid", by simp [toCnf, h, hall]⟩
  · intro lines grid h hall hsq
    have hall2 : grid.all (fun r => r.length == grid.length) = true := by
      simp [List.all_eq_true]
      exact hall
    exact ⟨"N must be a perfect square", by simp [toCnf, h, hall2, hsq]⟩

/-- Witness discharging the hypotheses of the amended fail-fast theorem on
the three malformed inputs. -/
theorem c9_failfast_witness :
    (∃ msg, toCnf [["x"]] = Except.error msg) ∧
    (∃ msg, toCnf [["1", "2"]] = Except.error msg) ∧
    (∃ msg, toCnf [["1", "2"], ["3", "4"]] = Except.error msg) :=
  ⟨c9_failfast_amended.1 [["x"]] rfl,
    c9_failfast_amended.2.1 [["1", "2"]] [[1, 2]] rfl ⟨[1, 2], by decide, by decide⟩,
    c9_failfast_amended.2.2 [["1", "2"], ["3", "4"]] [[1, 2], [3, 4]] rfl
      (by decide) (by norm_num)⟩

/-- Elements strictly before a set position are unchanged. -/
theorem take_set_stable {α : Type} (l : List α) (r m : Nat) (a : α) (h : m ≤ r) :
    (l.set r a).take m = l.take m := by
  ext i x
  simp only [List.getElem?_take, List.getElem?_set]
  split
  · next hi =>
    have hne : ¬ (r = i) := by omega
    simp [hne]
  · rfl

/-- One clause write cannot touch the caller's cells: position writes go
through solver references (all past the caller segment) and appends allocate
fresh cells. -/
theorem applyWrite_frame (st : ClauseStore × List Nat) (base : Nat) (w : ClauseWrite)
    (hlen : base ≤ st.1.cells.length) (hrefs : ∀ r ∈ st.2, base ≤ r) :
    (applyWrite st w).1.cells.take base = st.1.cells.take base ∧
    base ≤ (applyWrite st w).1.cells.length ∧
    ∀ r ∈ (applyWrite st w).2, base ≤ r := by
  rcases w with ⟨k, i, j, a, b⟩ | c
  · rcases hr : st.2.get? k with _ | r
    · simp only [applyWrite, hr]
      exact ⟨by simp, hlen, hrefs⟩
    · have hbr : base ≤ r := hrefs r (List.get?_mem hr)
      simp only [applyWrite, hr]
      refine ⟨take_set_stable _ _ _ _ hbr, by simpa using hlen, hrefs⟩
  · simp only [applyWrite]
    refine ⟨List.take_append_of_le_length hlen, by simp; omega, ?_⟩
    intro r hr
    rcases List.mem_append.mp hr with h | h
    · exact hrefs r h
    · simp at h
      omega

/-- Frame invariant for any sequence of clause writes. -/
theorem applyWrites_frame_inv :
    ∀ (ws : List ClauseWrite) (st : ClauseStore × List Nat) (base : Nat)
      (hlen : base ≤ st.1.cells.length) (hrefs : ∀ r ∈ st.2, base ≤ r),
      (applyWrites st ws).1.cells.take base = st.1.cells.take base ∧
      base ≤ (applyWrites st ws).1.cells.length ∧
      ∀ r ∈ (applyWrites st ws).2, base ≤ r := by
  intro ws
  induction ws with
  | nil => intro st base hlen hrefs; exact ⟨rfl, hlen, hrefs⟩
  | cons w rest ih =>
    intro st base hlen hrefs
    obtain ⟨hw1, hw2, hw3⟩ := applyWrite_frame st base w hlen hrefs
    obtain ⟨h1, h2, h3⟩ := ih (applyWrite st w) base hw2 hw3
    rw [applyWrites]
    exact ⟨h1.trans hw1, h2, h3⟩

/-- C10: confirmed.  The constructor allocates fresh cells copying each
caller clause (`list(c)`), and every clause-object mutation the solvers ever
perform — the watcher swaps of `propagate` and
`_find_new_watcher_for_clause`, and the copied append of `CDCL.add_clause` —
goes through the solver's own references, which all point past the caller's
cells.  Hence after any sequence of such writes the caller's clause objects
are unchanged (and the solver's initial copies have exactly the caller's
contents). -/
theorem c10_frame_property (caller : List (List Int)) (ws : List ClauseWrite) :
    (applyWrites (initHeap caller) ws).1.cells.take caller.length = caller ∧
    (initHeap caller).1.cells.drop caller.length = caller ∧
    ∀ r ∈ (applyWrites (initHeap caller) ws).2, caller.length ≤ r := by
  have hlen : caller.length ≤ (initHeap caller).1.cells.length := by
    simp [initHeap]
  have hrefs : ∀ r ∈ (initHeap caller).2, caller.length ≤ r := by
    intro r hr
    simp [initHeap] at hr
    omega
  obtain ⟨h1, h2, h3⟩ := applyWrites_frame_inv ws (initHeap caller) caller.length hlen hrefs
  refine ⟨?_, ?_, h3⟩
  · rw [h1]
    simp [initHeap]
  · simp [initHeap]

theorem intRange_nodup (n : Nat) : (intRange n).Nodup := by
  refine List.Nodup.map ?_ (List.nodup_range n)
  intro a b hab
  simp only [Int.ofNat_eq_coe] at hab
  omega

theorem mem_intRange (n : Nat) (v : Int) : v ∈ intRange n ↔ 1 ≤ v ∧ v ≤ Int.ofNat n := by
  simp only [intRange, List.mem_map, List.mem_range, Int.ofNat_eq_coe]
  constructor
  · rintro ⟨i, hi, rfl⟩
    omega
  · rintro ⟨h1, h2⟩
    refine ⟨(v - 1).toNat, by omega, by omega⟩

theorem signVal_ne_zero (l : Int) : signVal l ≠ 0 := by
  simp only [signVal]
  split <;> decide

theorem filter_update_perm (R : List Int) (hnd : R.Nodup) (f : Int → Int) (v : Int)
    (hv : v ∈ R) (h0 : f v = 0) (w : Int) (hw : w ≠ 0) :
    (R.filter (fun x => updFn f v w x != 0)).Perm (v :: R.filter (fun x => f x != 0)) := by
  obtain ⟨A, B, rfl⟩ := List.append_of_mem hv
  have hvA : v ∉ A := by
    intro hm
    rw [List.nodup_append] at hnd
    exact hnd.2.2 hm (List.mem_cons_self v B)
  have hvB : v ∉ B := by
    have h2 := List.Nodup.of_append_right hnd
    rw [List.nodup_cons] at h2
    exact h2.1
  have hA : A.filter (fun x => updFn f v w x != 0) = A.filter (fun x => f x != 0) :=
    List.filter_congr (fun x hx => by
      have hne : x ≠ v := fun h => hvA (h ▸ hx)
      simp [updFn, hne])
  have hB : B.filter (fun x => updFn f v w x != 0) = B.filter (fun x => f x != 0) :=
    List.filter_congr (fun x hx => by
      have hne : x ≠ v := fun h => hvB (h ▸ hx)
      simp [updFn, hne])
  have hkeep : (updFn f v w v != 0) = true := by simp [updFn, hw]
  have hdrop : (f v != 0) = false := by simp [h0]
  rw [List.filter_append, List.filter_append, List.filter_cons, List.filter_cons,
    hA, hB, hkeep, hdrop]
  simp only [if_true, if_false]
  exact List.perm_middle.trans (by exact List.Perm.refl _)

theorem filter_update_zero_perm (R : List Int) (hnd : R.Nodup) (f : Int → Int) (v : Int)
    (hv : v ∈ R) (h0 : f v ≠ 0) :
    (R.filter (fun x => f x != 0)).Perm (v :: R.filter (fun x => updFn f v 0 x != 0)) := by
  have h := filter_update_perm R hnd (updFn f v 0) v hv (by simp [updFn]) (f v) h0
  have heq : R.filter (fun x => updFn (updFn f v 0) v (f v) x != 0)
      = R.filter (fun x => f x != 0) :=
    List.filter_congr (fun x hx => by
      by_cases hxv : x = v
      · subst hxv; simp [updFn]
      · simp [updFn, hxv])
  rw [heq] at h
  exact h

theorem tc_extend (s s2 : Solver) (lit : Int)
    (ha : s2.assignment = updFn s.assignment (iabs lit) (signVal lit))
    (ht : s2.trail = s.trail ++ [lit])
    (hn : s2.numVars = s.numVars)
    (hv : iabs lit ∈ intRange s.numVars)
    (h0 : s.assignment (iabs lit) = 0)
    (hTC : TrailConsistent s) : TrailConsistent s2 := by
  obtain ⟨hperm, hsign⟩ := hTC
  constructor
  · have hav : assignedVars s2 =
        (intRange s.numVars).filter (fun x => updFn s.assignment (iabs lit) (signVal lit) x != 0) := by
      simp [assignedVars, hn, ha]
    rw [hav, ht, List.map_append]
    have h1 := filter_update_perm (intRange s.numVars) (intRange_nodup _) s.assignment
      (iabs lit) hv h0 (signVal lit) (signVal_ne_zero lit)
    have h2 : (s.trail.map iabs ++ [iabs lit]).Perm (iabs lit :: s.trail.map iabs) :=
      List.perm_append_comm
    exact (h2.trans (hperm.cons (iabs lit))).trans h1.symm
  · intro l hl
    rw [ht] at hl
    rcases List.mem_append.mp hl with hl | hl
    · have hs := hsign l hl
      have hne : iabs l ≠ iabs lit := by
        intro h
        rw [h, h0] at hs
        exact signVal_ne_zero l hs.symm
      rw [ha]
      simp [updFn, hne]
      exact hs
    · simp at hl
      subst hl
      rw [ha]
      simp [updFn]

theorem tc_pop (s s2 : Solver) (hne : s.trail ≠ [])
    (ha : s2.assignment = updFn s.assignment (iabs (s.trail.getLast hne)) 0)
    (ht : s2.trail = s.trail.dropLast)
    (hn : s2.numVars = s.numVars)
    (hTC : TrailConsistent s) : TrailConsistent s2 := by
  obtain ⟨hperm, hsign⟩ := hTC
  have hlast : s.trail.getLast hne ∈ s.trail := List.getLast_mem hne
  set v := iabs (s.trail.getLast hne) with hvdef
  have hvtrail : v ∈ s.trail.map iabs := List.mem_map_of_mem iabs hlast
  have hvassigned : v ∈ assignedVars s := hperm.mem_iff.mp hvtrail
  have hvrange : v ∈ intRange s.numVars := List.mem_of_mem_filter hvassigned
  have hv0 : s.assignment v ≠ 0 := by
    have := hsign _ hlast
    rw [← hvdef] at this
    rw [this]
    exact signVal_ne_zero _
  have hsplit : s.trail = s.trail.dropLast ++ [s.trail.getLast hne] :=
    (List.dropLast_append_getLast hne).symm
  have hnodup : (s.trail.map iabs).Nodup := hperm.nodup_iff.mpr (List.Nodup.filter _ (intRange_nodup _))
  constructor
  · have hav : assignedVars s2 =
        (intRange s.numVars).filter (fun x => updFn s.assignment v 0 x != 0) := by
      simp [assignedVars, hn, ha]
    have h1 := filter_update_zero_perm (intRange s.numVars) (intRange_nodup _) s.assignment
      v hvrange hv0
    -- old perm, rewritten with the split trail
    have h2 : (s.trail.dropLast.map iabs ++ [v]).Perm (assignedVars s) := by
      have := hperm
      rw [hsplit] at this
      simpa using this
    have h3 : (v :: s.trail.dropLast.map iabs).Perm (v :: assignedVars s2) := by
      have h4 : (v :: s.trail.dropLast.map iabs).Perm (assignedVars s) :=
        (List.perm_append_comm.symm.trans h2)
      rw [hav]
      exact h4.trans h1
    rw [ht]
    exact h3.cons_inv
  · intro l hl
    rw [ht] at hl
    have hmem : l ∈ s.trail := List.mem_of_mem_dropLast hl
    have hs := hsign l hmem
    have hlne : iabs l ≠ v := by
      intro h
      -- l sits in dropLast, getLast is the final entry, both map to v: contradicts nodup
      have hd : (s.trail.dropLast.map iabs ++ [v]).Nodup := by
        have := hnodup
        rw [hsplit] at this
        simpa using this
      rw [List.nodup_append] at hd
      exact hd.2.2 (h ▸ List.mem_map_of_mem iabs hl) (List.mem_cons_self v [])
    rw [ha]
    simp [updFn, hlne]
    exact hs

theorem iabs_pos_of_ne_zero (l : Int) (h : l ≠ 0) : 1 ≤ iabs l := by
  simp only [iabs]
  split <;> omega

theorem tc_assigned_values (s : Solver) (hTC : TrailConsistent s) (v : Int)
    (hv : v ∈ intRange s.numVars) :
    s.assignment v = 0 ∨ s.assignment v = 1 ∨ s.assignment v = -1 := by
  by_cases h0 : s.assignment v = 0
  · exact Or.inl h0
  · have hmem : v ∈ assignedVars s := by
      simp [assignedVars, List.mem_filter, hv, h0]
    have htr : v ∈ s.trail.map iabs := hTC.1.mem_iff.mpr hmem
    obtain ⟨l, hl, rfl⟩ := List.mem_map.mp htr
    have := hTC.2 l hl
    rw [this]
    simp only [signVal]
    split
    · exact Or.inr (Or.inl rfl)
    · exact Or.inr (Or.inr rfl)

theorem tc_guards_zero (s : Solver) (l : Int) (hTC : TrailConsistent s)
    (hv : iabs l ∈ intRange s.numVars)
    (ht : litIsTrue s l = false) (hf : litIsFalse s l = false) :
    s.assignment (iabs l) = 0 := by
  rcases tc_assigned_values s hTC (iabs l) hv with h | h | h
  · exact h
  · exfalso
    simp only [litIsTrue, litIsFalse, h] at ht hf
    by_cases hl : 0 < l <;> simp [hl] at ht hf
  · exfalso
    simp only [litIsTrue, litIsFalse, h] at ht hf
    by_cases hl : 0 < l <;> simp [hl] at ht hf

theorem mkSolver_tc (clauses : List (List Int)) (numVars : Nat) :
    TrailConsistent (mkSolver clauses numVars) := by
  have hf := initLoop_fields clauses 0
  have htrail : (mkSolver clauses numVars).trail = [] := by
    simp only [mkSolver]
    exact (hf _).2.2.1
  have hassign : (mkSolver clauses numVars).assignment = fun _ => 0 := by
    simp only [mkSolver]
    exact (hf _).1
  constructor
  · rw [htrail]
    have ha : assignedVars (mkSolver clauses numVars) = [] := by
      simp [assignedVars, hassign]
    rw [ha]
    simp
  · intro l hl
    rw [htrail] at hl
    simp at hl

theorem popTrailLoop_tc (un : Solver → Int → Solver)
    (hun : ∀ st v, st.assignment v ≠ 0 →
      (un st v).assignment = updFn st.assignment v 0 ∧
      (un st v).trail = st.trail ∧ (un st v).numVars = st.numVars) :
    ∀ (fuel target : Nat) (s : Solver), TrailConsistent s →
      TrailConsistent (popTrailLoop un fuel target s) := by
  intro fuel
  induction fuel with
  | zero => intro target s h; simpa [popTrailLoop] using h
  | succ f ih =>
    intro target s h
    rw [popTrailLoop]
    by_cases hlt : target < s.trail.length
    · simp only [hlt, if_true]
      have hne : s.trail ≠ [] := by
        intro hemp
        rw [hemp] at hlt
        simp at hlt
      rw [List.getLast?_eq_getLast s.trail hne]
      have hlast : s.trail.getLast hne ∈ s.trail := List.getLast_mem hne
      have hv0 : s.assignment (iabs (s.trail.getLast hne)) ≠ 0 := by
        rw [h.2 _ hlast]
        exact signVal_ne_zero _
      set st1 : Solver := { s with trail := s.trail.dropLast } with hst1
      have hv0b : st1.assignment (iabs (s.trail.getLast hne)) ≠ 0 := hv0
      obtain ⟨ha, ht, hn⟩ := hun st1 (iabs (s.trail.getLast hne)) hv0b
      have htc2 : TrailConsistent (un st1 (iabs (s.trail.getLast hne))) := by
        refine tc_pop s _ hne ?_ ?_ ?_ h
        · exact ha
        · exact ht
        · exact hn
      exact ih target _ htc2
    · simpa [hlt] using h

theorem unassignBase_proj (st : Solver) (v : Int) :
    (unassignBase st v).assignment = updFn st.assignment v 0 ∧
    (unassignBase st v).trail = st.trail ∧ (unassignBase st v).numVars = st.numVars :=
  ⟨rfl, rfl, rfl⟩

theorem unassignCDCL_proj (st : Solver) (v : Int) (h : st.assignment v ≠ 0) :
    (unassignCDCL st v).assignment = updFn st.assignment v 0 ∧
    (unassignCDCL st v).trail = st.trail ∧ (unassignCDCL st v).numVars = st.numVars := by
  have hb : (st.assignment v == 0) = false := by simpa using h
  simp only [unassignCDCL, hb]
  exact ⟨rfl, rfl, rfl⟩

theorem popTrailLoop_proj (un : Solver → Int → Solver)
    (hun : ∀ st v, (un st v).trail = st.trail ∧ (un st v).numVars = st.numVars ∧
      (un st v).clauses = st.clauses ∧ (un st v).watches = st.watches ∧
      (un st v).decisions = st.decisions ∧ (un st v).levelStart = st.levelStart) :
    ∀ (fuel target : Nat) (s : Solver),
      (popTrailLoop un fuel target s).numVars = s.numVars ∧
      (popTrailLoop un fuel target s).clauses = s.clauses ∧
      (popTrailLoop un fuel target s).watches = s.watches ∧
      (popTrailLoop un fuel target s).decisions = s.decisions ∧
      (popTrailLoop un fuel target s).levelStart = s.levelStart := by
  intro fuel
  induction fuel with
  | zero => intro target s; simp [popTrailLoop]
  | succ f ih =>
    intro target s
    rw [popTrailLoop]
    by_cases hlt : target < s.trail.length
    · simp only [hlt, if_true]
      rcases hg : s.trail.getLast? with _ | lit
      · simp
      · obtain ⟨h1, h2, h3, h4, h5, h6⟩ := hun { s with trail := s.trail.dropLast } (iabs lit)
        obtain ⟨i1, i2, i3, i4, i5⟩ := ih target (un { s with trail := s.trail.dropLast } (iabs lit))
        exact ⟨i1.trans h2, i2.trans h3, i3.trans h4, i4.trans h5, i5.trans h6⟩
    · simp [hlt]

theorem popTrailLoop_trail (un : Solver → Int → Solver)
    (hun : ∀ st v, (un st v).trail = st.trail) :
    ∀ (fuel target : Nat) (s : Solver), s.trail.length ≤ target + fuel →
      (popTrailLoop un fuel target s).trail = s.trail.take target := by
  intro fuel
  induction fuel with
  | zero =>
    intro target s hlen
    rw [popTrailLoop, List.take_of_length_le (by omega)]
  | succ f ih =>
    intro target s hlen
    rw [popTrailLoop]
    by_cases hlt : target < s.trail.length
    · simp only [hlt, if_true]
      rcases hg : s.trail.getLast? with _ | lit
      · rw [List.getLast?_eq_none_iff] at hg
        rw [hg] at hlt
        simp at hlt
      · have htr : (un { s with trail := s.trail.dropLast } (iabs lit)).trail
            = s.trail.dropLast := hun _ _
        have hlen2 : (un { s with trail := s.trail.dropLast } (iabs lit)).trail.length
            ≤ target + f := by
          rw [htr, List.length_dropLast]
          omega
        rw [ih target _ hlen2, htr, List.dropLast_eq_take, List.take_take]
        congr 1
        omega
    · rw [if_neg hlt, List.take_of_length_le (by omega)]

theorem cdclPushDecision_tc (s : Solver) (lit : Int)
    (hv : iabs lit ∈ intRange s.numVars)
    (h0 : s.assignment (iabs lit) = 0)
    (hTC : TrailConsistent s) : TrailConsistent (cdclPushDecision s lit) := by
  refine tc_extend s _ lit rfl rfl rfl hv h0 ?_
  exact hTC

theorem dpllPushDecision_tc (s : Solver) (lit : Int)
    (hv : iabs lit ∈ intRange s.numVars)
    (h0 : s.assignment (iabs lit) = 0)
    (hTC : TrailConsistent s) : TrailConsistent (dpllPushDecision s lit) := by
  refine tc_extend s _ lit rfl rfl rfl hv h0 ?_
  exact hTC

theorem assignInternalC_tc (s : Solver) (lit : Int) (level : Int) (reason : Option Nat)
    (hv : iabs lit ∈ intRange s.numVars)
    (h0 : s.assignment (iabs lit) = 0)
    (hTC : TrailConsistent s) : TrailConsistent (assignInternalC s lit level reason) := by
  refine tc_extend s _ lit rfl rfl rfl hv h0 ?_
  exact hTC

theorem cdclBackjump_tc (s : Solver) (bjLevel : Int) (learntCi : Nat) (assertingLit : Int)
    (s2 : Solver)
    (hTC : TrailConsistent s)
    (hv : iabs assertingLit ∈ intRange s.numVars)
    (hfresh : ∀ tgt, bjTarget s bjLevel = some tgt →
      ∀ l ∈ s.trail.take tgt, iabs l ≠ iabs assertingLit)
    (hb : cdclBackjump s bjLevel learntCi assertingLit = some s2) :
    TrailConsistent s2 := by
  rcases htgt : bjTarget s bjLevel with _ | tgt
  · rw [cdclBackjump, htgt] at hb
    simp at hb
  · rw [cdclBackjump, htgt] at hb
    simp only [Option.some.injEq] at hb
    subst hb
    set s1 := popTrailLoop unassignCDCL s.trail.length tgt s with hs1
    have huntc : ∀ (st : Solver) (v : Int), st.assignment v ≠ 0 →
        (unassignCDCL st v).assignment = updFn st.assignment v 0 ∧
        (unassignCDCL st v).trail = st.trail ∧
        (unassignCDCL st v).numVars = st.numVars := fun st v h => unassignCDCL_proj st v h
    have htc1 : TrailConsistent s1 := popTrailLoop_tc unassignCDCL huntc _ tgt s hTC
    have huntrail : ∀ (st : Solver) (v : Int), (unassignCDCL st v).trail = st.trail := by
      intro st v
      by_cases h : st.assignment v == 0
      · simp [unassignCDCL, h]
      · simp only [unassignCDCL, h]
        rfl
    have htr1 : s1.trail = s.trail.take tgt :=
      popTrailLoop_trail unassignCDCL huntrail _ tgt s (by omega)
    have hproj := popTrailLoop_proj unassignCDCL
      (fun st v => by
        by_cases h : st.assignment v == 0
        · simp [unassignCDCL, h]
        · simp only [unassignCDCL, h]
          exact ⟨rfl, rfl, rfl, rfl, rfl, rfl⟩) s.trail.length tgt s
    have hnum1 : s1.numVars = s.numVars := hproj.1
    -- the state just before the final assign
    refine tc_extend
      { s1 with decisions := s1.decisions.take bjLevel.toNat
                levelStart := s1.levelStart.take bjLevel.toNat
                propIndex := s1.trail.length
                levelOf := updFn s1.levelOf (iabs assertingLit) bjLevel
                reasonOf := updFn s1.reasonOf (iabs assertingLit) (some learntCi) }
      _ assertingLit rfl rfl rfl ?_ ?_ ?_
    · show iabs assertingLit ∈ intRange s1.numVars
      rw [hnum1]
      exact hv
    · show s1.assignment (iabs assertingLit) = 0
      by_contra hne
      have hmem : iabs assertingLit ∈ assignedVars s1 := by
        have hvr : iabs assertingLit ∈ intRange s1.numVars := by rw [hnum1]; exact hv
        simp [assignedVars, List.mem_filter, hvr, hne]
      have htr : iabs assertingLit ∈ s1.trail.map iabs := htc1.1.mem_iff.mpr hmem
      obtain ⟨l, hl, hleq⟩ := List.mem_map.mp htr
      rw [htr1] at hl
      exact hfresh tgt htgt l hl hleq
    · exact htc1

theorem take_take_subset (l : List Int) (a b : Nat) :
    ∀ x ∈ (l.take b).take a, x ∈ l.take a := by
  intro x hx
  rw [List.take_take] at hx
  rcases Nat.le_total a b with h | h
  · rwa [Nat.min_eq_left h] at hx
  · rw [Nat.min_eq_right h] at hx
    have : l.take b = (l.take a).take b := by
      rw [List.take_take, Nat.min_eq_left h]
    rw [this] at hx
    exact List.take_subset _ _ hx

theorem dpllBacktrack_tc :
    ∀ (fuel : Nat) (s : Solver) (flag : Bool) (s2 : Solver),
      TrailConsistent s →
      (∀ d ∈ s.decisions, 1 ≤ d.1 ∧ d.1 ≤ Int.ofNat s.numVars) →
      s.decisions.length = s.levelStart.length →
      (∀ k d lsi, s.decisions.get? k = some d → s.levelStart.get? k = some lsi →
        ∀ l ∈ s.trail.take lsi, iabs l ≠ d.1) →
      dpllBacktrack fuel s = some (flag, s2) → TrailConsistent s2 := by
  intro fuel
  induction fuel with
  | zero => intro s flag s2 _ _ _ _ hb; simp [dpllBacktrack] at hb
  | succ f ih =>
    intro s flag s2 hTC hvars hlen hfresh hb
    rcases hd : s.decisions.getLast? with _ | d
    · rw [dpllBacktrack] at hb
      rw [hd] at hb
      simp at hb
      exact hb.2 ▸ hTC
    · rcases hls : s.levelStart.getLast? with _ | lsi
      · rw [dpllBacktrack] at hb
        rw [hd, hls] at hb
        simp at hb
      · -- names for the intermediate states of the source
        set s1 : Solver := { s with decisions := s.decisions.dropLast,
                                    levelStart := s.levelStart.dropLast } with hs1def
        set s2p := popTrailLoop unassignBase s1.trail.length lsi s1 with hs2p
        set s3 : Solver := { s2p with propIndex := lsi } with hs3
        have hb3 : (if !d.2 then
            some (true, assign { s3 with levelStart := s3.levelStart ++ [s3.trail.length],
                                         decisions := s3.decisions ++ [(d.1, true)] }
              (-d.1) (-1))
            else dpllBacktrack f s3) = some (flag, s2) := by
          rw [dpllBacktrack, hd, hls] at hb
          exact hb
        have htc1 : TrailConsistent s1 := hTC
        have hpop_tc : TrailConsistent s2p :=
          popTrailLoop_tc unassignBase (fun st v _ => unassignBase_proj st v) _ lsi s1 htc1
        have hpop_tr : s2p.trail = s.trail.take lsi :=
          popTrailLoop_trail unassignBase (fun st v => rfl) _ lsi s1 (by omega)
        have hpop_proj := popTrailLoop_proj unassignBase
          (fun st v => ⟨rfl, rfl, rfl, rfl, rfl, rfl⟩) s1.trail.length lsi s1
        have htc3 : TrailConsistent s3 := hpop_tc
        have htr3 : s3.trail = s.trail.take lsi := hpop_tr
        have hnum3 : s3.numVars = s.numVars := hpop_proj.1
        have hdec3 : s3.decisions = s.decisions.dropLast := hpop_proj.2.2.2.1
        have hls3 : s3.levelStart = s.levelStart.dropLast := hpop_proj.2.2.2.2
        cases hdb : d.2 with
        | false =>
          rw [hdb] at hb3
          simp only [Bool.not_false, if_true, Option.some.injEq, Prod.mk.injEq] at hb3
          have hdmem : d ∈ s.decisions := by
            have hne2 : s.decisions ≠ [] := by
              intro hemp
              rw [hemp] at hd
              simp at hd
            rw [List.getLast?_eq_getLast s.decisions hne2] at hd
            simp at hd
            rw [← hd]
            exact List.getLast_mem _
          obtain ⟨hd1, hd2⟩ := hvars d hdmem
          have hvab : iabs (-d.1) = d.1 := by
            simp only [iabs]
            have hlt : -d.1 < 0 := by omega
            simp [hlt]
          have hsv : signVal (-d.1) = -1 := by
            simp only [signVal]
            have hlt : ¬ (0 < -d.1) := by omega
            simp [hlt]
          have h0 : s3.assignment d.1 = 0 := by
            by_contra hne
            have hvr : d.1 ∈ intRange s3.numVars := by
              rw [hnum3, mem_intRange]
              exact ⟨hd1, hd2⟩
            have hmem2 : d.1 ∈ assignedVars s3 := by
              simp [assignedVars, List.mem_filter, hvr, hne]
            have htrm : d.1 ∈ s3.trail.map iabs := htc3.1.mem_iff.mpr hmem2
            obtain ⟨l, hl, hleq⟩ := List.mem_map.mp htrm
            rw [htr3] at hl
            have hk : s.decisions.get? (s.decisions.length - 1) = some d := by
              rw [List.get?_eq_getElem?, ← List.getLast?_eq_getElem?]
              exact hd
            have hk2 : s.levelStart.get? (s.decisions.length - 1) = some lsi := by
              rw [hlen]
              rw [List.get?_eq_getElem?, ← List.getLast?_eq_getElem?]
              exact hls
            exact hfresh _ d lsi hk hk2 l hl hleq
          rw [← hb3.2]
          refine tc_extend s3 _ (-d.1) ?_ ?_ ?_ ?_ ?_ htc3
          · rw [hsv]
            rfl
          · rfl
          · rfl
          · rw [hvab, hnum3, mem_intRange]
            exact ⟨hd1, hd2⟩
          · rw [hvab]
            exact h0
        | true =>
          rw [hdb] at hb3
          simp only [Bool.not_true, if_false] at hb3
          refine ih s3 flag s2 htc3 ?_ ?_ ?_ hb3
          · intro d2 hd2m
            rw [hdec3] at hd2m
            have hres := hvars d2 (List.dropLast_subset _ hd2m)
            rw [hnum3]
            exact hres
          · rw [hdec3, hls3, List.length_dropLast, List.length_dropLast, hlen]
          · intro k d2 lsi2 hk1 hk2 l hl
            rw [hdec3] at hk1
            rw [hls3] at hk2
            have hk1b : s.decisions.get? k = some d2 := by
              rw [List.get?_eq_getElem?] at hk1 ⊢
              rw [List.getElem?_dropLast] at hk1
              by_cases hklt : k < s.decisions.length - 1
              · rwa [if_pos hklt] at hk1
              · rw [if_neg hklt] at hk1
                simp at hk1
            have hk2b : s.levelStart.get? k = some lsi2 := by
              rw [List.get?_eq_getElem?] at hk2 ⊢
              rw [List.getElem?_dropLast] at hk2
              by_cases hklt : k < s.levelStart.length - 1
              · rwa [if_pos hklt] at hk2
              · rw [if_neg hklt] at hk2
                simp at hk2
            rw [htr3] at hl
            exact hfresh k d2 lsi2 hk1b hk2b l (take_take_subset _ _ _ l hl)


theorem sameShape_rfl (cs : List (List Int)) : SameShape cs cs :=
  ⟨rfl, fun _ => rfl⟩

theorem sameShape_trans {a b c : List (List Int)} (h1 : SameShape a b) (h2 : SameShape b c) :
    SameShape a c :=
  ⟨h2.1.trans h1.1, fun j => (h2.2 j).trans (h1.2 j)⟩

theorem get?_lt_length {α : Type} (cs : List α) (ci : Nat) (c : α)
    (h : cs.get? ci = some c) : ci < cs.length := by
  by_contra hge
  rw [List.get?_eq_getElem?, List.getElem?_eq_none (by omega)] at h
  exact Option.noConfusion h

theorem sameShape_set (cs : List (List Int)) (ci : Nat) (c c2 : List Int)
    (h : cs.get? ci = some c) (hlen : c2.length = c.length) :
    SameShape cs (cs.set ci c2) := by
  have hlt : ci < cs.length := get?_lt_length cs ci c h
  refine ⟨by simp, fun j => ?_⟩
  rw [List.get?_eq_getElem?, List.get?_eq_getElem?, List.getElem?_set]
  by_cases hj : ci = j
  · subst hj
    rw [if_pos rfl, if_pos hlt]
    rw [List.get?_eq_getElem?] at h
    rw [h]
    simp [hlen]
  · simp [hj]

theorem removeFirst_subset (l : List Nat) (x : Nat) : ∀ y ∈ removeFirst l x, y ∈ l := by
  induction l with
  | nil => intro y hy; simp [removeFirst] at hy
  | cons a rest ih =>
    intro y hy
    rw [removeFirst] at hy
    by_cases hax : a = x
    · rw [if_pos hax] at hy
      exact List.mem_cons_of_mem a hy
    · rw [if_neg hax] at hy
      rcases List.mem_cons.mp hy with rfl | hy2
      · exact List.mem_cons_self y rest
      · exact List.mem_cons_of_mem a (ih y hy2)

theorem iabs_neg (l : Int) : iabs (-l) = iabs l := by
  simp only [iabs]
  rcases lt_trichotomy l 0 with h | h | h
  · rw [if_neg (by omega), if_pos h]
  · subst h
    simp
  · rw [if_pos (by omega), if_neg (by omega)]
    omega

theorem mem_watchLits (n : Nat) (lit : Int) :
    lit ∈ watchLits n ↔ lit ≠ 0 ∧ iabs lit ≤ Int.ofNat n := by
  simp only [watchLits, List.mem_append, List.mem_map, mem_intRange]
  constructor
  · rintro (⟨h1, h2⟩ | ⟨v, ⟨hv1, hv2⟩, rfl⟩)
    · refine ⟨by omega, ?_⟩
      simp only [iabs]
      split <;> omega
    · refine ⟨by omega, ?_⟩
      simp only [iabs]
      split <;> omega
  · rintro ⟨h1, h2⟩
    simp only [iabs] at h2
    by_cases hneg : lit < 0
    · right
      refine ⟨-lit, ⟨by omega, by rw [if_pos hneg] at h2; omega⟩, by omega⟩
    · left
      rw [if_neg hneg] at h2
      exact ⟨by omega, h2⟩

theorem range_set (s : Solver) (ci : Nat) (c c2 : List Int)
    (h : s.clauses.get? ci = some c) (hsub : ∀ x ∈ c2, x ∈ c)
    (hR : ClauseLitsInRange s) :
    ClauseLitsInRange { s with clauses := s.clauses.set ci c2 } := by
  intro cl hcl l hl
  rcases List.mem_or_eq_of_mem_set hcl with hcl2 | rfl
  · exact hR cl hcl2 l hl
  · exact hR c (List.get?_mem h) l (hsub l hl)

theorem watchedTwo_set (s : Solver) (ci : Nat) (c c2 : List Int)
    (h : s.clauses.get? ci = some c) (hlen : c2.length = c.length)
    (hW : WatchedTwo s) :
    WatchedTwo { s with clauses := s.clauses.set ci c2 } := by
  intro lit hlit cj hcj
  obtain ⟨cold, hcold, hcl2⟩ := hW lit hlit cj hcj
  by_cases hji : cj = ci
  · subst hji
    rw [h] at hcold
    simp only [Option.some.injEq] at hcold
    subst hcold
    refine ⟨c2, ?_, by omega⟩
    show (s.clauses.set cj c2).get? cj = some c2
    rw [List.get?_eq_getElem?, List.getElem?_set, if_pos rfl,
      if_pos (get?_lt_length _ _ _ h)]
  · refine ⟨cold, ?_, hcl2⟩
    show (s.clauses.set ci c2).get? cj = some cold
    rw [List.get?_eq_getElem?, List.getElem?_set, if_neg (fun hh => hji hh.symm)]
    rw [List.get?_eq_getElem?] at hcold
    exact hcold

theorem watchedTwo_move (s : Solver) (fw newLit : Int) (ci : Nat)
    (hvalid : ∃ c, s.clauses.get? ci = some c ∧ 2 ≤ c.length)
    (hW : WatchedTwo s) :
    WatchedTwo { s with watches := addWatch (removeWatch s.watches fw ci) newLit ci } := by
  intro lit hlit cj hcj
  simp only [addWatch, removeWatch] at hcj
  have hstep : cj ∈ s.watches lit ∨ cj = ci := by
    by_cases h1 : lit = newLit
    · rw [if_pos h1] at hcj
      rcases List.mem_append.mp hcj with hm | hm
      · by_cases h2 : lit = fw
        · rw [if_pos h2] at hm
          exact Or.inl (removeFirst_subset _ _ _ hm)
        · rw [if_neg h2] at hm
          exact Or.inl hm
      · simp at hm
        exact Or.inr hm
    · rw [if_neg h1] at hcj
      by_cases h2 : lit = fw
      · rw [if_pos h2] at hcj
        exact Or.inl (removeFirst_subset _ _ _ hcj)
      · rw [if_neg h2] at hcj
        exact Or.inl hcj
  rcases hstep with hm | rfl
  · exact hW lit hlit cj hm
  · exact hvalid

theorem range_transport (s s2 : Solver) (hc : s2.clauses = s.clauses)
    (hn : s2.numVars = s.numVars) (hR : ClauseLitsInRange s) : ClauseLitsInRange s2 := by
  intro c hcm l hl
  rw [hc] at hcm
  rw [hn]
  exact hR c hcm l hl

theorem watched_transport (s s2 : Solver) (hc : s2.clauses = s.clauses)
    (hw : s2.watches = s.watches) (hn : s2.numVars = s.numVars)
    (hW : WatchedTwo s) : WatchedTwo s2 := by
  intro lit hlit ci hci
  rw [hn] at hlit
  rw [hw] at hci
  rw [hc]
  exact hW lit hlit ci hci

theorem fnwLoop_preserves (ci : Nat) (fw : Int) (clause : List Int) :
    ∀ (remaining i : Nat) (s : Solver),
      s.clauses.get? ci = some clause → fw ∈ clause → 2 ≤ clause.length →
      PropInv s →
      PropInv (fnwLoop s ci fw clause i remaining).2 ∧
      SameShape s.clauses (fnwLoop s ci fw clause i remaining).2.clauses ∧
      (fnwLoop s ci fw clause i remaining).2.numVars = s.numVars ∧
      (fnwLoop s ci fw clause i remaining).2.assignment = s.assignment ∧
      (fnwLoop s ci fw clause i remaining).2.trail = s.trail := by
  intro remaining
  induction remaining with
  | zero =>
    intro i s hc hfw hlen hInv
    rw [fnwLoop]
    exact ⟨hInv, sameShape_rfl _, rfl, rfl, rfl⟩
  | succ r ih =>
    intro i s hc hfw hlen hInv
    rw [fnwLoop]
    rcases hg : clause.get? i with _ | newLit
    · exact ⟨hInv, sameShape_rfl _, rfl, rfl, rfl⟩
    · by_cases hf : litIsFalse s newLit = true
      · simp only [hf, if_true]
        exact ih (i + 1) s hc hfw hlen hInv
      · rw [Bool.not_eq_true] at hf
        simp only [hf, Bool.false_eq_true, if_false]
        have hnm : newLit ∈ clause := List.get?_mem hg
        have hsub : ∀ x ∈ (clause.set 0 newLit).set i fw, x ∈ clause := by
          intro x hx
          rcases List.mem_or_eq_of_mem_set hx with hx2 | rfl
          · rcases List.mem_or_eq_of_mem_set hx2 with hx3 | rfl
            · exact hx3
            · exact hnm
          · exact hfw
        have hlen2 : ((clause.set 0 newLit).set i fw).length = clause.length := by simp
        obtain ⟨hTC, hR, hW⟩ := hInv
        have hmid : (s.clauses.set ci ((clause.set 0 newLit).set i fw)).get? ci
            = some ((clause.set 0 newLit).set i fw) := by
          rw [List.get?_eq_getElem?, List.getElem?_set, if_pos rfl,
            if_pos (get?_lt_length _ _ _ hc)]
        refine ⟨⟨hTC, ?_, ?_⟩, ?_, by trivial, by trivial, by trivial⟩
        · exact range_set s ci clause _ hc hsub hR
        · have hW2 := watchedTwo_set s ci clause _ hc hlen2 hW
          have hval2 : ∃ c, (s.clauses.set ci ((clause.set 0 newLit).set i fw)).get? ci
              = some c ∧ 2 ≤ c.length := ⟨_, hmid, by omega⟩
          exact watchedTwo_move _ fw newLit ci hval2 hW2
        · exact sameShape_set s.clauses ci clause _ hc hlen2

theorem mem_of_get?_set_self (c : List Int) (i : Nat) (x : Int) (hi : i < c.length) :
    x ∈ c.set i x := by
  have : (c.set i x).get? i = some x := by
    rw [List.get?_eq_getElem?, List.getElem?_set, if_pos rfl, if_pos (by simpa using hi)]
  exact List.get?_mem this

theorem processWatchClause_preserves (ai2 : Solver → Int → Nat → Solver)
    (hai2 : ∀ st l ci, (ai2 st l ci).assignment = updFn st.assignment (iabs l) (signVal l) ∧
      (ai2 st l ci).trail = st.trail ++ [l] ∧ (ai2 st l ci).numVars = st.numVars ∧
      (ai2 st l ci).clauses = st.clauses ∧ (ai2 st l ci).watches = st.watches)
    (fl : Int) (ci : Nat) (s : Solver)
    (hvalid : ∃ c, s.clauses.get? ci = some c ∧ 2 ≤ c.length)
    (hInv : PropInv s) :
    PropInv (processWatchClause ai2 fl ci s).2 ∧
    SameShape s.clauses (processWatchClause ai2 fl ci s).2.clauses ∧
    (processWatchClause ai2 fl ci s).2.numVars = s.numVars := by
  obtain ⟨c, hc, hlen⟩ := hvalid
  have hlt0 : 0 < c.length := by omega
  have hlt1 : 1 < c.length := by omega
  obtain ⟨x0, hx0⟩ : ∃ x, c.get? 0 = some x := by
    rw [List.get?_eq_getElem?, List.getElem?_eq_getElem (by omega)]
    exact ⟨_, rfl⟩
  obtain ⟨x1, hx1⟩ : ∃ x, c.get? 1 = some x := by
    rw [List.get?_eq_getElem?, List.getElem?_eq_getElem (by omega)]
    exact ⟨_, rfl⟩
  have hx0m : x0 ∈ c := List.get?_mem hx0
  have hx1m : x1 ∈ c := List.get?_mem hx1
  -- facts for both shapes of the step state
  have main : ∀ (w1 w2 : Int) (s1 : Solver) (c1 : List Int),
      s1.clauses.get? ci = some c1 → w1 ∈ c1 → w2 ∈ c1 → 2 ≤ c1.length →
      PropInv s1 → SameShape s.clauses s1.clauses → s1.numVars = s.numVars →
      PropInv (if litIsTrue s1 w2 then (none, s1)
        else match findNewWatcher s1 ci w1 with
          | (true, s2) => (none, s2)
          | (false, s2) =>
            if litIsUnassigned s2 w2 then (none, ai2 s2 w2 ci)
            else if litIsFalse s2 w2 then (some ci, s2)
            else (none, s2)).2 ∧
      SameShape s.clauses (if litIsTrue s1 w2 then (none, s1)
        else match findNewWatcher s1 ci w1 with
          | (true, s2) => (none, s2)
          | (false, s2) =>
            if litIsUnassigned s2 w2 then (none, ai2 s2 w2 ci)
            else if litIsFalse s2 w2 then (some ci, s2)
            else (none, s2)).2.clauses ∧
      (if litIsTrue s1 w2 then (none, s1)
        else match findNewWatcher s1 ci w1 with
          | (true, s2) => (none, s2)
          | (false, s2) =>
            if litIsUnassigned s2 w2 then (none, ai2 s2 w2 ci)
            else if litIsFalse s2 w2 then (some ci, s2)
            else (none, s2)).2.numVars = s.numVars := by
    intro w1 w2 s1 c1 hc1 hw1 hw2 hlen1 hInv1 hshape1 hnum1
    by_cases ht : litIsTrue s1 w2 = true
    · rw [if_pos ht]
      exact ⟨hInv1, hshape1, hnum1⟩
    · rw [if_neg ht]
      have hfneq : findNewWatcher s1 ci w1 = fnwLoop s1 ci w1 c1 2 c1.length := by
        rw [findNewWatcher, hc1, Option.getD_some]
      have hfacts := fnwLoop_preserves ci w1 c1 c1.length 2 s1 hc1 hw1 hlen1 hInv1
      rcases hfn : fnwLoop s1 ci w1 c1 2 c1.length with ⟨found, s2⟩
      rw [hfneq, hfn]
      rw [hfn] at hfacts
      obtain ⟨hInv2, hshape2, hnum2, hassign2, _⟩ := hfacts
      have hshape02 : SameShape s.clauses s2.clauses := sameShape_trans hshape1 hshape2
      have hnum02 : s2.numVars = s.numVars := hnum2.trans hnum1
      cases found with
      | true => exact ⟨hInv2, hshape02, hnum02⟩
      | false =>
        by_cases hu : litIsUnassigned s2 w2 = true
        · simp only [hu, if_true]
          obtain ⟨ha, htr, hn, hcl, hwt⟩ := hai2 s2 w2 ci
          have hw2r := hInv1.2.1 c1 (List.get?_mem hc1) w2 hw2
          have htce : TrailConsistent (ai2 s2 w2 ci) := by
            refine tc_extend s2 _ w2 ha htr hn ?_ ?_ hInv2.1
            · rw [mem_intRange]
              refine ⟨iabs_pos_of_ne_zero w2 hw2r.1, ?_⟩
              rw [hnum2]
              exact hw2r.2
            · simpa [litIsUnassigned] using hu
          refine ⟨⟨htce, ?_, ?_⟩, ?_, ?_⟩
          · exact range_transport s2 _ hcl hn hInv2.2.1
          · exact watched_transport s2 _ hcl hwt hn hInv2.2.2
          · rw [hcl]
            exact hshape02
          · rw [hn]
            exact hnum02
        · rw [Bool.not_eq_true] at hu
          simp only [hu, Bool.false_eq_true, if_false]
          by_cases hf : litIsFalse s2 w2 = true
          · simp only [hf, if_true]
            exact ⟨hInv2, hshape02, hnum02⟩
          · rw [Bool.not_eq_true] at hf
            simp only [hf, Bool.false_eq_true, if_false]
            exact ⟨hInv2, hshape02, hnum02⟩
  -- now reduce the definition to the two step shapes
  by_cases hsw : x0 ≠ fl
  · have hred : processWatchClause ai2 fl ci s =
        (if litIsTrue ({ s with clauses := s.clauses.set ci ((c.set 0 x1).set 1 x0) }) x0
          then (none, { s with clauses := s.clauses.set ci ((c.set 0 x1).set 1 x0) })
          else match findNewWatcher { s with clauses := s.clauses.set ci ((c.set 0 x1).set 1 x0) } ci x1 with
            | (true, s2) => (none, s2)
            | (false, s2) =>
              if litIsUnassigned s2 x0 then (none, ai2 s2 x0 ci)
              else if litIsFalse s2 x0 then (some ci, s2)
              else (none, s2)) := by
      rw [processWatchClause, hc]
      simp only [Option.getD_some, hx0, hx1, if_pos hsw]
    rw [hred]
    have hc1 : ({ s with clauses := s.clauses.set ci ((c.set 0 x1).set 1 x0) } : Solver).clauses.get? ci
        = some ((c.set 0 x1).set 1 x0) := by
      show (s.clauses.set ci ((c.set 0 x1).set 1 x0)).get? ci = some _
      rw [List.get?_eq_getElem?, List.getElem?_set, if_pos rfl, if_pos (get?_lt_length _ _ _ hc)]
    have hsub : ∀ x ∈ (c.set 0 x1).set 1 x0, x ∈ c := by
      intro x hx
      rcases List.mem_or_eq_of_mem_set hx with hx2 | rfl
      · rcases List.mem_or_eq_of_mem_set hx2 with hx3 | rfl
        · exact hx3
        · exact hx1m
      · exact hx0m
    have hlen2 : ((c.set 0 x1).set 1 x0).length = c.length := by simp
    have hInv1 : PropInv { s with clauses := s.clauses.set ci ((c.set 0 x1).set 1 x0) } :=
      ⟨hInv.1, range_set s ci c _ hc hsub hInv.2.1, watchedTwo_set s ci c _ hc hlen2 hInv.2.2⟩
    have hw2m : x0 ∈ (c.set 0 x1).set 1 x0 :=
      mem_of_get?_set_self (c.set 0 x1) 1 x0 (by simpa using hlt1)
    have hw1m : x1 ∈ (c.set 0 x1).set 1 x0 := by
      have hg0 : ((c.set 0 x1).set 1 x0).get? 0 = some x1 := by
        rw [List.get?_eq_getElem?, List.getElem?_set, if_neg (by omega)]
        have : (c.set 0 x1).get? 0 = some x1 := by
          rw [List.get?_eq_getElem?, List.getElem?_set, if_pos rfl, if_pos (by simpa using hlt0)]
        rw [List.get?_eq_getElem?] at this
        exact this
      exact List.get?_mem hg0
    exact main x1 x0 _ ((c.set 0 x1).set 1 x0) hc1 hw1m hw2m (by omega) hInv1
      (sameShape_set s.clauses ci c _ hc hlen2) rfl
  · have hred : processWatchClause ai2 fl ci s =
        (if litIsTrue s x1 then (none, s)
          else match findNewWatcher s ci x0 with
            | (true, s2) => (none, s2)
            | (false, s2) =>
              if litIsUnassigned s2 x1 then (none, ai2 s2 x1 ci)
              else if litIsFalse s2 x1 then (some ci, s2)
              else (none, s2)) := by
      rw [processWatchClause, hc]
      simp only [Option.getD_some, hx0, hx1, if_neg hsw]
    rw [hred]
    exact main x0 x1 s c hc hx0m hx1m hlen hInv (sameShape_rfl _) rfl

theorem processWatchList_preserves (ai2 : Solver → Int → Nat → Solver)
    (hai2 : ∀ st l ci, (ai2 st l ci).assignment = updFn st.assignment (iabs l) (signVal l) ∧
      (ai2 st l ci).trail = st.trail ++ [l] ∧ (ai2 st l ci).numVars = st.numVars ∧
      (ai2 st l ci).clauses = st.clauses ∧ (ai2 st l ci).watches = st.watches)
    (fl : Int) :
    ∀ (snapshot : List Nat) (s : Solver),
      (∀ ci ∈ snapshot, ∃ c, s.clauses.get? ci = some c ∧ 2 ≤ c.length) →
      PropInv s →
      PropInv (processWatchList ai2 fl snapshot s).2 ∧
      SameShape s.clauses (processWatchList ai2 fl snapshot s).2.clauses ∧
      (processWatchList ai2 fl snapshot s).2.numVars = s.numVars := by
  intro snapshot
  induction snapshot with
  | nil =>
    intro s hsnap hInv
    rw [processWatchList]
    exact ⟨hInv, sameShape_rfl _, rfl⟩
  | cons ci rest ih =>
    intro s hsnap hInv
    rw [processWatchList]
    have hstep := processWatchClause_preserves ai2 hai2 fl ci s
      (hsnap ci (List.mem_cons_self ci rest)) hInv
    rcases hp : processWatchClause ai2 fl ci s with ⟨r, s2⟩
    rw [hp] at hstep
    obtain ⟨hInv2, hshape2, hnum2⟩ := hstep
    cases r with
    | some cfl => exact ⟨hInv2, hshape2, hnum2⟩
    | none =>
      have hsnap2 : ∀ cj ∈ rest, ∃ c, s2.clauses.get? cj = some c ∧ 2 ≤ c.length := by
        intro cj hcj
        obtain ⟨c, hcg, hcl⟩ := hsnap cj (List.mem_cons_of_mem ci hcj)
        have := hshape2.2 cj
        rw [hcg] at this
        rcases hg2 : s2.clauses.get? cj with _ | c2
        · rw [hg2] at this
          simp at this
        · rw [hg2] at this
          simp at this
          exact ⟨c2, rfl, by omega⟩
      obtain ⟨hInv3, hshape3, hnum3⟩ := ih s2 hsnap2 hInv2
      exact ⟨hInv3, sameShape_trans hshape2 hshape3, hnum3.trans hnum2⟩

theorem propTrailLoop_preserves (ai2 : Solver → Int → Nat → Solver)
    (hai2 : ∀ st l ci, (ai2 st l ci).assignment = updFn st.assignment (iabs l) (signVal l) ∧
      (ai2 st l ci).trail = st.trail ++ [l] ∧ (ai2 st l ci).numVars = st.numVars ∧
      (ai2 st l ci).clauses = st.clauses ∧ (ai2 st l ci).watches = st.watches) :
    ∀ (fuel : Nat) (s : Solver) (res : Option Nat × Solver),
      propTrailLoop ai2 fuel s = some res → PropInv s → PropInv res.2 := by
  intro fuel
  induction fuel with
  | zero => intro s res h _; simp [propTrailLoop] at h
  | succ f ih =>
    intro s res h hInv
    rw [propTrailLoop] at h
    by_cases hlt : s.propIndex < s.trail.length
    · rw [if_pos hlt] at h
      -- the processed literal is on the trail, hence its variable is in range
      obtain ⟨lit, hlitg⟩ : ∃ l, s.trail.get? s.propIndex = some l := by
        rw [List.get?_eq_getElem?, List.getElem?_eq_getElem hlt]
        exact ⟨_, rfl⟩
      have hlitm : lit ∈ s.trail := List.get?_mem hlitg
      have hvar : iabs lit ∈ intRange s.numVars := by
        have h1 : iabs lit ∈ s.trail.map iabs := List.mem_map_of_mem iabs hlitm
        have h2 : iabs lit ∈ assignedVars s := hInv.1.1.mem_iff.mp h1
        exact List.mem_of_mem_filter h2
      have hne : lit ≠ 0 := by
        intro h0
        rw [h0] at hvar
        rw [mem_intRange] at hvar
        simp [iabs] at hvar
      rw [hlitg] at h
      simp only [Option.getD_some] at h
      set s1 : Solver := { s with propIndex := s.propIndex + 1 } with hs1
      have hInv1 : PropInv s1 := hInv
      have hsnap : ∀ ci ∈ s1.watches (-lit), ∃ c, s1.clauses.get? ci = some c ∧ 2 ≤ c.length := by
        intro ci hci
        refine hInv1.2.2 (-lit) ?_ ci hci
        rw [mem_watchLits, iabs_neg]
        rw [mem_intRange] at hvar
        constructor
        · intro hz
          exact hne (by omega)
        · exact hvar.2
      have hpwl := processWatchList_preserves ai2 hai2 (-lit) (s1.watches (-lit)) s1 hsnap hInv1
      rcases hp : processWatchList ai2 (-lit) (s1.watches (-lit)) s1 with ⟨r, s2⟩
      rw [hp] at h hpwl
      cases r with
      | some cfl =>
        simp at h
        rw [← h]
        exact hpwl.1
      | none =>
        exact ih s2 res h hpwl.1
    · rw [if_neg hlt] at h
      simp at h
      rw [← h]
      exact hInv

theorem drainQueue_preserves (ai : Solver → Int → Solver)
    (hai : ∀ st l, (ai st l).assignment = updFn st.assignment (iabs l) (signVal l) ∧
      (ai st l).trail = st.trail ++ [l] ∧ (ai st l).numVars = st.numVars ∧
      (ai st l).clauses = st.clauses ∧ (ai st l).watches = st.watches) :
    ∀ (q : List Int) (s : Solver),
      (∀ l ∈ q, l ≠ 0 ∧ iabs l ≤ Int.ofNat s.numVars) →
      PropInv s →
      PropInv (drainQueue ai q s).2 ∧
      (drainQueue ai q s).2.clauses = s.clauses ∧
      (drainQueue ai q s).2.watches = s.watches ∧
      (drainQueue ai q s).2.numVars = s.numVars := by
  intro q
  induction q with
  | nil =>
    intro s hq hInv
    rw [drainQueue]
    exact ⟨hInv, rfl, rfl, rfl⟩
  | cons l rest ih =>
    intro s hq hInv
    rw [drainQueue]
    set s1 : Solver := { s with unitQueue := rest } with hs1
    have hInv1 : PropInv s1 := hInv
    by_cases ht : litIsTrue s1 l = true
    · rw [if_pos ht]
      exact ih s1 (fun m hm => hq m (List.mem_cons_of_mem l hm)) hInv1
    · rw [if_neg ht]
      by_cases hf : litIsFalse s1 l = true
      · rw [if_pos hf]
        exact ⟨hInv1, rfl, rfl, rfl⟩
      · rw [if_neg hf]
        obtain ⟨hl0, hlr⟩ := hq l (List.mem_cons_self l rest)
        obtain ⟨ha, htr, hn, hcl, hwt⟩ := hai s1 l
        have hv : iabs l ∈ intRange s1.numVars := by
          rw [mem_intRange]
          exact ⟨iabs_pos_of_ne_zero l hl0, hlr⟩
        have h0 : s1.assignment (iabs l) = 0 :=
          tc_guards_zero s1 l hInv1.1 hv (Bool.not_eq_true _ ▸ ht) (Bool.not_eq_true _ ▸ hf)
        have hInv2 : PropInv (ai s1 l) := by
          refine ⟨tc_extend s1 _ l ha htr hn hv h0 hInv1.1, ?_, ?_⟩
          · exact range_transport s1 _ hcl hn hInv1.2.1
          · exact watched_transport s1 _ hcl hwt hn hInv1.2.2
        obtain ⟨hI, hc2, hw2, hn2⟩ := ih (ai s1 l)
          (fun m hm => by
            obtain ⟨hm0, hmr⟩ := hq m (List.mem_cons_of_mem l hm)
            rw [hn]
            exact ⟨hm0, hmr⟩) hInv2
        exact ⟨hI, hc2.trans hcl, hw2.trans hwt, hn2.trans hn⟩

theorem cdclPropagate_preserves (fuel : Nat) (s : Solver) (res : Option Int × Solver)
    (h : cdclPropagate fuel s = some res)
    (hInv : PropInv s) (hq : QueueLitsInRange s) : PropInv res.2 := by
  rw [cdclPropagate] at h
  have hd := drainQueue_preserves (fun st l => assignInternalC st l 0 none)
    (fun st l => ⟨rfl, rfl, rfl, rfl, rfl⟩) s.unitQueue s (fun l hl => hq l hl) hInv
  rcases hdq : drainQueue (fun st l => assignInternalC st l 0 none) s.unitQueue s with ⟨ok, s1⟩
  rw [hdq] at h hd
  cases ok with
  | false =>
    simp at h
    rw [← h]
    exact hd.1
  | true =>
    have h2 : (match propTrailLoop
        (fun st l ci => assignInternalC st l (Int.ofNat s.decisions.length) (some ci)) fuel s1 with
      | none => none
      | some (some ci, s2) => some (some (Int.ofNat ci), s2)
      | some (none, s2) => some (none, s2)) = some res := h
    rcases hp : propTrailLoop
        (fun st l ci => assignInternalC st l (Int.ofNat s.decisions.length) (some ci)) fuel s1
      with _ | res2
    · rw [hp] at h2
      simp at h2
    · rw [hp] at h2
      have hres := propTrailLoop_preserves
        (fun st l ci => assignInternalC st l (Int.ofNat s.decisions.length) (some ci))
        (fun st l ci => ⟨rfl, rfl, rfl, rfl, rfl⟩) fuel s1 res2 hp hd.1
      rcases res2 with ⟨r2, s2⟩
      rcases r2 with _ | cfl
      · simp at h2
        rw [← h2]
        exact hres
      · simp at h2
        rw [← h2]
        exact hres

theorem dpllPropagate_preserves (fuel : Nat) (s : Solver) (res : Bool × Solver)
    (h : dpllPropagate fuel s = some res)
    (hInv : PropInv s) (hq : QueueLitsInRange s) : PropInv res.2 := by
  rw [dpllPropagate] at h
  have hd := drainQueue_preserves (fun st l => assign st l (signVal l))
    (fun st l => ⟨rfl, rfl, rfl, rfl, rfl⟩) s.unitQueue s (fun l hl => hq l hl) hInv
  rcases hdq : drainQueue (fun st l => assign st l (signVal l)) s.unitQueue s with ⟨ok, s1⟩
  rw [hdq] at h hd
  cases ok with
  | false =>
    simp at h
    rw [← h]
    exact hd.1
  | true =>
    have h2 : (match propTrailLoop (fun st l _ => assign st l (signVal l)) fuel s1 with
      | none => none
      | some (some _, s2) => some (false, s2)
      | some (none, s2) => some (true, s2)) = some res := h
    rcases hp : propTrailLoop (fun st l _ => assign st l (signVal l)) fuel s1 with _ | res2
    · rw [hp] at h2
      simp at h2
    · rw [hp] at h2
      have hres := propTrailLoop_preserves (fun st l _ => assign st l (signVal l))
        (fun st l ci => ⟨rfl, rfl, rfl, rfl, rfl⟩) fuel s1 res2 hp hd.1
      rcases res2 with ⟨r2, s2⟩
      rcases r2 with _ | cfl
      · simp at h2
        rw [← h2]
        exact hres
      · simp at h2
        rw [← h2]
        exact hres

theorem initLoop_clauses : ∀ (cs : List (List Int)) (ci : Nat) (s : Solver),
    (initClausesLoop cs ci s).clauses = s.clauses := by
  intro cs
  induction cs with
  | nil => intro ci s; simp [initClausesLoop]
  | cons c rest ih =>
    intro ci s
    match c with
    | [] => simpa [initClausesLoop] using ih (ci + 1) _
    | [l] => simpa [initClausesLoop] using ih (ci + 1) _
    | l1 :: l2 :: tl => simpa [initClausesLoop] using ih (ci + 1) _

theorem initLoop_watches_valid : ∀ (cs : List (List Int)) (ci : Nat) (s : Solver),
    (∀ lit : Int, ∀ cj ∈ s.watches lit, ∃ c, s.clauses.get? cj = some c ∧ 2 ≤ c.length) →
    (∀ k : Nat, k < cs.length → s.clauses.get? (ci + k) = cs.get? k) →
    ∀ lit : Int, ∀ cj ∈ (initClausesLoop cs ci s).watches lit,
      ∃ c, (initClausesLoop cs ci s).clauses.get? cj = some c ∧ 2 ≤ c.length := by
  intro cs
  induction cs with
  | nil =>
    intro ci s hw _ lit cj hcj
    rw [initClausesLoop] at hcj ⊢
    exact hw lit cj hcj
  | cons c rest ih =>
    intro ci s hw halign lit cj hcj
    match c with
    | [] =>
      refine ih (ci + 1) { s with unitQueue := s.unitQueue ++ [1, -1] } hw ?_ lit cj
        (by simpa [initClausesLoop] using hcj)
      intro k hk
      have := halign (k + 1) (by simpa using Nat.succ_lt_succ hk)
      simpa [Nat.add_assoc, Nat.add_comm 1 k] using this
    | [l] =>
      refine ih (ci + 1) { s with unitQueue := s.unitQueue ++ [l] } hw ?_ lit cj
        (by simpa [initClausesLoop] using hcj)
      intro k hk
      have := halign (k + 1) (by simpa using Nat.succ_lt_succ hk)
      simpa [Nat.add_assoc, Nat.add_comm 1 k] using this
    | l1 :: l2 :: tl =>
      have hthis : s.clauses.get? ci = some (l1 :: l2 :: tl) := by
        have := halign 0 (by simp)
        simpa using this
      refine ih (ci + 1)
        { s with watches := addWatch (addWatch s.watches l1 ci) l2 ci } ?_ ?_ lit cj
        (by simpa [initClausesLoop] using hcj)
      · intro lit2 cj2 hcj2
        simp only [addWatch] at hcj2
        have hstep : cj2 ∈ s.watches lit2 ∨ cj2 = ci := by
          by_cases h1 : lit2 = l2
          · rw [if_pos h1] at hcj2
            rcases List.mem_append.mp hcj2 with hm | hm
            · by_cases h2 : lit2 = l1
              · rw [if_pos h2] at hm
                rcases List.mem_append.mp hm with hm2 | hm2
                · exact Or.inl hm2
                · simp at hm2
                  exact Or.inr hm2
              · rw [if_neg h2] at hm
                exact Or.inl hm
            · simp at hm
              exact Or.inr hm
          · rw [if_neg h1] at hcj2
            by_cases h2 : lit2 = l1
            · rw [if_pos h2] at hcj2
              rcases List.mem_append.mp hcj2 with hm | hm
              · exact Or.inl hm
              · simp at hm
                exact Or.inr hm
            · rw [if_neg h2] at hcj2
              exact Or.inl hcj2
        rcases hstep with hm | rfl
        · exact hw lit2 cj2 hm
        · exact ⟨l1 :: l2 :: tl, hthis, by simp⟩
      · intro k hk
        have := halign (k + 1) (by simpa using Nat.succ_lt_succ hk)
        simpa [Nat.add_assoc, Nat.add_comm 1 k] using this

theorem initLoop_queue_valid (P : Int → Prop) : ∀ (cs : List (List Int)) (ci : Nat) (s : Solver),
    (∀ l ∈ s.unitQueue, P l) → P 1 → P (-1) →
    (∀ c ∈ cs, ∀ l ∈ c, P l) →
    ∀ l ∈ (initClausesLoop cs ci s).unitQueue, P l := by
  intro cs
  induction cs with
  | nil =>
    intro ci s hq _ _ _ l hl
    rw [initClausesLoop] at hl
    exact hq l hl
  | cons c rest ih =>
    intro ci s hq h1 hm1 hcs l hl
    match c with
    | [] =>
      refine ih (ci + 1) _ ?_ h1 hm1 (fun c2 hc2 => hcs c2 (List.mem_cons_of_mem _ hc2)) l
        (by simpa [initClausesLoop] using hl)
      intro m hm
      simp at hm
      rcases hm with hm | hm | hm
      · exact hq m hm
      · exact hm ▸ h1
      · exact hm ▸ hm1
    | [x] =>
      refine ih (ci + 1) _ ?_ h1 hm1 (fun c2 hc2 => hcs c2 (List.mem_cons_of_mem _ hc2)) l
        (by simpa [initClausesLoop] using hl)
      intro m hm
      simp at hm
      rcases hm with hm | hm
      · exact hq m hm
      · exact hm ▸ hcs [x] (List.mem_cons_self _ _) x (by simp)
    | l1 :: l2 :: tl =>
      exact ih (ci + 1) { s with watches := addWatch (addWatch s.watches l1 ci) l2 ci }
        hq h1 hm1 (fun c2 hc2 => hcs c2 (List.mem_cons_of_mem _ hc2)) l
        (by simpa [initClausesLoop] using hl)

theorem mkSolver_propInv (clauses : List (List Int)) (numVars : Nat)
    (hr : clausesInRange clauses numVars = true) (hn : 1 ≤ numVars) :
    PropInv (mkSolver clauses numVars) ∧ QueueLitsInRange (mkSolver clauses numVars) := by
  have hf := initLoop_fields clauses 0
  have hcl : (mkSolver clauses numVars).clauses = clauses := by
    simp only [mkSolver]
    exact initLoop_clauses clauses 0 _
  have hnv : (mkSolver clauses numVars).numVars = numVars := by
    simp only [mkSolver]
    exact (hf _).2.2.2
  have hrp : ∀ c ∈ clauses, ∀ l ∈ c, l ≠ 0 ∧ iabs l ≤ Int.ofNat numVars := by
    intro c hcm l hl
    simp only [clausesInRange, List.all_eq_true, Bool.and_eq_true, bne_iff_ne,
      decide_eq_true_eq] at hr
    exact hr c hcm l hl
  refine ⟨⟨mkSolver_tc clauses numVars, ?_, ?_⟩, ?_⟩
  · intro c hcm l hl
    rw [hcl] at hcm
    rw [hnv]
    exact hrp c hcm l hl
  · intro lit _ cj hcj
    have hmain := initLoop_watches_valid clauses 0
      { numVars := numVars, clauses := clauses, assignment := fun _ => 0, trail := [],
        decisions := [], levelStart := [], watches := fun _ => [], propIndex := 0,
        unitQueue := [], reasonOf := fun _ => none, levelOf := fun _ => -1 }
      (fun lit2 cj2 hcj2 => by simp at hcj2)
      (fun k hk => by simp)
      lit cj hcj
    exact hmain
  · intro l hl
    rw [hnv]
    refine initLoop_queue_valid (fun m => m ≠ 0 ∧ iabs m ≤ Int.ofNat numVars) clauses 0 _
      (fun m hm => by simp at hm) ?_ ?_ hrp l hl
    · constructor
      · decide
      · simp [iabs]
        omega
    · constructor
      · decide
      · simp [iabs]
        omega

/-- C7: confirmed.  Trail consistency — the assigned variables are exactly
the variables on the trail, each exactly once with matching sign, so the
trail length is the count of assigned variables — holds of the freshly
constructed solver and is preserved by every operation `solve` performs, at
its call sites: `assign` (with the value `signVal lit` it is always called
with, on an unassigned in-range variable), `CDCL._assign_internal`, both
`push_decision_level`s, the pop-and-unassign loops of `backtrack` and
`backjump` (for both `unassign` overrides), `DPLL.backtrack` (given in-range
decision variables, aligned stacks, and each decision variable sitting at or
after its recorded level start), `CDCL.backjump` (given the asserting
variable does not survive in the kept trail prefix), and both `propagate`s
(given the propagation well-formedness invariant). -/
theorem c7_trail_consistency :
    (∀ (clauses : List (List Int)) (numVars : Nat),
      TrailConsistent (mkSolver clauses numVars)) ∧
    (∀ (s : Solver) (lit : Int), iabs lit ∈ intRange s.numVars →
      s.assignment (iabs lit) = 0 → TrailConsistent s →
      TrailConsistent (assign s lit (signVal lit))) ∧
    (∀ (s : Solver) (lit level : Int) (reason : Option Nat),
      iabs lit ∈ intRange s.numVars → s.assignment (iabs lit) = 0 →
      TrailConsistent s → TrailConsistent (assignInternalC s lit level reason)) ∧
    (∀ (s : Solver) (lit : Int), iabs lit ∈ intRange s.numVars →
      s.assignment (iabs lit) = 0 → TrailConsistent s →
      TrailConsistent (cdclPushDecision s lit)) ∧
    (∀ (s : Solver) (lit : Int), iabs lit ∈ intRange s.numVars →
      s.assignment (iabs lit) = 0 → TrailConsistent s →
      TrailConsistent (dpllPushDecision s lit)) ∧
    (∀ (fuel target : Nat) (s : Solver), TrailConsistent s →
      TrailConsistent (popTrailLoop unassignBase fuel target s)) ∧
    (∀ (fuel target : Nat) (s : Solver), TrailConsistent s →
      TrailConsistent (popTrailLoop unassignCDCL fuel target s)) ∧
    (∀ (fuel : Nat) (s : Solver) (flag : Bool) (s2 : Solver), TrailConsistent s →
      (∀ d ∈ s.decisions, 1 ≤ d.1 ∧ d.1 ≤ Int.ofNat s.numVars) →
      s.decisions.length = s.levelStart.length →
      (∀ k ∈ List.range s.decisions.length,
        ∀ l ∈ s.trail.take ((s.levelStart.get? k).getD 0),
          iabs l ≠ ((s.decisions.get? k).getD (0, true)).1) →
      dpllBacktrack fuel s = some (flag, s2) → TrailConsistent s2) ∧
    (∀ (s : Solver) (bjLevel : Int) (learntCi : Nat) (assertingLit : Int) (s2 : Solver),
      TrailConsistent s → iabs assertingLit ∈ intRange s.numVars →
      (∀ l ∈ s.trail.take ((bjTarget s bjLevel).getD 0), iabs l ≠ iabs assertingLit) →
      cdclBackjump s bjLevel learntCi assertingLit = some s2 → TrailConsistent s2) ∧
    (∀ (fuel : Nat) (s : Solver) (res : Option Int × Solver),
      cdclPropagate fuel s = some res → PropInv s → QueueLitsInRange s →
      TrailConsistent res.2) ∧
    (∀ (fuel : Nat) (s : Solver) (res : Bool × Solver),
      dpllPropagate fuel s = some res → PropInv s → QueueLitsInRange s →
      TrailConsistent res.2) := by
  refine ⟨mkSolver_tc, ?_, ?_, ?_, ?_, ?_, ?_, ?_, ?_, ?_, ?_⟩
  · intro s lit hv h0 hTC
    exact tc_extend s _ lit rfl rfl rfl hv h0 hTC
  · intro s lit level reason hv h0 hTC
    exact assignInternalC_tc s lit level reason hv h0 hTC
  · intro s lit hv h0 hTC
    exact cdclPushDecision_tc s lit hv h0 hTC
  · intro s lit hv h0 hTC
    exact dpllPushDecision_tc s lit hv h0 hTC
  · intro fuel target s hTC
    exact popTrailLoop_tc unassignBase (fun st v _ => unassignBase_proj st v) fuel target s hTC
  · intro fuel target s hTC
    exact popTrailLoop_tc unassignCDCL (fun st v h => unassignCDCL_proj st v h) fuel target s hTC
  · intro fuel s flag s2 hTC hvars hlen hfresh hb
    refine dpllBacktrack_tc fuel s flag s2 hTC hvars hlen ?_ hb
    intro k d lsi hk1 hk2 l hl
    have hkr : k ∈ List.range s.decisions.length :=
      List.mem_range.mpr (get?_lt_length _ _ _ hk1)
    have := hfresh k hkr l (by rw [hk2]; exact hl)
    rw [hk1] at this
    exact this
  · intro s bjLevel learntCi assertingLit s2 hTC hv hfresh hb
    refine cdclBackjump_tc s bjLevel learntCi assertingLit s2 hTC hv ?_ hb
    intro tgt htgt l hl
    refine hfresh l ?_
    rw [htgt]
    exact hl
  · intro fuel s res h hInv hq
    exact (cdclPropagate_preserves fuel s res h hInv hq).1
  · intro fuel s res h hInv hq
    exact (dpllPropagate_preserves fuel s res h hInv hq).1

/-- Witness instantiating every hypothesis-carrying conjunct of the trail
consistency theorem on concrete reachable states. -/
theorem c7_witness :
    TrailConsistent (assign (mkSolver cnfBug 5) 4 (signVal 4)) ∧
    TrailConsistent (assignInternalC bugS1 5 1 (some 3)) ∧
    TrailConsistent (cdclPushDecision bugS1 1) ∧
    TrailConsistent (dpllPushDecision bugS1 1) ∧
    TrailConsistent (popTrailLoop unassignBase bugS5.trail.length 1 bugS5) ∧
    TrailConsistent (popTrailLoop unassignCDCL bugS5.trail.length 0 bugS5) ∧
    TrailConsistent
      ((dpllBacktrack 2 (dpllPushDecision (mkSolver [[1, 2]] 2) 1)).getD
        (false, mkSolver [[1, 2]] 2)).2 ∧
    TrailConsistent bugS7 ∧
    TrailConsistent bugS3 ∧
    TrailConsistent
      ((dpllPropagate 10 (mkSolver [[1, 2]] 2)).getD (false, mkSolver [[1, 2]] 2)).2 := by
  refine ⟨?_, ?_, ?_, ?_, ?_, ?_, ?_, ?_, ?_, ?_⟩
  · exact c7_trail_consistency.2.1 (mkSolver cnfBug 5) 4 (by decide) (by decide) (by decide)
  · exact c7_trail_consistency.2.2.1 bugS1 5 1 (some 3) (by decide) (by decide) (by decide)
  · exact c7_trail_consistency.2.2.2.1 bugS1 1 (by decide) (by decide) (by decide)
  · exact c7_trail_consistency.2.2.2.2.1 bugS1 1 (by decide) (by decide) (by decide)
  · exact c7_trail_consistency.2.2.2.2.2.1 bugS5.trail.length 1 bugS5 (by decide)
  · exact c7_trail_consistency.2.2.2.2.2.2.1 bugS5.trail.length 0 bugS5 (by decide)
  · exact c7_trail_consistency.2.2.2.2.2.2.2.1 2 (dpllPushDecision (mkSolver [[1, 2]] 2) 1)
      true _ (by decide) (by decide) (by decide) (by decide) rfl
  · exact c7_trail_consistency.2.2.2.2.2.2.2.2.1 bugS6 0 5 (-2) bugS7 (by decide) (by decide)
      (by decide) rfl
  · exact c7_trail_consistency.2.2.2.2.2.2.2.2.2.1 100 bugS2 (none, bugS3) rfl (by decide)
      (by decide)
  · exact c7_trail_consistency.2.2.2.2.2.2.2.2.2.2 10 (mkSolver [[1, 2]] 2)
      (true, mkSolver [[1, 2]] 2) rfl (by decide) (by decide)

/-- Membership in a set-model insertion. -/
theorem mem_setAdd {l : List Int} {x y : Int} : y ∈ setAdd l x ↔ y ∈ l ∨ y = x := by
  unfold setAdd
  by_cases h : x ∈ l
  · have hc : l.contains x = true := by simpa using h
    simp only [hc, if_true]
    constructor
    · exact Or.inl
    · rintro (hy | rfl) <;> assumption
  · have hc : l.contains x = false := by simpa using h
    simp only [hc, if_false]
    simp

/-- Set-model insertion keeps lists duplicate-free. -/
theorem nodup_setAdd {l : List Int} {x : Int} (h : l.Nodup) : (setAdd l x).Nodup := by
  unfold setAdd
  by_cases hm : x ∈ l
  · have hc : l.contains x = true := by simpa using hm
    simp only [hc, if_true]
    exact h
  · have hc : l.contains x = false := by simpa using hm
    simp only [hc, if_false]
    refine List.Nodup.append h (List.nodup_singleton x) ?_
    intro a ha hb
    simp only [List.mem_singleton] at hb
    subst hb
    exact hm ha

/-- Set-model insertion never empties a list. -/
theorem setAdd_ne_nil {l : List Int} {x : Int} (h : l ≠ []) : setAdd l x ≠ [] := by
  unfold setAdd
  by_cases hm : x ∈ l
  · have hc : l.contains x = true := by simpa using hm
    simp only [hc, if_true]
    exact h
  · have hc : l.contains x = false := by simpa using hm
    simp only [hc, if_false]
    simp

/-- Membership in a set-model removal. -/
theorem mem_setRemove {l : List Int} {x y : Int} : y ∈ setRemove l x ↔ y ∈ l ∧ y ≠ x := by
  unfold setRemove
  simp [List.mem_filter]

/-- Set-model removal keeps lists duplicate-free. -/
theorem nodup_setRemove {l : List Int} {x : Int} (h : l.Nodup) : (setRemove l x).Nodup :=
  List.Nodup.filter _ h

/-- An empty set-model removal means all elements equalled the removed one. -/
theorem setRemove_isEmpty {l : List Int} {x : Int} (h : (setRemove l x).isEmpty = true) :
    ∀ y ∈ l, y = x := by
  intro y hy
  by_contra hne
  have hmem : y ∈ setRemove l x := mem_setRemove.mpr ⟨hy, hne⟩
  rw [List.isEmpty_iff] at h
  simp [h] at hmem

/-- `set(l)` has the same members as `l`. -/
theorem mem_pySetOfList {l : List Int} {y : Int} : y ∈ pySetOfList l ↔ y ∈ l := by
  unfold pySetOfList
  have main : ∀ (l : List Int) (acc : List Int), y ∈ l.foldl setAdd acc ↔ y ∈ acc ∨ y ∈ l := by
    intro l
    induction l with
    | nil => intro acc; simp
    | cons a t ih =>
      intro acc
      simp only [List.foldl_cons, ih, mem_setAdd, List.mem_cons]
      tauto
  simpa using main l []

/-- A sum of point-masks over an interval containing the point. -/
theorem sum_mask_range {k : Nat} (c : Nat) :
    ∀ n : Nat, k < n → ((List.range n).map (fun i => if k = i then c else 0)).sum = c := by
  intro n
  induction n with
  | zero => intro h; omega
  | succ m ih =>
    intro h
    rw [List.range_succ, List.map_append, List.sum_append]
    by_cases hk : k = m
    · subst hk
      have hz : ((List.range k).map (fun i => if k = i then c else 0)).sum = 0 := by
        apply List.sum_eq_zero
        intro x hx
        rw [List.mem_map] at hx
        obtain ⟨i, hi, hxe⟩ := hx
        rw [List.mem_range] at hi
        rw [if_neg (by omega)] at hxe
        exact hxe.symm
      rw [hz]
      simp
    · rw [ih (by omega)]
      simp [hk]

/-- Hash-slot iteration is a permutation of the underlying list. -/
theorem pySetList_perm (l : List Int) : (pySetList l).Perm l := by
  rw [List.perm_iff_count]
  intro a
  unfold pySetList
  rw [List.count_flatten, List.map_map]
  have hslot : pySlot a < 8 := by
    unfold pySlot pyHash
    have h2 := Int.emod_lt_of_pos (if a == -1 then -2 else a) (by norm_num : (0:Int) < 8)
    have h3 := Int.emod_nonneg (if a == -1 then -2 else a) (by norm_num : (8:Int) ≠ 0)
    omega
  have hcf : ∀ slot : Nat, (List.count a ∘ fun slot => l.filter (fun v => pySlot v == slot)) slot =
      if pySlot a = slot then List.count a l else 0 := by
    intro slot
    simp only [Function.comp_apply]
    by_cases h : pySlot a = slot
    · rw [if_pos h]
      exact List.count_filter (by simpa using h)
    · rw [if_neg h, List.count_eq_zero]
      intro hm
      rw [List.mem_filter] at hm
      have := hm.2
      simp at this
      exact h this
  rw [List.map_congr_left (fun slot _ => hcf slot)]
  exact sum_mask_range (List.count a l) 8 hslot

/-- The level fold over an appended literal is the running `max` that
`analyze_conflict` keeps. -/
theorem maxLevelOf_append (s : Solver) (l : List Int) (x : Int) :
    maxLevelOf s (l ++ [x]) = max (maxLevelOf s l) (s.levelOf (iabs x)) := by
  unfold maxLevelOf
  rw [List.map_append, List.foldl_append]
  simp

/-- Every member's level is bounded by the level fold. -/
theorem le_maxLevelOf_of_mem {s : Solver} {l : List Int} {x : Int} (h : x ∈ l) :
    s.levelOf (iabs x) ≤ maxLevelOf s l := by
  unfold maxLevelOf
  have main : ∀ (m : List Int) (a : Int), x ∈ m →
      s.levelOf (iabs x) ≤ (m.map (fun l => s.levelOf (iabs l))).foldl max a := by
    intro m
    induction m with
    | nil => intro a h; simp at h
    | cons b t ih =>
      intro a h
      rw [List.mem_cons] at h
      rcases h with rfl | h
      · simp only [List.map_cons, List.foldl_cons]
        have : ∀ (t2 : List Int) (a2 : Int), a2 ≤ (t2.map (fun l => s.levelOf (iabs l))).foldl max a2 := by
          intro t2
          induction t2 with
          | nil => intro a2; simp
          | cons c u ihu =>
            intro a2
            simp only [List.map_cons, List.foldl_cons]
            exact le_trans (le_max_left a2 _) (ihu _)
        exact le_trans (le_max_right a _) (this t _)
      · exact ih _ h
  exact main l 0 h

/-- The level fold only depends on the multiset of literals. -/
theorem maxLevelOf_perm {s : Solver} {l1 l2 : List Int} (h : l1.Perm l2) :
    maxLevelOf s l1 = maxLevelOf s l2 := by
  unfold maxLevelOf
  exact (h.map _).foldl_eq 0

/-- Inserting a present element leaves the set model unchanged. -/
theorem setAdd_eq_of_mem {l : List Int} {x : Int} (h : x ∈ l) : setAdd l x = l := by
  unfold setAdd
  have hc : l.contains x = true := by simpa using h
  simp only [hc, if_true]

/-- Inserting a fresh element appends it. -/
theorem setAdd_eq_append {l : List Int} {x : Int} (h : x ∉ l) : setAdd l x = l ++ [x] := by
  unfold setAdd
  have hc : l.contains x = false := by simpa using h
  simp only [hc, Bool.false_eq_true, if_false]

/-- What the conflict-clause partitioning loop of `analyze_conflict`
guarantees, for any predicate `PInf` on current-level variables and `PLrn` on
lower-level literals satisfied by the input: it holds of the produced
inflight variables and learnt literals, the running backjump level stays the
level fold of the learnt list, inflight stays duplicate-free, inflight only
grows, and every current-level input literal's variable ends up inflight. -/
theorem analyzeInit_spec (s : Solver) (cur : Int) (PInf PLrn : Int → Prop) :
    ∀ (ls : List Int) (acc : AnalyzeAcc),
    (∀ m ∈ ls, (s.levelOf (iabs m) = cur → PInf (iabs m)) ∧
       (s.levelOf (iabs m) ≠ cur → PLrn m)) →
    (∀ v ∈ acc.inflight, PInf v) →
    acc.inflight.Nodup →
    (∀ l ∈ acc.learnt, PLrn l) →
    acc.bj = maxLevelOf s acc.learnt →
    (∀ v ∈ (analyzeInit s cur ls acc).inflight, PInf v) ∧
    (analyzeInit s cur ls acc).inflight.Nodup ∧
    (∀ l ∈ (analyzeInit s cur ls acc).learnt, PLrn l) ∧
    (analyzeInit s cur ls acc).bj = maxLevelOf s (analyzeInit s cur ls acc).learnt ∧
    (∀ v ∈ acc.inflight, v ∈ (analyzeInit s cur ls acc).inflight) ∧
    (∀ m ∈ ls, s.levelOf (iabs m) = cur → iabs m ∈ (analyzeInit s cur ls acc).inflight) := by
  intro ls
  induction ls with
  | nil =>
    intro acc hls hInf hNd hLrn hBj
    refine ⟨hInf, hNd, hLrn, hBj, fun v hv => hv, fun m hm => absurd hm (List.not_mem_nil m)⟩
  | cons a rest ih =>
    intro acc hls hInf hNd hLrn hBj
    have hhead := hls a (List.mem_cons_self a rest)
    have hrest : ∀ m ∈ rest, (s.levelOf (iabs m) = cur → PInf (iabs m)) ∧
        (s.levelOf (iabs m) ≠ cur → PLrn m) := fun m hm => hls m (List.mem_cons_of_mem a hm)
    by_cases hlev : s.levelOf (iabs a) = cur
    · have hbeq : (s.levelOf (iabs a) == cur) = true := by simpa using hlev
      simp only [analyzeInit, hbeq, if_true]
      obtain ⟨h1, h2, h3, h4, h5, h6⟩ := ih
        { acc with seen := setAdd acc.seen (iabs a), inflight := setAdd acc.inflight (iabs a) }
        hrest
        (by
          intro v hv
          rcases mem_setAdd.mp hv with hv | rfl
          · exact hInf v hv
          · exact hhead.1 hlev)
        (nodup_setAdd hNd) hLrn hBj
      refine ⟨h1, h2, h3, h4, ?_, ?_⟩
      · intro v hv
        exact h5 v (mem_setAdd.mpr (Or.inl hv))
      · intro m hm hmc
        rcases List.mem_cons.mp hm with rfl | hm
        · exact h5 (iabs m) (mem_setAdd.mpr (Or.inr rfl))
        · exact h6 m hm hmc
    · have hbeq : (s.levelOf (iabs a) == cur) = false := by simpa using hlev
      simp only [analyzeInit, hbeq, if_false, Bool.false_eq_true]
      obtain ⟨h1, h2, h3, h4, h5, h6⟩ := ih
        { acc with seen := setAdd acc.seen (iabs a), learnt := setAdd acc.learnt a
                   bj := max acc.bj (s.levelOf (iabs a)) }
        hrest hInf hNd
        (by
          intro l hl
          rcases mem_setAdd.mp hl with hl | rfl
          · exact hLrn l hl
          · exact hhead.2 hlev)
        (by
          by_cases hmem : a ∈ acc.learnt
          · rw [setAdd_eq_of_mem hmem, hBj]
            exact max_eq_left (le_maxLevelOf_of_mem hmem)
          · rw [setAdd_eq_append hmem, maxLevelOf_append, hBj])
      exact ⟨h1, h2, h3, h4, h5, fun m hm hmc => by
        rcases List.mem_cons.mp hm with rfl | hm
        · exact absurd hmc hlev
        · exact h6 m hm hmc⟩

/-- What the reason-clause resolution loop of `analyze_conflict` guarantees,
for any predicates `PInf`/`PLrn` satisfied by the non-pivot literals of the
reason clause: inflight variables keep satisfying `PInf`, stay
duplicate-free and nonempty, learnt literals keep satisfying `PLrn`, and the
running backjump level stays the level fold of the learnt list. -/
theorem analyzeReason_spec (s : Solver) (cur : Int) (pivotVar : Int) (PInf PLrn : Int → Prop) :
    ∀ (rl : List Int) (acc : AnalyzeAcc),
    (∀ m ∈ rl, iabs m ≠ pivotVar →
       (s.levelOf (iabs m) = cur → PInf (iabs m)) ∧ (s.levelOf (iabs m) ≠ cur → PLrn m)) →
    (∀ v ∈ acc.inflight, PInf v) →
    acc.inflight.Nodup →
    acc.inflight ≠ [] →
    (∀ l ∈ acc.learnt, PLrn l) →
    acc.bj = maxLevelOf s acc.learnt →
    (∀ v ∈ (analyzeReason s cur pivotVar rl acc).inflight, PInf v) ∧
    (analyzeReason s cur pivotVar rl acc).inflight.Nodup ∧
    (analyzeReason s cur pivotVar rl acc).inflight ≠ [] ∧
    (∀ l ∈ (analyzeReason s cur pivotVar rl acc).learnt, PLrn l) ∧
    (analyzeReason s cur pivotVar rl acc).bj =
      maxLevelOf s (analyzeReason s cur pivotVar rl acc).learnt := by
  intro rl
  induction rl with
  | nil =>
    intro acc hls hInf hNd hNe hLrn hBj
    exact ⟨hInf, hNd, hNe, hLrn, hBj⟩
  | cons a rest ih =>
    intro acc hls hInf hNd hNe hLrn hBj
    have hrest : ∀ m ∈ rest, iabs m ≠ pivotVar →
        (s.levelOf (iabs m) = cur → PInf (iabs m)) ∧ (s.levelOf (iabs m) ≠ cur → PLrn m) :=
      fun m hm => hls m (List.mem_cons_of_mem a hm)
    by_cases hpv : iabs a = pivotVar
    · have hbeq : (iabs a == pivotVar) = true := by simpa using hpv
      simp only [analyzeReason, hbeq, if_true]
      exact ih acc hrest hInf hNd hNe hLrn hBj
    · have hbeq : (iabs a == pivotVar) = false := by simpa using hpv
      have hhead := hls a (List.mem_cons_self a rest) hpv
      by_cases hseen : acc.seen.contains (iabs a)
      · simp only [analyzeReason, hbeq, if_false, Bool.false_eq_true, hseen, if_true]
        exact ih acc hrest hInf hNd hNe hLrn hBj
      · have hseenf : acc.seen.contains (iabs a) = false := by
          simpa using hseen
        by_cases hlev : s.levelOf (iabs a) = cur
        · have hbeq2 : (s.levelOf (iabs a) == cur) = true := by simpa using hlev
          simp only [analyzeReason, hbeq, if_false, Bool.false_eq_true, hseenf, hbeq2, if_true]
          exact ih
            { acc with seen := acc.seen ++ [iabs a], inflight := setAdd acc.inflight (iabs a) }
            hrest
            (by
              intro v hv
              rcases mem_setAdd.mp hv with hv | rfl
              · exact hInf v hv
              · exact hhead.1 hlev)
            (nodup_setAdd hNd) (setAdd_ne_nil hNe) hLrn hBj
        · have hbeq2 : (s.levelOf (iabs a) == cur) = false := by simpa using hlev
          simp only [analyzeReason, hbeq, if_false, Bool.false_eq_true, hseenf, hbeq2]
          exact ih
            { acc with seen := acc.seen ++ [iabs a], learnt := setAdd acc.learnt a
                       bj := max acc.bj (s.levelOf (iabs a)) }
            hrest hInf hNd hNe
            (by
              intro l hl
              rcases mem_setAdd.mp hl with hl | rfl
              · exact hLrn l hl
              · exact hhead.2 hlev)
            (by
              by_cases hmem : a ∈ acc.learnt
              · rw [setAdd_eq_of_mem hmem, hBj]
                exact max_eq_left (le_maxLevelOf_of_mem hmem)
              · rw [setAdd_eq_append hmem, maxLevelOf_append, hBj])

/-- Distinct trail positions carry distinct variables (from trail
consistency). -/
theorem trail_pos_unique (s : Solver) (htc : TrailConsistent s) :
    ∀ q1 q2 : Nat, q1 < s.trail.length → q2 < s.trail.length →
    iabs (trailAt s q1) = iabs (trailAt s q2) → q1 = q2 := by
  have hnodup : (s.trail.map iabs).Nodup :=
    (htc.1.nodup_iff).mpr (List.Nodup.filter _ (intRange_nodup s.numVars))
  intro q1 q2 h1 h2 heq
  apply List.get?_inj (by simpa using h1) hnodup
  rw [List.get?_map, List.get?_map]
  obtain ⟨l1, hl1⟩ : ∃ l1, s.trail.get? q1 = some l1 := by
    rw [List.get?_eq_get h1]; exact ⟨_, rfl⟩
  obtain ⟨l2, hl2⟩ : ∃ l2, s.trail.get? q2 = some l2 := by
    rw [List.get?_eq_get h2]; exact ⟨_, rfl⟩
  unfold trailAt at heq
  rw [hl1, hl2] at heq ⊢
  simp only [Option.getD_some] at heq
  simp [heq]

/-- The backward walk of `analyze_conflict`, under the conflict-state facts:
it terminates successfully at a current-level trail position whose negated
literal it returns as the asserting literal, the learnt literals all sit at
levels in `[0, current)`, and the returned backjump level is their level
fold. -/
theorem analyzeWalk_spec (s : Solver) (cur : Int) (lsIdx : Nat)
    (htc : TrailConsistent s) (hclr : ClauseLitsInRange s)
    (hlev : ∀ v ∈ assignedVars s, 0 ≤ s.levelOf v ∧ s.levelOf v ≤ cur)
    (halign : ∀ p, p < s.trail.length →
      (s.levelOf (iabs (trailAt s p)) = cur ↔ lsIdx ≤ p))
    (hreason : ∀ p, p < s.trail.length → lsIdx < p →
      ∃ rci, rci < s.clauses.length ∧
        s.reasonOf (iabs (trailAt s p)) = some rci ∧
        trailAt s p ∈ (s.clauses.get? rci).getD [] ∧
        ∀ m ∈ (s.clauses.get? rci).getD [], iabs m ≠ iabs (trailAt s p) →
          litIsFalse s m = true ∧ ∃ q, q < p ∧ iabs (trailAt s q) = iabs m) :
    ∀ (fuel t : Nat) (acc : AnalyzeAcc),
    t + 1 ≤ fuel → lsIdx ≤ t → t < s.trail.length →
    acc.inflight ≠ [] → acc.inflight.Nodup →
    (∀ v ∈ acc.inflight, s.levelOf v = cur ∧ ∃ q, q ≤ t ∧ iabs (trailAt s q) = v) →
    (∀ l ∈ acc.learnt, 0 ≤ s.levelOf (iabs l) ∧ s.levelOf (iabs l) < cur) →
    acc.bj = maxLevelOf s acc.learnt →
    ∃ p, lsIdx ≤ p ∧ p < s.trail.length ∧
    ∃ learnt2,
      analyzeWalk s cur fuel (Int.ofNat t) acc =
        some (-(trailAt s p), learnt2, maxLevelOf s learnt2) ∧
      ∀ l ∈ learnt2, 0 ≤ s.levelOf (iabs l) ∧ s.levelOf (iabs l) < cur := by
  intro fuel
  induction fuel with
  | zero =>
    intro t acc hfuel
    omega
  | succ f ih =>
    intro t acc hfuel hls ht hne hnd hW3 hW4 hBj
    have h0 : ¬(Int.ofNat t < 0) := by
      simp only [Int.ofNat_eq_coe]
      omega
    have htn : (Int.ofNat t).toNat = t := rfl
    obtain ⟨lit, hlit⟩ : ∃ lit, s.trail.get? t = some lit := by
      rw [List.get?_eq_get ht]; exact ⟨_, rfl⟩
    have htat : trailAt s t = lit := by
      unfold trailAt
      rw [hlit]
      rfl
    have hWpos : ∀ w ∈ acc.inflight, ∃ q, lsIdx ≤ q ∧ q ≤ t ∧ iabs (trailAt s q) = w := by
      intro w hw
      obtain ⟨hwl, q, hq, hqw⟩ := hW3 w hw
      refine ⟨q, ?_, hq, hqw⟩
      exact (halign q (lt_of_le_of_lt hq ht)).mp (by rw [hqw]; exact hwl)
    by_cases hin : iabs lit ∈ acc.inflight
    · -- head variable is inflight
      have hinb : acc.inflight.contains (iabs lit) = true := by simpa using hin
      by_cases hemp : (setRemove acc.inflight (iabs lit)).isEmpty = true
      · -- inflight emptied: the walk stops here
        have hlst : lsIdx ≤ t :=
          (halign t ht).mp (by rw [htat]; exact (hW3 (iabs lit) hin).1)
        refine ⟨t, hlst, ht, acc.learnt, ?_, hW4⟩
        simp only [analyzeWalk, h0, if_false, htn, hlit, hinb, Bool.not_true,
          Bool.false_eq_true, hemp, if_true, htat, hBj]
      · -- resolve with the reason clause and continue
        have hempf : (setRemove acc.inflight (iabs lit)).isEmpty = false := by
          simpa using hemp
        have hlst : lsIdx < t := by
          by_contra hcon
          have hall : ∀ w ∈ acc.inflight, w = iabs lit := by
            intro w hw
            obtain ⟨q, hq1, hq2, hq3⟩ := hWpos w hw
            have hqt : q = t := by omega
            rw [hqt, htat] at hq3
            exact hq3.symm
          have hnil : setRemove acc.inflight (iabs lit) = [] := by
            apply List.filter_eq_nil.mpr
            intro y hy
            simp [hall y hy]
          rw [hnil] at hempf
          simp at hempf
        obtain ⟨rci, hrcim, hro, hpm, hothers⟩ := hreason t ht hlst
        rw [htat] at hro hpm hothers
        obtain ⟨c, hc⟩ : ∃ c, s.clauses.get? rci = some c := by
          rw [List.get?_eq_get hrcim]; exact ⟨_, rfl⟩
        simp only [hc, Option.getD_some] at hpm hothers
        have hcmem : c ∈ s.clauses := List.get?_mem hc
        obtain ⟨h1, h2, h3, h4, h5⟩ := analyzeReason_spec s cur (iabs lit)
          (fun w => s.levelOf w = cur ∧ ∃ q, q ≤ t - 1 ∧ iabs (trailAt s q) = w)
          (fun l => 0 ≤ s.levelOf (iabs l) ∧ s.levelOf (iabs l) < cur)
          c { acc with inflight := setRemove acc.inflight (iabs lit) }
          (by
            intro m hm hmne
            obtain ⟨hfalse, q, hq, hqw⟩ := hothers m hm hmne
            constructor
            · intro hml
              exact ⟨hml, q, by omega, hqw⟩
            · intro hml
              have hrange := hclr c hcmem m hm
              have hassigned : s.assignment (iabs m) ≠ 0 := by
                unfold litIsFalse at hfalse
                have := eq_of_beq hfalse
                by_cases hpos : 0 < m
                · rw [if_pos hpos] at this
                  rw [this]
                  decide
                · rw [if_neg hpos] at this
                  rw [this]
                  decide
              have hmemav : iabs m ∈ assignedVars s := by
                unfold assignedVars
                rw [List.mem_filter]
                refine ⟨?_, by simpa using hassigned⟩
                exact (mem_intRange s.numVars (iabs m)).mpr
                  ⟨iabs_pos_of_ne_zero m hrange.1, hrange.2⟩
              obtain ⟨hge, hle⟩ := hlev (iabs m) hmemav
              exact ⟨hge, lt_of_le_of_ne hle hml⟩)
          (by
            intro v hv
            obtain ⟨hv1, hvne⟩ := mem_setRemove.mp hv
            obtain ⟨hvl, q, hq, hqw⟩ := hW3 v hv1
            refine ⟨hvl, q, ?_, hqw⟩
            have hqt : q ≠ t := by
              intro hqq
              rw [hqq, htat] at hqw
              exact hvne hqw.symm
            omega)
          (nodup_setRemove hnd)
          (by
            intro hnil
            have hnil2 : setRemove acc.inflight (iabs lit) = [] := hnil
            rw [hnil2] at hempf
            simp at hempf)
          hW4 hBj
        have hrw : Int.ofNat t - 1 = Int.ofNat (t - 1) := by
          simp only [Int.ofNat_eq_coe]
          omega
        simp only [analyzeWalk, h0, if_false, htn, hlit, hinb, Bool.not_true,
          Bool.false_eq_true, hempf, if_false, hro, hc, hrw]
        exact ih (t - 1)
          (analyzeReason s cur (iabs lit) c { acc with inflight := setRemove acc.inflight (iabs lit) })
          (by omega) (by omega) (by omega) h3 h2 h1 h4 h5
    · -- head variable not inflight: skip it
      have hinb : acc.inflight.contains (iabs lit) = false := by simpa using hin
      have hlst : lsIdx < t := by
        rcases List.exists_mem_of_ne_nil _ hne with ⟨w, hw⟩
        obtain ⟨q, hq1, hq2, hq3⟩ := hWpos w hw
        by_contra hcon
        have hqt : q = t := by omega
        rw [hqt, htat] at hq3
        exact hin (by rw [hq3]; exact hw)
      have hrw : Int.ofNat t - 1 = Int.ofNat (t - 1) := by
        simp only [Int.ofNat_eq_coe]
        omega
      simp only [analyzeWalk, h0, if_false, htn, hlit, hinb, Bool.not_false,
        if_true, hrw]
      apply ih (t - 1) acc (by omega) (by omega) (by omega) hne hnd ?_ hW4 hBj
      intro v hv
      obtain ⟨hvl, q, hq, hqw⟩ := hW3 v hv
      refine ⟨hvl, q, ?_, hqw⟩
      have hqt : q ≠ t := by
        intro hqq
        rw [hqq, htat] at hqw
        exact hin (by rw [hqw]; exact hv)
      omega

/-- A false literal's variable is assigned (given it is range-valid). -/
theorem false_lit_assigned (s : Solver) (m : Int) (hf : litIsFalse s m = true)
    (h0 : m ≠ 0) (hr : iabs m ≤ Int.ofNat s.numVars) : iabs m ∈ assignedVars s := by
  unfold assignedVars
  rw [List.mem_filter]
  refine ⟨(mem_intRange s.numVars (iabs m)).mpr ⟨iabs_pos_of_ne_zero m h0, hr⟩, ?_⟩
  unfold litIsFalse at hf
  have hval := eq_of_beq hf
  simp only [bne_iff_ne, ne_eq]
  by_cases hpos : 0 < m
  · rw [if_pos hpos] at hval
    rw [hval]
    decide
  · rw [if_neg hpos] at hval
    rw [hval]
    decide

/-- Every assigned variable sits somewhere on the trail. -/
theorem assigned_trail_pos (s : Solver) (htc : TrailConsistent s) (v : Int)
    (hv : v ∈ assignedVars s) : ∃ q, q < s.trail.length ∧ iabs (trailAt s q) = v := by
  have hm : v ∈ s.trail.map iabs := htc.1.mem_iff.mpr hv
  rw [List.mem_map] at hm
  obtain ⟨l2, hl2, hle⟩ := hm
  rw [List.mem_iff_get?] at hl2
  obtain ⟨q, hq⟩ := hl2
  refine ⟨q, get?_lt_length _ _ _ hq, ?_⟩
  unfold trailAt
  rw [hq]
  simp only [Option.getD_some]
  exact hle

/-- C4: confirmed.  Whenever `analyze_conflict` runs at decision level 0 it
returns `([], -1)`; and in every conflict state at level at least 1
(`ConflictState` collects the facts holding when `propagate` reports a
conflicting clause inside `CDCL.solve`), `analyze_conflict` succeeds and
returns a learned clause whose position 0 holds the negation of a
current-level trail literal (the First-UIP, the literal at which the
backward resolution's current-level set becomes a singleton), followed by
literals from decision levels strictly below the current one, paired with
the maximum decision level among those non-asserting literals — the
`max`-fold `maxLevelOf`, which is 0 when the learned clause is unit. -/
theorem c4_analyze_postcondition :
    (∀ (s : Solver) (confCi : Int), s.decisions.length = 0 →
      analyzeConflict s confCi = some ([], -1)) ∧
    (∀ (s : Solver) (confCi : Nat), ConflictState s confCi →
      ∃ cl bj, analyzeConflict s (Int.ofNat confCi) = some (cl, bj) ∧
        ∃ uipLit rest, cl = uipLit :: rest ∧
          (∃ p, p < s.trail.length ∧ uipLit = -(trailAt s p)) ∧
          s.levelOf (iabs uipLit) = Int.ofNat s.decisions.length ∧
          (∀ l ∈ rest, 0 ≤ s.levelOf (iabs l) ∧
            s.levelOf (iabs l) < Int.ofNat s.decisions.length) ∧
          bj = maxLevelOf s rest) := by
  constructor
  · intro s confCi h
    simp [analyzeConflict, h]
  · intro s confCi hcs
    obtain ⟨hL, htc, hclr, hci, hfalse, ⟨l0, hl0m, hl0lev⟩, hlev, hlsl, hlsb, halign0, hreason0⟩ := hcs
    obtain ⟨confCl, hcc⟩ : ∃ c, s.clauses.get? confCi = some c := by
      rw [List.get?_eq_get hci]; exact ⟨_, rfl⟩
    simp only [hcc, Option.getD_some] at hfalse hl0m
    have halign : ∀ p, p < s.trail.length →
        (s.levelOf (iabs (trailAt s p)) = Int.ofNat s.decisions.length ↔
          (s.levelStart.get? (s.decisions.length - 1)).getD 0 ≤ p) :=
      fun p hp => halign0 p (List.mem_range.mpr hp)
    have hreason : ∀ p, p < s.trail.length →
        (s.levelStart.get? (s.decisions.length - 1)).getD 0 < p →
        ∃ rci, rci < s.clauses.length ∧
          s.reasonOf (iabs (trailAt s p)) = some rci ∧
          trailAt s p ∈ (s.clauses.get? rci).getD [] ∧
          ∀ m ∈ (s.clauses.get? rci).getD [], iabs m ≠ iabs (trailAt s p) →
            litIsFalse s m = true ∧ ∃ q, q < p ∧ iabs (trailAt s q) = iabs m := by
      intro p hp hlsp
      obtain ⟨rci, hrm, h1, h2, h3⟩ := hreason0 p (List.mem_range.mpr hp) hlsp
      refine ⟨rci, List.mem_range.mp hrm, h1, h2, ?_⟩
      intro m hm hmne
      obtain ⟨hmf, q, hqm, hqe⟩ := h3 m hm hmne
      exact ⟨hmf, q, List.mem_range.mp hqm, hqe⟩
    have hccm : confCl ∈ s.clauses := List.get?_mem hcc
    obtain ⟨hI1, hI2, hI3, hI4, hI5, hI6⟩ := analyzeInit_spec s
      (Int.ofNat s.decisions.length)
      (fun w => s.levelOf w = Int.ofNat s.decisions.length ∧
        ∃ q, q ≤ s.trail.length - 1 ∧ iabs (trailAt s q) = w)
      (fun l => 0 ≤ s.levelOf (iabs l) ∧
        s.levelOf (iabs l) < Int.ofNat s.decisions.length)
      (pySetOfList confCl)
      { seen := [], inflight := [], learnt := [], bj := 0 }
      (by
        intro m hm
        have hmc : m ∈ confCl := mem_pySetOfList.mp hm
        have hmf : litIsFalse s m = true := hfalse m hmc
        have hrange := hclr confCl hccm m hmc
        have hmemav := false_lit_assigned s m hmf hrange.1 hrange.2
        constructor
        · intro hml
          obtain ⟨q, hq, hqe⟩ := assigned_trail_pos s htc (iabs m) hmemav
          exact ⟨hml, q, by omega, hqe⟩
        · intro hml
          obtain ⟨hge, hle⟩ := hlev (iabs m) hmemav
          exact ⟨hge, lt_of_le_of_ne hle hml⟩)
      (fun v hv => absurd hv (List.not_mem_nil v))
      List.nodup_nil
      (fun l hl => absurd hl (List.not_mem_nil l))
      rfl
    have hl0in : iabs l0 ∈ (analyzeInit s (Int.ofNat s.decisions.length)
        (pySetOfList confCl) { seen := [], inflight := [], learnt := [], bj := 0 }).inflight :=
      hI6 l0 (mem_pySetOfList.mpr hl0m) hl0lev
    have hl0f : litIsFalse s l0 = true := hfalse l0 hl0m
    have hl0range := hclr confCl hccm l0 hl0m
    obtain ⟨q0, hq0, hq0e⟩ := assigned_trail_pos s htc (iabs l0)
      (false_lit_assigned s l0 hl0f hl0range.1 hl0range.2)
    have hlslen : (s.levelStart.get? (s.decisions.length - 1)).getD 0 < s.trail.length := by
      have := (halign q0 hq0).mp (by rw [hq0e]; exact hl0lev)
      omega
    have hlen1 : 1 ≤ s.trail.length := by omega
    obtain ⟨p, hp1, hp2, learnt2, hwalk, hlearnt2⟩ := analyzeWalk_spec s
      (Int.ofNat s.decisions.length)
      ((s.levelStart.get? (s.decisions.length - 1)).getD 0)
      htc hclr hlev halign hreason
      (s.trail.length + 1) (s.trail.length - 1)
      (analyzeInit s (Int.ofNat s.decisions.length)
        (pySetOfList confCl) { seen := [], inflight := [], learnt := [], bj := 0 })
      (by omega) (by omega) (by omega)
      (List.ne_nil_of_mem hl0in)
      hI2 hI1 hI3 hI4
    have hcur0 : (Int.ofNat s.decisions.length == 0) = false := by
      simp only [beq_eq_false_iff_ne, ne_eq, Int.ofNat_eq_coe]
      omega
    have hpy : pyIndex s.clauses (Int.ofNat confCi) = some confCl := by
      unfold pyIndex
      rw [if_pos (by simp only [Int.ofNat_eq_coe]; omega)]
      exact hcc
    have hidx : Int.ofNat s.trail.length - 1 = Int.ofNat (s.trail.length - 1) := by
      simp only [Int.ofNat_eq_coe]
      omega
    refine ⟨-(trailAt s p) :: pySetList learnt2, maxLevelOf s learnt2, ?_, ?_⟩
    · simp only [analyzeConflict, hcur0, Bool.false_eq_true, if_false, hpy, hidx, hwalk]
    · refine ⟨-(trailAt s p), pySetList learnt2, rfl, ⟨p, hp2, rfl⟩, ?_, ?_, ?_⟩
      · rw [iabs_neg]
        exact (halign p hp2).mpr hp1
      · intro l hl
        exact hlearnt2 l ((pySetList_perm learnt2).mem_iff.mp hl)
      · exact maxLevelOf_perm (pySetList_perm learnt2).symm

/-- C4 witness: the level-0 branch at a fresh two-variable solver, and the
level-3 conflict state `wchS7` of the watcher trace with conflicting clause
index 2, whose learned clause is `[-3, -5, -2]` with backjump level 2. -/
theorem c4_witness :
    ((mkSolver [[1, 2]] 2).decisions.length = 0 ∧
      analyzeConflict (mkSolver [[1, 2]] 2) 0 = some ([], -1)) ∧
    (ConflictState wchS7 2 ∧
      ∃ cl bj, analyzeConflict wchS7 (Int.ofNat 2) = some (cl, bj) ∧
        ∃ uipLit rest, cl = uipLit :: rest ∧
          (∃ p, p < wchS7.trail.length ∧ uipLit = -(trailAt wchS7 p)) ∧
          wchS7.levelOf (iabs uipLit) = Int.ofNat wchS7.decisions.length ∧
          (∀ l ∈ rest, 0 ≤ wchS7.levelOf (iabs l) ∧
            wchS7.levelOf (iabs l) < Int.ofNat wchS7.decisions.length) ∧
          bj = maxLevelOf wchS7 rest) :=
  ⟨⟨by decide, c4_analyze_postcondition.1 (mkSolver [[1, 2]] 2) 0 (by decide)⟩,
   ⟨by decide, c4_analyze_postcondition.2 wchS7 2 (by decide)⟩⟩

-- ===== C2 DEFS (to move into the defs section on merge) =====

/-- A clause is satisfied exactly when one of its literals is. -/
theorem modelSatClause_iff (m : List Int) (c : List Int) :
    modelSatClause m c = true ↔ ∃ l ∈ c, modelSatLit m l = true := by
  unfold modelSatClause
  rw [List.any_eq_true]

/-- Negation flips literal truth (for nonzero literals). -/
theorem modelSatLit_neg (m : List Int) (l : Int) (h : l ≠ 0) :
    modelSatLit m (-l) = !(modelSatLit m l) := by
  unfold modelSatLit
  rcases lt_trichotomy l 0 with hl | hl | hl
  · rw [if_pos (by omega : (0:Int) < -l), if_neg (by omega : ¬(0:Int) < l), Bool.not_not]
  · exact absurd hl h
  · rw [if_neg (by omega : ¬(0:Int) < -l), if_pos hl, neg_neg]

/-- Clauses of the CNF are implied by it. -/
theorem impliedClause_of_mem {cnf : List (List Int)} {c : List Int} (h : c ∈ cnf) :
    ImpliedClause cnf c := by
  intro m hm
  unfold satCnf at hm
  rw [List.all_eq_true] at hm
  exact hm c h

/-- Variables with equal absolute value are equal or opposite. -/
theorem iabs_eq_cases {a b : Int} (h : iabs a = iabs b) : a = b ∨ a = -b := by
  unfold iabs at h
  split_ifs at h <;> omega

/-- A false literal's negation is on the trail. -/
theorem false_lit_negation_on_trail (s : Solver) (l : Int) (htc : TrailConsistent s)
    (hf : litIsFalse s l = true) (h0 : l ≠ 0) (hr : iabs l ≤ Int.ofNat s.numVars) :
    -l ∈ s.trail := by
  have hmem := false_lit_assigned s l hf h0 hr
  have hm : iabs l ∈ s.trail.map iabs := htc.1.mem_iff.mpr hmem
  rw [List.mem_map] at hm
  obtain ⟨l2, hl2, hle⟩ := hm
  have hsv := htc.2 l2 hl2
  unfold litIsFalse at hf
  have hval := eq_of_beq hf
  rcases iabs_eq_cases hle with heq | heq
  · exfalso
    rw [heq] at hsv
    rw [hsv] at hval
    unfold signVal at hval
    by_cases hpos : 0 < l
    · rw [if_pos hpos, if_pos hpos] at hval
      omega
    · rw [if_neg hpos, if_neg hpos] at hval
      omega
  · rw [heq] at hl2
    exact hl2

/-- Under an agreeing model, a false literal is false. -/
theorem agree_false_lit (m : List Int) (s : Solver) (l : Int) (htc : TrailConsistent s)
    (hag : AgreeTrail m s) (hf : litIsFalse s l = true) (h0 : l ≠ 0)
    (hr : iabs l ≤ Int.ofNat s.numVars) : modelSatLit m l = false := by
  have hneg := hag (-l) (false_lit_negation_on_trail s l htc hf h0 hr)
  rw [modelSatLit_neg m l h0] at hneg
  simpa using hneg

/-- The trail literal of a trail entry's variable is that entry. -/
theorem trailLitOf_of_mem (s : Solver) (l : Int) (htc : TrailConsistent s)
    (hl : l ∈ s.trail) (h0 : l ≠ 0) : trailLitOf s (iabs l) = l := by
  have hsv := htc.2 l hl
  unfold trailLitOf
  unfold signVal at hsv
  by_cases hpos : 0 < l
  · rw [if_pos hpos] at hsv
    rw [if_pos (by simp [hsv])]
    unfold iabs
    rw [if_neg (by omega)]
  · rw [if_neg hpos] at hsv
    rw [if_neg (by simp [hsv])]
    unfold iabs
    rw [if_pos (by omega)]
    omega

/-- A false literal is the negation of its variable's trail literal. -/
theorem false_lit_eq_neg_trailLit (s : Solver) (l : Int) (hf : litIsFalse s l = true)
    (h0 : l ≠ 0) : trailLitOf s (iabs l) = -l := by
  unfold litIsFalse at hf
  have hval := eq_of_beq hf
  unfold trailLitOf
  by_cases hpos : 0 < l
  · rw [if_pos hpos] at hval
    rw [if_neg (by simp [hval])]
    unfold iabs
    rw [if_neg (by omega)]
  · rw [if_neg hpos] at hval
    rw [if_pos (by simp [hval])]
    unfold iabs
    rw [if_pos (by omega)]

/-- Trail literals are nonzero under trail consistency. -/
theorem trail_lit_ne_zero (s : Solver) (l : Int) (htc : TrailConsistent s)
    (hl : l ∈ s.trail) : l ≠ 0 := by
  intro h0
  have hm : iabs l ∈ s.trail.map iabs := List.mem_map_of_mem iabs hl
  have h2 : iabs l ∈ assignedVars s := htc.1.mem_iff.mp hm
  have h3 : iabs l ∈ intRange s.numVars := List.mem_of_mem_filter h2
  rw [mem_intRange] at h3
  rw [h0] at h3
  simp [iabs] at h3

/-- Trail literals' variables are within range under trail consistency. -/
theorem trail_lit_range (s : Solver) (l : Int) (htc : TrailConsistent s)
    (hl : l ∈ s.trail) : iabs l ≤ Int.ofNat s.numVars := by
  have hm : iabs l ∈ s.trail.map iabs := List.mem_map_of_mem iabs hl
  have h2 : iabs l ∈ assignedVars s := htc.1.mem_iff.mp hm
  have h3 : iabs l ∈ intRange s.numVars := List.mem_of_mem_filter h2
  exact ((mem_intRange _ _).mp h3).2

/-- Setting a position to the value it already holds is the identity. -/
theorem set_of_get? {l : List Int} {i : Nat} {x : Int} (h : l.get? i = some x) :
    l.set i x = l := by
  apply List.ext_getElem?
  intro n
  rw [List.getElem?_set]
  by_cases hn : i = n
  · subst hn
    rw [if_pos rfl, if_pos (get?_lt_length l i x h)]
    rw [List.get?_eq_getElem?] at h
    exact h.symm
  · rw [if_neg hn]

/-- Swapping two positions of a clause preserves membership. -/
theorem mem_set_swap {c : List Int} {i j : Nat} {x y : Int}
    (hx : c.get? i = some x) (hy : c.get? j = some y) (z : Int) :
    z ∈ (c.set i y).set j x ↔ z ∈ c := by
  have hi := get?_lt_length c i x hx
  have hj := get?_lt_length c j y hy
  by_cases hij : i = j
  · subst hij
    rw [List.set_set, set_of_get? hx]
  · constructor
    · intro hz
      rw [List.mem_iff_get?] at hz
      obtain ⟨k, hk⟩ := hz
      rw [List.get?_eq_getElem?, List.getElem?_set] at hk
      by_cases hjk : j = k
      · rw [if_pos hjk, if_pos (by simpa using hj)] at hk
        have hxz : x = z := by simpa using hk
        subst hxz
        exact List.get?_mem hx
      · rw [if_neg hjk, List.getElem?_set] at hk
        by_cases hik : i = k
        · rw [if_pos hik, if_pos (by omega)] at hk
          have hyz : y = z := by simpa using hk
          subst hyz
          exact List.get?_mem hy
        · rw [if_neg hik, ← List.get?_eq_getElem?] at hk
          exact List.get?_mem hk
    · intro hz
      rw [List.mem_iff_get?] at hz
      obtain ⟨k, hk⟩ := hz
      by_cases hik : i = k
      · subst hik
        have hzx : z = x := by
          rw [hk] at hx
          simpa using hx
        subst hzx
        rw [List.mem_iff_get?]
        refine ⟨j, ?_⟩
        rw [List.get?_eq_getElem?, List.getElem?_set, if_pos rfl, if_pos (by simpa using hj)]
      · by_cases hjk : j = k
        · subst hjk
          have hzy : z = y := by
            rw [hk] at hy
            simpa using hy
          subst hzy
          rw [List.mem_iff_get?]
          refine ⟨i, ?_⟩
          rw [List.get?_eq_getElem?, List.getElem?_set, if_neg (by omega), List.getElem?_set,
            if_pos rfl, if_pos hi]
        · rw [List.mem_iff_get?]
          refine ⟨k, ?_⟩
          rw [List.get?_eq_getElem?, List.getElem?_set, if_neg hjk, List.getElem?_set,
            if_neg hik, ← List.get?_eq_getElem?]
          exact hk

/-- Implication is invariant under membership-preserving clause rewrites. -/
theorem impliedClause_mem_congr {cnf : List (List Int)} {c c2 : List Int}
    (hmem : ∀ z, z ∈ c2 ↔ z ∈ c) (h : ImpliedClause cnf c) : ImpliedClause cnf c2 := by
  intro m hm
  rw [modelSatClause_iff]
  obtain ⟨l, hl, hsat⟩ := (modelSatClause_iff m c).mp (h m hm)
  exact ⟨l, (hmem l).mpr hl, hsat⟩

/-- `list.remove` drops at most one occurrence, of the removed element only. -/
theorem count_removeFirst (x y : Nat) : ∀ l : List Nat,
    List.count x l ≤ List.count x (removeFirst l y) + (if x = y then 1 else 0) := by
  intro l
  induction l with
  | nil =>
    rw [removeFirst]
    simp
  | cons a rest ih =>
    rw [removeFirst]
    by_cases hay : a = y
    · rw [if_pos hay]
      subst hay
      by_cases hxa : x = a
      · subst hxa
        rw [if_pos rfl]
        simp [List.count_cons]
      · rw [if_neg hxa]
        rw [List.count_cons]
        have hne : (a == x) = false := by
          simp only [beq_eq_false_iff_ne, ne_eq]
          omega
        rw [hne]
        simp
    · rw [if_neg hay]
      rw [List.count_cons, List.count_cons]
      omega

/-- The constructor loop registers watchers only at positions 0 and 1 of the
corresponding clause. -/
theorem initLoop_watchPos : ∀ (cs : List (List Int)) (ci : Nat) (s : Solver),
    WatchPos s →
    (∀ k : Nat, k < cs.length → s.clauses.get? (ci + k) = cs.get? k) →
    WatchPos (initClausesLoop cs ci s) := by
  intro cs
  induction cs with
  | nil =>
    intro ci s hw _
    rw [initClausesLoop]
    exact hw
  | cons c rest ih =>
    intro ci s hw halign
    match c with
    | [] =>
      rw [initClausesLoop]
      refine ih (ci + 1) { s with unitQueue := s.unitQueue ++ [1, -1] } hw ?_
      intro k hk
      have := halign (k + 1) (by simpa using Nat.succ_lt_succ hk)
      simpa [Nat.add_assoc, Nat.add_comm 1 k] using this
    | [l] =>
      rw [initClausesLoop]
      refine ih (ci + 1) { s with unitQueue := s.unitQueue ++ [l] } hw ?_
      intro k hk
      have := halign (k + 1) (by simpa using Nat.succ_lt_succ hk)
      simpa [Nat.add_assoc, Nat.add_comm 1 k] using this
    | l1 :: l2 :: tl =>
      have hthis : s.clauses.get? ci = some (l1 :: l2 :: tl) := by
        have := halign 0 (by simp)
        simpa using this
      rw [initClausesLoop]
      refine ih (ci + 1)
        { s with watches := addWatch (addWatch s.watches l1 ci) l2 ci } ?_ ?_
      · intro lit cj hcj
        simp only [addWatch] at hcj
        by_cases h2 : lit = l2
        · rw [if_pos h2] at hcj
          rcases List.mem_append.mp hcj with hm | hm
          · by_cases h1 : lit = l1
            · rw [if_pos h1] at hm
              rcases List.mem_append.mp hm with hm2 | hm2
              · exact hw lit cj hm2
              · simp only [List.mem_singleton] at hm2
                subst hm2
                exact ⟨l1 :: l2 :: tl, hthis, Or.inl (by rw [h1]; rfl)⟩
            · rw [if_neg h1] at hm
              exact hw lit cj hm
          · simp only [List.mem_singleton] at hm
            subst hm
            exact ⟨l1 :: l2 :: tl, hthis, Or.inr (by rw [h2]; rfl)⟩
        · rw [if_neg h2] at hcj
          by_cases h1 : lit = l1
          · rw [if_pos h1] at hcj
            rcases List.mem_append.mp hcj with hm | hm
            · exact hw lit cj hm
            · simp only [List.mem_singleton] at hm
              subst hm
              exact ⟨l1 :: l2 :: tl, hthis, Or.inl (by rw [h1]; rfl)⟩
          · rw [if_neg h1] at hcj
            exact hw lit cj hcj
      · intro k hk
        have := halign (k + 1) (by simpa using Nat.succ_lt_succ hk)
        simpa [Nat.add_assoc, Nat.add_comm 1 k] using this

/-- Queue literals injected by the constructor loop are all implied: a unit
clause implies its literal, and an empty clause makes the CNF
unsatisfiable. -/
theorem initLoop_queue_implied (cnf : List (List Int)) :
    ∀ (cs : List (List Int)) (ci : Nat) (s : Solver),
    (∀ c ∈ cs, c ∈ cnf) →
    (∀ l ∈ s.unitQueue, Implied cnf l) →
    ∀ l ∈ (initClausesLoop cs ci s).unitQueue, Implied cnf l := by
  intro cs
  induction cs with
  | nil =>
    intro ci s _ hq
    rw [initClausesLoop]
    exact hq
  | cons c rest ih =>
    intro ci s hcs hq
    have hrest : ∀ c2 ∈ rest, c2 ∈ cnf := fun c2 h => hcs c2 (List.mem_cons_of_mem c h)
    match c with
    | [] =>
      rw [initClausesLoop]
      refine ih (ci + 1) _ hrest ?_
      intro l hl
      rcases List.mem_append.mp hl with hm | hm
      · exact hq l hm
      · intro m hm2
        exfalso
        have := impliedClause_of_mem (hcs [] (List.mem_cons_self [] rest)) m hm2
        simp [modelSatClause] at this
    | [l0] =>
      rw [initClausesLoop]
      refine ih (ci + 1) _ hrest ?_
      intro l hl
      rcases List.mem_append.mp hl with hm | hm
      · exact hq l hm
      · simp only [List.mem_singleton] at hm
        subst hm
        intro m hm2
        have := impliedClause_of_mem (hcs [l] (List.mem_cons_self [l] rest)) m hm2
        rw [modelSatClause_iff] at this
        obtain ⟨l2, hl2, hsat⟩ := this
        simp only [List.mem_singleton] at hl2
        subst hl2
        exact hsat
    | l1 :: l2 :: tl =>
      rw [initClausesLoop]
      exact ih (ci + 1) _ hrest hq

/-- Membership via positive count. -/
theorem mem_iff_count_pos (cj : Nat) (l : List Nat) : cj ∈ l ↔ 1 ≤ List.count cj l := by
  rw [← List.count_pos_iff_mem]
  omega

/-- Exact count of `list.remove`. -/
theorem count_removeFirst_eq (x y : Nat) : ∀ l : List Nat,
    List.count x (removeFirst l y) =
      List.count x l - (if x = y ∧ y ∈ l then 1 else 0) := by
  intro l
  induction l with
  | nil =>
    rw [removeFirst]
    simp
  | cons a rest ih =>
    rw [removeFirst]
    by_cases hay : a = y
    · rw [if_pos hay]
      subst hay
      rw [List.count_cons]
      by_cases hxa : x = a
      · have hc : x = a ∧ a ∈ a :: rest := ⟨hxa, List.mem_cons_self a rest⟩
        rw [if_pos hc]
        have hba : (a == x) = true := by simp [hxa]
        rw [hba]
        simp
      · have hc : ¬(x = a ∧ a ∈ a :: rest) := fun h => hxa h.1
        rw [if_neg hc]
        have hba : (a == x) = false := by
          simp only [beq_eq_false_iff_ne, ne_eq]
          omega
        rw [hba]
        simp
    · rw [if_neg hay, List.count_cons, List.count_cons, ih]
      have hmm : y ∈ a :: rest ↔ y ∈ rest := by
        rw [List.mem_cons]
        constructor
        · rintro (h | h)
          · exact absurd h.symm hay
          · exact h
        · exact Or.inr
      by_cases hc : x = y ∧ y ∈ rest
      · have hc2 : x = y ∧ y ∈ a :: rest := ⟨hc.1, hmm.mpr hc.2⟩
        rw [if_pos hc, if_pos hc2]
        have hcp : 1 ≤ List.count x rest := by
          rw [← mem_iff_count_pos, hc.1]
          exact hc.2
        omega
      · have hc2 : ¬(x = y ∧ y ∈ a :: rest) := fun h => hc ⟨h.1, hmm.mp h.2⟩
        rw [if_neg hc, if_neg hc2]
        omega

/-- Count of a watch-list entry after an `addWatch`. -/
theorem count_addWatch (w : Int → List Nat) (l : Int) (ci : Nat) (l2 : Int) (cj : Nat) :
    List.count cj (addWatch w l ci l2) =
      List.count cj (w l2) + (if l2 = l then (if cj = ci then 1 else 0) else 0) := by
  unfold addWatch
  by_cases h : l2 = l
  · rw [if_pos h, if_pos h, List.count_append]
    by_cases hc : cj = ci
    · subst hc
      simp
    · rw [if_neg hc]
      have hz : List.count cj [ci] = 0 := by
        rw [List.count_eq_zero]
        simp
        omega
      rw [hz]
  · rw [if_neg h, if_neg h]
    simp

/-- Count of a watch-list entry after a `removeWatch`. -/
theorem count_removeWatch (w : Int → List Nat) (l : Int) (ci : Nat) (l2 : Int) (cj : Nat) :
    List.count cj (removeWatch w l ci l2) =
      List.count cj (w l2) - (if l2 = l ∧ cj = ci ∧ ci ∈ w l2 then 1 else 0) := by
  unfold removeWatch
  by_cases h : l2 = l
  · rw [if_pos h, count_removeFirst_eq]
    by_cases hc : cj = ci ∧ ci ∈ w l2
    · rw [if_pos hc, if_pos ⟨h, hc⟩]
    · rw [if_neg hc, if_neg (fun hx => hc hx.2)]
  · rw [if_neg h, if_neg (fun hx => h hx.1)]
    simp

/-- The constructor loop keeps watcher multiplicities within bounds. -/
theorem initLoop_watchDup : ∀ (cs : List (List Int)) (ci : Nat) (s : Solver),
    WatchDup s →
    (∀ (l : Int) (k : Nat), ci ≤ k → List.count k (s.watches l) = 0) →
    (∀ k : Nat, k < cs.length → s.clauses.get? (ci + k) = cs.get? k) →
    WatchDup (initClausesLoop cs ci s) := by
  intro cs
  induction cs with
  | nil =>
    intro ci s hd _ _
    rw [initClausesLoop]
    exact hd
  | cons c rest ih =>
    intro ci s hd hfresh halign
    have halign2 : ∀ k : Nat, k < rest.length → s.clauses.get? (ci + 1 + k) = rest.get? k := by
      intro k hk
      have := halign (k + 1) (by simpa using Nat.succ_lt_succ hk)
      simpa [Nat.add_assoc, Nat.add_comm 1 k] using this
    match c with
    | [] =>
      rw [initClausesLoop]
      exact ih (ci + 1) _ hd (fun l k hk => hfresh l k (by omega)) halign2
    | [l0] =>
      rw [initClausesLoop]
      exact ih (ci + 1) _ hd (fun l k hk => hfresh l k (by omega)) halign2
    | l1 :: l2 :: tl =>
      have hthis : s.clauses.get? ci = some (l1 :: l2 :: tl) := by
        have := halign 0 (by simp)
        simpa using this
      rw [initClausesLoop]
      refine ih (ci + 1) { s with watches := addWatch (addWatch s.watches l1 ci) l2 ci } ?_ ?_
        halign2
      · intro l k
        have hcnt : List.count k (addWatch (addWatch s.watches l1 ci) l2 ci l) =
            List.count k (s.watches l) +
              ((if l = l1 then (if k = ci then 1 else 0) else 0) +
               (if l = l2 then (if k = ci then 1 else 0) else 0)) := by
          rw [count_addWatch, count_addWatch]
          omega
        by_cases hk : k = ci
        · have hz : List.count k (s.watches l) = 0 := hfresh l k (by omega)
          constructor
          · rw [hcnt, hz]
            by_cases h1 : l = l1 <;> by_cases h2 : l = l2 <;> simp [h1, h2, hk] <;>
              split_ifs <;> omega
          · intro h2c
            rw [hcnt, hz] at h2c
            refine ⟨l1 :: l2 :: tl, by rw [hk]; exact hthis, ?_, ?_⟩
            · by_cases h1 : l = l1
              · rw [h1]
                rfl
              · exfalso
                rw [if_neg h1] at h2c
                by_cases h2 : l = l2 <;> simp [h2, hk] at h2c
            · by_cases h2 : l = l2
              · rw [h2]
                rfl
              · exfalso
                rw [if_neg h2] at h2c
                by_cases h1 : l = l1 <;> simp [h1, hk] at h2c
        · have hsame : List.count k (addWatch (addWatch s.watches l1 ci) l2 ci l) =
              List.count k (s.watches l) := by
            rw [hcnt]
            by_cases h1 : l = l1 <;> by_cases h2 : l = l2 <;> simp [h1, h2, hk]
          constructor
          · rw [hsame]
            exact (hd l k).1
          · intro h2c
            rw [hsame] at h2c
            exact (hd l k).2 h2c
      · intro l k hk
        rw [count_addWatch, count_addWatch, hfresh l k (by omega)]
        have hkci : ¬ k = ci := by omega
        simp [hkci]

/-- The freshly constructed solver satisfies the soundness invariant and has
an implied queue. -/
theorem mkSolver_semInv (cnf : List (List Int)) (numVars : Nat)
    (hr : clausesInRange cnf numVars = true) (hn : 1 ≤ numVars) :
    SemInv cnf (mkSolver cnf numVars) ∧ QueueImplied cnf (mkSolver cnf numVars) ∧
    QueueLitsInRange (mkSolver cnf numVars) ∧
    (mkSolver cnf numVars).clauses = cnf ∧
    (mkSolver cnf numVars).decisions = [] ∧
    (mkSolver cnf numVars).trail = [] ∧
    (mkSolver cnf numVars).levelStart = [] := by
  obtain ⟨hpi, hql⟩ := mkSolver_propInv cnf numVars hr hn
  have hcl : (mkSolver cnf numVars).clauses = cnf := by
    simp only [mkSolver]
    exact initLoop_clauses cnf 0 _
  have hf := initLoop_fields cnf 0
  refine ⟨⟨hpi, ?_, ?_, ?_⟩, ?_, hql, hcl, (hf _).2.1, (hf _).2.2.1, ?_⟩
  · simp only [mkSolver]
    refine initLoop_watchPos cnf 0 _ ?_ ?_
    · intro l ci hci
      simp at hci
    · intro k hk
      simp
  · simp only [mkSolver]
    refine initLoop_watchDup cnf 0 _ ?_ ?_ ?_
    · intro l ci
      simp
    · intro l k hk
      simp
    · intro k hk
      simp
  · intro c hc
    rw [hcl] at hc
    exact impliedClause_of_mem hc
  · simp only [mkSolver]
    refine initLoop_queue_implied cnf cnf 0 _ (fun c h => h) ?_
    intro l hl
    simp at hl
  · simp only [mkSolver]
    have hls : ∀ (cs : List (List Int)) (ci : Nat) (s : Solver),
        (initClausesLoop cs ci s).levelStart = s.levelStart := by
      intro cs
      induction cs with
      | nil => intro ci s; simp [initClausesLoop]
      | cons c rest ih =>
        intro ci s
        match c with
        | [] => simpa [initClausesLoop] using ih (ci + 1) _
        | [l] => simpa [initClausesLoop] using ih (ci + 1) _
        | l1 :: l2 :: tl => simpa [initClausesLoop] using ih (ci + 1) _
    exact hls cnf 0 _

/-- A failed watcher scan leaves the state untouched. -/
theorem fnwLoop_false_state (s : Solver) (ci : Nat) (fw : Int) (clause : List Int) :
    ∀ (remaining i : Nat), (fnwLoop s ci fw clause i remaining).1 = false →
    (fnwLoop s ci fw clause i remaining).2 = s := by
  intro remaining
  induction remaining with
  | zero =>
    intro i _
    rw [fnwLoop]
  | succ r ih =>
    intro i h
    rw [fnwLoop] at h ⊢
    rcases hg : clause.get? i with _ | newLit
    · simp only [hg]
    · simp only [hg] at h ⊢
      by_cases hf : litIsFalse s newLit = true
      · rw [if_pos hf] at h ⊢
        exact ih (i + 1) h
      · rw [if_neg hf] at h
        simp at h

/-- A failed watcher scan means every scanned position is false. -/
theorem fnwLoop_false_scan (s : Solver) (ci : Nat) (fw : Int) (clause : List Int) :
    ∀ (remaining i : Nat), clause.length ≤ i + remaining →
    (fnwLoop s ci fw clause i remaining).1 = false →
    ∀ j, i ≤ j → j < clause.length → ∀ x, clause.get? j = some x → litIsFalse s x = true := by
  intro remaining
  induction remaining with
  | zero =>
    intro i hlen _ j hij hjl
    omega
  | succ r ih =>
    intro i hlen h j hij hjl x hx
    rw [fnwLoop] at h
    rcases hg : clause.get? i with _ | newLit
    · have := List.get?_eq_none.mp hg
      omega
    · simp only [hg] at h
      by_cases hf : litIsFalse s newLit = true
      · rw [if_pos hf] at h
        by_cases hji : j = i
        · subst hji
          rw [hg] at hx
          have : newLit = x := by simpa using hx
          rw [← this]
          exact hf
        · exact ih (i + 1) (by omega) h j (by omega) hjl x hx
      · rw [if_neg hf] at h
        simp at h

/-- The watcher scan preserves the watcher-position, multiplicity and
implication invariants, and removes at most the moved entry from any watch
list. -/
theorem fnwLoop_sem (cnf : List (List Int)) (s : Solver) (ci : Nat) (fw : Int)
    (clause : List Int)
    (hc : s.clauses.get? ci = some clause)
    (hfw0 : clause.get? 0 = some fw)
    (hwp : WatchPos s) (hwd : WatchDup s) (hdb : DbImplied cnf s) :
    ∀ (remaining i : Nat), 2 ≤ i →
    WatchPos (fnwLoop s ci fw clause i remaining).2 ∧
    WatchDup (fnwLoop s ci fw clause i remaining).2 ∧
    DbImplied cnf (fnwLoop s ci fw clause i remaining).2 ∧
    (∀ (l : Int) (cj : Nat),
      List.count cj (s.watches l) ≤
        List.count cj ((fnwLoop s ci fw clause i remaining).2.watches l) +
          (if cj = ci then 1 else 0)) := by
  intro remaining
  induction remaining with
  | zero =>
    intro i _
    have he : fnwLoop s ci fw clause i 0 = (false, s) := by rw [fnwLoop]
    rw [he]
    refine ⟨hwp, hwd, hdb, ?_⟩
    intro l cj
    show List.count cj (s.watches l) ≤ List.count cj (s.watches l) + _
    split_ifs <;> omega
  | succ r ih =>
    intro i hi
    rcases hg : clause.get? i with _ | newLit
    · have he : fnwLoop s ci fw clause i (r + 1) = (false, s) := by
        rw [fnwLoop]
        simp only [hg]
      rw [he]
      refine ⟨hwp, hwd, hdb, ?_⟩
      intro l cj
      show List.count cj (s.watches l) ≤ List.count cj (s.watches l) + _
      split_ifs <;> omega
    · by_cases hf : litIsFalse s newLit = true
      · have he : fnwLoop s ci fw clause i (r + 1) = fnwLoop s ci fw clause (i + 1) r := by
          rw [fnwLoop]
          simp only [hg]
          rw [if_pos hf]
        rw [he]
        exact ih (i + 1) (by omega)
      · have hi0 : 0 < clause.length := get?_lt_length _ _ _ hfw0
        have hii : i < clause.length := get?_lt_length _ _ _ hg
        set cl2 := (clause.set 0 newLit).set i fw with hcl2
        set s2 : Solver := { s with watches := addWatch (removeWatch s.watches fw ci) newLit ci
                                    clauses := s.clauses.set ci cl2 } with hs2
        have he : fnwLoop s ci fw clause i (r + 1) = (true, s2) := by
          rw [fnwLoop]
          simp only [hg]
          rw [if_neg hf]
        rw [he]
        have hw2 : s2.watches = addWatch (removeWatch s.watches fw ci) newLit ci := rfl
        have hcls2 : s2.clauses = s.clauses.set ci cl2 := rfl
        have hcl20 : cl2.get? 0 = some newLit := by
          rw [hcl2, List.get?_eq_getElem?, List.getElem?_set_ne (by omega),
            List.getElem?_set_self (by simpa using hi0)]
        have hcl21 : cl2.get? 1 = clause.get? 1 := by
          rw [hcl2, List.get?_eq_getElem?, List.getElem?_set_ne (by omega),
            List.getElem?_set_ne (by omega), List.get?_eq_getElem?]
        have hget : ∀ cj : Nat, cj ≠ ci → s2.clauses.get? cj = s.clauses.get? cj := by
          intro cj hcj
          rw [hcls2, List.get?_eq_getElem?, List.getElem?_set_ne (fun h => hcj h.symm),
            List.get?_eq_getElem?]
        have hgetci : s2.clauses.get? ci = some cl2 := by
          rw [hcls2, List.get?_eq_getElem?, List.getElem?_set_self (get?_lt_length _ _ _ hc)]
        have hcw : ∀ (l : Int) (cj : Nat),
            List.count cj (s2.watches l) =
              List.count cj (s.watches l) -
                (if l = fw ∧ cj = ci ∧ ci ∈ s.watches l then 1 else 0) +
                (if l = newLit ∧ cj = ci then 1 else 0) := by
          intro l cj
          rw [hw2, count_addWatch, count_removeWatch]
          by_cases h1 : l = newLit <;> by_cases h2 : cj = ci <;> simp [h1, h2]
        refine ⟨?_, ?_, ?_, ?_⟩
        · -- WatchPos
          show WatchPos s2
          intro l cj hcj
          rw [mem_iff_count_pos, hcw] at hcj
          by_cases hcji : cj = ci
          · by_cases hln : l = newLit
            · exact ⟨cl2, by rw [hcji]; exact hgetci, Or.inl (by rw [hln]; exact hcl20)⟩
            · have hold : 1 ≤ List.count cj (s.watches l) := by
                by_cases hrem : l = fw ∧ cj = ci ∧ ci ∈ s.watches l
                · rw [if_pos hrem,
                    if_neg (show ¬(l = newLit ∧ cj = ci) from fun h => hln h.1)] at hcj
                  omega
                · rw [if_neg hrem,
                    if_neg (show ¬(l = newLit ∧ cj = ci) from fun h => hln h.1)] at hcj
                  omega
              obtain ⟨c0, hc0, hpos⟩ := hwp l cj ((mem_iff_count_pos _ _).mpr hold)
              have hc0c : c0 = clause := by
                rw [hcji, hc] at hc0
                simpa using hc0.symm
              rw [hc0c] at hpos
              have hgetcj : s2.clauses.get? cj = some cl2 := by
                rw [hcji]
                exact hgetci
              rcases hpos with hp0 | hp1
              · have hlfw : l = fw := by
                  rw [hfw0] at hp0
                  simpa using hp0.symm
                have hmem : ci ∈ s.watches l := by
                  rw [← hcji]
                  exact (mem_iff_count_pos _ _).mpr hold
                rw [if_pos (show l = fw ∧ cj = ci ∧ ci ∈ s.watches l from ⟨hlfw, hcji, hmem⟩),
                  if_neg (show ¬(l = newLit ∧ cj = ci) from fun h => hln h.1)] at hcj
                have hdup := (hwd l cj).2 (by
                  have := (hwd l cj).1
                  omega)
                obtain ⟨c1, hc1, _, hq1⟩ := hdup
                have hc1c : c1 = clause := by
                  rw [hcji, hc] at hc1
                  simpa using hc1.symm
                rw [hc1c] at hq1
                exact ⟨cl2, hgetcj, Or.inr (by rw [hcl21]; exact hq1)⟩
              · exact ⟨cl2, hgetcj, Or.inr (by rw [hcl21]; exact hp1)⟩
          · have hold : 1 ≤ List.count cj (s.watches l) := by
              rw [if_neg (fun h => hcji h.2.1), if_neg (fun h => hcji h.2)] at hcj
              omega
            obtain ⟨c0, hc0, hpos⟩ := hwp l cj ((mem_iff_count_pos _ _).mpr hold)
            exact ⟨c0, by rw [hget cj hcji]; exact hc0, hpos⟩
        · -- WatchDup
          show WatchDup s2
          intro l cj
          rw [hcw]
          by_cases hcji : cj = ci
          · by_cases hln : l = newLit
            · by_cases hlf : l = fw
              · by_cases hmem : ci ∈ s.watches l
                · rw [if_pos (show l = fw ∧ cj = ci ∧ ci ∈ s.watches l from ⟨hlf, hcji, hmem⟩),
                    if_pos (show l = newLit ∧ cj = ci from ⟨hln, hcji⟩)]
                  have hb := (hwd l cj).1
                  have hm1 : 1 ≤ List.count cj (s.watches l) := by
                    rw [hcji]
                    exact (mem_iff_count_pos _ _).mp hmem
                  constructor
                  · omega
                  · intro h2
                    obtain ⟨c1, hc1, hq0, hq1⟩ := (hwd l cj).2 (by omega)
                    have hc1c : c1 = clause := by
                      rw [hcji, hc] at hc1
                      simpa using hc1.symm
                    rw [hc1c] at hq1
                    have hgetcj : s2.clauses.get? cj = some cl2 := by
                      rw [hcji]
                      exact hgetci
                    refine ⟨cl2, hgetcj, ?_, ?_⟩
                    · rw [hcl20, hln]
                    · rw [hcl21]
                      exact hq1
                · rw [if_neg (fun h => hmem h.2.2),
                    if_pos (show l = newLit ∧ cj = ci from ⟨hln, hcji⟩)]
                  have hz : List.count cj (s.watches l) = 0 := by
                    by_contra hnz
                    refine hmem ?_
                    rw [← hcji]
                    exact (mem_iff_count_pos _ _).mpr (by omega)
                  rw [hz]
                  exact ⟨by omega, fun h2 => absurd h2 (by omega)⟩
              · rw [if_neg (fun h => hlf h.1),
                    if_pos (show l = newLit ∧ cj = ci from ⟨hln, hcji⟩)]
                have hb2 : List.count cj (s.watches l) ≤ 1 := by
                  by_contra hgt
                  obtain ⟨c1, hc1, hq0, _⟩ := (hwd l cj).2 (by
                    have := (hwd l cj).1
                    omega)
                  have hc1c : c1 = clause := by
                    rw [hcji, hc] at hc1
                    simpa using hc1.symm
                  rw [hc1c] at hq0
                  rw [hfw0] at hq0
                  exact hlf (by simpa using hq0.symm)
                constructor
                · omega
                · intro h2
                  obtain ⟨c0, hc0, hpos⟩ := hwp l cj ((mem_iff_count_pos _ _).mpr (by omega))
                  have hc0c : c0 = clause := by
                    rw [hcji, hc] at hc0
                    simpa using hc0.symm
                  rw [hc0c] at hpos
                  have hgetcj : s2.clauses.get? cj = some cl2 := by
                    rw [hcji]
                    exact hgetci
                  rcases hpos with hp0 | hp1
                  · exfalso
                    rw [hfw0] at hp0
                    exact hlf (by simpa using hp0.symm)
                  · refine ⟨cl2, hgetcj, ?_, ?_⟩
                    · rw [hcl20, hln]
                    · rw [hcl21]
                      exact hp1
            · rw [if_neg (show ¬(l = newLit ∧ cj = ci) from fun h => hln h.1)]
              have hb := (hwd l cj).1
              constructor
              · split_ifs <;> omega
              · intro h2
                exfalso
                by_cases hrem : l = fw ∧ cj = ci ∧ ci ∈ s.watches l
                · rw [if_pos hrem] at h2
                  omega
                · rw [if_neg hrem] at h2
                  obtain ⟨c1, hc1, hq0, hq1⟩ := (hwd l cj).2 (by omega)
                  have hc1c : c1 = clause := by
                    rw [hcji, hc] at hc1
                    simpa using hc1.symm
                  rw [hc1c] at hq0
                  rw [hfw0] at hq0
                  have hlfw : l = fw := by simpa using hq0.symm
                  have hmem : ci ∈ s.watches l := by
                    rw [← hcji]
                    exact (mem_iff_count_pos _ _).mpr (by omega)
                  exact hrem ⟨hlfw, hcji, hmem⟩
          · rw [if_neg (fun h => hcji h.2.1), if_neg (fun h => hcji h.2)]
            have hb := (hwd l cj).1
            constructor
            · omega
            · intro h2
              obtain ⟨c1, hc1, hq0, hq1⟩ := (hwd l cj).2 (by omega)
              exact ⟨c1, by rw [hget cj hcji]; exact hc1, hq0, hq1⟩
        · -- DbImplied
          show DbImplied cnf s2
          intro c2 hc2
          rw [hcls2] at hc2
          rcases List.mem_or_eq_of_mem_set hc2 with hm | rfl
          · exact hdb c2 hm
          · refine impliedClause_mem_congr ?_ (hdb clause (List.get?_mem hc))
            intro z
            exact mem_set_swap hfw0 hg z
        · -- count bound
          intro l cj
          show List.count cj (s.watches l) ≤ List.count cj (s2.watches l) + _
          rw [hcw]
          split_ifs <;> omega

/-- `processWatchClause` reduces to `pwcStep` on the (possibly swapped)
step state. -/
theorem processWatchClause_eq_step (ai2 : Solver → Int → Nat → Solver)
    (fl : Int) (ci : Nat) (s : Solver) (c : List Int) (x0 x1 : Int)
    (hc : s.clauses.get? ci = some c)
    (hx0 : c.get? 0 = some x0) (hx1 : c.get? 1 = some x1) :
    (x0 = fl → processWatchClause ai2 fl ci s = pwcStep ai2 ci x0 x1 s) ∧
    (x0 ≠ fl → processWatchClause ai2 fl ci s =
      pwcStep ai2 ci x1 x0
        { s with clauses := s.clauses.set ci ((c.set 0 x1).set 1 x0) }) := by
  constructor
  · intro heq
    rw [processWatchClause, hc, pwcStep]
    simp only [Option.getD_some, hx0, hx1, if_neg (by simp [heq] : ¬ x0 ≠ fl)]
  · intro hne
    rw [processWatchClause, hc, pwcStep]
    simp only [Option.getD_some, hx0, hx1, if_pos hne]

/-- Watcher positions only depend on the clause list and watch map. -/
theorem watchPos_transport (s s2 : Solver) (hc : s2.clauses = s.clauses)
    (hw : s2.watches = s.watches) (h : WatchPos s) : WatchPos s2 := by
  intro l ci hci
  rw [hw] at hci
  rw [hc]
  exact h l ci hci

/-- Watcher multiplicities only depend on the clause list and watch map. -/
theorem watchDup_transport (s s2 : Solver) (hc : s2.clauses = s.clauses)
    (hw : s2.watches = s.watches) (h : WatchDup s) : WatchDup s2 := by
  intro l ci
  rw [hw, hc]
  exact h l ci

/-- Database implication only depends on the clause list. -/
theorem dbImplied_transport (cnf : List (List Int)) (s s2 : Solver)
    (hc : s2.clauses = s.clauses) (h : DbImplied cnf s) : DbImplied cnf s2 := by
  intro c hc2
  rw [hc] at hc2
  exact h c hc2

/-- The watcher scan never touches queue, stacks or propagation index. -/
theorem fnwLoop_fields (s : Solver) (ci : Nat) (fw : Int) (clause : List Int) :
    ∀ (remaining i : Nat),
    (fnwLoop s ci fw clause i remaining).2.unitQueue = s.unitQueue ∧
    (fnwLoop s ci fw clause i remaining).2.decisions = s.decisions ∧
    (fnwLoop s ci fw clause i remaining).2.levelStart = s.levelStart ∧
    (fnwLoop s ci fw clause i remaining).2.propIndex = s.propIndex := by
  intro remaining
  induction remaining with
  | zero =>
    intro i
    rw [fnwLoop]
    exact ⟨rfl, rfl, rfl, rfl⟩
  | succ r ih =>
    intro i
    rw [fnwLoop]
    rcases hg : clause.get? i with _ | newLit
    · simp only [hg]
      exact ⟨trivial, trivial, trivial, trivial⟩
    · simp only [hg]
      by_cases hf : litIsFalse s newLit = true
      · rw [if_pos hf]
        exact ih (i + 1)
      · rw [if_neg hf]
        exact ⟨rfl, rfl, rfl, rfl⟩

/-- The common tail of one watch-entry processing step: invariants survive,
any agreeing model of the CNF still agrees, at most the processed entry
leaves any watch list, and a conflict means the stored clause is false. -/
theorem pwcStep_sem (cnf : List (List Int)) (ai2 : Solver → Int → Nat → Solver)
    (hai2 : ∀ st l ci, (ai2 st l ci).assignment = updFn st.assignment (iabs l) (signVal l) ∧
      (ai2 st l ci).trail = st.trail ++ [l] ∧ (ai2 st l ci).numVars = st.numVars ∧
      (ai2 st l ci).clauses = st.clauses ∧ (ai2 st l ci).watches = st.watches ∧
      (ai2 st l ci).unitQueue = st.unitQueue ∧ (ai2 st l ci).decisions = st.decisions ∧
      (ai2 st l ci).levelStart = st.levelStart ∧ (ai2 st l ci).propIndex = st.propIndex)
    (ci : Nat) (w1 w2 : Int) (s1 : Solver) (c1 : List Int)
    (hc1 : s1.clauses.get? ci = some c1)
    (hw1of : c1.get? 0 = some w1) (hw2of : c1.get? 1 = some w2) (hlen1 : 2 ≤ c1.length)
    (hw1f : litIsFalse s1 w1 = true)
    (hInv1 : PropInv s1) (hwp1 : WatchPos s1) (hwd1 : WatchDup s1)
    (hdb1 : DbImplied cnf s1) :
    WatchPos (pwcStep ai2 ci w1 w2 s1).2 ∧
    WatchDup (pwcStep ai2 ci w1 w2 s1).2 ∧
    DbImplied cnf (pwcStep ai2 ci w1 w2 s1).2 ∧
    (∀ v, s1.assignment v ≠ 0 →
      (pwcStep ai2 ci w1 w2 s1).2.assignment v = s1.assignment v) ∧
    (∃ tl, (pwcStep ai2 ci w1 w2 s1).2.trail = s1.trail ++ tl) ∧
    ((pwcStep ai2 ci w1 w2 s1).2.unitQueue = s1.unitQueue ∧
      (pwcStep ai2 ci w1 w2 s1).2.decisions = s1.decisions ∧
      (pwcStep ai2 ci w1 w2 s1).2.levelStart = s1.levelStart ∧
      (pwcStep ai2 ci w1 w2 s1).2.propIndex = s1.propIndex) ∧
    (∀ (l : Int) (cj : Nat),
      List.count cj (s1.watches l) - (if cj = ci then 1 else 0) ≤
        List.count cj ((pwcStep ai2 ci w1 w2 s1).2.watches l)) ∧
    (∀ cfl, (pwcStep ai2 ci w1 w2 s1).1 = some cfl →
      (pwcStep ai2 ci w1 w2 s1).2.trail = s1.trail ∧
      ∃ c2, (pwcStep ai2 ci w1 w2 s1).2.clauses.get? cfl = some c2 ∧
        ∀ m ∈ c2, litIsFalse (pwcStep ai2 ci w1 w2 s1).2 m = true) ∧
    (∀ mdl, satCnf mdl cnf = true → AgreeTrail mdl s1 →
      AgreeTrail mdl (pwcStep ai2 ci w1 w2 s1).2) := by
  rw [pwcStep]
  by_cases ht : litIsTrue s1 w2 = true
  · rw [if_pos ht]
    refine ⟨hwp1, hwd1, hdb1, fun v _ => rfl, ⟨[], by simp⟩, ⟨rfl, rfl, rfl, rfl⟩, ?_, ?_, ?_⟩
    · intro l cj
      show List.count cj (s1.watches l) - (if cj = ci then 1 else 0) ≤
        List.count cj (s1.watches l)
      split_ifs <;> omega
    · intro cfl hcfl
      simp at hcfl
    · intro mdl _ hag
      exact hag
  · rw [if_neg ht]
    have hfneq : findNewWatcher s1 ci w1 = fnwLoop s1 ci w1 c1 2 c1.length := by
      rw [findNewWatcher, hc1, Option.getD_some]
    have hw1m : w1 ∈ c1 := List.get?_mem hw1of
    have hpres := fnwLoop_preserves ci w1 c1 c1.length 2 s1 hc1 hw1m hlen1 hInv1
    have hsem := fnwLoop_sem cnf s1 ci w1 c1 hc1 hw1of hwp1 hwd1 hdb1 c1.length 2 (by omega)
    have hfld := fnwLoop_fields s1 ci w1 c1 c1.length 2
    rcases hfn : fnwLoop s1 ci w1 c1 2 c1.length with ⟨found, s2⟩
    rw [hfneq, hfn]
    rw [hfn] at hpres hsem hfld
    obtain ⟨hInv2, hshape2, hnum2, hassign2, htrail2⟩ := hpres
    obtain ⟨hwp2, hwd2, hdb2, hcnt2⟩ := hsem
    obtain ⟨hq2, hdec2, hls2, hpx2⟩ := hfld
    replace hInv2 : PropInv s2 := hInv2
    replace hnum2 : s2.numVars = s1.numVars := hnum2
    replace hassign2 : s2.assignment = s1.assignment := hassign2
    replace htrail2 : s2.trail = s1.trail := htrail2
    replace hwp2 : WatchPos s2 := hwp2
    replace hwd2 : WatchDup s2 := hwd2
    replace hdb2 : DbImplied cnf s2 := hdb2
    replace hcnt2 : ∀ (l : Int) (cj : Nat), List.count cj (s1.watches l) ≤
        List.count cj (s2.watches l) + if cj = ci then 1 else 0 := hcnt2
    replace hq2 : s2.unitQueue = s1.unitQueue := hq2
    replace hdec2 : s2.decisions = s1.decisions := hdec2
    replace hls2 : s2.levelStart = s1.levelStart := hls2
    replace hpx2 : s2.propIndex = s1.propIndex := hpx2
    cases found with
    | true =>
      refine ⟨hwp2, hwd2, hdb2, fun v _ => congrFun hassign2 v,
        ⟨[], by show s2.trail = s1.trail ++ []; rw [htrail2, List.append_nil]⟩,
        ⟨hq2, hdec2, hls2, hpx2⟩, ?_, ?_, ?_⟩
      · intro l cj
        have hcc := hcnt2 l cj
        show List.count cj (s1.watches l) - (if cj = ci then 1 else 0) ≤
          List.count cj (s2.watches l)
        split_ifs at hcc ⊢ <;> omega
      · intro cfl hcfl
        simp at hcfl
      · intro mdl _ hag
        intro l hl
        have hl2 : l ∈ s2.trail := hl
        rw [htrail2] at hl2
        exact hag l hl2
    | false =>
      have hs2eq : s2 = s1 := by
        have hfs := fnwLoop_false_state s1 ci w1 c1 c1.length 2
        rw [hfn] at hfs
        exact hfs rfl
      rw [hs2eq]
      have hscan : ∀ j, 2 ≤ j → j < c1.length → ∀ x, c1.get? j = some x →
          litIsFalse s1 x = true := by
        have hfs := fnwLoop_false_scan s1 ci w1 c1 c1.length 2 (by omega)
        rw [hfn, hs2eq] at hfs
        exact hfs rfl
      have hallf : ∀ m ∈ c1, m ≠ w2 → litIsFalse s1 m = true := by
        intro m hm hmw
        rw [List.mem_iff_get?] at hm
        obtain ⟨j, hj⟩ := hm
        by_cases hj0 : j = 0
        · subst hj0
          rw [hw1of] at hj
          have hmw1 : w1 = m := by simpa using hj
          rw [← hmw1]
          exact hw1f
        · by_cases hj1 : j = 1
          · subst hj1
            rw [hw2of] at hj
            have hj2 : w2 = m := by simpa using hj
            exact absurd hj2.symm hmw
          · exact hscan j (by omega) (get?_lt_length _ _ _ hj) m hj
      have hc1m : c1 ∈ s1.clauses := List.get?_mem hc1
      have hrange := hInv1.2.1 c1 hc1m
      by_cases hu : litIsUnassigned s1 w2 = true
      · simp only [hu, if_true]
        obtain ⟨ha3, htr3, hn3, hcl3, hwt3, hq3, hdec3, hls3, hpx3⟩ := hai2 s1 w2 ci
        have hw2u : s1.assignment (iabs w2) = 0 := by
          unfold litIsUnassigned at hu
          exact eq_of_beq hu
        have hforced : ∀ mdl, satCnf mdl cnf = true → AgreeTrail mdl s1 →
            modelSatLit mdl w2 = true := by
          intro mdl hsat hag
          have himp := hdb1 c1 hc1m mdl hsat
          rw [modelSatClause_iff] at himp
          obtain ⟨m, hm, hms⟩ := himp
          by_cases hmw : m = w2
          · rw [← hmw]
            exact hms
          · exfalso
            have hmf := hallf m hm hmw
            have hmr := hrange m hm
            have hfalse := agree_false_lit mdl s1 m hInv1.1 hag hmf hmr.1 hmr.2
            rw [hms] at hfalse
            simp at hfalse
        refine ⟨?_, ?_, ?_, ?_, ⟨[w2], htr3⟩,
          ⟨hq3, hdec3, hls3, hpx3⟩, ?_, ?_, ?_⟩
        · exact watchPos_transport s1 _ hcl3 hwt3 hwp1
        · exact watchDup_transport s1 _ hcl3 hwt3 hwd1
        · exact dbImplied_transport cnf s1 _ hcl3 hdb1
        · intro v hv
          rw [ha3]
          unfold updFn
          rw [if_neg (fun hveq => hv (by rw [hveq]; exact hw2u))]
        · intro l cj
          show List.count cj (s1.watches l) - (if cj = ci then 1 else 0) ≤
            List.count cj ((ai2 s1 w2 ci).watches l)
          rw [hwt3]
          split_ifs <;> omega
        · intro cfl hcfl
          simp at hcfl
        · intro mdl hsat hag
          intro l hl
          have hl2 : l ∈ (ai2 s1 w2 ci).trail := hl
          rw [htr3] at hl2
          rcases List.mem_append.mp hl2 with hold | hnew
          · exact hag l hold
          · simp only [List.mem_singleton] at hnew
            subst hnew
            exact hforced mdl hsat hag
      · rw [Bool.not_eq_true] at hu
        simp only [hu, Bool.false_eq_true, if_false]
        by_cases hf2 : litIsFalse s1 w2 = true
        · simp only [hf2, if_true]
          refine ⟨hwp1, hwd1, hdb1, fun _ _ => by trivial, ⟨[], by simp⟩,
            ⟨by trivial, by trivial, by trivial, by trivial⟩, ?_, ?_, ?_⟩
          · intro l cj
            show List.count cj (s1.watches l) - (if cj = ci then 1 else 0) ≤
              List.count cj (s1.watches l)
            split_ifs <;> omega
          · intro cfl hcfl
            have hcfl2 : ci = cfl := by simpa using hcfl
            refine ⟨by trivial, c1, by rw [← hcfl2]; exact hc1, ?_⟩
            intro m hm
            by_cases hmw : m = w2
            · rw [hmw]
              exact hf2
            · exact hallf m hm hmw
          · intro mdl _ hag
            exact hag
        · rw [Bool.not_eq_true] at hf2
          simp only [hf2, Bool.false_eq_true, if_false]
          refine ⟨hwp1, hwd1, hdb1, fun _ _ => by trivial, ⟨[], by simp⟩,
            ⟨by trivial, by trivial, by trivial, by trivial⟩, ?_, ?_, ?_⟩
          · intro l cj
            show List.count cj (s1.watches l) - (if cj = ci then 1 else 0) ≤
              List.count cj (s1.watches l)
            split_ifs <;> omega
          · intro cfl hcfl
            simp at hcfl
          · intro mdl _ hag
            exact hag

/-- Processing one watch-list entry of a falsified literal: the soundness
invariants survive, the trail only grows, models of the CNF keep agreeing
with the trail, at most this entry leaves any watch list, and a reported
conflict pins a fully falsified stored clause with an unchanged trail. -/
theorem processWatchClause_sem (cnf : List (List Int))
    (ai2 : Solver → Int → Nat → Solver)
    (hai2 : ∀ st l ci, (ai2 st l ci).assignment = updFn st.assignment (iabs l) (signVal l) ∧
      (ai2 st l ci).trail = st.trail ++ [l] ∧ (ai2 st l ci).numVars = st.numVars ∧
      (ai2 st l ci).clauses = st.clauses ∧ (ai2 st l ci).watches = st.watches ∧
      (ai2 st l ci).unitQueue = st.unitQueue ∧ (ai2 st l ci).decisions = st.decisions ∧
      (ai2 st l ci).levelStart = st.levelStart ∧ (ai2 st l ci).propIndex = st.propIndex)
    (fl : Int) (ci : Nat) (s : Solver)
    (hcl : ∃ c, s.clauses.get? ci = some c ∧ 2 ≤ c.length ∧
      (c.get? 0 = some fl ∨ c.get? 1 = some fl))
    (hflf : litIsFalse s fl = true)
    (hInv : PropInv s) (hwp : WatchPos s) (hwd : WatchDup s)
    (hdb : DbImplied cnf s) :
    WatchPos (processWatchClause ai2 fl ci s).2 ∧
    WatchDup (processWatchClause ai2 fl ci s).2 ∧
    DbImplied cnf (processWatchClause ai2 fl ci s).2 ∧
    (∀ v, s.assignment v ≠ 0 →
      (processWatchClause ai2 fl ci s).2.assignment v = s.assignment v) ∧
    (∃ tl, (processWatchClause ai2 fl ci s).2.trail = s.trail ++ tl) ∧
    ((processWatchClause ai2 fl ci s).2.unitQueue = s.unitQueue ∧
      (processWatchClause ai2 fl ci s).2.decisions = s.decisions ∧
      (processWatchClause ai2 fl ci s).2.levelStart = s.levelStart ∧
      (processWatchClause ai2 fl ci s).2.propIndex = s.propIndex) ∧
    (∀ (l : Int) (cj : Nat),
      List.count cj (s.watches l) - (if cj = ci then 1 else 0) ≤
        List.count cj ((processWatchClause ai2 fl ci s).2.watches l)) ∧
    (∀ cfl, (processWatchClause ai2 fl ci s).1 = some cfl →
      (processWatchClause ai2 fl ci s).2.trail = s.trail ∧
      ∃ c2, (processWatchClause ai2 fl ci s).2.clauses.get? cfl = some c2 ∧
        ∀ m ∈ c2, litIsFalse (processWatchClause ai2 fl ci s).2 m = true) ∧
    (∀ mdl, satCnf mdl cnf = true → AgreeTrail mdl s →
      AgreeTrail mdl (processWatchClause ai2 fl ci s).2) := by
  obtain ⟨c, hc, hlen, hpos⟩ := hcl
  have hlt0 : 0 < c.length := by omega
  have hlt1 : 1 < c.length := by omega
  obtain ⟨x0, hx0⟩ : ∃ x, c.get? 0 = some x := by
    rw [List.get?_eq_getElem?, List.getElem?_eq_getElem (by omega)]
    exact ⟨_, rfl⟩
  obtain ⟨x1, hx1⟩ : ∃ x, c.get? 1 = some x := by
    rw [List.get?_eq_getElem?, List.getElem?_eq_getElem (by omega)]
    exact ⟨_, rfl⟩
  by_cases hx0fl : x0 = fl
  · rw [(processWatchClause_eq_step ai2 fl ci s c x0 x1 hc hx0 hx1).1 hx0fl]
    exact pwcStep_sem cnf ai2 hai2 ci x0 x1 s c hc hx0 hx1 hlen
      (by rw [hx0fl]; exact hflf) hInv hwp hwd hdb
  · rw [(processWatchClause_eq_step ai2 fl ci s c x0 x1 hc hx0 hx1).2 hx0fl]
    have hx1fl : x1 = fl := by
      rcases hpos with h0 | h1
      · rw [hx0] at h0
        exact absurd (by simpa using h0) hx0fl
      · rw [hx1] at h1
        simpa using h1
    have hc1 : ({ s with clauses := s.clauses.set ci ((c.set 0 x1).set 1 x0) } :
        Solver).clauses.get? ci = some ((c.set 0 x1).set 1 x0) := by
      show (s.clauses.set ci ((c.set 0 x1).set 1 x0)).get? ci = some _
      rw [List.get?_eq_getElem?, List.getElem?_set, if_pos rfl,
        if_pos (get?_lt_length _ _ _ hc)]
    have hg0 : ((c.set 0 x1).set 1 x0).get? 0 = some x1 := by
      rw [List.get?_eq_getElem?, List.getElem?_set, if_neg (by omega)]
      have h2 : (c.set 0 x1).get? 0 = some x1 := by
        rw [List.get?_eq_getElem?, List.getElem?_set, if_pos rfl,
          if_pos (by simpa using hlt0)]
      rw [List.get?_eq_getElem?] at h2
      exact h2
    have hg1 : ((c.set 0 x1).set 1 x0).get? 1 = some x0 := by
      rw [List.get?_eq_getElem?, List.getElem?_set, if_pos rfl,
        if_pos (by simpa using hlt1)]
    have hlen2 : ((c.set 0 x1).set 1 x0).length = c.length := by simp
    have hsub : ∀ x ∈ (c.set 0 x1).set 1 x0, x ∈ c := by
      intro x hx
      exact (mem_set_swap hx0 hx1 x).mp hx
    have hInv1 : PropInv { s with clauses := s.clauses.set ci ((c.set 0 x1).set 1 x0) } :=
      ⟨hInv.1, range_set s ci c _ hc hsub hInv.2.1, watchedTwo_set s ci c _ hc hlen2 hInv.2.2⟩
    have hwp1 : WatchPos { s with clauses := s.clauses.set ci ((c.set 0 x1).set 1 x0) } := by
      intro l cj hcj
      obtain ⟨c0, hc0, hp⟩ := hwp l cj hcj
      by_cases hcji : cj = ci
      · rw [hcji] at hc0
        rw [hc0] at hc
        have hc0c : c0 = c := by simpa using hc
        refine ⟨(c.set 0 x1).set 1 x0, by rw [hcji]; exact hc1, ?_⟩
        rcases hp with hp0 | hp1
        · rw [hc0c, hx0] at hp0
          right
          rw [hg1, ← hp0]
        · rw [hc0c, hx1] at hp1
          left
          rw [hg0, ← hp1]
      · refine ⟨c0, ?_, hp⟩
        show (s.clauses.set ci ((c.set 0 x1).set 1 x0)).get? cj = some c0
        rw [List.get?_eq_getElem?, List.getElem?_set, if_neg (fun h => hcji h.symm)]
        rw [List.get?_eq_getElem?] at hc0
        exact hc0
    have hwd1 : WatchDup { s with clauses := s.clauses.set ci ((c.set 0 x1).set 1 x0) } := by
      intro l cj
      obtain ⟨hle, h2⟩ := hwd l cj
      refine ⟨hle, ?_⟩
      intro hcnt
      obtain ⟨c0, hc0, hp0, hp1⟩ := h2 hcnt
      by_cases hcji : cj = ci
      · rw [hcji] at hc0
        rw [hc0] at hc
        have hc0c : c0 = c := by simpa using hc
        rw [hc0c, hx0] at hp0
        rw [hc0c, hx1] at hp1
        refine ⟨(c.set 0 x1).set 1 x0, by rw [hcji]; exact hc1, ?_, ?_⟩
        · rw [hg0, ← hp1]
        · rw [hg1, ← hp0]
      · refine ⟨c0, ?_, hp0, hp1⟩
        show (s.clauses.set ci ((c.set 0 x1).set 1 x0)).get? cj = some c0
        rw [List.get?_eq_getElem?, List.getElem?_set, if_neg (fun h => hcji h.symm)]
        rw [List.get?_eq_getElem?] at hc0
        exact hc0
    have hdb1 : DbImplied cnf { s with clauses := s.clauses.set ci ((c.set 0 x1).set 1 x0) } := by
      intro c' hc'
      have hc'2 : c' ∈ s.clauses.set ci ((c.set 0 x1).set 1 x0) := hc'
      rcases List.mem_or_eq_of_mem_set hc'2 with hmem | heq
      · exact hdb c' hmem
      · rw [heq]
        exact impliedClause_mem_congr (mem_set_swap hx0 hx1) (hdb c (List.get?_mem hc))
    exact pwcStep_sem cnf ai2 hai2 ci x1 x0 _ ((c.set 0 x1).set 1 x0) hc1 hg0 hg1
      (by omega) (by rw [hx1fl]; exact hflf) hInv1 hwp1 hwd1 hdb1

/-- A false literal stays false when the assignment only grows. -/
theorem litIsFalse_mono (s s2 : Solver) (l : Int)
    (hmono : ∀ v, s.assignment v ≠ 0 → s2.assignment v = s.assignment v)
    (hf : litIsFalse s l = true) : litIsFalse s2 l = true := by
  unfold litIsFalse at hf ⊢
  rw [beq_iff_eq] at hf ⊢
  rw [hmono (iabs l) (by rw [hf]; split_ifs <;> omega)]
  exact hf

/-- Processing the snapshot of a falsified literal's watch list: the
soundness invariants survive, the trail only grows, agreeing models keep
agreeing, and a reported conflict pins a fully falsified stored clause. -/
theorem processWatchList_sem (cnf : List (List Int))
    (ai2 : Solver → Int → Nat → Solver)
    (hai2 : ∀ st l ci, (ai2 st l ci).assignment = updFn st.assignment (iabs l) (signVal l) ∧
      (ai2 st l ci).trail = st.trail ++ [l] ∧ (ai2 st l ci).numVars = st.numVars ∧
      (ai2 st l ci).clauses = st.clauses ∧ (ai2 st l ci).watches = st.watches ∧
      (ai2 st l ci).unitQueue = st.unitQueue ∧ (ai2 st l ci).decisions = st.decisions ∧
      (ai2 st l ci).levelStart = st.levelStart ∧ (ai2 st l ci).propIndex = st.propIndex)
    (fl : Int) (hfl0 : fl ≠ 0) :
    ∀ (snapshot : List Nat) (s : Solver),
      (∀ cj, List.count cj snapshot ≤ List.count cj (s.watches fl)) →
      litIsFalse s fl = true →
      iabs fl ≤ Int.ofNat s.numVars →
      PropInv s → WatchPos s → WatchDup s → DbImplied cnf s →
      WatchPos (processWatchList ai2 fl snapshot s).2 ∧
      WatchDup (processWatchList ai2 fl snapshot s).2 ∧
      DbImplied cnf (processWatchList ai2 fl snapshot s).2 ∧
      (∀ v, s.assignment v ≠ 0 →
        (processWatchList ai2 fl snapshot s).2.assignment v = s.assignment v) ∧
      (∃ tl, (processWatchList ai2 fl snapshot s).2.trail = s.trail ++ tl) ∧
      ((processWatchList ai2 fl snapshot s).2.unitQueue = s.unitQueue ∧
        (processWatchList ai2 fl snapshot s).2.decisions = s.decisions ∧
        (processWatchList ai2 fl snapshot s).2.levelStart = s.levelStart ∧
        (processWatchList ai2 fl snapshot s).2.propIndex = s.propIndex) ∧
      (∀ cfl, (processWatchList ai2 fl snapshot s).1 = some cfl →
        ∃ c2, (processWatchList ai2 fl snapshot s).2.clauses.get? cfl = some c2 ∧
          ∀ m ∈ c2, litIsFalse (processWatchList ai2 fl snapshot s).2 m = true) ∧
      (∀ mdl, satCnf mdl cnf = true → AgreeTrail mdl s →
        AgreeTrail mdl (processWatchList ai2 fl snapshot s).2) := by
  intro snapshot
  induction snapshot with
  | nil =>
    intro s _ _ _ _ hwp hwd hdb
    rw [processWatchList]
    exact ⟨hwp, hwd, hdb, fun v _ => rfl, ⟨[], by simp⟩, ⟨rfl, rfl, rfl, rfl⟩,
      fun cfl hcfl => by simp at hcfl, fun mdl _ hag => hag⟩
  | cons ci rest ih =>
    intro s hcount hflf hflr hInv hwp hwd hdb
    rw [processWatchList]
    have hcim : ci ∈ s.watches fl := by
      rw [← List.count_pos_iff_mem]
      have h1 := hcount ci
      have h2 : 0 < List.count ci (ci :: rest) := by
        rw [List.count_cons]
        simp
      omega
    obtain ⟨c0, hc0, hp0⟩ := hwp fl ci hcim
    obtain ⟨c0b, hc0b, hlen0⟩ := hInv.2.2 fl ((mem_watchLits s.numVars fl).mpr ⟨hfl0, hflr⟩) ci hcim
    rw [hc0] at hc0b
    have hc0e : c0b = c0 := (by simpa using hc0b : c0 = c0b).symm
    rw [hc0e] at hlen0
    have hstep := processWatchClause_sem cnf ai2 hai2 fl ci s ⟨c0, hc0, hlen0, hp0⟩
      hflf hInv hwp hwd hdb
    have hstep2 := processWatchClause_preserves ai2
      (fun st l cj => ⟨(hai2 st l cj).1, (hai2 st l cj).2.1, (hai2 st l cj).2.2.1,
        (hai2 st l cj).2.2.2.1, (hai2 st l cj).2.2.2.2.1⟩) fl ci s
      ⟨c0, hc0, hlen0⟩ hInv
    rcases hp : processWatchClause ai2 fl ci s with ⟨r, s2⟩
    rw [hp] at hstep hstep2
    obtain ⟨hwp2, hwd2, hdb2, hmono2, ⟨tl2, htl2⟩, ⟨hq2, hdec2, hls2, hpx2⟩,
      hcnt2, hconf2, hag2⟩ := hstep
    obtain ⟨hInv2, hshape2, hnum2⟩ := hstep2
    cases r with
    | some cfl =>
      obtain ⟨_, hcc⟩ := hconf2 cfl rfl
      exact ⟨hwp2, hwd2, hdb2, hmono2, ⟨tl2, htl2⟩, ⟨hq2, hdec2, hls2, hpx2⟩,
        fun cfl2 hcfl2 => by rw [show cfl2 = cfl from (by simpa using hcfl2 : cfl = cfl2).symm]; exact hcc,
        hag2⟩
    | none =>
      replace hcnt2 : ∀ (l : Int) (cj : Nat),
          List.count cj (s.watches l) - (if cj = ci then 1 else 0) ≤
            List.count cj (s2.watches l) := hcnt2
      replace hmono2 : ∀ v, s.assignment v ≠ 0 →
          s2.assignment v = s.assignment v := hmono2
      replace htl2 : s2.trail = s.trail ++ tl2 := htl2
      have hcount2 : ∀ cj, List.count cj rest ≤ List.count cj (s2.watches fl) := by
        intro cj
        have h1 := hcount cj
        have h2 := hcnt2 fl cj
        have h3 : List.count cj (ci :: rest) =
            List.count cj rest + (if cj = ci then 1 else 0) := by
          rw [List.count_cons]
          by_cases h : cj = ci
          · rw [h]
            simp
          · rw [if_neg (by simp only [beq_iff_eq]; omega), if_neg h]
        split_ifs at h2 h3 <;> omega
      have hflf2 : litIsFalse s2 fl = true := litIsFalse_mono s s2 fl hmono2 hflf
      have hflr2 : iabs fl ≤ Int.ofNat s2.numVars := by
        rw [hnum2]
        exact hflr
      obtain ⟨hwp3, hwd3, hdb3, hmono3, ⟨tl3, htl3⟩, ⟨hq3, hdec3, hls3, hpx3⟩,
        hconf3, hag3⟩ := ih s2 hcount2 hflf2 hflr2 hInv2 hwp2 hwd2 hdb2
      refine ⟨hwp3, hwd3, hdb3, ?_, ⟨tl2 ++ tl3, by rw [htl3, htl2, List.append_assoc]⟩,
        ⟨hq3.trans hq2, hdec3.trans hdec2, hls3.trans hls2, hpx3.trans hpx2⟩,
        hconf3, ?_⟩
      · intro v hv
        rw [hmono3 v (by rw [hmono2 v hv]; exact hv), hmono2 v hv]
      · intro mdl hsat hag
        exact hag3 mdl hsat (hag2 mdl hsat hag)

/-- The negation of a trail literal is false. -/
theorem neg_trail_lit_false (s : Solver) (l : Int) (htc : TrailConsistent s)
    (hl : l ∈ s.trail) : litIsFalse s (-l) = true := by
  have hsv := htc.2 l hl
  have h0 := trail_lit_ne_zero s l htc hl
  unfold litIsFalse
  rw [iabs_neg, hsv, beq_iff_eq]
  unfold signVal
  by_cases hpos : 0 < l
  · rw [if_pos hpos, if_neg (by omega : ¬(0:Int) < -l)]
  · rw [if_neg hpos, if_pos (by omega : (0:Int) < -l)]

/-- The trail-propagation loop: the soundness invariants survive, the trail
only grows, agreeing models keep agreeing, stacks and queue are untouched,
and a reported conflict pins a fully falsified stored clause. -/
theorem propTrailLoop_sem (cnf : List (List Int))
    (ai2 : Solver → Int → Nat → Solver)
    (hai2 : ∀ st l ci, (ai2 st l ci).assignment = updFn st.assignment (iabs l) (signVal l) ∧
      (ai2 st l ci).trail = st.trail ++ [l] ∧ (ai2 st l ci).numVars = st.numVars ∧
      (ai2 st l ci).clauses = st.clauses ∧ (ai2 st l ci).watches = st.watches ∧
      (ai2 st l ci).unitQueue = st.unitQueue ∧ (ai2 st l ci).decisions = st.decisions ∧
      (ai2 st l ci).levelStart = st.levelStart ∧ (ai2 st l ci).propIndex = st.propIndex) :
    ∀ (fuel : Nat) (s : Solver) (r : Option Nat) (s2 : Solver),
      propTrailLoop ai2 fuel s = some (r, s2) →
      PropInv s → WatchPos s → WatchDup s → DbImplied cnf s →
      WatchPos s2 ∧ WatchDup s2 ∧ DbImplied cnf s2 ∧
      (∀ v, s.assignment v ≠ 0 → s2.assignment v = s.assignment v) ∧
      (∃ tl, s2.trail = s.trail ++ tl) ∧
      (s2.unitQueue = s.unitQueue ∧ s2.decisions = s.decisions ∧
        s2.levelStart = s.levelStart ∧ s2.numVars = s.numVars) ∧
      (∀ cfl, r = some cfl → ∃ c2, s2.clauses.get? cfl = some c2 ∧
        ∀ m ∈ c2, litIsFalse s2 m = true) ∧
      (∀ mdl, satCnf mdl cnf = true → AgreeTrail mdl s → AgreeTrail mdl s2) := by
  intro fuel
  induction fuel with
  | zero => intro s r s2 h _ _ _ _; simp [propTrailLoop] at h
  | succ f ih =>
    intro s r s2 h hInv hwp hwd hdb
    rw [propTrailLoop] at h
    by_cases hlt : s.propIndex < s.trail.length
    · rw [if_pos hlt] at h
      obtain ⟨lit, hlitg⟩ : ∃ l, s.trail.get? s.propIndex = some l := by
        rw [List.get?_eq_getElem?, List.getElem?_eq_getElem hlt]
        exact ⟨_, rfl⟩
      have hlitm : lit ∈ s.trail := List.get?_mem hlitg
      have hne : lit ≠ 0 := trail_lit_ne_zero s lit hInv.1 hlitm
      have hrange : iabs lit ≤ Int.ofNat s.numVars := trail_lit_range s lit hInv.1 hlitm
      rw [hlitg] at h
      simp only [Option.getD_some] at h
      set s1 : Solver := { s with propIndex := s.propIndex + 1 } with hs1
      have hInv1 : PropInv s1 := hInv
      have hwp1 : WatchPos s1 := hwp
      have hwd1 : WatchDup s1 := hwd
      have hdb1 : DbImplied cnf s1 := hdb
      have hfl0 : (-lit) ≠ 0 := by omega
      have hflf : litIsFalse s1 (-lit) = true :=
        neg_trail_lit_false s lit hInv.1 hlitm
      have hflr : iabs (-lit) ≤ Int.ofNat s1.numVars := by
        rw [iabs_neg]
        exact hrange
      have hpwl := processWatchList_sem cnf ai2 hai2 (-lit) hfl0
        (s1.watches (-lit)) s1 (fun cj => le_refl _) hflf hflr hInv1 hwp1 hwd1 hdb1
      have hpwl2 := processWatchList_preserves ai2
        (fun st l cj => ⟨(hai2 st l cj).1, (hai2 st l cj).2.1, (hai2 st l cj).2.2.1,
          (hai2 st l cj).2.2.2.1, (hai2 st l cj).2.2.2.2.1⟩) (-lit) (s1.watches (-lit)) s1
        (fun cj hcj => hInv1.2.2 (-lit)
          ((mem_watchLits s1.numVars (-lit)).mpr ⟨hfl0, hflr⟩) cj hcj) hInv1
      rcases hp : processWatchList ai2 (-lit) (s1.watches (-lit)) s1 with ⟨r0, s3⟩
      rw [hp] at h hpwl hpwl2
      obtain ⟨hwp3, hwd3, hdb3, hmono3, ⟨tl3, htl3⟩, ⟨hq3, hdec3, hls3, _⟩,
        hconf3, hag3⟩ := hpwl
      have hnum3 : s3.numVars = s1.numVars := hpwl2.2.2
      replace hmono3 : ∀ v, s1.assignment v ≠ 0 →
          s3.assignment v = s1.assignment v := hmono3
      replace htl3 : s3.trail = s1.trail ++ tl3 := htl3
      replace hq3 : s3.unitQueue = s1.unitQueue := hq3
      replace hdec3 : s3.decisions = s1.decisions := hdec3
      replace hls3 : s3.levelStart = s1.levelStart := hls3
      cases r0 with
      | some cfl =>
        have hout : r = some cfl ∧ s2 = s3 := by simpa using h.symm
        obtain ⟨hr, hs⟩ := hout
        rw [hr, hs]
        exact ⟨hwp3, hwd3, hdb3, hmono3, ⟨tl3, htl3⟩, ⟨hq3, hdec3, hls3, hnum3⟩,
          fun cfl2 hcfl2 => by
            rw [show cfl2 = cfl from (Option.some.inj hcfl2).symm]
            exact hconf3 cfl rfl,
          hag3⟩
      | none =>
        obtain ⟨hwpf, hwdf, hdbf, hmonof, ⟨tlf, htlf⟩, ⟨hqf, hdecf, hlsf, hnumf⟩,
          hconff, hagf⟩ := ih s3 r s2 h hpwl2.1 hwp3 hwd3 hdb3
        refine ⟨hwpf, hwdf, hdbf, ?_, ⟨tl3 ++ tlf, by rw [htlf, htl3, List.append_assoc]⟩,
          ⟨hqf.trans hq3, hdecf.trans hdec3, hlsf.trans hls3, hnumf.trans hnum3⟩,
          hconff, ?_⟩
        · intro v hv
          rw [hmonof v (by rw [hmono3 v hv]; exact hv), hmono3 v hv]
        · intro mdl hsat hag
          exact hagf mdl hsat (hag3 mdl hsat hag)
    · rw [if_neg hlt] at h
      have hout : r = none ∧ s2 = s := by simpa using h.symm
      obtain ⟨hr, hs⟩ := hout
      rw [hr, hs]
      exact ⟨hwp, hwd, hdb, fun v _ => rfl, ⟨[], by simp⟩, ⟨rfl, rfl, rfl, rfl⟩,
        fun cfl hcfl => by simp at hcfl, fun mdl _ hag => hag⟩

/-- Draining the unit queue: assignments extend the trail with implied
literals only, stacks are untouched, agreeing models of the CNF keep
agreeing, and a failed drain exhibits an implied literal that is false. -/
theorem drainQueue_sem (cnf : List (List Int)) (ai : Solver → Int → Solver)
    (hai : ∀ st l, (ai st l).assignment = updFn st.assignment (iabs l) (signVal l) ∧
      (ai st l).trail = st.trail ++ [l] ∧ (ai st l).numVars = st.numVars ∧
      (ai st l).clauses = st.clauses ∧ (ai st l).watches = st.watches ∧
      (ai st l).unitQueue = st.unitQueue ∧ (ai st l).decisions = st.decisions ∧
      (ai st l).levelStart = st.levelStart ∧ (ai st l).propIndex = st.propIndex) :
    ∀ (q : List Int) (s : Solver),
      (∀ l ∈ q, Implied cnf l) →
      (∀ l ∈ q, l ≠ 0 ∧ iabs l ≤ Int.ofNat s.numVars) →
      PropInv s →
      (∀ v, s.assignment v ≠ 0 → (drainQueue ai q s).2.assignment v = s.assignment v) ∧
      (∃ tl, (drainQueue ai q s).2.trail = s.trail ++ tl) ∧
      ((drainQueue ai q s).2.decisions = s.decisions ∧
        (drainQueue ai q s).2.levelStart = s.levelStart ∧
        (drainQueue ai q s).2.propIndex = s.propIndex) ∧
      (∀ mdl, satCnf mdl cnf = true → AgreeTrail mdl s →
        AgreeTrail mdl (drainQueue ai q s).2) ∧
      ((drainQueue ai q s).1 = false → ∃ l, Implied cnf l ∧
        litIsFalse (drainQueue ai q s).2 l = true ∧ l ≠ 0 ∧
        iabs l ≤ Int.ofNat (drainQueue ai q s).2.numVars) := by
  intro q
  induction q with
  | nil =>
    intro s _ _ _
    rw [drainQueue]
    exact ⟨fun v _ => rfl, ⟨[], by simp⟩, ⟨rfl, rfl, rfl⟩, fun mdl _ hag => hag,
      fun hfl => by simp at hfl⟩
  | cons l rest ih =>
    intro s himp hq hInv
    rw [drainQueue]
    set s1 : Solver := { s with unitQueue := rest } with hs1
    have hInv1 : PropInv s1 := hInv
    by_cases ht : litIsTrue s1 l = true
    · rw [if_pos ht]
      exact ih s1 (fun m hm => himp m (List.mem_cons_of_mem l hm))
        (fun m hm => hq m (List.mem_cons_of_mem l hm)) hInv1
    · rw [if_neg ht]
      by_cases hf : litIsFalse s1 l = true
      · rw [if_pos hf]
        obtain ⟨hl0, hlr⟩ := hq l (List.mem_cons_self l rest)
        exact ⟨fun v _ => rfl, ⟨[], by simp⟩, ⟨rfl, rfl, rfl⟩, fun mdl _ hag => hag,
          fun _ => ⟨l, himp l (List.mem_cons_self l rest), hf, hl0, hlr⟩⟩
      · rw [if_neg hf]
        obtain ⟨hl0, hlr⟩ := hq l (List.mem_cons_self l rest)
        obtain ⟨ha, htr, hn, hcl, hwt, hqe, hde, hle, hpe⟩ := hai s1 l
        have hv : iabs l ∈ intRange s1.numVars := by
          rw [mem_intRange]
          exact ⟨iabs_pos_of_ne_zero l hl0, hlr⟩
        have h0 : s1.assignment (iabs l) = 0 :=
          tc_guards_zero s1 l hInv1.1 hv (Bool.not_eq_true _ ▸ ht) (Bool.not_eq_true _ ▸ hf)
        have hInv2 : PropInv (ai s1 l) := by
          refine ⟨tc_extend s1 _ l ha htr hn hv h0 hInv1.1, ?_, ?_⟩
          · exact range_transport s1 _ hcl hn hInv1.2.1
          · exact watched_transport s1 _ hcl hwt hn hInv1.2.2
        obtain ⟨hmono, ⟨tl2, htl2⟩, ⟨hdec2, hls2, hpx2⟩, hag2, hconf2⟩ :=
          ih (ai s1 l)
            (fun m hm => himp m (List.mem_cons_of_mem l hm))
            (fun m hm => by
              obtain ⟨hm0, hmr⟩ := hq m (List.mem_cons_of_mem l hm)
              rw [hn]
              exact ⟨hm0, hmr⟩) hInv2
        refine ⟨?_, ⟨l :: tl2, by rw [htl2, htr, List.append_assoc]; rfl⟩,
          ⟨hdec2.trans hde, hls2.trans hle, hpx2.trans hpe⟩, ?_, hconf2⟩
        · intro v hv2
          have hvne : v ≠ iabs l := fun hveq => by
            rw [hveq] at hv2
            exact hv2 h0
          have ha2 : (ai s1 l).assignment v = s1.assignment v := by
            rw [ha]
            unfold updFn
            rw [if_neg hvne]
          rw [hmono v (by rw [ha2]; exact hv2), ha2]
        · intro mdl hsat hag
          refine hag2 mdl hsat ?_
          intro m hm
          rw [htr] at hm
          rcases List.mem_append.mp hm with hold | hnew
          · exact hag m hold
          · rw [List.mem_singleton] at hnew
            rw [hnew]
            exact himp l (List.mem_cons_self l rest) mdl hsat

/-- Literals still queued after a drain were queued before it. -/
theorem drainQueue_queue_sub (ai : Solver → Int → Solver)
    (haiq : ∀ st l, (ai st l).unitQueue = st.unitQueue) :
    ∀ (q : List Int) (s : Solver), s.unitQueue = q →
      ∀ m ∈ (drainQueue ai q s).2.unitQueue, m ∈ q := by
  intro q
  induction q with
  | nil =>
    intro s hq m hm
    rw [drainQueue] at hm
    rw [hq] at hm
    exact hm
  | cons l rest ih =>
    intro s _ m hm
    rw [drainQueue] at hm
    set s1 : Solver := { s with unitQueue := rest } with hs1
    by_cases ht : litIsTrue s1 l = true
    · rw [if_pos ht] at hm
      exact List.mem_cons_of_mem l (ih s1 rfl m hm)
    · rw [if_neg ht] at hm
      by_cases hf : litIsFalse s1 l = true
      · rw [if_pos hf] at hm
        exact List.mem_cons_of_mem l hm
      · rw [if_neg hf] at hm
        exact List.mem_cons_of_mem l (ih (ai s1 l) (haiq s1 l) m hm)

/-- `DPLL.propagate`: invariants survive, the trail only grows under implied
extensions, stacks are untouched, still-queued literals were already queued,
and a `False` result refutes every model of the CNF that agrees with the
incoming trail. -/
theorem dpllPropagate_sem (cnf : List (List Int)) (fuel : Nat) (s : Solver)
    (flag : Bool) (s2 : Solver)
    (h : dpllPropagate fuel s = some (flag, s2))
    (hqimp : QueueImplied cnf s) (hqr : QueueLitsInRange s)
    (hInv : PropInv s) (hwp : WatchPos s) (hwd : WatchDup s) (hdb : DbImplied cnf s) :
    PropInv s2 ∧ WatchPos s2 ∧ WatchDup s2 ∧ DbImplied cnf s2 ∧
    QueueImplied cnf s2 ∧ QueueLitsInRange s2 ∧
    (∀ v, s.assignment v ≠ 0 → s2.assignment v = s.assignment v) ∧
    (∃ tl, s2.trail = s.trail ++ tl) ∧
    (s2.decisions = s.decisions ∧ s2.levelStart = s.levelStart) ∧
    s2.numVars = s.numVars ∧
    (∀ mdl, satCnf mdl cnf = true → AgreeTrail mdl s → AgreeTrail mdl s2) ∧
    (flag = false → ∀ mdl, satCnf mdl cnf = true → ¬ AgreeTrail mdl s) := by
  rw [dpllPropagate] at h
  have hdp := drainQueue_preserves (fun st l => assign st l (signVal l))
    (fun st l => ⟨rfl, rfl, rfl, rfl, rfl⟩) s.unitQueue s (fun l hl => hqr l hl) hInv
  have hds := drainQueue_sem cnf (fun st l => assign st l (signVal l))
    (fun st l => ⟨rfl, rfl, rfl, rfl, rfl, rfl, rfl, rfl, rfl⟩) s.unitQueue s
    (fun l hl => hqimp l hl) (fun l hl => hqr l hl) hInv
  have hdq := drainQueue_queue_sub (fun st l => assign st l (signVal l))
    (fun st l => rfl) s.unitQueue s rfl
  rcases hd : drainQueue (fun st l => assign st l (signVal l)) s.unitQueue s with ⟨ok, s1⟩
  rw [hd] at h hdp hds hdq
  obtain ⟨hInv1, hcl1, hwt1, hn1⟩ := hdp
  obtain ⟨hmono1, ⟨tl1, htl1⟩, ⟨hdec1, hls1, hpx1⟩, hag1, hconf1⟩ := hds
  replace hInv1 : PropInv s1 := hInv1
  replace hcl1 : s1.clauses = s.clauses := hcl1
  replace hwt1 : s1.watches = s.watches := hwt1
  replace hn1 : s1.numVars = s.numVars := hn1
  replace hmono1 : ∀ v, s.assignment v ≠ 0 → s1.assignment v = s.assignment v := hmono1
  replace htl1 : s1.trail = s.trail ++ tl1 := htl1
  replace hdec1 : s1.decisions = s.decisions := hdec1
  replace hls1 : s1.levelStart = s.levelStart := hls1
  replace hag1 : ∀ mdl, satCnf mdl cnf = true → AgreeTrail mdl s →
    AgreeTrail mdl s1 := hag1
  replace hconf1 : ok = false → ∃ l, Implied cnf l ∧ litIsFalse s1 l = true ∧
    l ≠ 0 ∧ iabs l ≤ Int.ofNat s1.numVars := hconf1
  replace hdq : ∀ m ∈ s1.unitQueue, m ∈ s.unitQueue := hdq
  have hwp1 : WatchPos s1 := watchPos_transport s s1 hcl1 hwt1 hwp
  have hwd1 : WatchDup s1 := watchDup_transport s s1 hcl1 hwt1 hwd
  have hdb1 : DbImplied cnf s1 := dbImplied_transport cnf s s1 hcl1 hdb
  have hqimp1 : QueueImplied cnf s1 := fun l hl => hqimp l (hdq l hl)
  have hqr1 : QueueLitsInRange s1 := fun l hl => by
    rw [hn1]
    exact hqr l (hdq l hl)
  cases ok with
  | false =>
    have hout : flag = false ∧ s2 = s1 := by simpa using h.symm
    obtain ⟨hfl, hse⟩ := hout
    rw [hfl, hse]
    obtain ⟨lbad, hlimp, hlf, hl0, hlr⟩ := hconf1 rfl
    refine ⟨hInv1, hwp1, hwd1, hdb1, hqimp1, hqr1, hmono1, ⟨tl1, htl1⟩,
      ⟨hdec1, hls1⟩, hn1, hag1, ?_⟩
    intro _ mdl hsat hag
    have hagf := hag1 mdl hsat hag
    have hfalse := agree_false_lit mdl s1 lbad hInv1.1 hagf hlf hl0 hlr
    have htrue := hlimp mdl hsat
    rw [htrue] at hfalse
    exact Bool.noConfusion hfalse
  | true =>
    replace h : (match propTrailLoop (fun st l _ => assign st l (signVal l)) fuel s1 with
      | none => none
      | some (some _, s4) => some (false, s4)
      | some (none, s4) => some (true, s4)) = some (flag, s2) := h
    have hpt := propTrailLoop_sem cnf (fun st l _ => assign st l (signVal l))
      (fun st l ci => ⟨rfl, rfl, rfl, rfl, rfl, rfl, rfl, rfl, rfl⟩) fuel s1
    have hpt2 := propTrailLoop_preserves (fun st l _ => assign st l (signVal l))
      (fun st l ci => ⟨rfl, rfl, rfl, rfl, rfl⟩) fuel s1
    rcases hp : propTrailLoop (fun st l _ => assign st l (signVal l)) fuel s1
      with _ | ⟨r0, s3⟩
    · rw [hp] at h
      exact Option.noConfusion h
    · rw [hp] at h
      obtain ⟨hwp3, hwd3, hdb3, hmono3, ⟨tl3, htl3⟩, ⟨hq3, hdec3, hls3, hnum3⟩,
        hconf3, hag3⟩ := hpt r0 s3 hp hInv1 hwp1 hwd1 hdb1
      have hInv3 : PropInv s3 := hpt2 (r0, s3) hp hInv1
      have hqimp3 : QueueImplied cnf s3 := fun l hl => hqimp1 l (by rw [← hq3]; exact hl)
      have hqr3 : QueueLitsInRange s3 := fun l hl => by
        have h2 := hqr1 l (by rw [← hq3]; exact hl)
        rw [hnum3]
        exact h2
      cases r0 with
      | some cfl =>
        have hout : flag = false ∧ s2 = s3 := by simpa using h.symm
        obtain ⟨hfl, hse⟩ := hout
        rw [hfl, hse]
        refine ⟨hInv3, hwp3, hwd3, hdb3, hqimp3, hqr3, ?_, ?_, ?_, ?_, ?_, ?_⟩
        · intro v hv
          rw [hmono3 v (by rw [hmono1 v hv]; exact hv), hmono1 v hv]
        · exact ⟨tl1 ++ tl3, by rw [htl3, htl1, List.append_assoc]⟩
        · exact ⟨hdec3.trans hdec1, hls3.trans hls1⟩
        · exact hnum3.trans hn1
        · intro mdl hsat hag
          exact hag3 mdl hsat (hag1 mdl hsat hag)
        · intro _ mdl hsat hag
          obtain ⟨c2, hc2g, hc2f⟩ := hconf3 cfl rfl
          have hc2m : c2 ∈ s3.clauses := List.get?_mem hc2g
          have hc2i : ImpliedClause cnf c2 := hdb3 c2 hc2m
          have hcs := hc2i mdl hsat
          rw [modelSatClause_iff] at hcs
          obtain ⟨m, hm, hms⟩ := hcs
          have hmr := hInv3.2.1 c2 hc2m m hm
          have hagf := hag3 mdl hsat (hag1 mdl hsat hag)
          have hfalse := agree_false_lit mdl s3 m hInv3.1 hagf (hc2f m hm) hmr.1 hmr.2
          rw [hms] at hfalse
          exact Bool.noConfusion hfalse
      | none =>
        have hout : flag = true ∧ s2 = s3 := by simpa using h.symm
        obtain ⟨hfl, hse⟩ := hout
        rw [hfl, hse]
        refine ⟨hInv3, hwp3, hwd3, hdb3, hqimp3, hqr3, ?_, ?_, ?_, ?_, ?_, ?_⟩
        · intro v hv
          rw [hmono3 v (by rw [hmono1 v hv]; exact hv), hmono1 v hv]
        · exact ⟨tl1 ++ tl3, by rw [htl3, htl1, List.append_assoc]⟩
        · exact ⟨hdec3.trans hdec1, hls3.trans hls1⟩
        · exact hnum3.trans hn1
        · intro mdl hsat hag
          exact hag3 mdl hsat (hag1 mdl hsat hag)
        · intro hff
          exact Bool.noConfusion hff

/-- `get?` through `take` below the cut. -/
theorem get?_take_lt {α : Type} {l : List α} {n i : Nat} (h : i < n) :
    (l.take n).get? i = l.get? i := by
  rw [List.get?_eq_getElem?, List.get?_eq_getElem?, List.getElem?_take, if_pos h]

/-- `get?` through append inside the left part. -/
theorem get?_append_lt {α : Type} {l1 l2 : List α} {i : Nat} (h : i < l1.length) :
    (l1 ++ l2).get? i = l1.get? i := by
  rw [List.get?_eq_getElem?, List.get?_eq_getElem?, List.getElem?_append, if_pos h]

/-- `get?` through append at the boundary position. -/
theorem get?_append_boundary {α : Type} {l1 l2 : List α} :
    (l1 ++ l2).get? l1.length = l2.get? 0 := by
  rw [List.get?_eq_getElem?, List.get?_eq_getElem?, List.getElem?_append,
    if_neg (lt_irrefl _)]
  simp

/-- `get?` through `dropLast` below the last position. -/
theorem get?_dropLast_lt {α : Type} {l : List α} {i : Nat} (h : i < l.length - 1) :
    l.dropLast.get? i = l.get? i := by
  rw [List.get?_eq_getElem?, List.get?_eq_getElem?, List.getElem?_dropLast,
    if_pos (by simpa using h)]

/-- Members of a `take` sit at positions below the cut. -/
theorem mem_take_pos {α : Type} {x : α} {l : List α} {n : Nat} (h : x ∈ l.take n) :
    ∃ p, p < n ∧ l.get? p = some x := by
  rw [List.mem_iff_get?] at h
  obtain ⟨p, hp⟩ := h
  rw [List.get?_eq_getElem?, List.getElem?_take] at hp
  by_cases hlt : p < n
  · refine ⟨p, hlt, ?_⟩
    rw [List.get?_eq_getElem?]
    rw [if_pos hlt] at hp
    exact hp
  · rw [if_neg hlt] at hp
    exact Option.noConfusion hp

/-- A pending alternative branch survives trail extension with untouched
stacks. -/
theorem altBranch_extend (m : List Int) (s s2 : Solver)
    (hdec : s2.decisions = s.decisions) (hls : s2.levelStart = s.levelStart)
    (htl : ∃ tl, s2.trail = s.trail ++ tl) (hso : StackOk s)
    (h : AltBranch m s) : AltBranch m s2 := by
  obtain ⟨j, hj, hflag, hpre, hsat⟩ := h
  obtain ⟨tl, htl⟩ := htl
  refine ⟨j, by rw [hdec]; exact hj, by rw [hdec]; exact hflag, ?_, by rw [hdec]; exact hsat⟩
  intro p hp
  rw [hls] at hp
  have hlsj : (s.levelStart.get? j).getD 0 < s.trail.length := by
    have := hso.2.1 j (by rw [hso.1]; exact hj)
    exact this
  have hpt : trailAt s2 p = trailAt s p := by
    unfold trailAt
    rw [htl, get?_append_lt (by omega)]
  rw [hpt]
  exact hpre p hp

/-- `popTrailLoop` never touches the unit queue or the propagation index. -/
theorem popTrailLoop_queue (un : Solver → Int → Solver)
    (hun : ∀ st v, (un st v).unitQueue = st.unitQueue ∧
      (un st v).propIndex = st.propIndex) :
    ∀ (fuel target : Nat) (s : Solver),
      (popTrailLoop un fuel target s).unitQueue = s.unitQueue ∧
      (popTrailLoop un fuel target s).propIndex = s.propIndex := by
  intro fuel
  induction fuel with
  | zero => intro target s; simp [popTrailLoop]
  | succ f ih =>
    intro target s
    rw [popTrailLoop]
    by_cases hlt : target < s.trail.length
    · simp only [hlt, if_true]
      rcases hg : s.trail.getLast? with _ | lit
      · simp
      · obtain ⟨h1, h2⟩ := hun { s with trail := s.trail.dropLast } (iabs lit)
        obtain ⟨i1, i2⟩ := ih target (un { s with trail := s.trail.dropLast } (iabs lit))
        exact ⟨i1.trans h1, i2.trans h2⟩
    · simp [hlt]

/-- `DPLL.backtrack`: structure is preserved; a `False` result means no
pending alternative branch existed, a `True` result keeps every pending
branch covered. -/
theorem dpllBacktrack_sem :
    ∀ (fuel : Nat) (s : Solver) (flag : Bool) (s2 : Solver),
      dpllBacktrack fuel s = some (flag, s2) →
      PropInv s → StackOk s → DecOk s →
      PropInv s2 ∧ StackOk s2 ∧ DecOk s2 ∧
      s2.clauses = s.clauses ∧ s2.watches = s.watches ∧ s2.numVars = s.numVars ∧
      s2.unitQueue = s.unitQueue ∧
      (flag = false → ∀ mdl, ¬ AltBranch mdl s) ∧
      (flag = true → ∀ mdl, AltBranch mdl s → DCov mdl s2) := by
  intro fuel
  induction fuel with
  | zero => intro s flag s2 hb; simp [dpllBacktrack] at hb
  | succ f ih =>
    intro s flag s2 hb hInv hso hdo
    rcases hd : s.decisions.getLast? with _ | d
    · rw [dpllBacktrack, hd] at hb
      have hout : false = flag ∧ s = s2 := by simpa using hb
      obtain ⟨hfl, hse⟩ := hout
      rw [← hfl, ← hse]
      have hde : s.decisions = [] := by
        rw [← List.getLast?_eq_none_iff]
        exact hd
      refine ⟨hInv, hso, hdo, rfl, rfl, rfl, rfl, ?_, ?_⟩
      · intro _ mdl hab
        obtain ⟨j, hj, _⟩ := hab
        rw [hde] at hj
        simp at hj
      · intro htf
        exact absurd htf (by simp)
    · rcases hls : s.levelStart.getLast? with _ | lsi
      · rw [dpllBacktrack, hd, hls] at hb
        simp at hb
      · have hdne : s.decisions ≠ [] := by
          intro hemp
          rw [hemp] at hd
          simp at hd
        have hlsne : s.levelStart ≠ [] := by
          intro hemp
          rw [hemp] at hls
          simp at hls
        have hnlen : 0 < s.decisions.length := List.length_pos.mpr hdne
        have hlen0 : s.levelStart.length = s.decisions.length := hso.1
        have hdget : s.decisions.get? (s.decisions.length - 1) = some d := by
          rw [List.get?_eq_getElem?, ← List.getLast?_eq_getElem?]
          exact hd
        have hlsget : s.levelStart.get? (s.decisions.length - 1) = some lsi := by
          rw [List.get?_eq_getElem?]
          rw [show s.decisions.length - 1 = s.levelStart.length - 1 from by omega]
          rw [← List.getLast?_eq_getElem?]
          exact hls
        have hlsi_lt : lsi < s.trail.length := by
          have h2 := hso.2.1 (s.decisions.length - 1) (by omega)
          rw [hlsget] at h2
          exact h2
        obtain ⟨hd1pos, hd1le, hdvar⟩ := hdo (s.decisions.length - 1) (by omega)
        rw [hdget] at hd1pos hd1le hdvar
        rw [hlsget] at hdvar
        simp only [Option.getD_some] at hd1pos hd1le hdvar
        set s1 : Solver := { s with decisions := s.decisions.dropLast,
                                    levelStart := s.levelStart.dropLast } with hs1def
        set s2p := popTrailLoop unassignBase s1.trail.length lsi s1 with hs2p
        set s3 : Solver := { s2p with propIndex := lsi } with hs3
        have hb3 : (if !d.2 then
            some (true, assign { s3 with levelStart := s3.levelStart ++ [s3.trail.length],
                                         decisions := s3.decisions ++ [(d.1, true)] }
              (-d.1) (-1))
            else dpllBacktrack f s3) = some (flag, s2) := by
          rw [dpllBacktrack, hd, hls] at hb
          exact hb
        have hbr1 : s3.levelStart.length = s2p.levelStart.length := rfl
        have hbr2 : s3.trail.length = s2p.trail.length := rfl
        have hbr3 : s3.decisions.length = s2p.decisions.length := rfl
        have htc1 : TrailConsistent s1 := hInv.1
        have hpop_tc : TrailConsistent s2p :=
          popTrailLoop_tc unassignBase (fun st v _ => unassignBase_proj st v) _ lsi s1 htc1
        have hpop_tr : s2p.trail = s.trail.take lsi :=
          popTrailLoop_trail unassignBase (fun st v => rfl) _ lsi s1 (by omega)
        have hpop_proj := popTrailLoop_proj unassignBase
          (fun st v => ⟨rfl, rfl, rfl, rfl, rfl, rfl⟩) s1.trail.length lsi s1
        have hpop_q := popTrailLoop_queue unassignBase
          (fun st v => ⟨rfl, rfl⟩) s1.trail.length lsi s1
        have htc3 : TrailConsistent s3 := hpop_tc
        have htr3 : s3.trail = s.trail.take lsi := hpop_tr
        have hnum3 : s3.numVars = s.numVars := hpop_proj.1
        have hcl3 : s3.clauses = s.clauses := hpop_proj.2.1
        have hwt3 : s3.watches = s.watches := hpop_proj.2.2.1
        have hdec3 : s3.decisions = s.decisions.dropLast := hpop_proj.2.2.2.1
        have hls3 : s3.levelStart = s.levelStart.dropLast := hpop_proj.2.2.2.2
        have hq3 : s3.unitQueue = s.unitQueue := hpop_q.1
        have htr3len : s3.trail.length = lsi := by
          rw [htr3, List.length_take]
          omega
        have hInv3 : PropInv s3 :=
          ⟨htc3, range_transport s s3 hcl3 hnum3 hInv.2.1,
            watched_transport s s3 hcl3 hwt3 hnum3 hInv.2.2⟩
        have hso3 : StackOk s3 := by
          refine ⟨?_, ?_, ?_⟩
          · rw [hls3, hdec3, List.length_dropLast, List.length_dropLast, hlen0]
          · intro j hj
            rw [hls3, List.length_dropLast] at hj
            rw [hls3, get?_dropLast_lt (by omega), htr3len]
            have hincr := hso.2.2 j (s.decisions.length - 1) (by omega) (by omega)
            rw [hlsget] at hincr
            exact hincr
          · intro i j hij hj
            rw [hls3, List.length_dropLast] at hj
            rw [hls3, get?_dropLast_lt (by omega), get?_dropLast_lt (by omega)]
            exact hso.2.2 i j hij (by omega)
        have hdo3 : DecOk s3 := by
          intro j hj
          rw [hdec3, List.length_dropLast] at hj
          rw [hdec3, hls3, get?_dropLast_lt (by omega), get?_dropLast_lt (by omega)]
          obtain ⟨h1, h2, h3⟩ := hdo j (by omega)
          refine ⟨h1, by rw [hnum3]; exact h2, ?_⟩
          have hlsjlt : (s.levelStart.get? j).getD 0 < lsi := by
            have hincr := hso.2.2 j (s.decisions.length - 1) (by omega) (by omega)
            rw [hlsget] at hincr
            exact hincr
          have hta : trailAt s3 ((s.levelStart.get? j).getD 0) =
              trailAt s ((s.levelStart.get? j).getD 0) := by
            unfold trailAt
            rw [htr3, get?_take_lt hlsjlt]
          rw [hta]
          exact h3
        have halt3 : ∀ mdl, AltBranch mdl s →
            (∃ j, j < s.decisions.length - 1 ∧
              ((s.decisions.get? j).getD (0, true)).2 = false ∧
              (∀ p, p < (s.levelStart.get? j).getD 0 →
                modelSatLit mdl (trailAt s p) = true) ∧
              modelSatLit mdl (-(((s.decisions.get? j).getD (0, true)).1)) = true) ∨
            (d.2 = false ∧
              (∀ p, p < lsi → modelSatLit mdl (trailAt s p) = true) ∧
              modelSatLit mdl (-(d.1)) = true) := by
          intro mdl hab
          obtain ⟨j, hj, hflag, hpre, hsat⟩ := hab
          by_cases hjlast : j = s.decisions.length - 1
          · right
            rw [hjlast, hdget] at hflag hsat
            rw [hjlast, hlsget] at hpre
            exact ⟨hflag, hpre, hsat⟩
          · left
            exact ⟨j, by omega, hflag, hpre, hsat⟩
        have haltlow : ∀ mdl,
            (∃ j, j < s.decisions.length - 1 ∧
              ((s.decisions.get? j).getD (0, true)).2 = false ∧
              (∀ p, p < (s.levelStart.get? j).getD 0 →
                modelSatLit mdl (trailAt s p) = true) ∧
              modelSatLit mdl (-(((s.decisions.get? j).getD (0, true)).1)) = true) →
            AltBranch mdl s3 := by
          intro mdl hj
          obtain ⟨j, hj, hflag, hpre, hsat⟩ := hj
          have hdgj : s3.decisions.get? j = s.decisions.get? j := by
            rw [hdec3, get?_dropLast_lt (by omega)]
          have hlgj : s3.levelStart.get? j = s.levelStart.get? j := by
            rw [hls3, get?_dropLast_lt (by omega)]
          refine ⟨j, ?_, ?_, ?_, ?_⟩
          · rw [hdec3, List.length_dropLast]
            omega
          · rw [hdgj]
            exact hflag
          · intro p hp
            rw [hlgj] at hp
            have hlsjlt : (s.levelStart.get? j).getD 0 < lsi := by
              have hincr := hso.2.2 j (s.decisions.length - 1) (by omega) (by omega)
              rw [hlsget] at hincr
              exact hincr
            have hta : trailAt s3 p = trailAt s p := by
              unfold trailAt
              rw [htr3, get?_take_lt (by omega)]
            rw [hta]
            exact hpre p hp
          · rw [hdgj]
            exact hsat
        cases hdb : d.2 with
        | false =>
          rw [hdb] at hb3
          simp only [Bool.not_false, if_true, Option.some.injEq, Prod.mk.injEq] at hb3
          obtain ⟨hfl, hse⟩ := hb3
          set s4 : Solver := { s3 with levelStart := s3.levelStart ++ [s3.trail.length],
                                       decisions := s3.decisions ++ [(d.1, true)] } with hs4
          set sF := assign s4 (-d.1) (-1) with hsF
          have hvab : iabs (-d.1) = d.1 := by
            unfold iabs
            rw [if_pos (by omega)]
            ring
          have hsv : signVal (-d.1) = -1 := by
            unfold signVal
            rw [if_neg (by omega)]
          have h0 : s3.assignment d.1 = 0 := by
            by_contra hne
            have hvr : d.1 ∈ intRange s3.numVars := by
              rw [hnum3, mem_intRange]
              exact ⟨hd1pos, hd1le⟩
            have hmem2 : d.1 ∈ assignedVars s3 := by
              simp [assignedVars, List.mem_filter, hvr, hne]
            have htrm : d.1 ∈ s3.trail.map iabs := htc3.1.mem_iff.mpr hmem2
            obtain ⟨l, hl, hleq⟩ := List.mem_map.mp htrm
            rw [htr3] at hl
            obtain ⟨p, hp, hpget⟩ := mem_take_pos hl
            have hup : p = lsi := by
              refine trail_pos_unique s hInv.1 p lsi (by omega) hlsi_lt ?_
              show iabs (trailAt s p) = iabs (trailAt s lsi)
              unfold trailAt
              rw [hpget]
              rw [show ((some l).getD 0 : Int) = l from rfl, hleq, ← hdvar]
              rfl
            omega
          have htcF : TrailConsistent sF := by
            refine tc_extend s4 _ (-d.1) ?_ rfl rfl ?_ ?_ htc3
            · rw [hsv]
              rfl
            · rw [hvab]
              show d.1 ∈ intRange s3.numVars
              rw [hnum3, mem_intRange]
              exact ⟨hd1pos, hd1le⟩
            · rw [hvab]
              exact h0
          have hInvF : PropInv sF :=
            ⟨htcF, range_transport s _ hcl3 hnum3 hInv.2.1,
              watched_transport s _ hcl3 hwt3 hnum3 hInv.2.2⟩
          have htrF : sF.trail = s3.trail ++ [-d.1] := rfl
          have hsoF : StackOk sF := by
            refine ⟨?_, ?_, ?_⟩
            · show (s3.levelStart ++ [s3.trail.length]).length =
                (s3.decisions ++ [(d.1, true)]).length
              simp [hso3.1]
            · intro j hj
              replace hj : j < (s3.levelStart ++ [s3.trail.length]).length := hj
              show ((s3.levelStart ++ [s3.trail.length]).get? j).getD 0 <
                (s3.trail ++ [-d.1]).length
              rw [List.length_append] at hj ⊢
              simp only [List.length_singleton] at hj ⊢
              by_cases hjl : j < s3.levelStart.length
              · rw [get?_append_lt hjl]
                have h2 := hso3.2.1 j hjl
                have h3 : s3.trail.length = lsi := htr3len
                have h4 : s2p.trail.length = lsi := htr3len
                omega
              · have hjeq : j = s3.levelStart.length := by omega
                rw [hjeq, get?_append_boundary]
                simp
            · intro i j hij hj
              replace hj : j < (s3.levelStart ++ [s3.trail.length]).length := hj
              show ((s3.levelStart ++ [s3.trail.length]).get? i).getD 0 <
                ((s3.levelStart ++ [s3.trail.length]).get? j).getD 0
              rw [List.length_append, List.length_singleton] at hj
              by_cases hjl : j < s3.levelStart.length
              · rw [get?_append_lt hjl, get?_append_lt (by omega)]
                exact hso3.2.2 i j hij hjl
              · have hjeq : j = s3.levelStart.length := by omega
                rw [hjeq, get?_append_boundary, get?_append_lt (by omega)]
                have := hso3.2.1 i (by omega)
                simpa using this
          have hdoF : DecOk sF := by
            intro j hj
            replace hj : j < (s3.decisions ++ [(d.1, true)]).length := hj
            show 1 ≤ (((s3.decisions ++ [(d.1, true)]).get? j).getD (0, true)).1 ∧
              (((s3.decisions ++ [(d.1, true)]).get? j).getD (0, true)).1 ≤
                Int.ofNat sF.numVars ∧
              iabs (trailAt sF (((s3.levelStart ++ [s3.trail.length]).get? j).getD 0)) =
                (((s3.decisions ++ [(d.1, true)]).get? j).getD (0, true)).1
            have hjlen : j < s3.decisions.length + 1 := by
              simpa using hj
            by_cases hjl : j < s3.decisions.length
            · rw [get?_append_lt hjl, get?_append_lt (by rw [hso3.1]; exact hjl)]
              obtain ⟨h1, h2, h3⟩ := hdo3 j hjl
              refine ⟨h1, by rw [show sF.numVars = s3.numVars from rfl]; exact h2, ?_⟩
              have hlsjlt : (s3.levelStart.get? j).getD 0 < s3.trail.length :=
                hso3.2.1 j (by rw [hso3.1]; exact hjl)
              have hta : trailAt sF ((s3.levelStart.get? j).getD 0) =
                  trailAt s3 ((s3.levelStart.get? j).getD 0) := by
                unfold trailAt
                rw [htrF, get?_append_lt hlsjlt]
              rw [hta]
              exact h3
            · have hjeq : j = s3.decisions.length := by omega
              rw [hjeq, get?_append_boundary,
                show s3.decisions.length = s3.levelStart.length from (hso3.1).symm,
                get?_append_boundary]
              simp only [show ([(d.1, true)] : List (Int × Bool)).get? 0 =
                some (d.1, true) from rfl,
                show ([s3.trail.length] : List Nat).get? 0 =
                some s3.trail.length from rfl, Option.getD_some]
              refine ⟨hd1pos, ?_, ?_⟩
              · rw [show sF.numVars = s.numVars from hnum3]
                exact hd1le
              · have hta : trailAt sF s3.trail.length = -d.1 := by
                  unfold trailAt
                  rw [htrF, get?_append_boundary]
                  rfl
                rw [show trailAt sF s2p.trail.length =
                  trailAt sF s3.trail.length from rfl, hta]
                exact hvab
          rw [← hfl, ← hse]
          refine ⟨hInvF, hsoF, hdoF, hcl3, hwt3, hnum3, hq3, ?_, ?_⟩
          · intro hff
            exact absurd hff (by simp)
          · intro _ mdl hab
            rcases halt3 mdl hab with hlow | hlast
            · right
              have hab3 : AltBranch mdl s3 := haltlow mdl hlow
              obtain ⟨j, hj, hflag, hpre, hsat⟩ := hab3
              have hdgj : sF.decisions.get? j = s3.decisions.get? j := by
                show (s3.decisions ++ [(d.1, true)]).get? j = s3.decisions.get? j
                exact get?_append_lt hj
              have hlgj : sF.levelStart.get? j = s3.levelStart.get? j := by
                show (s3.levelStart ++ [s3.trail.length]).get? j = s3.levelStart.get? j
                exact get?_append_lt (by rw [hso3.1]; exact hj)
              refine ⟨j, by
                  show j < (s3.decisions ++ [(d.1, true)]).length
                  rw [List.length_append]
                  simp only [List.length_singleton]
                  omega,
                by rw [hdgj]; exact hflag, ?_, by rw [hdgj]; exact hsat⟩
              intro p hp
              rw [hlgj] at hp
              have hlsjlt : (s3.levelStart.get? j).getD 0 < s3.trail.length :=
                hso3.2.1 j (by rw [hso3.1]; exact hj)
              have hta : trailAt sF p = trailAt s3 p := by
                unfold trailAt
                rw [htrF, get?_append_lt (by omega)]
              rw [hta]
              exact hpre p hp
            · left
              obtain ⟨_, hpre, hsat⟩ := hlast
              intro l hl
              have hl2 : l ∈ s3.trail ++ [-d.1] := hl
              rcases List.mem_append.mp hl2 with hl3 | hl4
              · rw [htr3] at hl3
                obtain ⟨p, hp, hpget⟩ := mem_take_pos hl3
                have : modelSatLit mdl (trailAt s p) = true := hpre p hp
                unfold trailAt at this
                rw [hpget] at this
                exact this
              · rw [List.mem_singleton] at hl4
                rw [hl4]
                exact hsat
        | true =>
          rw [hdb] at hb3
          simp only [Bool.not_true, if_false] at hb3
          obtain ⟨hInvR, hsoR, hdoR, hclR, hwtR, hnumR, hqR, hfR, htR⟩ :=
            ih s3 flag s2 hb3 hInv3 hso3 hdo3
          refine ⟨hInvR, hsoR, hdoR, hclR.trans hcl3, hwtR.trans hwt3,
            hnumR.trans hnum3, hqR.trans hq3, ?_, ?_⟩
          · intro hff mdl hab
            rcases halt3 mdl hab with hlow | hlast
            · exact hfR hff mdl (haltlow mdl hlow)
            · rw [hdb] at hlast
              exact Bool.noConfusion hlast.1
          · intro htf mdl hab
            rcases halt3 mdl hab with hlow | hlast
            · exact htR htf mdl (haltlow mdl hlow)
            · rw [hdb] at hlast
              exact Bool.noConfusion hlast.1

/-- Stack shape facts survive trail extension with untouched stacks. -/
theorem stackOk_extend (s s2 : Solver)
    (hdec : s2.decisions = s.decisions) (hls : s2.levelStart = s.levelStart)
    (htl : ∃ tl, s2.trail = s.trail ++ tl) (h : StackOk s) : StackOk s2 := by
  obtain ⟨tl, htl⟩ := htl
  refine ⟨by rw [hdec, hls]; exact h.1, ?_, ?_⟩
  · intro j hj
    rw [hls] at hj ⊢
    rw [htl, List.length_append]
    have := h.2.1 j hj
    omega
  · intro i j hij hj
    rw [hls] at hj ⊢
    exact h.2.2 i j hij hj

/-- Decision bookkeeping survives trail extension with untouched stacks. -/
theorem decOk_extend (s s2 : Solver)
    (hdec : s2.decisions = s.decisions) (hls : s2.levelStart = s.levelStart)
    (htl : ∃ tl, s2.trail = s.trail ++ tl) (hnum : s2.numVars = s.numVars)
    (hso : StackOk s) (h : DecOk s) : DecOk s2 := by
  obtain ⟨tl, htl⟩ := htl
  intro j hj
  rw [hdec] at hj ⊢
  rw [hls, hnum]
  obtain ⟨h1, h2, h3⟩ := h j hj
  refine ⟨h1, h2, ?_⟩
  have hlt : (s.levelStart.get? j).getD 0 < s.trail.length :=
    hso.2.1 j (by rw [hso.1]; exact hj)
  have hta : trailAt s2 ((s.levelStart.get? j).getD 0) =
      trailAt s ((s.levelStart.get? j).getD 0) := by
    unfold trailAt
    rw [htl, get?_append_lt hlt]
  rw [hta]
  exact h3

/-- Conflict loop of `DPLL.solve`: an `UNSAT` verdict refutes the CNF when
every model was covered by a pending branch; a successful flip hands back a
state with all invariants and full model cover. -/
theorem dpllConflictLoop_sem (cnf : List (List Int)) :
    ∀ (fuel pfuel : Nat) (s : Solver) (res : Sum Solver (String × Option (List Int))),
      dpllConflictLoop pfuel fuel s = some res →
      PropInv s → StackOk s → DecOk s → WatchPos s → WatchDup s → DbImplied cnf s →
      QueueImplied cnf s → QueueLitsInRange s →
      (∀ mdl, satCnf mdl cnf = true → AltBranch mdl s) →
      (∀ r, res = Sum.inr r → ∀ mdl, satCnf mdl cnf ≠ true) ∧
      (∀ s2, res = Sum.inl s2 →
        PropInv s2 ∧ StackOk s2 ∧ DecOk s2 ∧ WatchPos s2 ∧ WatchDup s2 ∧
        DbImplied cnf s2 ∧ QueueImplied cnf s2 ∧ QueueLitsInRange s2 ∧
        (∀ mdl, satCnf mdl cnf = true → DCov mdl s2)) := by
  intro fuel
  induction fuel with
  | zero => intro pfuel s res h; simp [dpllConflictLoop] at h
  | succ f ih =>
    intro pfuel s res h hInv hso hdo hwp hwd hdb hqi hqr hab
    rw [dpllConflictLoop] at h
    rcases hbt : dpllBacktrackTop s with _ | ⟨bflag, s1⟩
    · rw [hbt] at h
      exact Option.noConfusion h
    · rw [hbt] at h
      have hbs := dpllBacktrack_sem (s.decisions.length + 1) s bflag s1 hbt hInv hso hdo
      obtain ⟨hInv1, hso1, hdo1, hcl1, hwt1, hnum1, hq1, hfR, htR⟩ := hbs
      cases bflag with
      | false =>
        have hres : res = Sum.inr ("UNSAT", none) := by simpa using h.symm
        refine ⟨?_, ?_⟩
        · intro r _ mdl hsat
          exact hfR rfl mdl (hab mdl hsat)
        · intro s2 hs2
          rw [hres] at hs2
          exact Sum.noConfusion hs2
      | true =>
        replace h : (match dpllPropagate pfuel s1 with
          | none => none
          | some (true, s2) => some (Sum.inl s2)
          | some (false, s2) => dpllConflictLoop pfuel f s2) = some res := h
        have hwp1 : WatchPos s1 := watchPos_transport s s1 hcl1 hwt1 hwp
        have hwd1 : WatchDup s1 := watchDup_transport s s1 hcl1 hwt1 hwd
        have hdb1 : DbImplied cnf s1 := dbImplied_transport cnf s s1 hcl1 hdb
        have hqi1 : QueueImplied cnf s1 := fun l hl => hqi l (by rw [← hq1]; exact hl)
        have hqr1 : QueueLitsInRange s1 := fun l hl => by
          rw [hnum1]
          exact hqr l (by rw [← hq1]; exact hl)
        have hcov1 : ∀ mdl, satCnf mdl cnf = true → DCov mdl s1 := by
          intro mdl hsat
          exact htR rfl mdl (hab mdl hsat)
        rcases hpr : dpllPropagate pfuel s1 with _ | ⟨pflag, s2⟩
        · rw [hpr] at h
          exact Option.noConfusion h
        · rw [hpr] at h
          obtain ⟨hInv2, hwp2, hwd2, hdb2, hqi2, hqr2, hmono2, htl2, ⟨hdec2, hls2⟩,
            hnum2, hag2, hcf2⟩ := dpllPropagate_sem cnf pfuel s1 pflag s2 hpr
            hqi1 hqr1 hInv1 hwp1 hwd1 hdb1
          have hso2 : StackOk s2 := stackOk_extend s1 s2 hdec2 hls2 htl2 hso1
          have hdo2 : DecOk s2 := decOk_extend s1 s2 hdec2 hls2 htl2 hnum2 hso1 hdo1
          cases pflag with
          | true =>
            have hres : res = Sum.inl s2 := by simpa using h.symm
            refine ⟨?_, ?_⟩
            · intro r hr
              rw [hres] at hr
              exact Sum.noConfusion hr
            · intro s3 hs3
              rw [hres] at hs3
              have hse : s2 = s3 := Sum.inl.inj hs3
              rw [← hse]
              refine ⟨hInv2, hso2, hdo2, hwp2, hwd2, hdb2, hqi2, hqr2, ?_⟩
              intro mdl hsat
              rcases hcov1 mdl hsat with hag | halt
              · exact Or.inl (hag2 mdl hsat hag)
              · exact Or.inr (altBranch_extend mdl s1 s2 hdec2 hls2 htl2 hso1 halt)
          | false =>
            have hab2 : ∀ mdl, satCnf mdl cnf = true → AltBranch mdl s2 := by
              intro mdl hsat
              rcases hcov1 mdl hsat with hag | halt
              · exact absurd hag (hcf2 rfl mdl hsat)
              · exact altBranch_extend mdl s1 s2 hdec2 hls2 htl2 hso1 halt
            exact ih pfuel s2 res h hInv2 hso2 hdo2 hwp2 hwd2 hdb2 hqi2 hqr2 hab2

/-- Main DPLL loop: whenever it answers `UNSAT`, the CNF has no model — the
invariants and the per-model branch cover are maintained across decisions,
propagations and conflict handling. -/
theorem dpllSolveLoop_sem (cnf : List (List Int)) :
    ∀ (fuel pfuel : Nat) (s : Solver) (res : String × Option (List Int)),
      dpllSolveLoop pfuel fuel s = some res →
      PropInv s → StackOk s → DecOk s → WatchPos s → WatchDup s → DbImplied cnf s →
      QueueImplied cnf s → QueueLitsInRange s →
      (∀ mdl, satCnf mdl cnf = true → DCov mdl s) →
      res.1 = "UNSAT" → ∀ mdl, satCnf mdl cnf ≠ true := by
  intro fuel
  induction fuel with
  | zero => intro pfuel s res h; simp [dpllSolveLoop] at h
  | succ f ih =>
    intro pfuel s res h hInv hso hdo hwp hwd hdb hqi hqr hcov hres
    rw [dpllSolveLoop] at h
    rcases hfp : firstPick s with _ | lit
    · rw [hfp] at h
      have hre : ("SAT", some (trueVars s)) = res := by simpa using h
      rw [← hre] at hres
      exact absurd (show ("SAT" : String) = "UNSAT" from hres) (by decide)
    · rw [hfp] at h
      have hlit1 : 1 ≤ lit ∧ lit ≤ Int.ofNat s.numVars ∧ s.assignment lit = 0 := by
        unfold firstPick at hfp
        have hmem := List.find?_mem hfp
        have hpred := List.find?_some hfp
        rw [mem_intRange] at hmem
        exact ⟨hmem.1, hmem.2, eq_of_beq hpred⟩
      obtain ⟨hl1, hl2, hl0⟩ := hlit1
      have hvab : iabs lit = lit := by
        unfold iabs
        rw [if_neg (by omega)]
      have hsvl : signVal lit = 1 := by
        unfold signVal
        rw [if_pos (by omega)]
      have hdecflag : decide (lit < 0) = false := by
        simp
        omega
      set s1 := dpllPushDecision s lit with hs1
      replace h : (match dpllPropagate pfuel s1 with
        | none => none
        | some (true, s2) => dpllSolveLoop pfuel f s2
        | some (false, s2) =>
          match dpllConflictLoop pfuel (f + 1) s2 with
          | none => none
          | some (Sum.inr r) => some r
          | some (Sum.inl s3) => dpllSolveLoop pfuel f s3) = some res := h
      have htr1 : s1.trail = s.trail ++ [lit] := rfl
      have hdec1 : s1.decisions = s.decisions ++ [(iabs lit, decide (lit < 0))] := rfl
      have hls1 : s1.levelStart = s.levelStart ++ [s.trail.length] := rfl
      have hcl1 : s1.clauses = s.clauses := rfl
      have hwt1 : s1.watches = s.watches := rfl
      have hnum1 : s1.numVars = s.numVars := rfl
      have hq1 : s1.unitQueue = s.unitQueue := rfl
      have htc1 : TrailConsistent s1 := by
        refine dpllPushDecision_tc s lit ?_ ?_ hInv.1
        · rw [hvab, mem_intRange]
          exact ⟨hl1, hl2⟩
        · rw [hvab]
          exact hl0
      have hInv1 : PropInv s1 :=
        ⟨htc1, range_transport s s1 hcl1 hnum1 hInv.2.1,
          watched_transport s s1 hcl1 hwt1 hnum1 hInv.2.2⟩
      have hso1 : StackOk s1 := by
        refine ⟨?_, ?_, ?_⟩
        · simp [hls1, hdec1, hso.1]
        · intro j hj
          rw [hls1, List.length_append, List.length_singleton] at hj
          rw [hls1, htr1, List.length_append, List.length_singleton]
          by_cases hjl : j < s.levelStart.length
          · rw [get?_append_lt hjl]
            have := hso.2.1 j hjl
            omega
          · have hjeq : j = s.levelStart.length := by omega
            rw [hjeq, get?_append_boundary]
            simp
        · intro i j hij hj
          rw [hls1, List.length_append, List.length_singleton] at hj
          rw [hls1]
          by_cases hjl : j < s.levelStart.length
          · rw [get?_append_lt hjl, get?_append_lt (by omega)]
            exact hso.2.2 i j hij hjl
          · have hjeq : j = s.levelStart.length := by omega
            rw [hjeq, get?_append_boundary, get?_append_lt (by omega)]
            have := hso.2.1 i (by omega)
            simpa using this
      have hdo1 : DecOk s1 := by
        intro j hj
        rw [hdec1, List.length_append, List.length_singleton] at hj
        rw [hdec1, hls1, hnum1]
        by_cases hjl : j < s.decisions.length
        · rw [get?_append_lt hjl, get?_append_lt (by rw [hso.1]; exact hjl)]
          obtain ⟨h1, h2, h3⟩ := hdo j hjl
          refine ⟨h1, h2, ?_⟩
          have hlt : (s.levelStart.get? j).getD 0 < s.trail.length :=
            hso.2.1 j (by rw [hso.1]; exact hjl)
          have hta : trailAt s1 ((s.levelStart.get? j).getD 0) =
              trailAt s ((s.levelStart.get? j).getD 0) := by
            unfold trailAt
            rw [htr1, get?_append_lt hlt]
          rw [hta]
          exact h3
        · have hjeq : j = s.decisions.length := by omega
          rw [hjeq, get?_append_boundary,
            show s.decisions.length = s.levelStart.length from (hso.1).symm,
            get?_append_boundary]
          simp only [show ([(iabs lit, decide (lit < 0))] :
              List (Int × Bool)).get? 0 = some (iabs lit, decide (lit < 0)) from rfl,
            show ([s.trail.length] : List Nat).get? 0 = some s.trail.length from rfl,
            Option.getD_some]
          refine ⟨by rw [hvab]; exact hl1, by rw [hvab]; exact hl2, ?_⟩
          have hta : trailAt s1 s.trail.length = lit := by
            unfold trailAt
            rw [htr1, get?_append_boundary]
            rfl
          rw [hta]
      have hwp1 : WatchPos s1 := watchPos_transport s s1 hcl1 hwt1 hwp
      have hwd1 : WatchDup s1 := watchDup_transport s s1 hcl1 hwt1 hwd
      have hdb1 : DbImplied cnf s1 := dbImplied_transport cnf s s1 hcl1 hdb
      have hqi1 : QueueImplied cnf s1 := fun l hl => hqi l hl
      have hqr1 : QueueLitsInRange s1 := fun l hl => hqr l hl
      have hcov1 : ∀ mdl, satCnf mdl cnf = true → DCov mdl s1 := by
        intro mdl hsat
        rcases hcov mdl hsat with hag | halt
        · by_cases hml : modelSatLit mdl lit = true
          · left
            intro l hl
            rw [htr1] at hl
            rcases List.mem_append.mp hl with h2 | h2
            · exact hag l h2
            · rw [List.mem_singleton] at h2
              rw [h2]
              exact hml
          · right
            refine ⟨s.decisions.length, ?_, ?_, ?_, ?_⟩
            · rw [hdec1, List.length_append, List.length_singleton]
              omega
            · rw [hdec1, get?_append_boundary]
              simp [hdecflag]
            · intro p hp
              rw [hls1,
                show s.decisions.length = s.levelStart.length from (hso.1).symm,
                get?_append_boundary,
                show ([s.trail.length] : List Nat).get? 0 = some s.trail.length from rfl,
                Option.getD_some] at hp
              have hta : trailAt s1 p = trailAt s p := by
                unfold trailAt
                rw [htr1, get?_append_lt hp]
              rw [hta]
              obtain ⟨l, hlget⟩ : ∃ l, s.trail.get? p = some l := by
                rw [List.get?_eq_getElem?, List.getElem?_eq_getElem hp]
                exact ⟨_, rfl⟩
              have : modelSatLit mdl l = true := hag l (List.get?_mem hlget)
              unfold trailAt
              rw [hlget]
              exact this
            · rw [hdec1, get?_append_boundary]
              simp only [show ([(iabs lit, decide (lit < 0))] :
                  List (Int × Bool)).get? 0 =
                some (iabs lit, decide (lit < 0)) from rfl, Option.getD_some]
              rw [hvab, modelSatLit_neg mdl lit (by omega)]
              rw [Bool.not_eq_true] at hml
              rw [hml]
              rfl
        · right
          obtain ⟨j, hj, hflag, hpre, hsat2⟩ := halt
          refine ⟨j, ?_, ?_, ?_, ?_⟩
          · rw [hdec1, List.length_append, List.length_singleton]
            omega
          · rw [hdec1, get?_append_lt hj]
            exact hflag
          · intro p hp
            rw [hls1, get?_append_lt (by rw [hso.1]; exact hj)] at hp
            have hlt : (s.levelStart.get? j).getD 0 < s.trail.length :=
              hso.2.1 j (by rw [hso.1]; exact hj)
            have hta : trailAt s1 p = trailAt s p := by
              unfold trailAt
              rw [htr1, get?_append_lt (by omega)]
            rw [hta]
            exact hpre p hp
          · rw [hdec1, get?_append_lt hj]
            exact hsat2
      rcases hpr : dpllPropagate pfuel s1 with _ | ⟨pflag, s2⟩
      · rw [hpr] at h
        exact Option.noConfusion h
      · rw [hpr] at h
        obtain ⟨hInv2, hwp2, hwd2, hdb2, hqi2, hqr2, hmono2, htl2, ⟨hdec2, hls2⟩,
          hnum2, hag2, hcf2⟩ := dpllPropagate_sem cnf pfuel s1 pflag s2 hpr
          hqi1 hqr1 hInv1 hwp1 hwd1 hdb1
        have hso2 : StackOk s2 := stackOk_extend s1 s2 hdec2 hls2 htl2 hso1
        have hdo2 : DecOk s2 := decOk_extend s1 s2 hdec2 hls2 htl2 hnum2 hso1 hdo1
        cases pflag with
        | true =>
          have hcov2 : ∀ mdl, satCnf mdl cnf = true → DCov mdl s2 := by
            intro mdl hsat
            rcases hcov1 mdl hsat with hag | halt
            · exact Or.inl (hag2 mdl hsat hag)
            · exact Or.inr (altBranch_extend mdl s1 s2 hdec2 hls2 htl2 hso1 halt)
          exact ih pfuel s2 res h hInv2 hso2 hdo2 hwp2 hwd2 hdb2 hqi2 hqr2 hcov2 hres
        | false =>
          replace h : (match dpllConflictLoop pfuel (f + 1) s2 with
            | none => none
            | some (Sum.inr r) => some r
            | some (Sum.inl s3) => dpllSolveLoop pfuel f s3) = some res := h
          have hab2 : ∀ mdl, satCnf mdl cnf = true → AltBranch mdl s2 := by
            intro mdl hsat
            rcases hcov1 mdl hsat with hag | halt
            · exact absurd hag (hcf2 rfl mdl hsat)
            · exact altBranch_extend mdl s1 s2 hdec2 hls2 htl2 hso1 halt
          rcases hcf : dpllConflictLoop pfuel (f + 1) s2 with _ | cres
          · rw [hcf] at h
            exact Option.noConfusion h
          · rw [hcf] at h
            obtain ⟨hinr, hinl⟩ := dpllConflictLoop_sem cnf (f + 1) pfuel s2 cres hcf
              hInv2 hso2 hdo2 hwp2 hwd2 hdb2 hqi2 hqr2 hab2
            cases cres with
            | inr r =>
              intro mdl
              exact hinr r rfl mdl
            | inl s3 =>
              obtain ⟨hInv3, hso3, hdo3, hwp3, hwd3, hdb3, hqi3, hqr3, hcov3⟩ :=
                hinl s3 rfl
              exact ih pfuel s3 res h hInv3 hso3 hdo3 hwp3 hwd3 hdb3 hqi3 hqr3 hcov3 hres

/-- A CNF containing the empty clause has no model. -/
theorem satCnf_empty_clause (cnf : List (List Int)) (h : ([] : List Int) ∈ cnf) :
    ∀ mdl, satCnf mdl cnf ≠ true := by
  intro mdl hsat
  unfold satCnf at hsat
  rw [List.all_eq_true] at hsat
  have := hsat [] h
  unfold modelSatClause at this
  simp at this

/-- Literals range-checked against zero variables force all clauses empty. -/
theorem clausesInRange_zero (cnf : List (List Int))
    (hr : clausesInRange cnf 0 = true) (hne : ([] : List Int) ∉ cnf) : cnf = [] := by
  unfold clausesInRange at hr
  rw [List.all_eq_true] at hr
  cases hc : cnf with
  | nil => rfl
  | cons c rest =>
    exfalso
    rw [hc] at hr hne
    have hcr := hr c (List.mem_cons_self c rest)
    rw [List.all_eq_true] at hcr
    cases hcc : c with
    | nil =>
      rw [hcc] at hne
      exact hne (List.mem_cons_self [] rest)
    | cons l tl =>
      have := hcr l (by rw [hcc]; exact List.mem_cons_self l tl)
      simp only [Bool.and_eq_true, bne_iff_ne, ne_eq, decide_eq_true_eq] at this
      obtain ⟨h0, hle⟩ := this
      unfold iabs at hle
      simp only [Int.ofNat_eq_coe, Nat.cast_zero] at hle
      split_ifs at hle <;> omega

/-- On the empty CNF, `DPLL.solve` never answers `UNSAT`. -/
theorem dpllSolve_empty (pfuel fuel : Nat)
    (h : dpllSolve pfuel fuel [] 0 = some ("UNSAT", none)) : False := by
  cases pfuel with
  | zero => simp [dpllSolve, dpllPropagate, drainQueue, mkSolver,
      initClausesLoop, propTrailLoop] at h
  | succ p =>
    cases fuel with
    | zero => simp [dpllSolve, dpllPropagate, drainQueue, mkSolver,
        initClausesLoop, propTrailLoop, dpllSolveLoop] at h
    | succ f => simp [dpllSolve, dpllPropagate, drainQueue, mkSolver,
        initClausesLoop, propTrailLoop, dpllSolveLoop, firstPick, intRange] at h

/-- UNSAT soundness of `DPLL.solve`: under the range precondition, an
`UNSAT` answer means no assignment satisfies all clauses. -/
theorem dpllSolve_unsat_sound (clauses : List (List Int)) (numVars : Nat)
    (pfuel fuel : Nat) (hr : clausesInRange clauses numVars = true)
    (h : dpllSolve pfuel fuel clauses numVars = some ("UNSAT", none)) :
    ∀ mdl, satCnf mdl clauses ≠ true := by
  by_cases hemp : ([] : List Int) ∈ clauses
  · exact satCnf_empty_clause clauses hemp
  · by_cases hn : 1 ≤ numVars
    · obtain ⟨⟨hInv0, hwp0, hwd0, hdb0⟩, hqi0, hqr0, hcl0, hdec0, htr0, hls0⟩ :=
        mkSolver_semInv clauses numVars hr hn
      set s0 := mkSolver clauses numVars with hs0
      replace h : (match dpllPropagate pfuel s0 with
        | none => none
        | some (false, _) => some (("UNSAT" : String), (none : Option (List Int)))
        | some (true, s1) => dpllSolveLoop pfuel fuel s1) =
          some ("UNSAT", none) := h
      have hdb0c : DbImplied clauses s0 := by
        intro c hc
        rw [hcl0] at hc
        exact impliedClause_of_mem hc
      rcases hpr : dpllPropagate pfuel s0 with _ | ⟨pflag, s1⟩
      · rw [hpr] at h
        exact Option.noConfusion h
      · rw [hpr] at h
        obtain ⟨hInv1, hwp1, hwd1, hdb1, hqi1, hqr1, hmono1, htl1, ⟨hdec1, hls1⟩,
          hnum1, hag1, hcf1⟩ := dpllPropagate_sem clauses pfuel s0 pflag s1 hpr
          hqi0 hqr0 hInv0 hwp0 hwd0 hdb0c
        have hag0 : ∀ mdl, AgreeTrail mdl s0 := by
          intro mdl l hl
          rw [htr0] at hl
          simp at hl
        cases pflag with
        | false =>
          intro mdl hsat
          exact hcf1 rfl mdl hsat (hag0 mdl)
        | true =>
          have hso1 : StackOk s1 := by
            refine ⟨?_, ?_, ?_⟩
            · rw [hls1, hls0, hdec1, hdec0]
              rfl
            · intro j hj
              rw [hls1, hls0] at hj
              simp at hj
            · intro i j _ hj
              rw [hls1, hls0] at hj
              simp at hj
          have hdo1 : DecOk s1 := by
            intro j hj
            rw [hdec1, hdec0] at hj
            simp at hj
          have hcov1 : ∀ mdl, satCnf mdl clauses = true → DCov mdl s1 := by
            intro mdl hsat
            exact Or.inl (hag1 mdl hsat (hag0 mdl))
          exact dpllSolveLoop_sem clauses fuel pfuel s1 ("UNSAT", none) h
            hInv1 hso1 hdo1 hwp1 hwd1 hdb1 hqi1 hqr1 hcov1 rfl
    · have hz : numVars = 0 := by omega
      rw [hz] at h hr
      rw [clausesInRange_zero clauses hr hemp] at h
      exact absurd (dpllSolve_empty pfuel fuel h) (fun hf => hf)

/-- The level fold of `analyze_conflict` never goes negative. -/
theorem maxLevelOf_nonneg (s : Solver) (ls : List Int) : 0 ≤ maxLevelOf s ls := by
  unfold maxLevelOf
  have hgen : ∀ (xs : List Int) (a : Int), a ≤ xs.foldl max a := by
    intro xs
    induction xs with
    | nil => intro a; exact le_refl a
    | cons x rest ih =>
      intro a
      exact le_trans (le_max_left a x) (ih (max a x))
  exact hgen _ 0

/-- The watcher scan leaves all bookkeeping fields unchanged and permutes
only literal positions inside the processed clause. -/
theorem fnwLoop_b (s : Solver) (ci : Nat) (fw : Int) (clause : List Int)
    (hc : s.clauses.get? ci = some clause) (hfw0 : clause.get? 0 = some fw) :
    ∀ (remaining i : Nat),
    (fnwLoop s ci fw clause i remaining).2.trail = s.trail ∧
    (fnwLoop s ci fw clause i remaining).2.assignment = s.assignment ∧
    (fnwLoop s ci fw clause i remaining).2.levelOf = s.levelOf ∧
    (fnwLoop s ci fw clause i remaining).2.reasonOf = s.reasonOf ∧
    (fnwLoop s ci fw clause i remaining).2.clauses.length = s.clauses.length ∧
    (∀ (j : Nat) (x : Int),
      x ∈ ((fnwLoop s ci fw clause i remaining).2.clauses.get? j).getD [] ↔
      x ∈ (s.clauses.get? j).getD []) := by
  intro remaining
  induction remaining with
  | zero =>
    intro i
    rw [fnwLoop]
    exact ⟨rfl, rfl, rfl, rfl, rfl, fun j x => Iff.rfl⟩
  | succ r ih =>
    intro i
    rw [fnwLoop]
    rcases hg : clause.get? i with _ | newLit
    · simp only [hg]
      exact ⟨trivial, trivial, trivial, trivial, trivial, fun _ _ => trivial⟩
    · simp only [hg]
      by_cases hf : litIsFalse s newLit = true
      · rw [if_pos hf]
        exact ih (i + 1)
      · rw [if_neg hf]
        refine ⟨rfl, rfl, rfl, rfl, by simp, ?_⟩
        intro j x
        show x ∈ ((s.clauses.set ci ((clause.set 0 newLit).set i fw)).get? j).getD [] ↔
          x ∈ (s.clauses.get? j).getD []
        by_cases hji : j = ci
        · rw [hji]
          rw [List.get?_eq_getElem?, List.getElem?_set, if_pos rfl,
            if_pos (get?_lt_length _ _ _ hc), hc]
          simp only [Option.getD_some]
          exact mem_set_swap hfw0 hg x
        · rw [List.get?_eq_getElem?, List.getElem?_set, if_neg (fun h => hji h.symm),
            ← List.get?_eq_getElem?]

/-- When every level start lies at or before `p`, the count is the full
stack depth. -/
theorem countLE_all (ls : List Nat) (p : Nat) (h : ∀ e ∈ ls, e ≤ p) :
    countLE ls p = ls.length := by
  unfold countLE
  rw [List.filter_length_eq_length]
  intro e he
  simpa using h e he

/-- Level starts obtained by position are members of the stack. -/
theorem levelStart_mem (ls : List Nat) (j : Nat) (hj : j < ls.length) :
    (ls.get? j).getD 0 ∈ ls := by
  obtain ⟨e, he⟩ : ∃ e, ls.get? j = some e := by
    rw [List.get?_eq_getElem?, List.getElem?_eq_getElem hj]
    exact ⟨_, rfl⟩
  rw [he]
  exact List.get?_mem he

/-- Stack members sit at positions inside the stack. -/
theorem mem_levelStart_pos (ls : List Nat) (e : Nat) (he : e ∈ ls) :
    ∃ j, j < ls.length ∧ ls.get? j = some e := by
  rw [List.mem_iff_get?] at he
  obtain ⟨j, hj⟩ := he
  exact ⟨j, get?_lt_length ls j e hj, hj⟩

/-- Bookkeeping invariants transfer across member-stable clause updates that
leave the trail and the assignment maps unchanged. -/
theorem cinvParts_transport (s s' : Solver)
    (htr : s'.trail = s.trail) (ha : s'.assignment = s.assignment)
    (hlo : s'.levelOf = s.levelOf) (hro : s'.reasonOf = s.reasonOf)
    (hls : s'.levelStart = s.levelStart) (hdec : s'.decisions = s.decisions)
    (hclen : s'.clauses.length = s.clauses.length)
    (hmem : ∀ (j : Nat) (x : Int),
      x ∈ (s'.clauses.get? j).getD [] ↔ x ∈ (s.clauses.get? j).getD [])
    (hlc : LevelChar s) (hri : RInv s) (hrp : RPres s) :
    LevelChar s' ∧ RInv s' ∧ RPres s' := by
  have hta : ∀ p, trailAt s' p = trailAt s p := by
    intro p
    unfold trailAt
    rw [htr]
  have hfa : ∀ m, litIsFalse s' m = litIsFalse s m := by
    intro m
    unfold litIsFalse
    rw [ha]
  refine ⟨?_, ?_, ?_⟩
  · intro p hp
    rw [htr] at hp
    rw [hta, hlo, hls]
    exact hlc p hp
  · intro p hp hg rci hrci
    rw [htr] at hp
    rw [hta, hlo] at hg
    rw [hta, hro] at hrci
    obtain ⟨h1, h2, h3, h4⟩ := hri p hp hg rci hrci
    refine ⟨by rw [hclen]; exact h1, ?_, ?_, ?_⟩
    · rw [hta, hmem]
      exact h2
    · intro m hm hmv
      rw [hmem] at hm
      rw [hta] at hmv
      obtain ⟨hf, q, hq, hqv⟩ := h3 m hm hmv
      exact ⟨by rw [hfa]; exact hf, q, hq, by rw [hta]; exact hqv⟩
    · intro m hm hmv
      rw [hmem] at hm
      rw [hta] at hmv ⊢
      exact h4 m hm hmv
  · intro p hp hg hnls
    rw [htr] at hp
    rw [hta, hlo] at hg
    rw [hls] at hnls
    rw [hta, hro]
    exact hrp p hp hg hnls

/-- One watch-entry processing step preserves the CDCL bookkeeping: levels
count the stack, reasons stay valid, and a unit assignment records the
processed clause as a well-formed reason at the new trail position. -/
theorem pwcStep_b (ai2 : Solver → Int → Nat → Solver) (cur : Int)
    (hai2 : ∀ st l cj, (ai2 st l cj).assignment = updFn st.assignment (iabs l) (signVal l) ∧
      (ai2 st l cj).trail = st.trail ++ [l] ∧ (ai2 st l cj).clauses = st.clauses ∧
      (ai2 st l cj).levelStart = st.levelStart ∧ (ai2 st l cj).decisions = st.decisions ∧
      (ai2 st l cj).levelOf = updFn st.levelOf (iabs l) cur ∧
      (ai2 st l cj).reasonOf = updFn st.reasonOf (iabs l) (some cj))
    (ci : Nat) (w1 w2 : Int) (s1 : Solver) (c1 : List Int)
    (hc1 : s1.clauses.get? ci = some c1)
    (hw1of : c1.get? 0 = some w1) (hw2of : c1.get? 1 = some w2) (hlen1 : 2 ≤ c1.length)
    (hw1f : litIsFalse s1 w1 = true)
    (hInv1 : PropInv s1)
    (hcur : cur = Int.ofNat s1.levelStart.length)
    (hall : ∀ e ∈ s1.levelStart, e < s1.trail.length)
    (hlc1 : LevelChar s1) (hri1 : RInv s1) (hrp1 : RPres s1) :
    LevelChar (pwcStep ai2 ci w1 w2 s1).2 ∧ RInv (pwcStep ai2 ci w1 w2 s1).2 ∧
    RPres (pwcStep ai2 ci w1 w2 s1).2 ∧
    (∀ v, s1.assignment v ≠ 0 →
      (pwcStep ai2 ci w1 w2 s1).2.levelOf v = s1.levelOf v ∧
      (pwcStep ai2 ci w1 w2 s1).2.reasonOf v = s1.reasonOf v) := by
  rw [pwcStep]
  by_cases ht : litIsTrue s1 w2 = true
  · rw [if_pos ht]
    exact ⟨hlc1, hri1, hrp1, fun v _ => ⟨rfl, rfl⟩⟩
  · rw [if_neg ht]
    have hfneq : findNewWatcher s1 ci w1 = fnwLoop s1 ci w1 c1 2 c1.length := by
      rw [findNewWatcher, hc1, Option.getD_some]
    have hb := fnwLoop_b s1 ci w1 c1 hc1 hw1of c1.length 2
    have hfld := fnwLoop_fields s1 ci w1 c1 c1.length 2
    rcases hfn : fnwLoop s1 ci w1 c1 2 c1.length with ⟨found, s2⟩
    rw [hfneq, hfn]
    rw [hfn] at hb hfld
    obtain ⟨htr2, ha2, hlo2, hro2, hclen2, hmem2⟩ := hb
    obtain ⟨_, hdec2, hls2, _⟩ := hfld
    replace htr2 : s2.trail = s1.trail := htr2
    replace ha2 : s2.assignment = s1.assignment := ha2
    replace hlo2 : s2.levelOf = s1.levelOf := hlo2
    replace hro2 : s2.reasonOf = s1.reasonOf := hro2
    replace hclen2 : s2.clauses.length = s1.clauses.length := hclen2
    replace hmem2 : ∀ (j : Nat) (x : Int),
      x ∈ (s2.clauses.get? j).getD [] ↔ x ∈ (s1.clauses.get? j).getD [] := hmem2
    replace hdec2 : s2.decisions = s1.decisions := hdec2
    replace hls2 : s2.levelStart = s1.levelStart := hls2
    have htrans := cinvParts_transport s1 s2 htr2 ha2 hlo2 hro2 hls2 hdec2 hclen2
      hmem2 hlc1 hri1 hrp1
    cases found with
    | true =>
      exact ⟨htrans.1, htrans.2.1, htrans.2.2,
        fun v _ => ⟨congrFun hlo2 v, congrFun hro2 v⟩⟩
    | false =>
      have hs2eq : s2 = s1 := by
        have hfs := fnwLoop_false_state s1 ci w1 c1 c1.length 2
        rw [hfn] at hfs
        exact hfs rfl
      rw [hs2eq]
      have hscan : ∀ j, 2 ≤ j → j < c1.length → ∀ x, c1.get? j = some x →
          litIsFalse s1 x = true := by
        have hfs := fnwLoop_false_scan s1 ci w1 c1 c1.length 2 (by omega)
        rw [hfn, hs2eq] at hfs
        exact hfs rfl
      have hallf : ∀ m ∈ c1, m ≠ w2 → litIsFalse s1 m = true := by
        intro m hm hmw
        rw [List.mem_iff_get?] at hm
        obtain ⟨j, hj⟩ := hm
        by_cases hj0 : j = 0
        · subst hj0
          rw [hw1of] at hj
          have hmw1 : w1 = m := by simpa using hj
          rw [← hmw1]
          exact hw1f
        · by_cases hj1 : j = 1
          · subst hj1
            rw [hw2of] at hj
            have hj2 : w2 = m := by simpa using hj
            exact absurd hj2.symm hmw
          · exact hscan j (by omega) (get?_lt_length _ _ _ hj) m hj
      have hc1m : c1 ∈ s1.clauses := List.get?_mem hc1
      have hrange := hInv1.2.1 c1 hc1m
      by_cases hu : litIsUnassigned s1 w2 = true
      · simp only [hu, if_true]
        obtain ⟨ha3, htr3, hcl3, hls3, hdec3, hlo3, hro3⟩ := hai2 s1 w2 ci
        have hw2u : s1.assignment (iabs w2) = 0 := by
          unfold litIsUnassigned at hu
          exact eq_of_beq hu
        have hvareq : ∀ m ∈ c1, iabs m = iabs w2 → m = w2 := by
          intro m hm hmv
          by_contra hmw
          have hmf := hallf m hm hmw
          unfold litIsFalse at hmf
          have hval := eq_of_beq hmf
          rw [hmv, hw2u] at hval
          split_ifs at hval <;> omega
      -- new trail facts
        have hlenS : (ai2 s1 w2 ci).trail.length = s1.trail.length + 1 := by
          rw [htr3, List.length_append, List.length_singleton]
        have htaold : ∀ p, p < s1.trail.length →
            trailAt (ai2 s1 w2 ci) p = trailAt s1 p := by
          intro p hp
          unfold trailAt
          rw [htr3, get?_append_lt hp]
        have htanew : trailAt (ai2 s1 w2 ci) s1.trail.length = w2 := by
          unfold trailAt
          rw [htr3, get?_append_boundary]
          rfl
        have holdvar : ∀ p, p < s1.trail.length → iabs (trailAt s1 p) ≠ iabs w2 := by
          intro p hp hveq
          obtain ⟨l, hl⟩ : ∃ l, s1.trail.get? p = some l := by
            rw [List.get?_eq_getElem?, List.getElem?_eq_getElem hp]
            exact ⟨_, rfl⟩
          have hlm : l ∈ s1.trail := List.get?_mem hl
          have hassigned := hInv1.1.2 l hlm
          have htal : trailAt s1 p = l := by
            unfold trailAt
            rw [hl]
            rfl
          rw [htal] at hveq
          rw [hveq, hw2u] at hassigned
          exact signVal_ne_zero l hassigned.symm
        have hmono : ∀ v, s1.assignment v ≠ 0 →
            (ai2 s1 w2 ci).assignment v = s1.assignment v := by
          intro v hv
          rw [ha3]
          unfold updFn
          rw [if_neg (fun hveq => hv (by rw [hveq]; exact hw2u))]
        have hlonew : ∀ v, v ≠ iabs w2 → (ai2 s1 w2 ci).levelOf v = s1.levelOf v := by
          intro v hv
          rw [hlo3]
          unfold updFn
          rw [if_neg hv]
        have hronew : ∀ v, v ≠ iabs w2 → (ai2 s1 w2 ci).reasonOf v = s1.reasonOf v := by
          intro v hv
          rw [hro3]
          unfold updFn
          rw [if_neg hv]
        have hvassigned : ∀ p, p < s1.trail.length → s1.assignment (iabs (trailAt s1 p)) ≠ 0 := by
          intro p hp
          obtain ⟨l, hl⟩ : ∃ l, s1.trail.get? p = some l := by
            rw [List.get?_eq_getElem?, List.getElem?_eq_getElem hp]
            exact ⟨_, rfl⟩
          have htal : trailAt s1 p = l := by
            unfold trailAt
            rw [hl]
            rfl
          rw [htal]
          have := hInv1.1.2 l (List.get?_mem hl)
          rw [this]
          exact signVal_ne_zero l
        refine ⟨?_, ?_, ?_, ?_⟩
        · -- LevelChar
          intro p hp
          rw [hlenS] at hp
          rw [hls3]
          by_cases hpo : p < s1.trail.length
          · rw [htaold p hpo, hlonew _ (holdvar p hpo)]
            exact hlc1 p hpo
          · have hpe : p = s1.trail.length := by omega
            rw [hpe, htanew, hlo3]
            unfold updFn
            rw [if_pos rfl, hcur]
            congr 1
            rw [countLE_all s1.levelStart s1.trail.length
              (fun e he => le_of_lt (hall e he))]
        · -- RInv
          intro p hp hg rci hrci
          rw [hlenS] at hp
          by_cases hpo : p < s1.trail.length
          · rw [htaold p hpo] at hrci hg ⊢
            rw [hronew _ (holdvar p hpo)] at hrci
            rw [hlonew _ (holdvar p hpo)] at hg
            obtain ⟨h1, h2, h3, h4⟩ := hri1 p hpo hg rci hrci
            have hclq : ∀ (j : Nat), (ai2 s1 w2 ci).clauses.get? j = s1.clauses.get? j := by
              intro j
              rw [hcl3]
            refine ⟨by rw [hcl3]; exact h1, by rw [hclq]; exact h2, ?_, ?_⟩
            · intro m hm hmv
              rw [hclq] at hm
              obtain ⟨hf, q, hq, hqv⟩ := h3 m hm hmv
              refine ⟨litIsFalse_mono s1 _ m hmono hf, q, hq, ?_⟩
              rw [htaold q (by omega)]
              exact hqv
            · intro m hm hmv
              rw [hclq] at hm
              exact h4 m hm hmv
          · have hpe : p = s1.trail.length := by omega
            rw [hpe, htanew] at hrci ⊢
            rw [hro3] at hrci
            unfold updFn at hrci
            rw [if_pos rfl] at hrci
            have hrcie : rci = ci := (Option.some.inj hrci).symm
            rw [hrcie]
            have hclq : (ai2 s1 w2 ci).clauses.get? ci = some c1 := by
              rw [hcl3]
              exact hc1
            rw [hclq, Option.getD_some]
            refine ⟨?_, List.get?_mem hw2of, ?_, ?_⟩
            · rw [hcl3]
              exact get?_lt_length _ _ _ hc1
            · intro m hm hmv
              have hmw : m ≠ w2 := fun hme => hmv (by rw [hme])
              have hmf := hallf m hm hmw
              have hmr := hrange m hm
              refine ⟨litIsFalse_mono s1 _ m hmono hmf, ?_⟩
              have hneg : -m ∈ s1.trail :=
                false_lit_negation_on_trail s1 m hInv1.1 hmf hmr.1 hmr.2
              rw [List.mem_iff_get?] at hneg
              obtain ⟨q, hq⟩ := hneg
              have hqlt : q < s1.trail.length := get?_lt_length _ _ _ hq
              refine ⟨q, hqlt, ?_⟩
              rw [htaold q hqlt]
              have htaq : trailAt s1 q = -m := by
                unfold trailAt
                rw [hq]
                rfl
              rw [htaq, iabs_neg]
            · intro m hm hmv
              exact hvareq m hm hmv
        · -- RPres
          intro p hp hg hnls
          rw [hlenS] at hp
          rw [hls3] at hnls
          by_cases hpo : p < s1.trail.length
          · rw [htaold p hpo] at hg ⊢
            rw [hlonew _ (holdvar p hpo)] at hg
            rw [hronew _ (holdvar p hpo)]
            exact hrp1 p hpo hg hnls
          · have hpe : p = s1.trail.length := by omega
            rw [hpe, htanew, hro3]
            unfold updFn
            rw [if_pos rfl]
            exact Option.noConfusion
        · -- bookkeeping of assigned variables unchanged
          intro v hv
          exact ⟨hlonew v (fun hveq => hv (by rw [hveq]; exact hw2u)),
            hronew v (fun hveq => hv (by rw [hveq]; exact hw2u))⟩
      · rw [Bool.not_eq_true] at hu
        simp only [hu, Bool.false_eq_true, if_false]
        by_cases hf2 : litIsFalse s1 w2 = true
        · simp only [hf2, if_true]
          exact ⟨hlc1, hri1, hrp1, fun v _ => ⟨by trivial, by trivial⟩⟩
        · rw [Bool.not_eq_true] at hf2
          simp only [hf2, Bool.false_eq_true, if_false]
          exact ⟨hlc1, hri1, hrp1, fun v _ => ⟨by trivial, by trivial⟩⟩

/-- Processing one watch-list entry preserves the CDCL bookkeeping. -/
theorem processWatchClause_b (ai2 : Solver → Int → Nat → Solver) (cur : Int)
    (hai2 : ∀ st l cj, (ai2 st l cj).assignment = updFn st.assignment (iabs l) (signVal l) ∧
      (ai2 st l cj).trail = st.trail ++ [l] ∧ (ai2 st l cj).clauses = st.clauses ∧
      (ai2 st l cj).levelStart = st.levelStart ∧ (ai2 st l cj).decisions = st.decisions ∧
      (ai2 st l cj).levelOf = updFn st.levelOf (iabs l) cur ∧
      (ai2 st l cj).reasonOf = updFn st.reasonOf (iabs l) (some cj))
    (fl : Int) (ci : Nat) (s : Solver)
    (hcl : ∃ c, s.clauses.get? ci = some c ∧ 2 ≤ c.length ∧
      (c.get? 0 = some fl ∨ c.get? 1 = some fl))
    (hflf : litIsFalse s fl = true)
    (hInv : PropInv s)
    (hcur : cur = Int.ofNat s.levelStart.length)
    (hall : ∀ e ∈ s.levelStart, e < s.trail.length)
    (hlc : LevelChar s) (hri : RInv s) (hrp : RPres s) :
    LevelChar (processWatchClause ai2 fl ci s).2 ∧
    RInv (processWatchClause ai2 fl ci s).2 ∧
    RPres (processWatchClause ai2 fl ci s).2 ∧
    (∀ v, s.assignment v ≠ 0 →
      (processWatchClause ai2 fl ci s).2.levelOf v = s.levelOf v ∧
      (processWatchClause ai2 fl ci s).2.reasonOf v = s.reasonOf v) := by
  obtain ⟨c, hc, hlen, hpos⟩ := hcl
  have hlt0 : 0 < c.length := by omega
  have hlt1 : 1 < c.length := by omega
  obtain ⟨x0, hx0⟩ : ∃ x, c.get? 0 = some x := by
    rw [List.get?_eq_getElem?, List.getElem?_eq_getElem (by omega)]
    exact ⟨_, rfl⟩
  obtain ⟨x1, hx1⟩ : ∃ x, c.get? 1 = some x := by
    rw [List.get?_eq_getElem?, List.getElem?_eq_getElem (by omega)]
    exact ⟨_, rfl⟩
  by_cases hx0fl : x0 = fl
  · rw [(processWatchClause_eq_step ai2 fl ci s c x0 x1 hc hx0 hx1).1 hx0fl]
    exact pwcStep_b ai2 cur hai2 ci x0 x1 s c hc hx0 hx1 hlen
      (by rw [hx0fl]; exact hflf) hInv hcur hall hlc hri hrp
  · rw [(processWatchClause_eq_step ai2 fl ci s c x0 x1 hc hx0 hx1).2 hx0fl]
    have hx1fl : x1 = fl := by
      rcases hpos with h0 | h1
      · rw [hx0] at h0
        exact absurd (by simpa using h0) hx0fl
      · rw [hx1] at h1
        simpa using h1
    set ssw : Solver := { s with clauses := s.clauses.set ci ((c.set 0 x1).set 1 x0) }
      with hssw
    have hc1 : ssw.clauses.get? ci = some ((c.set 0 x1).set 1 x0) := by
      show (s.clauses.set ci ((c.set 0 x1).set 1 x0)).get? ci = some _
      rw [List.get?_eq_getElem?, List.getElem?_set, if_pos rfl,
        if_pos (get?_lt_length _ _ _ hc)]
    have hg0 : ((c.set 0 x1).set 1 x0).get? 0 = some x1 := by
      rw [List.get?_eq_getElem?, List.getElem?_set, if_neg (by omega)]
      have h2 : (c.set 0 x1).get? 0 = some x1 := by
        rw [List.get?_eq_getElem?, List.getElem?_set, if_pos rfl,
          if_pos (by simpa using hlt0)]
      rw [List.get?_eq_getElem?] at h2
      exact h2
    have hg1 : ((c.set 0 x1).set 1 x0).get? 1 = some x0 := by
      rw [List.get?_eq_getElem?, List.getElem?_set, if_pos rfl,
        if_pos (by simpa using hlt1)]
    have hsub : ∀ x ∈ (c.set 0 x1).set 1 x0, x ∈ c := by
      intro x hx
      exact (mem_set_swap hx0 hx1 x).mp hx
    have hInvSW : PropInv ssw :=
      ⟨hInv.1, range_set s ci c _ hc hsub hInv.2.1,
        watchedTwo_set s ci c _ hc (by simp) hInv.2.2⟩
    have hmemSW : ∀ (j : Nat) (x : Int),
        x ∈ (ssw.clauses.get? j).getD [] ↔ x ∈ (s.clauses.get? j).getD [] := by
      intro j x
      show x ∈ ((s.clauses.set ci ((c.set 0 x1).set 1 x0)).get? j).getD [] ↔ _
      by_cases hji : j = ci
      · rw [hji]
        rw [List.get?_eq_getElem?, List.getElem?_set, if_pos rfl,
          if_pos (get?_lt_length _ _ _ hc), hc]
        simp only [Option.getD_some]
        exact mem_set_swap hx0 hx1 x
      · rw [List.get?_eq_getElem?, List.getElem?_set, if_neg (fun h => hji h.symm),
          ← List.get?_eq_getElem?]
    have htrans := cinvParts_transport s ssw rfl rfl rfl rfl rfl rfl (by simp) hmemSW
      hlc hri hrp
    exact pwcStep_b ai2 cur hai2 ci x1 x0 ssw ((c.set 0 x1).set 1 x0) hc1 hg0 hg1
      (by simp; omega) (by rw [hx1fl]; exact hflf) hInvSW hcur hall
      htrans.1 htrans.2.1 htrans.2.2

/-- Processing a watch-list snapshot preserves the CDCL bookkeeping. -/
theorem processWatchList_b (cnf : List (List Int))
    (ai2 : Solver → Int → Nat → Solver) (cur : Int)
    (hai2 : ∀ st l cj, (ai2 st l cj).assignment = updFn st.assignment (iabs l) (signVal l) ∧
      (ai2 st l cj).trail = st.trail ++ [l] ∧ (ai2 st l cj).numVars = st.numVars ∧
      (ai2 st l cj).clauses = st.clauses ∧ (ai2 st l cj).watches = st.watches ∧
      (ai2 st l cj).unitQueue = st.unitQueue ∧ (ai2 st l cj).decisions = st.decisions ∧
      (ai2 st l cj).levelStart = st.levelStart ∧ (ai2 st l cj).propIndex = st.propIndex ∧
      (ai2 st l cj).levelOf = updFn st.levelOf (iabs l) cur ∧
      (ai2 st l cj).reasonOf = updFn st.reasonOf (iabs l) (some cj))
    (fl : Int) (hfl0 : fl ≠ 0) :
    ∀ (snapshot : List Nat) (s : Solver),
      (∀ cj, List.count cj snapshot ≤ List.count cj (s.watches fl)) →
      litIsFalse s fl = true →
      iabs fl ≤ Int.ofNat s.numVars →
      PropInv s → WatchPos s → WatchDup s → DbImplied cnf s →
      cur = Int.ofNat s.levelStart.length →
      (∀ e ∈ s.levelStart, e < s.trail.length) →
      LevelChar s → RInv s → RPres s →
      LevelChar (processWatchList ai2 fl snapshot s).2 ∧
      RInv (processWatchList ai2 fl snapshot s).2 ∧
      RPres (processWatchList ai2 fl snapshot s).2 ∧
      (∀ v, s.assignment v ≠ 0 →
        (processWatchList ai2 fl snapshot s).2.levelOf v = s.levelOf v ∧
        (processWatchList ai2 fl snapshot s).2.reasonOf v = s.reasonOf v) := by
  have hai2A : ∀ st l cj,
      (ai2 st l cj).assignment = updFn st.assignment (iabs l) (signVal l) ∧
      (ai2 st l cj).trail = st.trail ++ [l] ∧ (ai2 st l cj).numVars = st.numVars ∧
      (ai2 st l cj).clauses = st.clauses ∧ (ai2 st l cj).watches = st.watches ∧
      (ai2 st l cj).unitQueue = st.unitQueue ∧ (ai2 st l cj).decisions = st.decisions ∧
      (ai2 st l cj).levelStart = st.levelStart ∧ (ai2 st l cj).propIndex = st.propIndex :=
    fun st l cj => ⟨(hai2 st l cj).1, (hai2 st l cj).2.1, (hai2 st l cj).2.2.1,
      (hai2 st l cj).2.2.2.1, (hai2 st l cj).2.2.2.2.1, (hai2 st l cj).2.2.2.2.2.1,
      (hai2 st l cj).2.2.2.2.2.2.1, (hai2 st l cj).2.2.2.2.2.2.2.1,
      (hai2 st l cj).2.2.2.2.2.2.2.2.1⟩
  have hai2B : ∀ st l cj,
      (ai2 st l cj).assignment = updFn st.assignment (iabs l) (signVal l) ∧
      (ai2 st l cj).trail = st.trail ++ [l] ∧ (ai2 st l cj).clauses = st.clauses ∧
      (ai2 st l cj).levelStart = st.levelStart ∧ (ai2 st l cj).decisions = st.decisions ∧
      (ai2 st l cj).levelOf = updFn st.levelOf (iabs l) cur ∧
      (ai2 st l cj).reasonOf = updFn st.reasonOf (iabs l) (some cj) :=
    fun st l cj => ⟨(hai2 st l cj).1, (hai2 st l cj).2.1, (hai2 st l cj).2.2.2.1,
      (hai2 st l cj).2.2.2.2.2.2.2.1, (hai2 st l cj).2.2.2.2.2.2.1,
      (hai2 st l cj).2.2.2.2.2.2.2.2.2.1, (hai2 st l cj).2.2.2.2.2.2.2.2.2.2⟩
  intro snapshot
  induction snapshot with
  | nil =>
    intro s _ _ _ _ _ _ _ _ _ hlc hri hrp
    rw [processWatchList]
    exact ⟨hlc, hri, hrp, fun v _ => ⟨rfl, rfl⟩⟩
  | cons ci rest ih =>
    intro s hcount hflf hflr hInv hwp hwd hdb hcur hall hlc hri hrp
    rw [processWatchList]
    have hcim : ci ∈ s.watches fl := by
      rw [← List.count_pos_iff_mem]
      have h1 := hcount ci
      have h2 : 0 < List.count ci (ci :: rest) := by
        rw [List.count_cons]
        simp
      omega
    obtain ⟨c0, hc0, hp0⟩ := hwp fl ci hcim
    obtain ⟨c0b, hc0b, hlen0⟩ := hInv.2.2 fl ((mem_watchLits s.numVars fl).mpr
      ⟨hfl0, hflr⟩) ci hcim
    rw [hc0] at hc0b
    have hc0e : c0b = c0 := (by simpa using hc0b : c0 = c0b).symm
    rw [hc0e] at hlen0
    have hstep := processWatchClause_sem cnf ai2 hai2A fl ci s ⟨c0, hc0, hlen0, hp0⟩
      hflf hInv hwp hwd hdb
    have hstep2 := processWatchClause_preserves ai2
      (fun st l cj => ⟨(hai2 st l cj).1, (hai2 st l cj).2.1, (hai2 st l cj).2.2.1,
        (hai2 st l cj).2.2.2.1, (hai2 st l cj).2.2.2.2.1⟩) fl ci s
      ⟨c0, hc0, hlen0⟩ hInv
    have hstepB := processWatchClause_b ai2 cur hai2B fl ci s ⟨c0, hc0, hlen0, hp0⟩
      hflf hInv hcur hall hlc hri hrp
    rcases hp : processWatchClause ai2 fl ci s with ⟨r, s2⟩
    rw [hp] at hstep hstep2 hstepB
    obtain ⟨hwp2, hwd2, hdb2, hmono2, ⟨tl2, htl2⟩, ⟨hq2, hdec2, hls2, hpx2⟩,
      hcnt2, hconf2, hag2⟩ := hstep
    obtain ⟨hInv2, hshape2, hnum2⟩ := hstep2
    obtain ⟨hlc2, hri2, hrp2, hbk2⟩ := hstepB
    cases r with
    | some cfl =>
      exact ⟨hlc2, hri2, hrp2, hbk2⟩
    | none =>
      replace hcnt2 : ∀ (l : Int) (cj : Nat),
          List.count cj (s.watches l) - (if cj = ci then 1 else 0) ≤
            List.count cj (s2.watches l) := hcnt2
      replace hmono2 : ∀ v, s.assignment v ≠ 0 →
          s2.assignment v = s.assignment v := hmono2
      replace htl2 : s2.trail = s.trail ++ tl2 := htl2
      replace hls2 : s2.levelStart = s.levelStart := hls2
      replace hbk2 : ∀ v, s.assignment v ≠ 0 →
          s2.levelOf v = s.levelOf v ∧ s2.reasonOf v = s.reasonOf v := hbk2
      replace hlc2 : LevelChar s2 := hlc2
      replace hri2 : RInv s2 := hri2
      replace hrp2 : RPres s2 := hrp2
      have hcount2 : ∀ cj, List.count cj rest ≤ List.count cj (s2.watches fl) := by
        intro cj
        have h1 := hcount cj
        have h2 := hcnt2 fl cj
        have h3 : List.count cj (ci :: rest) =
            List.count cj rest + (if cj = ci then 1 else 0) := by
          rw [List.count_cons]
          by_cases h : cj = ci
          · rw [h]
            simp
          · rw [if_neg (by simp only [beq_iff_eq]; omega), if_neg h]
        split_ifs at h2 h3 <;> omega
      have hflf2 : litIsFalse s2 fl = true := litIsFalse_mono s s2 fl hmono2 hflf
      have hflr2 : iabs fl ≤ Int.ofNat s2.numVars := by
        rw [hnum2]
        exact hflr
      have hcur2 : cur = Int.ofNat s2.levelStart.length := by
        rw [hls2]
        exact hcur
      have hall2 : ∀ e ∈ s2.levelStart, e < s2.trail.length := by
        intro e he
        rw [hls2] at he
        rw [htl2, List.length_append]
        have := hall e he
        omega
      obtain ⟨hlcf, hrif, hrpf, hbkf⟩ := ih s2 hcount2 hflf2 hflr2 hInv2 hwp2 hwd2
        hdb2 hcur2 hall2 hlc2 hri2 hrp2
      refine ⟨hlcf, hrif, hrpf, ?_⟩
      intro v hv
      obtain ⟨hb1, hb2⟩ := hbkf v (by rw [hmono2 v hv]; exact hv)
      obtain ⟨hb3, hb4⟩ := hbk2 v hv
      exact ⟨hb1.trans hb3, hb2.trans hb4⟩

/-- The trail-propagation loop preserves the CDCL bookkeeping. -/
theorem propTrailLoop_b (cnf : List (List Int))
    (ai2 : Solver → Int → Nat → Solver) (cur : Int)
    (hai2 : ∀ st l cj, (ai2 st l cj).assignment = updFn st.assignment (iabs l) (signVal l) ∧
      (ai2 st l cj).trail = st.trail ++ [l] ∧ (ai2 st l cj).numVars = st.numVars ∧
      (ai2 st l cj).clauses = st.clauses ∧ (ai2 st l cj).watches = st.watches ∧
      (ai2 st l cj).unitQueue = st.unitQueue ∧ (ai2 st l cj).decisions = st.decisions ∧
      (ai2 st l cj).levelStart = st.levelStart ∧ (ai2 st l cj).propIndex = st.propIndex ∧
      (ai2 st l cj).levelOf = updFn st.levelOf (iabs l) cur ∧
      (ai2 st l cj).reasonOf = updFn st.reasonOf (iabs l) (some cj)) :
    ∀ (fuel : Nat) (s : Solver) (r : Option Nat) (s2 : Solver),
      propTrailLoop ai2 fuel s = some (r, s2) →
      PropInv s → WatchPos s → WatchDup s → DbImplied cnf s →
      cur = Int.ofNat s.levelStart.length →
      (∀ e ∈ s.levelStart, e < s.trail.length) →
      LevelChar s → RInv s → RPres s →
      LevelChar s2 ∧ RInv s2 ∧ RPres s2 ∧
      (∀ v, s.assignment v ≠ 0 →
        s2.levelOf v = s.levelOf v ∧ s2.reasonOf v = s.reasonOf v) := by
  have hai2A : ∀ st l cj,
      (ai2 st l cj).assignment = updFn st.assignment (iabs l) (signVal l) ∧
      (ai2 st l cj).trail = st.trail ++ [l] ∧ (ai2 st l cj).numVars = st.numVars ∧
      (ai2 st l cj).clauses = st.clauses ∧ (ai2 st l cj).watches = st.watches ∧
      (ai2 st l cj).unitQueue = st.unitQueue ∧ (ai2 st l cj).decisions = st.decisions ∧
      (ai2 st l cj).levelStart = st.levelStart ∧ (ai2 st l cj).propIndex = st.propIndex :=
    fun st l cj => ⟨(hai2 st l cj).1, (hai2 st l cj).2.1, (hai2 st l cj).2.2.1,
      (hai2 st l cj).2.2.2.1, (hai2 st l cj).2.2.2.2.1, (hai2 st l cj).2.2.2.2.2.1,
      (hai2 st l cj).2.2.2.2.2.2.1, (hai2 st l cj).2.2.2.2.2.2.2.1,
      (hai2 st l cj).2.2.2.2.2.2.2.2.1⟩
  intro fuel
  induction fuel with
  | zero => intro s r s2 h; simp [propTrailLoop] at h
  | succ f ih =>
    intro s r s2 h hInv hwp hwd hdb hcur hall hlc hri hrp
    rw [propTrailLoop] at h
    by_cases hlt : s.propIndex < s.trail.length
    · rw [if_pos hlt] at h
      obtain ⟨lit, hlitg⟩ : ∃ l, s.trail.get? s.propIndex = some l := by
        rw [List.get?_eq_getElem?, List.getElem?_eq_getElem hlt]
        exact ⟨_, rfl⟩
      have hlitm : lit ∈ s.trail := List.get?_mem hlitg
      have hne : lit ≠ 0 := trail_lit_ne_zero s lit hInv.1 hlitm
      have hrange : iabs lit ≤ Int.ofNat s.numVars := trail_lit_range s lit hInv.1 hlitm
      rw [hlitg] at h
      simp only [Option.getD_some] at h
      set s1 : Solver := { s with propIndex := s.propIndex + 1 } with hs1
      have hfl0 : (-lit) ≠ 0 := by omega
      have hflf : litIsFalse s1 (-lit) = true :=
        neg_trail_lit_false s lit hInv.1 hlitm
      have hflr : iabs (-lit) ≤ Int.ofNat s1.numVars := by
        rw [iabs_neg]
        exact hrange
      have hpwlA := processWatchList_sem cnf ai2 hai2A (-lit) hfl0
        (s1.watches (-lit)) s1 (fun cj => le_refl _) hflf hflr hInv hwp hwd hdb
      have hpwl2 := processWatchList_preserves ai2
        (fun st l cj => ⟨(hai2 st l cj).1, (hai2 st l cj).2.1, (hai2 st l cj).2.2.1,
          (hai2 st l cj).2.2.2.1, (hai2 st l cj).2.2.2.2.1⟩) (-lit) (s1.watches (-lit)) s1
        (fun cj hcj => hInv.2.2 (-lit)
          ((mem_watchLits s1.numVars (-lit)).mpr ⟨hfl0, hflr⟩) cj hcj) hInv
      have hpwlB := processWatchList_b cnf ai2 cur hai2 (-lit) hfl0
        (s1.watches (-lit)) s1 (fun cj => le_refl _) hflf hflr hInv hwp hwd hdb
        hcur hall hlc hri hrp
      rcases hp : processWatchList ai2 (-lit) (s1.watches (-lit)) s1 with ⟨r0, s3⟩
      rw [hp] at h hpwlA hpwl2 hpwlB
      obtain ⟨hwp3, hwd3, hdb3, hmono3, ⟨tl3, htl3⟩, ⟨hq3, hdec3, hls3, _⟩,
        hconf3, hag3⟩ := hpwlA
      obtain ⟨hlc3, hri3, hrp3, hbk3⟩ := hpwlB
      replace hmono3 : ∀ v, s1.assignment v ≠ 0 →
          s3.assignment v = s1.assignment v := hmono3
      replace htl3 : s3.trail = s1.trail ++ tl3 := htl3
      replace hls3 : s3.levelStart = s1.levelStart := hls3
      replace hlc3 : LevelChar s3 := hlc3
      replace hri3 : RInv s3 := hri3
      replace hrp3 : RPres s3 := hrp3
      replace hbk3 : ∀ v, s1.assignment v ≠ 0 →
          s3.levelOf v = s1.levelOf v ∧ s3.reasonOf v = s1.reasonOf v := hbk3
      cases r0 with
      | some cfl =>
        have hout : r = some cfl ∧ s2 = s3 := by simpa using h.symm
        obtain ⟨_, hse⟩ := hout
        rw [hse]
        exact ⟨hlc3, hri3, hrp3, hbk3⟩
      | none =>
        have hcur3 : cur = Int.ofNat s3.levelStart.length := by
          rw [hls3]
          exact hcur
        have hall3 : ∀ e ∈ s3.levelStart, e < s3.trail.length := by
          intro e he
          rw [hls3] at he
          rw [htl3, List.length_append]
          have h1 := hall e he
          have hbr : s1.trail.length = s.trail.length := rfl
          omega
        obtain ⟨hlcf, hrif, hrpf, hbkf⟩ := ih s3 r s2 h hpwl2.1 hwp3 hwd3 hdb3
          hcur3 hall3 hlc3 hri3 hrp3
        refine ⟨hlcf, hrif, hrpf, ?_⟩
        intro v hv
        obtain ⟨hb1, hb2⟩ := hbkf v (by rw [hmono3 v hv]; exact hv)
        obtain ⟨hb3, hb4⟩ := hbk3 v hv
        exact ⟨hb1.trans hb3, hb2.trans hb4⟩
    · rw [if_neg hlt] at h
      have hout : r = none ∧ s2 = s := by simpa using h.symm
      obtain ⟨_, hse⟩ := hout
      rw [hse]
      exact ⟨hlc, hri, hrp, fun v _ => ⟨rfl, rfl⟩⟩

/-- Draining the unit queue at root level preserves the CDCL bookkeeping:
every assignment is recorded at level zero with no reason. -/
theorem drainQueue_b (ai : Solver → Int → Solver)
    (hai : ∀ st l, (ai st l).assignment = updFn st.assignment (iabs l) (signVal l) ∧
      (ai st l).trail = st.trail ++ [l] ∧ (ai st l).clauses = st.clauses ∧
      (ai st l).levelStart = st.levelStart ∧ (ai st l).decisions = st.decisions ∧
      (ai st l).numVars = st.numVars ∧ (ai st l).watches = st.watches ∧
      (ai st l).levelOf = updFn st.levelOf (iabs l) 0 ∧
      (ai st l).reasonOf = updFn st.reasonOf (iabs l) none) :
    ∀ (q : List Int) (s : Solver),
      (∀ l ∈ q, l ≠ 0 ∧ iabs l ≤ Int.ofNat s.numVars) →
      PropInv s →
      s.levelStart = [] →
      LevelChar s → RInv s →
      LevelChar (drainQueue ai q s).2 ∧ RInv (drainQueue ai q s).2 ∧
      (drainQueue ai q s).2.levelStart = [] ∧
      (drainQueue ai q s).2.decisions = s.decisions ∧
      (drainQueue ai q s).2.clauses = s.clauses ∧
      (∀ v, s.assignment v ≠ 0 →
        (drainQueue ai q s).2.levelOf v = s.levelOf v ∧
        (drainQueue ai q s).2.reasonOf v = s.reasonOf v) := by
  intro q
  induction q with
  | nil =>
    intro s _ _ hls0 hlc hri
    rw [drainQueue]
    exact ⟨hlc, hri, hls0, rfl, rfl, fun v _ => ⟨rfl, rfl⟩⟩
  | cons l rest ih =>
    intro s hq hInv hls0 hlc hri
    rw [drainQueue]
    set s1 : Solver := { s with unitQueue := rest } with hs1
    have hInv1 : PropInv s1 := hInv
    by_cases ht : litIsTrue s1 l = true
    · rw [if_pos ht]
      exact ih s1 (fun m hm => hq m (List.mem_cons_of_mem l hm)) hInv1 hls0 hlc hri
    · rw [if_neg ht]
      by_cases hf : litIsFalse s1 l = true
      · rw [if_pos hf]
        exact ⟨hlc, hri, hls0, rfl, rfl, fun v _ => ⟨rfl, rfl⟩⟩
      · rw [if_neg hf]
        obtain ⟨hl0, hlr⟩ := hq l (List.mem_cons_self l rest)
        obtain ⟨ha, htr, hcl, hls, hdec, hnv0, hwt0, hlo, hro⟩ := hai s1 l
        have hv : iabs l ∈ intRange s1.numVars := by
          rw [mem_intRange]
          exact ⟨iabs_pos_of_ne_zero l hl0, hlr⟩
        have h0 : s1.assignment (iabs l) = 0 :=
          tc_guards_zero s1 l hInv1.1 hv (Bool.not_eq_true _ ▸ ht) (Bool.not_eq_true _ ▸ hf)
        have hInv2 : PropInv (ai s1 l) := by
          refine ⟨tc_extend s1 _ l ha htr hnv0 hv h0 hInv1.1, ?_, ?_⟩
          · exact range_transport s1 _ hcl hnv0 hInv1.2.1
          · exact watched_transport s1 _ hcl hwt0 hnv0 hInv1.2.2
        have hlenS : (ai s1 l).trail.length = s1.trail.length + 1 := by
          rw [htr, List.length_append, List.length_singleton]
        have htaold : ∀ p, p < s1.trail.length →
            trailAt (ai s1 l) p = trailAt s1 p := by
          intro p hp
          unfold trailAt
          rw [htr, get?_append_lt hp]
        have htanew : trailAt (ai s1 l) s1.trail.length = l := by
          unfold trailAt
          rw [htr, get?_append_boundary]
          rfl
        have holdvar : ∀ p, p < s1.trail.length → iabs (trailAt s1 p) ≠ iabs l := by
          intro p hp hveq
          obtain ⟨m, hm⟩ : ∃ m, s1.trail.get? p = some m := by
            rw [List.get?_eq_getElem?, List.getElem?_eq_getElem hp]
            exact ⟨_, rfl⟩
          have hassigned := hInv1.1.2 m (List.get?_mem hm)
          have htal : trailAt s1 p = m := by
            unfold trailAt
            rw [hm]
            rfl
          rw [htal] at hveq
          rw [hveq, h0] at hassigned
          exact signVal_ne_zero m hassigned.symm
        have hlc2 : LevelChar (ai s1 l) := by
          intro p hp
          rw [hlenS] at hp
          rw [hls, hls0]
          by_cases hpo : p < s1.trail.length
          · rw [htaold p hpo, hlo]
            unfold updFn
            rw [if_neg (holdvar p hpo)]
            have := hlc p hpo
            rw [hls0] at this
            exact this
          · have hpe : p = s1.trail.length := by omega
            rw [hpe, htanew, hlo]
            unfold updFn
            rw [if_pos rfl]
            rfl
        have hri2 : RInv (ai s1 l) := by
          intro p hp hg rci hrci
          rw [hlenS] at hp
          by_cases hpo : p < s1.trail.length
          · rw [htaold p hpo] at hrci hg ⊢
            rw [hro] at hrci
            rw [hlo] at hg
            unfold updFn at hrci hg
            rw [if_neg (holdvar p hpo)] at hrci
            rw [if_neg (holdvar p hpo)] at hg
            obtain ⟨h1, h2, h3, h4⟩ := hri p hpo hg rci hrci
            have hclq : ∀ (j : Nat), (ai s1 l).clauses.get? j = s1.clauses.get? j := by
              intro j
              rw [hcl]
            have hmono : ∀ v, s1.assignment v ≠ 0 →
                (ai s1 l).assignment v = s1.assignment v := by
              intro v hv
              rw [ha]
              unfold updFn
              rw [if_neg (fun hveq => hv (by rw [hveq]; exact h0))]
            refine ⟨by rw [hcl]; exact h1, by rw [hclq]; exact h2, ?_, ?_⟩
            · intro m hm hmv
              rw [hclq] at hm
              obtain ⟨hfm, qq, hqq, hqv⟩ := h3 m hm hmv
              refine ⟨litIsFalse_mono s1 _ m hmono hfm, qq, hqq, ?_⟩
              rw [htaold qq (by omega)]
              exact hqv
            · intro m hm hmv
              rw [hclq] at hm
              exact h4 m hm hmv
          · have hpe : p = s1.trail.length := by omega
            rw [hpe, htanew] at hrci
            rw [hro] at hrci
            unfold updFn at hrci
            rw [if_pos rfl] at hrci
            exact Option.noConfusion hrci
        obtain ⟨hlcf, hrif, hlsf, hdecf, hclf, hbkf⟩ := ih (ai s1 l)
          (fun m hm => by
            obtain ⟨hm0, hmr⟩ := hq m (List.mem_cons_of_mem l hm)
            refine ⟨hm0, ?_⟩
            rw [hnv0]
            exact hmr) hInv2 (by rw [hls, hls0]) hlc2 hri2
        refine ⟨hlcf, hrif, hlsf, hdecf.trans hdec, hclf.trans hcl, ?_⟩
        intro v hv
        have hvne : v ≠ iabs l := fun hveq => by
          rw [hveq] at hv
          exact hv h0
        have hb1 : (ai s1 l).levelOf v = s1.levelOf v := by
          rw [hlo]
          unfold updFn
          rw [if_neg hvne]
        have hb2 : (ai s1 l).reasonOf v = s1.reasonOf v := by
          rw [hro]
          unfold updFn
          rw [if_neg hvne]
        have hva : (ai s1 l).assignment v ≠ 0 := by
          rw [ha]
          unfold updFn
          rw [if_neg hvne]
          exact hv
        obtain ⟨hc1b, hc2b⟩ := hbkf v hva
        exact ⟨hc1b.trans hb1, hc2b.trans hb2⟩

/-- A successful drain empties the queue. -/
theorem drainQueue_drained (ai : Solver → Int → Solver)
    (haiq : ∀ st l, (ai st l).unitQueue = st.unitQueue) :
    ∀ (q : List Int) (s : Solver), s.unitQueue = q →
      (drainQueue ai q s).1 = true → (drainQueue ai q s).2.unitQueue = [] := by
  intro q
  induction q with
  | nil =>
    intro s hq _
    rw [drainQueue]
    exact hq
  | cons l rest ih =>
    intro s _ hok
    rw [drainQueue]
    rw [drainQueue] at hok
    set s1 : Solver := { s with unitQueue := rest } with hs1
    by_cases ht : litIsTrue s1 l = true
    · rw [if_pos ht] at hok ⊢
      exact ih s1 rfl hok
    · rw [if_neg ht] at hok ⊢
      by_cases hf : litIsFalse s1 l = true
      · rw [if_pos hf] at hok
        simp at hok
      · rw [if_neg hf] at hok ⊢
        exact ih (ai s1 l) (haiq s1 l) hok


/-- With no decisions, every trail literal sits at level zero and is hence
implied. -/
theorem root_trail_implied (cnf : List (List Int)) (s : Solver)
    (hso : StackOk s) (hlc : LevelChar s) (hzl : ZL cnf s)
    (hdec0 : s.decisions = []) : ∀ m ∈ s.trail, Implied cnf m := by
  have hls0 : s.levelStart = [] := by
    have := hso.1
    rw [hdec0] at this
    exact List.length_eq_zero.mp (by rw [this]; rfl)
  intro m hm
  rw [List.mem_iff_get?] at hm
  obtain ⟨p, hp⟩ := hm
  have hplt : p < s.trail.length := get?_lt_length _ _ _ hp
  have htap : trailAt s p = m := by
    unfold trailAt
    rw [hp]
    rfl
  have hlev := hlc p hplt
  rw [htap, hls0] at hlev
  have hcz : countLE ([] : List Nat) p = 0 := rfl
  rw [hcz] at hlev
  exact hzl m (List.get?_mem hp) hlev

/-- `CDCL.propagate`: invariant preservation, CDCL bookkeeping preservation,
trail extension under agreement, and conflict characterisation (a falsified
stored clause for a trail-loop conflict, an implied false literal for the
root drain). -/
theorem cdclPropagate_sem (cnf : List (List Int)) (fuel : Nat) (s : Solver)
    (r : Option Int) (s2 : Solver)
    (h : cdclPropagate fuel s = some (r, s2))
    (hqd : s.unitQueue ≠ [] → s.decisions = [] ∧ s.levelStart = [])
    (hqimp : QueueImplied cnf s) (hqr : QueueLitsInRange s)
    (hInv : PropInv s) (hwp : WatchPos s) (hwd : WatchDup s) (hdb : DbImplied cnf s)
    (hso : StackOk s) (hlc : LevelChar s) (hri : RInv s) (hrp : RPres s)
    (hzl : ZL cnf s) :
    PropInv s2 ∧ WatchPos s2 ∧ WatchDup s2 ∧ DbImplied cnf s2 ∧
    (∀ v, s.assignment v ≠ 0 → s2.assignment v = s.assignment v) ∧
    (∃ tl, s2.trail = s.trail ++ tl) ∧
    (s2.decisions = s.decisions ∧ s2.levelStart = s.levelStart ∧
      s2.numVars = s.numVars) ∧
    ((r = none → s2.unitQueue = []) ∧
      (∀ ci0 : Int, r = some ci0 → 0 ≤ ci0 → s2.unitQueue = [])) ∧
    (∀ mdl, satCnf mdl cnf = true → AgreeTrail mdl s → AgreeTrail mdl s2) ∧
    (∀ ci0 : Int, r = some ci0 →
      (∃ cnat : Nat, ci0 = Int.ofNat cnat ∧ ∃ c2, s2.clauses.get? cnat = some c2 ∧
        ∀ m ∈ c2, litIsFalse s2 m = true) ∨
      (ci0 = -1 ∧ s.decisions = [] ∧ ∃ l, Implied cnf l ∧ litIsFalse s2 l = true ∧
        l ≠ 0 ∧ iabs l ≤ Int.ofNat s2.numVars)) ∧
    (LevelChar s2 ∧ RInv s2 ∧ RPres s2) ∧
    ZL cnf s2 ∧
    (∀ v, s.assignment v ≠ 0 →
      s2.levelOf v = s.levelOf v ∧ s2.reasonOf v = s.reasonOf v) ∧
    (s.decisions = [] → ∀ l ∈ s2.trail, Implied cnf l) := by
  have haiD : ∀ (st : Solver) (l : Int),
      (assignInternalC st l 0 none).assignment =
        updFn st.assignment (iabs l) (signVal l) ∧
      (assignInternalC st l 0 none).trail = st.trail ++ [l] ∧
      (assignInternalC st l 0 none).numVars = st.numVars ∧
      (assignInternalC st l 0 none).clauses = st.clauses ∧
      (assignInternalC st l 0 none).watches = st.watches ∧
      (assignInternalC st l 0 none).unitQueue = st.unitQueue ∧
      (assignInternalC st l 0 none).decisions = st.decisions ∧
      (assignInternalC st l 0 none).levelStart = st.levelStart ∧
      (assignInternalC st l 0 none).propIndex = st.propIndex :=
    fun st l => ⟨rfl, rfl, rfl, rfl, rfl, rfl, rfl, rfl, rfl⟩
  have hai2 : ∀ (st : Solver) (l : Int) (cj : Nat),
      (assignInternalC st l (Int.ofNat s.decisions.length) (some cj)).assignment =
        updFn st.assignment (iabs l) (signVal l) ∧
      (assignInternalC st l (Int.ofNat s.decisions.length) (some cj)).trail =
        st.trail ++ [l] ∧
      (assignInternalC st l (Int.ofNat s.decisions.length) (some cj)).numVars =
        st.numVars ∧
      (assignInternalC st l (Int.ofNat s.decisions.length) (some cj)).clauses =
        st.clauses ∧
      (assignInternalC st l (Int.ofNat s.decisions.length) (some cj)).watches =
        st.watches ∧
      (assignInternalC st l (Int.ofNat s.decisions.length) (some cj)).unitQueue =
        st.unitQueue ∧
      (assignInternalC st l (Int.ofNat s.decisions.length) (some cj)).decisions =
        st.decisions ∧
      (assignInternalC st l (Int.ofNat s.decisions.length) (some cj)).levelStart =
        st.levelStart ∧
      (assignInternalC st l (Int.ofNat s.decisions.length) (some cj)).propIndex =
        st.propIndex ∧
      (assignInternalC st l (Int.ofNat s.decisions.length) (some cj)).levelOf =
        updFn st.levelOf (iabs l) (Int.ofNat s.decisions.length) ∧
      (assignInternalC st l (Int.ofNat s.decisions.length) (some cj)).reasonOf =
        updFn st.reasonOf (iabs l) (some cj) :=
    fun st l cj => ⟨rfl, rfl, rfl, rfl, rfl, rfl, rfl, rfl, rfl, rfl, rfl⟩
  replace h : (match drainQueue (fun st l => assignInternalC st l 0 none)
      s.unitQueue s with
    | (false, s1) => some ((some (-1) : Option Int), s1)
    | (true, s1) =>
      match propTrailLoop
          (fun st l ci => assignInternalC st l (Int.ofNat s.decisions.length) (some ci))
          fuel s1 with
      | none => none
      | some (some ci, s3) => some (some (Int.ofNat ci), s3)
      | some (none, s3) => some (none, s3)) = some (r, s2) := h
  have hdp := drainQueue_preserves (fun st l => assignInternalC st l 0 none)
    (fun st l => ⟨rfl, rfl, rfl, rfl, rfl⟩) s.unitQueue s (fun l hl => hqr l hl) hInv
  have hds := drainQueue_sem cnf (fun st l => assignInternalC st l 0 none)
    haiD s.unitQueue s (fun l hl => hqimp l hl) (fun l hl => hqr l hl) hInv
  have hdd := drainQueue_drained (fun st l => assignInternalC st l 0 none)
    (fun st l => rfl) s.unitQueue s rfl
  have hdB := fun (hls0 : s.levelStart = []) =>
    drainQueue_b (fun st l => assignInternalC st l 0 none)
      (fun st l => ⟨rfl, rfl, rfl, rfl, rfl, rfl, rfl, rfl, rfl⟩) s.unitQueue s
      (fun l hl => hqr l hl) hInv hls0 hlc hri
  rcases hd : drainQueue (fun st l => assignInternalC st l 0 none) s.unitQueue s
    with ⟨ok, s1⟩
  rw [hd] at h hdp hds hdd hdB
  obtain ⟨hInv1, hcl1, hwt1, hn1⟩ := hdp
  obtain ⟨hmono1, ⟨tl1, htl1⟩, ⟨hdec1, hls1, hpx1⟩, hag1, hconf1⟩ := hds
  replace hInv1 : PropInv s1 := hInv1
  replace hcl1 : s1.clauses = s.clauses := hcl1
  replace hwt1 : s1.watches = s.watches := hwt1
  replace hn1 : s1.numVars = s.numVars := hn1
  replace hmono1 : ∀ v, s.assignment v ≠ 0 → s1.assignment v = s.assignment v := hmono1
  replace htl1 : s1.trail = s.trail ++ tl1 := htl1
  replace hdec1 : s1.decisions = s.decisions := hdec1
  replace hls1 : s1.levelStart = s.levelStart := hls1
  replace hag1 : ∀ mdl, satCnf mdl cnf = true → AgreeTrail mdl s →
    AgreeTrail mdl s1 := hag1
  replace hconf1 : ok = false → ∃ l, Implied cnf l ∧ litIsFalse s1 l = true ∧
    l ≠ 0 ∧ iabs l ≤ Int.ofNat s1.numVars := hconf1
  replace hdd : ok = true → s1.unitQueue = [] := hdd
  have hwp1 : WatchPos s1 := watchPos_transport s s1 hcl1 hwt1 hwp
  have hwd1 : WatchDup s1 := watchDup_transport s s1 hcl1 hwt1 hwd
  have hdbI1 : DbImplied cnf s1 := dbImplied_transport cnf s s1 hcl1 hdb
  have hB1 : LevelChar s1 ∧ RInv s1 ∧ RPres s1 ∧
      (∀ v, s.assignment v ≠ 0 →
        s1.levelOf v = s.levelOf v ∧ s1.reasonOf v = s.reasonOf v) := by
    by_cases hqe : s.unitQueue = []
    · have hdeq : ((true, s) : Bool × Solver) = (ok, s1) := by
        rw [← hd, hqe]
        rfl
      have hseq : s = s1 := congrArg Prod.snd hdeq
      rw [← hseq]
      exact ⟨hlc, hri, hrp, fun v _ => ⟨rfl, rfl⟩⟩
    · obtain ⟨hdec0, hls0⟩ := hqd hqe
      obtain ⟨hlcd, hrid, hlsd, _, _, hbkd⟩ := hdB hls0
      replace hlcd : LevelChar s1 := hlcd
      replace hrid : RInv s1 := hrid
      replace hlsd : s1.levelStart = [] := hlsd
      replace hbkd : ∀ v, s.assignment v ≠ 0 →
        s1.levelOf v = s.levelOf v ∧ s1.reasonOf v = s.reasonOf v := hbkd
      refine ⟨hlcd, hrid, ?_, hbkd⟩
      intro p hp hg hnls
      exfalso
      have hlev := hlcd p hp
      rw [hlsd] at hlev
      rw [hlev] at hg
      have hc0 : countLE ([] : List Nat) p = 0 := rfl
      rw [hc0] at hg
      simp only [Int.ofNat_eq_coe] at hg
      omega
  obtain ⟨hlc1, hri1, hrp1, hbk1⟩ := hB1
  have hpre : s.decisions = [] → ∀ m ∈ s.trail, Implied cnf m :=
    fun hdec0 => root_trail_implied cnf s hso hlc hzl hdec0
  have hstrong1 : s.decisions = [] → ∀ l ∈ s1.trail, Implied cnf l := by
    intro hdec0 l hl mdl hsat
    exact hag1 mdl hsat (fun m hm => hpre hdec0 m hm mdl hsat) l hl
  cases ok with
  | false =>
    have hout : r = some (-1) ∧ s2 = s1 := by simpa using h.symm
    obtain ⟨hre, hse⟩ := hout
    have hqne : s.unitQueue ≠ [] := by
      intro hqe
      have hdeq : ((true, s) : Bool × Solver) = (false, s1) := by
        rw [← hd, hqe]
        rfl
      exact Bool.noConfusion (congrArg Prod.fst hdeq)
    obtain ⟨hdec0, hls0⟩ := hqd hqne
    rw [hre, hse]
    refine ⟨hInv1, hwp1, hwd1, hdbI1, hmono1, ⟨tl1, htl1⟩, ⟨hdec1, hls1, hn1⟩,
      ⟨fun hcc => Option.noConfusion hcc, ?_⟩, hag1, ?_, ⟨hlc1, hri1, hrp1⟩, ?_, hbk1,
      hstrong1⟩
    · intro ci0 hci0 hge
      have : ci0 = -1 := by
        have := Option.some.inj hci0
        omega
      omega
    · intro ci0 hci0
      right
      have hcie : ci0 = -1 := (Option.some.inj hci0).symm
      exact ⟨hcie, hdec0, hconf1 rfl⟩
    · intro l hl _
      exact hstrong1 hdec0 l hl
  | true =>
    replace h : (match propTrailLoop
        (fun st l ci => assignInternalC st l (Int.ofNat s.decisions.length) (some ci))
        fuel s1 with
      | none => none
      | some (some ci, s3) => some (some (Int.ofNat ci), s3)
      | some (none, s3) => some (none, s3)) = some (r, s2) := h
    have hq1e : s1.unitQueue = [] := hdd rfl
    have hcur1 : Int.ofNat s.decisions.length = Int.ofNat s1.levelStart.length := by
      rw [hls1, ← hso.1]
    have hall1 : ∀ e ∈ s1.levelStart, e < s1.trail.length := by
      intro e he
      rw [hls1] at he
      obtain ⟨j, hj, hjg⟩ := mem_levelStart_pos s.levelStart e he
      have h2 := hso.2.1 j hj
      rw [hjg] at h2
      rw [htl1, List.length_append]
      have h3 : (Option.getD (some e) 0) = e := rfl
      rw [h3] at h2
      omega
    have hai2A : ∀ (st : Solver) (l : Int) (cj : Nat),
        (assignInternalC st l (Int.ofNat s.decisions.length) (some cj)).assignment =
          updFn st.assignment (iabs l) (signVal l) ∧
        (assignInternalC st l (Int.ofNat s.decisions.length) (some cj)).trail =
          st.trail ++ [l] ∧
        (assignInternalC st l (Int.ofNat s.decisions.length) (some cj)).numVars =
          st.numVars ∧
        (assignInternalC st l (Int.ofNat s.decisions.length) (some cj)).clauses =
          st.clauses ∧
        (assignInternalC st l (Int.ofNat s.decisions.length) (some cj)).watches =
          st.watches ∧
        (assignInternalC st l (Int.ofNat s.decisions.length) (some cj)).unitQueue =
          st.unitQueue ∧
        (assignInternalC st l (Int.ofNat s.decisions.length) (some cj)).decisions =
          st.decisions ∧
        (assignInternalC st l (Int.ofNat s.decisions.length) (some cj)).levelStart =
          st.levelStart ∧
        (assignInternalC st l (Int.ofNat s.decisions.length) (some cj)).propIndex =
          st.propIndex :=
      fun st l cj => ⟨rfl, rfl, rfl, rfl, rfl, rfl, rfl, rfl, rfl⟩
    rcases hp : propTrailLoop
        (fun st l ci => assignInternalC st l (Int.ofNat s.decisions.length) (some ci))
        fuel s1 with _ | ⟨r0, s3⟩
    · rw [hp] at h
      exact Option.noConfusion h
    · rw [hp] at h
      obtain ⟨hwp3, hwd3, hdb3, hmono3, ⟨tl3, htl3⟩, ⟨hq3, hdec3, hls3, hnum3⟩,
        hconf3, hag3⟩ := propTrailLoop_sem cnf _ hai2A fuel s1 r0 s3 hp
        hInv1 hwp1 hwd1 hdbI1
      have hInv3 : PropInv s3 := propTrailLoop_preserves
        (fun st l ci => assignInternalC st l (Int.ofNat s.decisions.length) (some ci))
        (fun st l cj => ⟨rfl, rfl, rfl, rfl, rfl⟩) fuel s1 (r0, s3) hp hInv1
      obtain ⟨hlc3, hri3, hrp3, hbk3⟩ := propTrailLoop_b cnf _
        (Int.ofNat s.decisions.length) hai2 fuel s1 r0 s3 hp hInv1 hwp1 hwd1 hdbI1
        (by rw [hcur1]) hall1 hlc1 hri1 hrp1
      have hmonoC : ∀ v, s.assignment v ≠ 0 → s3.assignment v = s.assignment v := by
        intro v hv
        rw [hmono3 v (by rw [hmono1 v hv]; exact hv), hmono1 v hv]
      have hbkC : ∀ v, s.assignment v ≠ 0 →
          s3.levelOf v = s.levelOf v ∧ s3.reasonOf v = s.reasonOf v := by
        intro v hv
        obtain ⟨hb1, hb2⟩ := hbk3 v (by rw [hmono1 v hv]; exact hv)
        obtain ⟨hb3, hb4⟩ := hbk1 v hv
        exact ⟨hb1.trans hb3, hb2.trans hb4⟩
      have htlC : ∃ tl, s3.trail = s.trail ++ tl :=
        ⟨tl1 ++ tl3, by rw [htl3, htl1, List.append_assoc]⟩
      have hagC : ∀ mdl, satCnf mdl cnf = true → AgreeTrail mdl s →
          AgreeTrail mdl s3 :=
        fun mdl hsat hag => hag3 mdl hsat (hag1 mdl hsat hag)
      have hstrong3 : s.decisions = [] → ∀ l ∈ s3.trail, Implied cnf l := by
        intro hdec0 l hl mdl hsat
        exact hag3 mdl hsat (fun m hm => hstrong1 hdec0 m hm mdl hsat) l hl
      have hzl3 : ZL cnf s3 := by
        by_cases hdec0e : s.decisions = []
        · intro l hl _
          exact hstrong3 hdec0e l hl
        · intro l hl hlev0
          rw [List.mem_iff_get?] at hl
          obtain ⟨p, hpg⟩ := hl
          have hplt : p < s3.trail.length := get?_lt_length _ _ _ hpg
          have htap : trailAt s3 p = l := by
            unfold trailAt
            rw [hpg]
            rfl
          by_cases hpo : p < s.trail.length
          · have hqe : s.unitQueue = [] := by
              by_contra hqne
              exact hdec0e (hqd hqne).1
            have hdeq : ((true, s) : Bool × Solver) = (true, s1) := by
              rw [← hd, hqe]
              rfl
            have hseq : s = s1 := congrArg Prod.snd hdeq
            have hlold : l ∈ s.trail := by
              have hg3 : (s1.trail ++ tl3).get? p = s1.trail.get? p :=
                get?_append_lt (by rw [← hseq]; exact hpo)
              have hg2 : s.trail.get? p = some l := by
                rw [hseq, ← hg3, ← htl3]
                exact hpg
              exact List.get?_mem hg2
            have hva : s.assignment (iabs l) ≠ 0 := by
              have := hInv.1.2 l hlold
              rw [this]
              exact signVal_ne_zero l
            have hlev0b : s.levelOf (iabs l) = 0 := by
              rw [← (hbkC (iabs l) hva).1]
              exact hlev0
            exact hzl l hlold hlev0b
          · exfalso
            have hlcp := hlc3 p hplt
            rw [htap] at hlcp
            rw [hlev0] at hlcp
            have hcnt : countLE s3.levelStart p = s3.levelStart.length := by
              apply countLE_all
              intro e he
              rw [hls3, hls1] at he
              obtain ⟨j, hj, hjg⟩ := mem_levelStart_pos s.levelStart e he
              have h2 := hso.2.1 j hj
              rw [hjg] at h2
              have h3 : (Option.getD (some e) 0) = e := rfl
              rw [h3] at h2
              omega
            rw [hcnt, hls3, hls1] at hlcp
            have hdl : s.decisions.length = 0 := by
              have h4 := hso.1
              simp only [Int.ofNat_eq_coe] at hlcp
              omega
            exact hdec0e (List.length_eq_zero.mp hdl)
      cases r0 with
      | some cfl =>
        have hout : r = some (Int.ofNat cfl) ∧ s2 = s3 := by simpa using h.symm
        obtain ⟨hre, hse⟩ := hout
        rw [hre, hse]
        refine ⟨hInv3, hwp3, hwd3, hdb3, hmonoC, htlC,
          ⟨hdec3.trans hdec1, hls3.trans hls1, hnum3.trans hn1⟩,
          ⟨fun hcc => Option.noConfusion hcc, fun _ _ _ => hq3.trans hq1e⟩,
          hagC, ?_, ⟨hlc3, hri3, hrp3⟩, hzl3, hbkC, hstrong3⟩
        intro ci0 hci0
        left
        refine ⟨cfl, (Option.some.inj hci0).symm, ?_⟩
        exact hconf3 cfl rfl
      | none =>
        have hout : r = none ∧ s2 = s3 := by simpa using h.symm
        obtain ⟨hre, hse⟩ := hout
        rw [hre, hse]
        refine ⟨hInv3, hwp3, hwd3, hdb3, hmonoC, htlC,
          ⟨hdec3.trans hdec1, hls3.trans hls1, hnum3.trans hn1⟩,
          ⟨fun _ => hq3.trans hq1e, fun _ hcc => Option.noConfusion hcc⟩,
          hagC, ?_, ⟨hlc3, hri3, hrp3⟩, hzl3, hbkC, hstrong3⟩
        intro ci0 hci0
        exact Option.noConfusion hci0

/-- Two literals false under the same assignment and sharing a variable are
equal. -/
theorem false_lits_same_var_eq (s : Solver) (l1 l2 : Int)
    (h1 : litIsFalse s l1 = true) (h2 : litIsFalse s l2 = true)
    (hv : iabs l1 = iabs l2) : l1 = l2 := by
  unfold litIsFalse at h1 h2
  have hv1 := eq_of_beq h1
  have hv2 := eq_of_beq h2
  rw [hv] at hv1
  rw [hv1] at hv2
  unfold iabs at hv
  split_ifs at hv2 hv <;> omega

/-- The initialization loop of `analyze_conflict` only grows the seen,
inflight and learnt sets. -/
theorem analyzeInit_mono (s : Solver) (cur : Int) :
    ∀ (ls : List Int) (acc : AnalyzeAcc),
    (∀ w ∈ acc.seen, w ∈ (analyzeInit s cur ls acc).seen) ∧
    (∀ v ∈ acc.inflight, v ∈ (analyzeInit s cur ls acc).inflight) ∧
    (∀ l ∈ acc.learnt, l ∈ (analyzeInit s cur ls acc).learnt) := by
  intro ls
  induction ls with
  | nil =>
    intro acc
    rw [analyzeInit]
    exact ⟨fun w hw => hw, fun v hv => hv, fun l hl => hl⟩
  | cons a rest ih =>
    intro acc
    by_cases hlev : s.levelOf (iabs a) = cur
    · have hbeq : (s.levelOf (iabs a) == cur) = true := by simpa using hlev
      simp only [analyzeInit, hbeq, if_true]
      obtain ⟨m1, m2, m3⟩ := ih
        { acc with seen := setAdd acc.seen (iabs a), inflight := setAdd acc.inflight (iabs a) }
      exact ⟨fun w hw => m1 w (mem_setAdd.mpr (Or.inl hw)),
        fun v hv => m2 v (mem_setAdd.mpr (Or.inl hv)), m3⟩
    · have hbeq : (s.levelOf (iabs a) == cur) = false := by simpa using hlev
      simp only [analyzeInit, hbeq, if_false, Bool.false_eq_true]
      obtain ⟨m1, m2, m3⟩ := ih
        { acc with seen := setAdd acc.seen (iabs a), learnt := setAdd acc.learnt a
                   bj := max acc.bj (s.levelOf (iabs a)) }
      exact ⟨fun w hw => m1 w (mem_setAdd.mpr (Or.inl hw)), m2,
        fun l hl => m3 l (mem_setAdd.mpr (Or.inl hl))⟩

/-- The resolution loop of `analyze_conflict` only grows the seen, inflight
and learnt sets. -/
theorem analyzeReason_mono (s : Solver) (cur : Int) (pivotVar : Int) :
    ∀ (rl : List Int) (acc : AnalyzeAcc),
    (∀ w ∈ acc.seen, w ∈ (analyzeReason s cur pivotVar rl acc).seen) ∧
    (∀ v ∈ acc.inflight, v ∈ (analyzeReason s cur pivotVar rl acc).inflight) ∧
    (∀ l ∈ acc.learnt, l ∈ (analyzeReason s cur pivotVar rl acc).learnt) := by
  intro rl
  induction rl with
  | nil =>
    intro acc
    rw [analyzeReason]
    exact ⟨fun w hw => hw, fun v hv => hv, fun l hl => hl⟩
  | cons a rest ih =>
    intro acc
    by_cases hpv : iabs a = pivotVar
    · have hbeq : (iabs a == pivotVar) = true := by simpa using hpv
      simp only [analyzeReason, hbeq, if_true]
      exact ih acc
    · have hbeq : (iabs a == pivotVar) = false := by simpa using hpv
      by_cases hseen : acc.seen.contains (iabs a)
      · simp only [analyzeReason, hbeq, if_false, Bool.false_eq_true, hseen, if_true]
        exact ih acc
      · have hseenf : acc.seen.contains (iabs a) = false := by simpa using hseen
        by_cases hlev : s.levelOf (iabs a) = cur
        · have hbeq2 : (s.levelOf (iabs a) == cur) = true := by simpa using hlev
          simp only [analyzeReason, hbeq, if_false, Bool.false_eq_true, hseenf,
            hbeq2, if_true]
          obtain ⟨m1, m2, m3⟩ := ih
            { acc with seen := acc.seen ++ [iabs a],
                       inflight := setAdd acc.inflight (iabs a) }
          exact ⟨fun w hw => m1 w (List.mem_append.mpr (Or.inl hw)),
            fun v hv => m2 v (mem_setAdd.mpr (Or.inl hv)), m3⟩
        · have hbeq2 : (s.levelOf (iabs a) == cur) = false := by simpa using hlev
          simp only [analyzeReason, hbeq, if_false, Bool.false_eq_true, hseenf, hbeq2]
          obtain ⟨m1, m2, m3⟩ := ih
            { acc with seen := acc.seen ++ [iabs a], learnt := setAdd acc.learnt a
                       bj := max acc.bj (s.levelOf (iabs a)) }
          exact ⟨fun w hw => m1 w (List.mem_append.mpr (Or.inl hw)), m2,
            fun l hl => m3 l (mem_setAdd.mpr (Or.inl hl))⟩

/-- Every non-pivot literal of the processed reason clause ends with its
variable seen. -/
theorem analyzeReason_seen_complete (s : Solver) (cur : Int) (pivotVar : Int) :
    ∀ (rl : List Int) (acc : AnalyzeAcc), ∀ m ∈ rl, iabs m ≠ pivotVar →
      iabs m ∈ (analyzeReason s cur pivotVar rl acc).seen := by
  intro rl
  induction rl with
  | nil =>
    intro acc m hm
    exact absurd hm (List.not_mem_nil m)
  | cons a rest ih =>
    intro acc m hm hmp
    rcases List.mem_cons.mp hm with rfl | hm2
    · by_cases hpv : iabs m = pivotVar
      · exact absurd hpv hmp
      · have hbeq : (iabs m == pivotVar) = false := by simpa using hpv
        by_cases hseen : acc.seen.contains (iabs m)
        · simp only [analyzeReason, hbeq, if_false, Bool.false_eq_true, hseen, if_true]
          exact (analyzeReason_mono s cur pivotVar rest acc).1 (iabs m)
            (by simpa using hseen)
        · have hseenf : acc.seen.contains (iabs m) = false := by simpa using hseen
          by_cases hlev : s.levelOf (iabs m) = cur
          · have hbeq2 : (s.levelOf (iabs m) == cur) = true := by simpa using hlev
            simp only [analyzeReason, hbeq, if_false, Bool.false_eq_true, hseenf,
              hbeq2, if_true]
            exact (analyzeReason_mono s cur pivotVar rest _).1 (iabs m)
              (List.mem_append.mpr (Or.inr (List.mem_singleton.mpr rfl)))
          · have hbeq2 : (s.levelOf (iabs m) == cur) = false := by simpa using hlev
            simp only [analyzeReason, hbeq, if_false, Bool.false_eq_true, hseenf, hbeq2]
            exact (analyzeReason_mono s cur pivotVar rest _).1 (iabs m)
              (List.mem_append.mpr (Or.inr (List.mem_singleton.mpr rfl)))
    · by_cases hpv : iabs a = pivotVar
      · have hbeq : (iabs a == pivotVar) = true := by simpa using hpv
        simp only [analyzeReason, hbeq, if_true]
        exact ih acc m hm2 hmp
      · have hbeq : (iabs a == pivotVar) = false := by simpa using hpv
        by_cases hseen : acc.seen.contains (iabs a)
        · simp only [analyzeReason, hbeq, if_false, Bool.false_eq_true, hseen, if_true]
          exact ih acc m hm2 hmp
        · have hseenf : acc.seen.contains (iabs a) = false := by simpa using hseen
          by_cases hlev : s.levelOf (iabs a) = cur
          · have hbeq2 : (s.levelOf (iabs a) == cur) = true := by simpa using hlev
            simp only [analyzeReason, hbeq, if_false, Bool.false_eq_true, hseenf,
              hbeq2, if_true]
            exact ih _ m hm2 hmp
          · have hbeq2 : (s.levelOf (iabs a) == cur) = false := by simpa using hlev
            simp only [analyzeReason, hbeq, if_false, Bool.false_eq_true, hseenf, hbeq2]
            exact ih _ m hm2 hmp

/-- Semantic bookkeeping of the initialization loop: learnt literals stay
false, every seen variable is accounted for by the learnt or inflight sets
(or a previously processed trail position), and every lower-level literal of
the conflict clause reaches the learnt set. -/
theorem analyzeInit_sem (s : Solver) (cur : Int) (t : Nat) :
    ∀ (ls : List Int) (acc : AnalyzeAcc),
    (∀ m ∈ ls, litIsFalse s m = true) →
    (∀ l ∈ acc.learnt, litIsFalse s l = true) →
    (∀ w ∈ acc.seen,
      (∃ l ∈ acc.learnt, iabs l = w) ∨ w ∈ acc.inflight ∨
      (∃ q, q < s.trail.length ∧ t < q ∧ iabs (trailAt s q) = w)) →
    (∀ l ∈ (analyzeInit s cur ls acc).learnt, litIsFalse s l = true) ∧
    (∀ w ∈ (analyzeInit s cur ls acc).seen,
      (∃ l ∈ (analyzeInit s cur ls acc).learnt, iabs l = w) ∨
      w ∈ (analyzeInit s cur ls acc).inflight ∨
      (∃ q, q < s.trail.length ∧ t < q ∧ iabs (trailAt s q) = w)) ∧
    (∀ m ∈ ls, s.levelOf (iabs m) ≠ cur → m ∈ (analyzeInit s cur ls acc).learnt) := by
  intro ls
  induction ls with
  | nil =>
    intro acc _ hLf hSeen
    rw [analyzeInit]
    exact ⟨hLf, hSeen, fun m hm => absurd hm (List.not_mem_nil m)⟩
  | cons a rest ih =>
    intro acc hlsF hLf hSeen
    have hrestF : ∀ m ∈ rest, litIsFalse s m = true :=
      fun m hm => hlsF m (List.mem_cons_of_mem a hm)
    by_cases hlev : s.levelOf (iabs a) = cur
    · have hbeq : (s.levelOf (iabs a) == cur) = true := by simpa using hlev
      simp only [analyzeInit, hbeq, if_true]
      obtain ⟨h1, h2, h3⟩ := ih
        { acc with seen := setAdd acc.seen (iabs a), inflight := setAdd acc.inflight (iabs a) }
        hrestF hLf
        (by
          intro w hw
          rcases mem_setAdd.mp hw with hw | rfl
          · rcases hSeen w hw with hd | hd | hd
            · exact Or.inl hd
            · exact Or.inr (Or.inl (mem_setAdd.mpr (Or.inl hd)))
            · exact Or.inr (Or.inr hd)
          · exact Or.inr (Or.inl (mem_setAdd.mpr (Or.inr rfl))))
      refine ⟨h1, h2, ?_⟩
      intro m hm hmc
      rcases List.mem_cons.mp hm with rfl | hm2
      · exact absurd hlev hmc
      · exact h3 m hm2 hmc
    · have hbeq : (s.levelOf (iabs a) == cur) = false := by simpa using hlev
      simp only [analyzeInit, hbeq, if_false, Bool.false_eq_true]
      obtain ⟨h1, h2, h3⟩ := ih
        { acc with seen := setAdd acc.seen (iabs a), learnt := setAdd acc.learnt a
                   bj := max acc.bj (s.levelOf (iabs a)) }
        hrestF
        (by
          intro l hl
          rcases mem_setAdd.mp hl with hl | hle
          · exact hLf l hl
          · rw [hle]
            exact hlsF a (List.mem_cons_self a rest))
        (by
          intro w hw
          rcases mem_setAdd.mp hw with hw | rfl
          · rcases hSeen w hw with ⟨l, hl, hle⟩ | hd | hd
            · exact Or.inl ⟨l, mem_setAdd.mpr (Or.inl hl), hle⟩
            · exact Or.inr (Or.inl hd)
            · exact Or.inr (Or.inr hd)
          · exact Or.inl ⟨a, mem_setAdd.mpr (Or.inr rfl), rfl⟩)
      refine ⟨h1, h2, ?_⟩
      intro m hm hmc
      rcases List.mem_cons.mp hm with rfl | hm2
      · exact (analyzeInit_mono s cur rest _).2.2 m (mem_setAdd.mpr (Or.inr rfl))
      · exact h3 m hm2 hmc

/-- Semantic bookkeeping of the resolution loop at pivot position `t`:
learnt literals stay false, inflight variables keep positions strictly
before the pivot, and every seen variable is accounted for. -/
theorem analyzeReason_sem (s : Solver) (cur : Int) (pivotVar : Int) (t : Nat) :
    ∀ (rl : List Int) (acc : AnalyzeAcc),
    (∀ m ∈ rl, iabs m ≠ pivotVar → litIsFalse s m = true) →
    (∀ m ∈ rl, iabs m ≠ pivotVar → ∃ q, q < t ∧ iabs (trailAt s q) = iabs m) →
    (∀ l ∈ acc.learnt, litIsFalse s l = true) →
    (∀ v ∈ acc.inflight, s.levelOf v = cur ∧ ∃ q, q < t ∧ iabs (trailAt s q) = v) →
    (∀ w ∈ acc.seen,
      (∃ l ∈ acc.learnt, iabs l = w) ∨ w ∈ acc.inflight ∨
      (∃ q, q < s.trail.length ∧ t ≤ q ∧ iabs (trailAt s q) = w)) →
    (∀ l ∈ (analyzeReason s cur pivotVar rl acc).learnt, litIsFalse s l = true) ∧
    (∀ v ∈ (analyzeReason s cur pivotVar rl acc).inflight,
      s.levelOf v = cur ∧ ∃ q, q < t ∧ iabs (trailAt s q) = v) ∧
    (∀ w ∈ (analyzeReason s cur pivotVar rl acc).seen,
      (∃ l ∈ (analyzeReason s cur pivotVar rl acc).learnt, iabs l = w) ∨
      w ∈ (analyzeReason s cur pivotVar rl acc).inflight ∨
      (∃ q, q < s.trail.length ∧ t ≤ q ∧ iabs (trailAt s q) = w)) := by
  intro rl
  induction rl with
  | nil =>
    intro acc _ _ hLf hInfP hSeen
    rw [analyzeReason]
    exact ⟨hLf, hInfP, hSeen⟩
  | cons a rest ih =>
    intro acc hrlF hrlP hLf hInfP hSeen
    have hrestF : ∀ m ∈ rest, iabs m ≠ pivotVar → litIsFalse s m = true :=
      fun m hm => hrlF m (List.mem_cons_of_mem a hm)
    have hrestP : ∀ m ∈ rest, iabs m ≠ pivotVar →
        ∃ q, q < t ∧ iabs (trailAt s q) = iabs m :=
      fun m hm => hrlP m (List.mem_cons_of_mem a hm)
    by_cases hpv : iabs a = pivotVar
    · have hbeq : (iabs a == pivotVar) = true := by simpa using hpv
      simp only [analyzeReason, hbeq, if_true]
      exact ih acc hrestF hrestP hLf hInfP hSeen
    · have hbeq : (iabs a == pivotVar) = false := by simpa using hpv
      by_cases hseen : acc.seen.contains (iabs a)
      · simp only [analyzeReason, hbeq, if_false, Bool.false_eq_true, hseen, if_true]
        exact ih acc hrestF hrestP hLf hInfP hSeen
      · have hseenf : acc.seen.contains (iabs a) = false := by simpa using hseen
        by_cases hlev : s.levelOf (iabs a) = cur
        · have hbeq2 : (s.levelOf (iabs a) == cur) = true := by simpa using hlev
          simp only [analyzeReason, hbeq, if_false, Bool.false_eq_true, hseenf,
            hbeq2, if_true]
          refine ih _ hrestF hrestP hLf ?_ ?_
          · intro v hv
            rcases mem_setAdd.mp hv with hv | hve
            · exact hInfP v hv
            · rw [hve]
              exact ⟨hlev, hrlP a (List.mem_cons_self a rest) hpv⟩
          · intro w hw
            rcases List.mem_append.mp hw with hw | hw
            · rcases hSeen w hw with hd | hd | hd
              · exact Or.inl hd
              · exact Or.inr (Or.inl (mem_setAdd.mpr (Or.inl hd)))
              · exact Or.inr (Or.inr hd)
            · rw [List.mem_singleton] at hw
              rw [hw]
              exact Or.inr (Or.inl (mem_setAdd.mpr (Or.inr rfl)))
        · have hbeq2 : (s.levelOf (iabs a) == cur) = false := by simpa using hlev
          simp only [analyzeReason, hbeq, if_false, Bool.false_eq_true, hseenf, hbeq2]
          refine ih _ hrestF hrestP ?_ hInfP ?_
          · intro l hl
            rcases mem_setAdd.mp hl with hl | hle
            · exact hLf l hl
            · rw [hle]
              exact hrlF a (List.mem_cons_self a rest) hpv
          · intro w hw
            rcases List.mem_append.mp hw with hw | hw
            · rcases hSeen w hw with ⟨l, hl, hle⟩ | hd | hd
              · exact Or.inl ⟨l, mem_setAdd.mpr (Or.inl hl), hle⟩
              · exact Or.inr (Or.inl hd)
              · exact Or.inr (Or.inr hd)
            · rw [List.mem_singleton] at hw
              rw [hw]
              exact Or.inl ⟨a, mem_setAdd.mpr (Or.inr rfl), rfl⟩

/-- The walk fails on a negative trail index. -/
theorem analyzeWalk_neg (s : Solver) (cur : Int) (fuel : Nat) (tidx : Int)
    (acc : AnalyzeAcc) (h : tidx < 0) : analyzeWalk s cur fuel tidx acc = none := by
  cases fuel with
  | zero => rw [analyzeWalk]
  | succ f =>
    rw [analyzeWalk]
    rw [if_pos h]

/-- Semantic soundness of the backward walk: the learnt literals are all
false at the conflict state, and any model of the clause database satisfies
the asserting literal or one of the learnt literals — provided it already
satisfied some learnt literal or falsified some inflight variable's trail
literal. -/
theorem analyzeWalk_sem (s : Solver) (cur : Int) (lsIdx : Nat) (mdl : List Int)
    (htc : TrailConsistent s) (hclr : ClauseLitsInRange s)
    (halign : ∀ p, p < s.trail.length →
      (s.levelOf (iabs (trailAt s p)) = cur ↔ lsIdx ≤ p))
    (hreason : ∀ p, p < s.trail.length → lsIdx < p →
      ∃ rci, rci < s.clauses.length ∧
        s.reasonOf (iabs (trailAt s p)) = some rci ∧
        trailAt s p ∈ (s.clauses.get? rci).getD [] ∧
        (∀ m ∈ (s.clauses.get? rci).getD [], iabs m ≠ iabs (trailAt s p) →
          litIsFalse s m = true ∧ ∃ q, q < p ∧ iabs (trailAt s q) = iabs m) ∧
        (∀ m ∈ (s.clauses.get? rci).getD [], iabs m = iabs (trailAt s p) →
          m = trailAt s p))
    (hdbm : ∀ c ∈ s.clauses, modelSatClause mdl c = true) :
    ∀ (fuel t : Nat) (acc : AnalyzeAcc) (uip : Int) (learnt2 : List Int) (bj : Int),
    analyzeWalk s cur fuel (Int.ofNat t) acc = some (uip, learnt2, bj) →
    t < s.trail.length →
    acc.inflight ≠ [] →
    (∀ v ∈ acc.inflight, s.levelOf v = cur ∧ ∃ q, q ≤ t ∧ iabs (trailAt s q) = v) →
    (∀ l ∈ acc.learnt, litIsFalse s l = true) →
    (∀ w ∈ acc.seen,
      (∃ l ∈ acc.learnt, iabs l = w) ∨ w ∈ acc.inflight ∨
      (∃ q, q < s.trail.length ∧ t < q ∧ iabs (trailAt s q) = w)) →
    ((∃ l ∈ acc.learnt, modelSatLit mdl l = true) ∨
      (∃ v ∈ acc.inflight, modelSatLit mdl (trailLitOf s v) = false)) →
    (∀ l ∈ learnt2, litIsFalse s l = true) ∧
    (modelSatLit mdl uip = true ∨ ∃ l ∈ learnt2, modelSatLit mdl l = true) := by
  intro fuel
  induction fuel with
  | zero =>
    intro t acc uip learnt2 bj hw
    rw [analyzeWalk] at hw
    exact absurd hw (by simp)
  | succ f ih =>
    intro t acc uip learnt2 bj hw ht hne hW3 hW4 hW5 hSemJ
    have h0 : ¬(Int.ofNat t < 0) := by
      simp only [Int.ofNat_eq_coe]
      omega
    have htn : (Int.ofNat t).toNat = t := rfl
    obtain ⟨lit, hlit⟩ : ∃ lit, s.trail.get? t = some lit := by
      rw [List.get?_eq_get ht]
      exact ⟨_, rfl⟩
    have htat : trailAt s t = lit := by
      unfold trailAt
      rw [hlit]
      rfl
    have hlitm : lit ∈ s.trail := List.get?_mem hlit
    have hlit0 : lit ≠ 0 := trail_lit_ne_zero s lit htc hlitm
    by_cases hin : iabs lit ∈ acc.inflight
    · have hinb : acc.inflight.contains (iabs lit) = true := by simpa using hin
      by_cases hemp : (setRemove acc.inflight (iabs lit)).isEmpty = true
      · -- the walk stops: the asserting literal is the negated pivot
        simp only [analyzeWalk, h0, if_false, htn, hlit, hinb, Bool.not_true,
          Bool.false_eq_true, hemp, if_true] at hw
        have huip : uip = -lit ∧ learnt2 = acc.learnt := by
          have h2 := Prod.mk.injEq _ _ _ _ ▸ (Option.some.inj hw)
          exact ⟨h2.1.symm, (congrArg Prod.fst h2.2).symm⟩
        obtain ⟨huipe, hl2e⟩ := huip
        rw [huipe, hl2e]
        refine ⟨hW4, ?_⟩
        rcases hSemJ with ⟨l, hl, hls⟩ | ⟨v0, hv0, hvs⟩
        · exact Or.inr ⟨l, hl, hls⟩
        · by_cases hv0p : v0 = iabs lit
          · left
            rw [hv0p] at hvs
            rw [trailLitOf_of_mem s lit htc hlitm hlit0] at hvs
            rw [modelSatLit_neg mdl lit hlit0, hvs]
            rfl
          · exfalso
            have := setRemove_isEmpty hemp v0 hv0
            exact hv0p this
      · -- resolve with the pivot's reason clause and recurse
        have hempf : (setRemove acc.inflight (iabs lit)).isEmpty = false := by
          simpa using hemp
        have hWpos : ∀ w ∈ acc.inflight, ∃ q, lsIdx ≤ q ∧ q ≤ t ∧
            iabs (trailAt s q) = w := by
          intro w hw2
          obtain ⟨hwl, q, hq, hqw⟩ := hW3 w hw2
          refine ⟨q, ?_, hq, hqw⟩
          exact (halign q (lt_of_le_of_lt hq ht)).mp (by rw [hqw]; exact hwl)
        have hlst : lsIdx < t := by
          by_contra hcon
          have hall2 : ∀ w ∈ acc.inflight, w = iabs lit := by
            intro w hw2
            obtain ⟨q, hq1, hq2, hq3⟩ := hWpos w hw2
            have hqt : q = t := by omega
            rw [hqt, htat] at hq3
            exact hq3.symm
          have hnil : setRemove acc.inflight (iabs lit) = [] := by
            apply List.filter_eq_nil.mpr
            intro y hy
            simp [hall2 y hy]
          rw [hnil] at hempf
          simp at hempf
        obtain ⟨rci, hrcim, hro, hpm, hothers, hpeq⟩ := hreason t ht hlst
        rw [htat] at hro hpm hothers hpeq
        obtain ⟨c, hc⟩ : ∃ c, s.clauses.get? rci = some c := by
          rw [List.get?_eq_get hrcim]
          exact ⟨_, rfl⟩
        simp only [hc, Option.getD_some] at hpm hothers hpeq
        have hcmem : c ∈ s.clauses := List.get?_mem hc
        have hrw : Int.ofNat t - 1 = Int.ofNat (t - 1) := by
          simp only [Int.ofNat_eq_coe]
          omega
        simp only [analyzeWalk, h0, if_false, htn, hlit, hinb, Bool.not_true,
          Bool.false_eq_true, hempf, if_false, hro, hc, hrw] at hw
        set acc1 : AnalyzeAcc :=
          { acc with inflight := setRemove acc.inflight (iabs lit) } with hacc1
        set acc2 := analyzeReason s cur (iabs lit) c acc1 with hacc2
        -- auxiliary facts about the reduced inflight set
        have hInf1 : ∀ v ∈ acc1.inflight,
            s.levelOf v = cur ∧ ∃ q, q < t ∧ iabs (trailAt s q) = v := by
          intro v hv
          obtain ⟨hv2, hvne⟩ := mem_setRemove.mp hv
          obtain ⟨hvl, q, hq, hqw⟩ := hW3 v hv2
          refine ⟨hvl, q, ?_, hqw⟩
          have : q ≠ t := by
            intro hqq
            rw [hqq, htat] at hqw
            exact hvne hqw.symm
          omega
        have hSeen1 : ∀ w ∈ acc1.seen,
            (∃ l ∈ acc1.learnt, iabs l = w) ∨ w ∈ acc1.inflight ∨
            (∃ q, q < s.trail.length ∧ t ≤ q ∧ iabs (trailAt s q) = w) := by
          intro w hw2
          rcases hW5 w hw2 with hd | hd | ⟨q, hq1, hq2, hq3⟩
          · exact Or.inl hd
          · by_cases hwp : w = iabs lit
            · refine Or.inr (Or.inr ⟨t, ht, le_refl t, ?_⟩)
              rw [htat, hwp]
            · exact Or.inr (Or.inl (mem_setRemove.mpr ⟨hd, hwp⟩))
          · exact Or.inr (Or.inr ⟨q, hq1, by omega, hq3⟩)
        have hrsem := analyzeReason_sem s cur (iabs lit) t c acc1
          (fun m hm hmp => (hothers m hm hmp).1)
          (fun m hm hmp => (hothers m hm hmp).2)
          hW4 hInf1 hSeen1
        obtain ⟨hLf2, hInf2, hSeen2⟩ := hrsem
        -- the next round's invariants at index t - 1
        have hW3n : ∀ v ∈ acc2.inflight, s.levelOf v = cur ∧
            ∃ q, q ≤ t - 1 ∧ iabs (trailAt s q) = v := by
          intro v hv
          obtain ⟨hvl, q, hq, hqw⟩ := hInf2 v hv
          exact ⟨hvl, q, by omega, hqw⟩
        have hW5n : ∀ w ∈ acc2.seen,
            (∃ l ∈ acc2.learnt, iabs l = w) ∨ w ∈ acc2.inflight ∨
            (∃ q, q < s.trail.length ∧ t - 1 < q ∧ iabs (trailAt s q) = w) := by
          intro w hw2
          rcases hSeen2 w hw2 with hd | hd | ⟨q, hq1, hq2, hq3⟩
          · exact Or.inl hd
          · exact Or.inr (Or.inl hd)
          · exact Or.inr (Or.inr ⟨q, hq1, by omega, hq3⟩)
        have hnen : acc2.inflight ≠ [] := by
          have hnem : ∃ v, v ∈ setRemove acc.inflight (iabs lit) := by
            rcases hsr : setRemove acc.inflight (iabs lit) with _ | ⟨v, rest⟩
            · rw [hsr] at hempf
              exact absurd hempf (by simp)
            · exact ⟨v, List.mem_cons_self v rest⟩
          obtain ⟨v, hv⟩ := hnem
          have hv1 : v ∈ acc1.inflight := hv
          have hv2 := (analyzeReason_mono s cur (iabs lit) c acc1).2.1 v hv1
          intro hnil
          rw [hnil] at hv2
          exact List.not_mem_nil v hv2
        have hSemJn : (∃ l ∈ acc2.learnt, modelSatLit mdl l = true) ∨
            (∃ v ∈ acc2.inflight, modelSatLit mdl (trailLitOf s v) = false) := by
          rcases hSemJ with ⟨l, hl, hls⟩ | ⟨v0, hv0, hvs⟩
          · exact Or.inl ⟨l, (analyzeReason_mono s cur (iabs lit) c acc1).2.2 l hl, hls⟩
          · by_cases hv0p : v0 = iabs lit
            · -- the pivot's witness: pass to a reason-clause literal
              rw [hv0p, trailLitOf_of_mem s lit htc hlitm hlit0] at hvs
              have hcs := hdbm c hcmem
              rw [modelSatClause_iff] at hcs
              obtain ⟨m, hm, hms⟩ := hcs
              by_cases hmp : iabs m = iabs lit
              · exfalso
                have := hpeq m hm hmp
                rw [this] at hms
                rw [hms] at hvs
                exact Bool.noConfusion hvs
              · obtain ⟨hmf, q, hq, hqw⟩ := hothers m hm hmp
                have hm0 : m ≠ 0 := (hclr c hcmem m hm).1
                have hmseen : iabs m ∈ acc2.seen :=
                  analyzeReason_seen_complete s cur (iabs lit) c acc1 m hm hmp
                rcases hSeen2 (iabs m) hmseen with ⟨l, hl, hle⟩ | hd | ⟨q2, hq21, hq22, hq23⟩
                · left
                  have hlm : l = m :=
                    false_lits_same_var_eq s l m (hLf2 l hl) hmf hle
                  rw [hlm] at hl
                  exact ⟨m, hl, hms⟩
                · right
                  refine ⟨iabs m, hd, ?_⟩
                  rw [false_lit_eq_neg_trailLit s m hmf hm0]
                  rw [modelSatLit_neg mdl m hm0, hms]
                  rfl
                · exfalso
                  have hqe : q = q2 := trail_pos_unique s htc q q2
                    (by omega) hq21 (by rw [hqw, hq23])
                  omega
            · right
              refine ⟨v0, ?_, hvs⟩
              exact (analyzeReason_mono s cur (iabs lit) c acc1).2.1 v0
                (mem_setRemove.mpr ⟨hv0, hv0p⟩)
        exact ih (t - 1) acc2 uip learnt2 bj hw (by omega) hnen hW3n hLf2 hW5n hSemJn
    · -- the head variable is not inflight: skip it
      have hinb : acc.inflight.contains (iabs lit) = false := by simpa using hin
      by_cases ht0 : t = 0
      · exfalso
        simp only [analyzeWalk, h0, if_false, htn, hlit, hinb, Bool.not_false,
          if_true] at hw
        rw [analyzeWalk_neg s cur f (Int.ofNat t - 1) acc (by
          simp only [Int.ofNat_eq_coe]
          omega)] at hw
        exact Option.noConfusion hw
      · have hrw : Int.ofNat t - 1 = Int.ofNat (t - 1) := by
          simp only [Int.ofNat_eq_coe]
          omega
        simp only [analyzeWalk, h0, if_false, htn, hlit, hinb, Bool.not_false,
          if_true, hrw] at hw
        refine ih (t - 1) acc uip learnt2 bj hw (by omega) hne ?_ hW4 ?_ hSemJ
        · intro v hv
          obtain ⟨hvl, q, hq, hqw⟩ := hW3 v hv
          refine ⟨hvl, q, ?_, hqw⟩
          have hqt : q ≠ t := by
            intro hqq
            rw [hqq, htat] at hqw
            exact hin (by rw [hqw]; exact hv)
          omega
        · intro w hw2
          rcases hW5 w hw2 with hd | hd | ⟨q, hq1, hq2, hq3⟩
          · exact Or.inl hd
          · exact Or.inr (Or.inl hd)
          · exact Or.inr (Or.inr ⟨q, hq1, by omega, hq3⟩)

/-- The walk with an empty inflight set skips every position and falls off
the trail. -/
theorem analyzeWalk_empty (s : Solver) (cur : Int) :
    ∀ (fuel : Nat) (tidx : Int) (acc : AnalyzeAcc), acc.inflight = [] →
    analyzeWalk s cur fuel tidx acc = none := by
  intro fuel
  induction fuel with
  | zero =>
    intro tidx acc h
    rw [analyzeWalk]
  | succ f ih =>
    intro tidx acc h
    by_cases h0 : tidx < 0
    · rw [analyzeWalk, if_pos h0]
    · cases hg : s.trail.get? tidx.toNat with
      | none => simp only [analyzeWalk, h0, if_false, hg]
      | some lit =>
        have hc : acc.inflight.contains (iabs lit) = false := by
          rw [h]
          rfl
        simp only [analyzeWalk, h0, if_false, hg, hc, Bool.not_false, if_true]
        exact ih (tidx - 1) acc h

/-- A full level count means every level start lies at or before `p`. -/
theorem countLE_full (ls : List Nat) (p : Nat) (h : countLE ls p = ls.length) :
    ∀ e ∈ ls, e ≤ p := by
  intro e he
  have h2 : (ls.filter (fun e => e ≤ p)).length = ls.length := h
  have h3 := List.filter_length_eq_length.mp h2 e he
  simpa using h3

/-- With a nonempty decision stack, a trail literal sits at the current
level exactly when its position is at or after the last level start. -/
theorem cur_level_align (s : Solver) (hso : StackOk s) (hlc : LevelChar s)
    (hdne : s.decisions ≠ []) (p : Nat) (hp : p < s.trail.length) :
    s.levelOf (iabs (trailAt s p)) = Int.ofNat s.decisions.length ↔
      (s.levelStart.get? (s.decisions.length - 1)).getD 0 ≤ p := by
  obtain ⟨hlen, hbnd, hmono⟩ := hso
  have hdlen : 0 < s.decisions.length := List.length_pos.mpr hdne
  have hlsl : 0 < s.levelStart.length := by omega
  obtain ⟨e, he⟩ : ∃ e, s.levelStart.get? (s.decisions.length - 1) = some e := by
    rw [List.get?_eq_get (show s.decisions.length - 1 < s.levelStart.length by omega)]
    exact ⟨_, rfl⟩
  rw [hlc p hp, he]
  simp only [Option.getD_some]
  constructor
  · intro hcur
    have hcnt : countLE s.levelStart p = s.levelStart.length := by
      simp only [Int.ofNat_eq_coe] at hcur
      omega
    exact countLE_full s.levelStart p hcnt e (List.get?_mem he)
  · intro hge
    have hall : ∀ x ∈ s.levelStart, x ≤ p := by
      intro x hx
      obtain ⟨j, hj, hje⟩ := mem_levelStart_pos s.levelStart x hx
      by_cases hjl : j = s.decisions.length - 1
      · rw [hjl, he] at hje
        have : e = x := Option.some.inj hje
        omega
      · have hlt := hmono j (s.decisions.length - 1) (by omega) (by omega)
        rw [hje, he] at hlt
        simp only [Option.getD_some] at hlt
        omega
    rw [countLE_all s.levelStart p hall, hlen]

/-- With a nonempty decision stack, every trail position strictly after the
last level start carries a valid reason clause. -/
theorem countLE_pos (ls : List Nat) (p e : Nat) (he : e ∈ ls) (hle : e ≤ p) :
    1 ≤ countLE ls p := by
  unfold countLE
  have hm : e ∈ ls.filter (fun x => x ≤ p) :=
    List.mem_filter.mpr ⟨he, by simpa using hle⟩
  exact List.length_pos.mpr (List.ne_nil_of_mem hm)

/-- With a nonempty decision stack, every trail position strictly after the
last level start carries a valid reason clause. -/
theorem cur_level_reason (s : Solver) (hso : StackOk s) (hlc : LevelChar s)
    (hri : RInv s)
    (hrp : RPres s) (hdne : s.decisions ≠ []) (p : Nat) (hp : p < s.trail.length)
    (hgt : (s.levelStart.get? (s.decisions.length - 1)).getD 0 < p) :
    ∃ rci, rci < s.clauses.length ∧
      s.reasonOf (iabs (trailAt s p)) = some rci ∧
      trailAt s p ∈ (s.clauses.get? rci).getD [] ∧
      (∀ m ∈ (s.clauses.get? rci).getD [], iabs m ≠ iabs (trailAt s p) →
        litIsFalse s m = true ∧ ∃ q, q < p ∧ iabs (trailAt s q) = iabs m) ∧
      (∀ m ∈ (s.clauses.get? rci).getD [], iabs m = iabs (trailAt s p) →
        m = trailAt s p) := by
  obtain ⟨hlen, hbnd, hmono⟩ := hso
  have hdlen : 0 < s.decisions.length := List.length_pos.mpr hdne
  obtain ⟨e, he⟩ : ∃ e, s.levelStart.get? (s.decisions.length - 1) = some e := by
    rw [List.get?_eq_get (show s.decisions.length - 1 < s.levelStart.length by omega)]
    exact ⟨_, rfl⟩
  rw [he] at hgt
  simp only [Option.getD_some] at hgt
  have hall : ∀ x ∈ s.levelStart, x ≤ e := by
    intro x hx
    obtain ⟨j, hj, hje⟩ := mem_levelStart_pos s.levelStart x hx
    by_cases hjl : j = s.decisions.length - 1
    · rw [hjl, he] at hje
      have : e = x := Option.some.inj hje
      omega
    · have hlt := hmono j (s.decisions.length - 1) (by omega) (by omega)
      rw [hje, he] at hlt
      simp only [Option.getD_some] at hlt
      omega
  have hg : 1 ≤ s.levelOf (iabs (trailAt s p)) := by
    rw [hlc p hp]
    have hcp : 1 ≤ countLE s.levelStart p :=
      countLE_pos s.levelStart p e (List.get?_mem he) (by omega)
    simp only [Int.ofNat_eq_coe]
    omega
  have hnls : p ∉ s.levelStart := by
    intro hmem
    have := hall p hmem
    omega
  have hne := hrp p hp hg hnls
  cases hro : s.reasonOf (iabs (trailAt s p)) with
  | none => exact absurd hro hne
  | some rci =>
    obtain ⟨h1, h2, h3, h4⟩ := hri p hp hg rci hro
    exact ⟨rci, h1, rfl, h2, h3, h4⟩

/-- Assigned variables carry levels between 0 and the current decision
level. -/
theorem assigned_level_bounds (s : Solver) (htc : TrailConsistent s)
    (hso : StackOk s) (hlc : LevelChar s) :
    ∀ v ∈ assignedVars s, 0 ≤ s.levelOf v ∧
      s.levelOf v ≤ Int.ofNat s.decisions.length := by
  intro v hv
  obtain ⟨q, hq, hqe⟩ := assigned_trail_pos s htc v hv
  rw [← hqe, hlc q hq]
  have hle : countLE s.levelStart q ≤ s.levelStart.length := by
    unfold countLE
    exact List.length_filter_le _ _
  have hlen := hso.1
  constructor
  · simp only [Int.ofNat_eq_coe]
    omega
  · simp only [Int.ofNat_eq_coe]
    omega

/-- The level fold stays below any positive bound dominating each level. -/
theorem maxLevelOf_lt (s : Solver) (ls : List Int) (c : Int) (hc : 0 < c)
    (h : ∀ l ∈ ls, s.levelOf (iabs l) < c) : maxLevelOf s ls < c := by
  unfold maxLevelOf
  have hgen : ∀ (xs : List Int) (a : Int), a < c →
      (∀ x ∈ xs, s.levelOf (iabs x) < c) →
      ((xs.map (fun l => s.levelOf (iabs l))).foldl max a) < c := by
    intro xs
    induction xs with
    | nil =>
      intro a ha _
      exact ha
    | cons x rest ih =>
      intro a ha hx
      rw [List.map_cons, List.foldl_cons]
      exact ih (max a (s.levelOf (iabs x)))
        (max_lt ha (hx x (List.mem_cons_self x rest)))
        (fun y hy => hx y (List.mem_cons_of_mem x hy))
  exact hgen ls 0 hc h

/-- Literal falsity threads through the backward walk: every learnt literal
of a successful walk is false at the conflict state. -/
theorem analyzeWalk_false (s : Solver) (cur : Int) (lsIdx : Nat)
    (htc : TrailConsistent s) (hclr : ClauseLitsInRange s)
    (halign : ∀ p, p < s.trail.length →
      (s.levelOf (iabs (trailAt s p)) = cur ↔ lsIdx ≤ p))
    (hreason : ∀ p, p < s.trail.length → lsIdx < p →
      ∃ rci, rci < s.clauses.length ∧
        s.reasonOf (iabs (trailAt s p)) = some rci ∧
        trailAt s p ∈ (s.clauses.get? rci).getD [] ∧
        (∀ m ∈ (s.clauses.get? rci).getD [], iabs m ≠ iabs (trailAt s p) →
          litIsFalse s m = true ∧ ∃ q, q < p ∧ iabs (trailAt s q) = iabs m) ∧
        (∀ m ∈ (s.clauses.get? rci).getD [], iabs m = iabs (trailAt s p) →
          m = trailAt s p)) :
    ∀ (fuel t : Nat) (acc : AnalyzeAcc) (uip : Int) (learnt2 : List Int) (bj : Int),
    analyzeWalk s cur fuel (Int.ofNat t) acc = some (uip, learnt2, bj) →
    t < s.trail.length →
    (∀ v ∈ acc.inflight, s.levelOf v = cur ∧ ∃ q, q ≤ t ∧ iabs (trailAt s q) = v) →
    (∀ l ∈ acc.learnt, litIsFalse s l = true) →
    (∀ w ∈ acc.seen,
      (∃ l ∈ acc.learnt, iabs l = w) ∨ w ∈ acc.inflight ∨
      (∃ q, q < s.trail.length ∧ t < q ∧ iabs (trailAt s q) = w)) →
    ∀ l ∈ learnt2, litIsFalse s l = true := by
  intro fuel
  induction fuel with
  | zero =>
    intro t acc uip learnt2 bj hw
    rw [analyzeWalk] at hw
    exact absurd hw (by simp)
  | succ f ih =>
    intro t acc uip learnt2 bj hw ht hW3 hW4 hW5
    have h0 : ¬(Int.ofNat t < 0) := by
      simp only [Int.ofNat_eq_coe]
      omega
    have htn : (Int.ofNat t).toNat = t := rfl
    obtain ⟨lit, hlit⟩ : ∃ lit, s.trail.get? t = some lit := by
      rw [List.get?_eq_get ht]
      exact ⟨_, rfl⟩
    have htat : trailAt s t = lit := by
      unfold trailAt
      rw [hlit]
      rfl
    by_cases hin : iabs lit ∈ acc.inflight
    · have hinb : acc.inflight.contains (iabs lit) = true := by simpa using hin
      by_cases hemp : (setRemove acc.inflight (iabs lit)).isEmpty = true
      · simp only [analyzeWalk, h0, if_false, htn, hlit, hinb, Bool.not_true,
          Bool.false_eq_true, hemp, if_true] at hw
        have hl2e : learnt2 = acc.learnt := by
          have h2 := Prod.mk.injEq _ _ _ _ ▸ (Option.some.inj hw)
          exact (congrArg Prod.fst h2.2).symm
        rw [hl2e]
        exact hW4
      · have hempf : (setRemove acc.inflight (iabs lit)).isEmpty = false := by
          simpa using hemp
        have hWpos : ∀ w ∈ acc.inflight, ∃ q, lsIdx ≤ q ∧ q ≤ t ∧
            iabs (trailAt s q) = w := by
          intro w hw2
          obtain ⟨hwl, q, hq, hqw⟩ := hW3 w hw2
          refine ⟨q, ?_, hq, hqw⟩
          exact (halign q (lt_of_le_of_lt hq ht)).mp (by rw [hqw]; exact hwl)
        have hlst : lsIdx < t := by
          by_contra hcon
          have hall2 : ∀ w ∈ acc.inflight, w = iabs lit := by
            intro w hw2
            obtain ⟨q, hq1, hq2, hq3⟩ := hWpos w hw2
            have hqt : q = t := by omega
            rw [hqt, htat] at hq3
            exact hq3.symm
          have hnil : setRemove acc.inflight (iabs lit) = [] := by
            apply List.filter_eq_nil.mpr
            intro y hy
            simp [hall2 y hy]
          rw [hnil] at hempf
          simp at hempf
        obtain ⟨rci, hrcim, hro, hpm, hothers, hpeq⟩ := hreason t ht hlst
        rw [htat] at hro hpm hothers hpeq
        obtain ⟨c, hc⟩ : ∃ c, s.clauses.get? rci = some c := by
          rw [List.get?_eq_get hrcim]
          exact ⟨_, rfl⟩
        simp only [hc, Option.getD_some] at hpm hothers hpeq
        have hrw : Int.ofNat t - 1 = Int.ofNat (t - 1) := by
          simp only [Int.ofNat_eq_coe]
          omega
        simp only [analyzeWalk, h0, if_false, htn, hlit, hinb, Bool.not_true,
          Bool.false_eq_true, hempf, if_false, hro, hc, hrw] at hw
        set acc1 : AnalyzeAcc :=
          { acc with inflight := setRemove acc.inflight (iabs lit) } with hacc1
        set acc2 := analyzeReason s cur (iabs lit) c acc1 with hacc2
        have hInf1 : ∀ v ∈ acc1.inflight,
            s.levelOf v = cur ∧ ∃ q, q < t ∧ iabs (trailAt s q) = v := by
          intro v hv
          obtain ⟨hv2, hvne⟩ := mem_setRemove.mp hv
          obtain ⟨hvl, q, hq, hqw⟩ := hW3 v hv2
          refine ⟨hvl, q, ?_, hqw⟩
          have : q ≠ t := by
            intro hqq
            rw [hqq, htat] at hqw
            exact hvne hqw.symm
          omega
        have hSeen1 : ∀ w ∈ acc1.seen,
            (∃ l ∈ acc1.learnt, iabs l = w) ∨ w ∈ acc1.inflight ∨
            (∃ q, q < s.trail.length ∧ t ≤ q ∧ iabs (trailAt s q) = w) := by
          intro w hw2
          rcases hW5 w hw2 with hd | hd | ⟨q, hq1, hq2, hq3⟩
          · exact Or.inl hd
          · by_cases hwp : w = iabs lit
            · refine Or.inr (Or.inr ⟨t, ht, le_refl t, ?_⟩)
              rw [htat, hwp]
            · exact Or.inr (Or.inl (mem_setRemove.mpr ⟨hd, hwp⟩))
          · exact Or.inr (Or.inr ⟨q, hq1, by omega, hq3⟩)
        have hrsem := analyzeReason_sem s cur (iabs lit) t c acc1
          (fun m hm hmp => (hothers m hm hmp).1)
          (fun m hm hmp => (hothers m hm hmp).2)
          hW4 hInf1 hSeen1
        obtain ⟨hLf2, hInf2, hSeen2⟩ := hrsem
        have hW3n : ∀ v ∈ acc2.inflight, s.levelOf v = cur ∧
            ∃ q, q ≤ t - 1 ∧ iabs (trailAt s q) = v := by
          intro v hv
          obtain ⟨hvl, q, hq, hqw⟩ := hInf2 v hv
          exact ⟨hvl, q, by omega, hqw⟩
        have hW5n : ∀ w ∈ acc2.seen,
            (∃ l ∈ acc2.learnt, iabs l = w) ∨ w ∈ acc2.inflight ∨
            (∃ q, q < s.trail.length ∧ t - 1 < q ∧ iabs (trailAt s q) = w) := by
          intro w hw2
          rcases hSeen2 w hw2 with hd | hd | ⟨q, hq1, hq2, hq3⟩
          · exact Or.inl hd
          · exact Or.inr (Or.inl hd)
          · exact Or.inr (Or.inr ⟨q, hq1, by omega, hq3⟩)
        exact ih (t - 1) acc2 uip learnt2 bj hw (by omega) hW3n hLf2 hW5n
    · have hinb : acc.inflight.contains (iabs lit) = false := by simpa using hin
      by_cases ht0 : t = 0
      · exfalso
        simp only [analyzeWalk, h0, if_false, htn, hlit, hinb, Bool.not_false,
          if_true] at hw
        rw [analyzeWalk_neg s cur f (Int.ofNat t - 1) acc (by
          simp only [Int.ofNat_eq_coe]
          omega)] at hw
        exact Option.noConfusion hw
      · have hrw : Int.ofNat t - 1 = Int.ofNat (t - 1) := by
          simp only [Int.ofNat_eq_coe]
          omega
        simp only [analyzeWalk, h0, if_false, htn, hlit, hinb, Bool.not_false,
          if_true, hrw] at hw
        refine ih (t - 1) acc uip learnt2 bj hw (by omega) ?_ hW4 ?_
        · intro v hv
          obtain ⟨hvl, q, hq, hqw⟩ := hW3 v hv
          refine ⟨hvl, q, ?_, hqw⟩
          have hqt : q ≠ t := by
            intro hqq
            rw [hqq, htat] at hqw
            exact hin (by rw [hqw]; exact hv)
          omega
        · intro w hw2
          rcases hW5 w hw2 with hd | hd | ⟨q, hq1, hq2, hq3⟩
          · exact Or.inl hd
          · exact Or.inr (Or.inl hd)
          · exact Or.inr (Or.inr ⟨q, hq1, by omega, hq3⟩)

/-- Learnt literals of the initialization loop come from the accumulator or
the processed clause. -/
theorem analyzeInit_learnt_src (s : Solver) (cur : Int) :
    ∀ (ls : List Int) (acc : AnalyzeAcc),
    ∀ l ∈ (analyzeInit s cur ls acc).learnt, l ∈ acc.learnt ∨ l ∈ ls := by
  intro ls
  induction ls with
  | nil =>
    intro acc l hl
    rw [analyzeInit] at hl
    exact Or.inl hl
  | cons a rest ih =>
    intro acc l hl
    by_cases hlev : s.levelOf (iabs a) = cur
    · have hbeq : (s.levelOf (iabs a) == cur) = true := by simpa using hlev
      simp only [analyzeInit, hbeq, if_true] at hl
      rcases ih _ l hl with hl2 | hl2
      · exact Or.inl hl2
      · exact Or.inr (List.mem_cons_of_mem a hl2)
    · have hbeq : (s.levelOf (iabs a) == cur) = false := by simpa using hlev
      simp only [analyzeInit, hbeq, if_false, Bool.false_eq_true] at hl
      rcases ih _ l hl with hl2 | hl2
      · rcases mem_setAdd.mp hl2 with hl3 | hl3
        · exact Or.inl hl3
        · exact Or.inr (by rw [hl3]; exact List.mem_cons_self a rest)
      · exact Or.inr (List.mem_cons_of_mem a hl2)

/-- Learnt literals of the resolution loop come from the accumulator or the
reason clause. -/
theorem analyzeReason_learnt_src (s : Solver) (cur : Int) (pivotVar : Int) :
    ∀ (rl : List Int) (acc : AnalyzeAcc),
    ∀ l ∈ (analyzeReason s cur pivotVar rl acc).learnt, l ∈ acc.learnt ∨ l ∈ rl := by
  intro rl
  induction rl with
  | nil =>
    intro acc l hl
    rw [analyzeReason] at hl
    exact Or.inl hl
  | cons a rest ih =>
    intro acc l hl
    by_cases hpv : iabs a = pivotVar
    · have hbeq : (iabs a == pivotVar) = true := by simpa using hpv
      simp only [analyzeReason, hbeq, if_true] at hl
      rcases ih acc l hl with hl2 | hl2
      · exact Or.inl hl2
      · exact Or.inr (List.mem_cons_of_mem a hl2)
    · have hbeq : (iabs a == pivotVar) = false := by simpa using hpv
      by_cases hseen : acc.seen.contains (iabs a)
      · simp only [analyzeReason, hbeq, if_false, Bool.false_eq_true, hseen,
          if_true] at hl
        rcases ih acc l hl with hl2 | hl2
        · exact Or.inl hl2
        · exact Or.inr (List.mem_cons_of_mem a hl2)
      · have hseenf : acc.seen.contains (iabs a) = false := by simpa using hseen
        by_cases hlev : s.levelOf (iabs a) = cur
        · have hbeq2 : (s.levelOf (iabs a) == cur) = true := by simpa using hlev
          simp only [analyzeReason, hbeq, if_false, Bool.false_eq_true, hseenf,
            hbeq2, if_true] at hl
          rcases ih _ l hl with hl2 | hl2
          · exact Or.inl hl2
          · exact Or.inr (List.mem_cons_of_mem a hl2)
        · have hbeq2 : (s.levelOf (iabs a) == cur) = false := by simpa using hlev
          simp only [analyzeReason, hbeq, if_false, Bool.false_eq_true, hseenf,
            hbeq2] at hl
          rcases ih _ l hl with hl2 | hl2
          · rcases mem_setAdd.mp hl2 with hl3 | hl3
            · exact Or.inl hl3
            · exact Or.inr (by rw [hl3]; exact List.mem_cons_self a rest)
          · exact Or.inr (List.mem_cons_of_mem a hl2)

/-- Learnt literals of a successful walk come from the starting accumulator
or from some stored clause. -/
theorem analyzeWalk_learnt_src (s : Solver) (cur : Int) :
    ∀ (fuel : Nat) (tidx : Int) (acc : AnalyzeAcc) (uip : Int)
      (learnt2 : List Int) (bj : Int),
    analyzeWalk s cur fuel tidx acc = some (uip, learnt2, bj) →
    ∀ l ∈ learnt2, l ∈ acc.learnt ∨ ∃ c ∈ s.clauses, l ∈ c := by
  intro fuel
  induction fuel with
  | zero =>
    intro tidx acc uip learnt2 bj hw
    rw [analyzeWalk] at hw
    exact absurd hw (by simp)
  | succ f ih =>
    intro tidx acc uip learnt2 bj hw l hl
    by_cases h0 : tidx < 0
    · rw [analyzeWalk, if_pos h0] at hw
      exact absurd hw (by simp)
    · cases hg : s.trail.get? tidx.toNat with
      | none =>
        simp only [analyzeWalk, h0, if_false, hg] at hw
        exact Option.noConfusion hw
      | some lit =>
        by_cases hin : acc.inflight.contains (iabs lit) = true
        · by_cases hemp : (setRemove acc.inflight (iabs lit)).isEmpty = true
          · simp only [analyzeWalk, h0, if_false, hg, hin, Bool.not_true,
              Bool.false_eq_true, hemp, if_true] at hw
            have h2 := Prod.mk.injEq _ _ _ _ ▸ (Option.some.inj hw)
            have hle : learnt2 = acc.learnt := (congrArg Prod.fst h2.2).symm
            rw [hle] at hl
            exact Or.inl hl
          · have hempf : (setRemove acc.inflight (iabs lit)).isEmpty = false := by
              simpa using hemp
            cases hro : s.reasonOf (iabs lit) with
            | none =>
              simp only [analyzeWalk, h0, if_false, hg, hin, Bool.not_true,
                Bool.false_eq_true, hempf, hro] at hw
              exact Option.noConfusion hw
            | some rci =>
              cases hrc : s.clauses.get? rci with
              | none =>
                simp only [analyzeWalk, h0, if_false, hg, hin, Bool.not_true,
                  Bool.false_eq_true, hempf, hro, hrc] at hw
                exact Option.noConfusion hw
              | some c =>
                simp only [analyzeWalk, h0, if_false, hg, hin, Bool.not_true,
                  Bool.false_eq_true, hempf, if_false, hro, hrc] at hw
                rcases ih (tidx - 1) _ uip learnt2 bj hw l hl with hl2 | hl2
                · rcases analyzeReason_learnt_src s cur (iabs lit) c _ l hl2
                    with hl3 | hl3
                  · exact Or.inl hl3
                  · exact Or.inr ⟨c, List.get?_mem hrc, hl3⟩
                · exact Or.inr hl2
        · have hinf : acc.inflight.contains (iabs lit) = false := by
            simpa using hin
          simp only [analyzeWalk, h0, if_false, hg, hinf, Bool.not_false,
            if_true] at hw
          exact ih (tidx - 1) acc uip learnt2 bj hw l hl

/-- Soundness of `analyze_conflict` at a nonempty decision stack over a
stored falsified clause: the successful result's learned clause starts with
the negation of a current-level trail literal followed by duplicate-free
lower-level literals, the backjump level is their maximum level, every
learned literal is false at the conflict state, and the learned clause is
implied by any CNF implying the clause database. -/
theorem analyzeConflict_sound (cnf : List (List Int)) (s : Solver) (cnat : Nat)
    (htc : TrailConsistent s) (hclr : ClauseLitsInRange s)
    (hso : StackOk s) (hlc : LevelChar s) (hri : RInv s) (hrp : RPres s)
    (hdb : DbImplied cnf s) (hdne : s.decisions ≠ [])
    (hfalse : ∀ m ∈ (s.clauses.get? cnat).getD [], litIsFalse s m = true)
    (learnt : List Int) (bj : Int)
    (hw : analyzeConflict s (Int.ofNat cnat) = some (learnt, bj)) :
    ∃ p learnt2,
      (s.levelStart.get? (s.decisions.length - 1)).getD 0 ≤ p ∧
      p < s.trail.length ∧
      learnt = -(trailAt s p) :: pySetList learnt2 ∧
      bj = maxLevelOf s learnt2 ∧
      (∀ l ∈ learnt2, 0 ≤ s.levelOf (iabs l) ∧
        s.levelOf (iabs l) < Int.ofNat s.decisions.length) ∧
      (∀ m ∈ learnt, litIsFalse s m = true) ∧
      (∀ m ∈ learnt, m ≠ 0 ∧ iabs m ≤ Int.ofNat s.numVars) ∧
      ImpliedClause cnf learnt := by
  have hdlen : 0 < s.decisions.length := List.length_pos.mpr hdne
  have hcur0 : (Int.ofNat s.decisions.length == 0) = false := by
    simp only [beq_eq_false_iff_ne, ne_eq, Int.ofNat_eq_coe]
    omega
  cases hpy : pyIndex s.clauses (Int.ofNat cnat) with
  | none =>
    simp only [analyzeConflict, hcur0, Bool.false_eq_true, if_false, hpy] at hw
    exact Option.noConfusion hw
  | some cc =>
    simp only [analyzeConflict, hcur0, Bool.false_eq_true, if_false, hpy] at hw
    have hcc : s.clauses.get? cnat = some cc := by
      unfold pyIndex at hpy
      rw [if_pos (by simp only [Int.ofNat_eq_coe]; omega)] at hpy
      exact hpy
    have hccm : cc ∈ s.clauses := List.get?_mem hcc
    have hfalse2 : ∀ m ∈ cc, litIsFalse s m = true := by
      intro m hm
      apply hfalse
      rw [hcc]
      exact hm
    set acc0 := analyzeInit s (Int.ofNat s.decisions.length) (pySetOfList cc)
      { seen := [], inflight := [], learnt := [], bj := 0 } with hacc0
    cases hwres : analyzeWalk s (Int.ofNat s.decisions.length) (s.trail.length + 1)
        (Int.ofNat s.trail.length - 1) acc0 with
    | none =>
      rw [hwres] at hw
      exact Option.noConfusion hw
    | some res =>
      obtain ⟨uip, learnt2, bjF⟩ := res
      rw [hwres] at hw
      replace hw : some (uip :: pySetList learnt2, bjF) = some (learnt, bj) := hw
      have hpair := Option.some.inj hw
      have hle : learnt = uip :: pySetList learnt2 := (congrArg Prod.fst hpair).symm
      have hbe : bj = bjF := (congrArg Prod.snd hpair).symm
      by_cases hinfe : acc0.inflight = []
      · exfalso
        rw [analyzeWalk_empty s (Int.ofNat s.decisions.length) (s.trail.length + 1)
          (Int.ofNat s.trail.length - 1) acc0 hinfe] at hwres
        exact Option.noConfusion hwres
      · obtain ⟨hI1, hI2, hI3, hI4, hI5, hI6⟩ := analyzeInit_spec s
          (Int.ofNat s.decisions.length)
          (fun w => s.levelOf w = Int.ofNat s.decisions.length ∧
            ∃ q, q < s.trail.length ∧ iabs (trailAt s q) = w)
          (fun l => 0 ≤ s.levelOf (iabs l) ∧
            s.levelOf (iabs l) < Int.ofNat s.decisions.length)
          (pySetOfList cc)
          { seen := [], inflight := [], learnt := [], bj := 0 }
          (by
            intro m hm
            have hmc : m ∈ cc := mem_pySetOfList.mp hm
            have hmf : litIsFalse s m = true := hfalse2 m hmc
            have hrange := hclr cc hccm m hmc
            have hmemav := false_lit_assigned s m hmf hrange.1 hrange.2
            constructor
            · intro hml
              obtain ⟨q, hq, hqe⟩ := assigned_trail_pos s htc (iabs m) hmemav
              exact ⟨hml, q, hq, hqe⟩
            · intro hml
              obtain ⟨hge, hle2⟩ := assigned_level_bounds s htc hso hlc (iabs m) hmemav
              exact ⟨hge, lt_of_le_of_ne hle2 hml⟩)
          (fun v hv => absurd hv (List.not_mem_nil v))
          List.nodup_nil
          (fun l hl => absurd hl (List.not_mem_nil l))
          rfl
        obtain ⟨v0, hv0⟩ := List.exists_mem_of_ne_nil _ hinfe
        obtain ⟨hv0l, q0, hq0, hq0e⟩ := hI1 v0 hv0
        have hlen1 : 1 ≤ s.trail.length := by omega
        have hlsbnd : (s.levelStart.get? (s.decisions.length - 1)).getD 0 <
            s.trail.length := by
          apply hso.2.1
          have := hso.1
          omega
        have halign : ∀ p, p < s.trail.length →
            (s.levelOf (iabs (trailAt s p)) = Int.ofNat s.decisions.length ↔
              (s.levelStart.get? (s.decisions.length - 1)).getD 0 ≤ p) :=
          fun p hp => cur_level_align s hso hlc hdne p hp
        have hreason4 : ∀ p, p < s.trail.length →
            (s.levelStart.get? (s.decisions.length - 1)).getD 0 < p →
            ∃ rci, rci < s.clauses.length ∧
              s.reasonOf (iabs (trailAt s p)) = some rci ∧
              trailAt s p ∈ (s.clauses.get? rci).getD [] ∧
              (∀ m ∈ (s.clauses.get? rci).getD [], iabs m ≠ iabs (trailAt s p) →
                litIsFalse s m = true ∧ ∃ q, q < p ∧ iabs (trailAt s q) = iabs m) ∧
              (∀ m ∈ (s.clauses.get? rci).getD [], iabs m = iabs (trailAt s p) →
                m = trailAt s p) :=
          fun p hp hgt => cur_level_reason s hso hlc hri hrp hdne p hp hgt
        have hreason3 : ∀ p, p < s.trail.length →
            (s.levelStart.get? (s.decisions.length - 1)).getD 0 < p →
            ∃ rci, rci < s.clauses.length ∧
              s.reasonOf (iabs (trailAt s p)) = some rci ∧
              trailAt s p ∈ (s.clauses.get? rci).getD [] ∧
              ∀ m ∈ (s.clauses.get? rci).getD [], iabs m ≠ iabs (trailAt s p) →
                litIsFalse s m = true ∧ ∃ q, q < p ∧ iabs (trailAt s q) = iabs m := by
          intro p hp hgt
          obtain ⟨rci, h1, h2, h3, h4, h5⟩ := hreason4 p hp hgt
          exact ⟨rci, h1, h2, h3, h4⟩
        have hW3 : ∀ v ∈ acc0.inflight,
            s.levelOf v = Int.ofNat s.decisions.length ∧
            ∃ q, q ≤ s.trail.length - 1 ∧ iabs (trailAt s q) = v := by
          intro v hv
          obtain ⟨hvl, q, hq, hqe⟩ := hI1 v hv
          exact ⟨hvl, q, by omega, hqe⟩
        obtain ⟨p, hp1, hp2, learnt2s, hwalkc, hlearnt2⟩ := analyzeWalk_spec s
          (Int.ofNat s.decisions.length)
          ((s.levelStart.get? (s.decisions.length - 1)).getD 0)
          htc hclr (assigned_level_bounds s htc hso hlc) halign hreason3
          (s.trail.length + 1) (s.trail.length - 1) acc0
          (by omega) (by omega) (by omega) hinfe hI2 hW3 hI3 hI4
        have hidx : Int.ofNat s.trail.length - 1 = Int.ofNat (s.trail.length - 1) := by
          simp only [Int.ofNat_eq_coe]
          omega
        rw [hidx] at hwres
        rw [hwres] at hwalkc
        have hpair2 := Option.some.inj hwalkc
        have huipe : uip = -(trailAt s p) := congrArg Prod.fst hpair2
        have hl2e : learnt2 = learnt2s := congrArg (fun x => x.2.1) hpair2
        have hbje : bjF = maxLevelOf s learnt2s := congrArg (fun x => x.2.2) hpair2
        obtain ⟨hLf0, hSeen0, hNC0⟩ := analyzeInit_sem s (Int.ofNat s.decisions.length)
          (s.trail.length - 1) (pySetOfList cc)
          { seen := [], inflight := [], learnt := [], bj := 0 }
          (fun m hm => hfalse2 m (mem_pySetOfList.mp hm))
          (fun l hl => absurd hl (List.not_mem_nil l))
          (fun w hw2 => absurd hw2 (List.not_mem_nil w))
        have hlearntF : ∀ l ∈ learnt2, litIsFalse s l = true :=
          analyzeWalk_false s (Int.ofNat s.decisions.length)
            ((s.levelStart.get? (s.decisions.length - 1)).getD 0)
            htc hclr halign hreason4
            (s.trail.length + 1) (s.trail.length - 1) acc0 uip learnt2 bjF hwres
            (by omega) hW3 hLf0 hSeen0
        obtain ⟨plit, hplit⟩ : ∃ plit, s.trail.get? p = some plit := by
          rw [List.get?_eq_get hp2]
          exact ⟨_, rfl⟩
        have hptat : trailAt s p = plit := by
          unfold trailAt
          rw [hplit]
          rfl
        refine ⟨p, learnt2, hp1, hp2, ?_, ?_, ?_, ?_, ?_, ?_⟩
        · rw [hle, huipe]
        · rw [hbe, hbje, hl2e]
        · intro l hl
          rw [hl2e] at hl
          exact hlearnt2 l hl
        · intro m hm
          rw [hle] at hm
          rcases List.mem_cons.mp hm with rfl | hm2
          · rw [huipe, hptat]
            exact neg_trail_lit_false s plit htc (List.get?_mem hplit)
          · exact hlearntF m ((pySetList_perm learnt2).mem_iff.mp hm2)
        · intro m hm
          rw [hle] at hm
          rcases List.mem_cons.mp hm with rfl | hm2
          · rw [huipe, hptat]
            have h0 := trail_lit_ne_zero s plit htc (List.get?_mem hplit)
            refine ⟨fun hz => h0 (by omega), ?_⟩
            rw [iabs_neg]
            exact trail_lit_range s plit htc (List.get?_mem hplit)
          · have hm3 : m ∈ learnt2 := (pySetList_perm learnt2).mem_iff.mp hm2
            rcases analyzeWalk_learnt_src s (Int.ofNat s.decisions.length)
              (s.trail.length + 1) (Int.ofNat (s.trail.length - 1)) acc0 uip
              learnt2 bjF hwres m hm3 with hsrc | ⟨c, hcm, hlm⟩
            · rcases analyzeInit_learnt_src s (Int.ofNat s.decisions.length)
                (pySetOfList cc) _ m hsrc with hsm | hsm
              · exact absurd hsm (List.not_mem_nil m)
              · exact hclr cc hccm m (mem_pySetOfList.mp hsm)
            · exact hclr c hcm m hlm
        · intro mdl hsat
          have hdbm : ∀ c ∈ s.clauses, modelSatClause mdl c = true :=
            fun c hc => hdb c hc mdl hsat
          have hccsat := hdbm cc hccm
          rw [modelSatClause_iff] at hccsat
          obtain ⟨litc, hlitc, hlitcs⟩ := hccsat
          have hlitcf : litIsFalse s litc = true := hfalse2 litc hlitc
          have hlitc0 : litc ≠ 0 := (hclr cc hccm litc hlitc).1
          have hSemJ : (∃ l ∈ acc0.learnt, modelSatLit mdl l = true) ∨
              (∃ v ∈ acc0.inflight, modelSatLit mdl (trailLitOf s v) = false) := by
            by_cases hlc2 : s.levelOf (iabs litc) = Int.ofNat s.decisions.length
            · right
              refine ⟨iabs litc, hI6 litc (mem_pySetOfList.mpr hlitc) hlc2, ?_⟩
              rw [false_lit_eq_neg_trailLit s litc hlitcf hlitc0]
              rw [modelSatLit_neg mdl litc hlitc0, hlitcs]
              rfl
            · left
              exact ⟨litc, hNC0 litc (mem_pySetOfList.mpr hlitc) hlc2, hlitcs⟩
          obtain ⟨hfl, huipor⟩ := analyzeWalk_sem s (Int.ofNat s.decisions.length)
            ((s.levelStart.get? (s.decisions.length - 1)).getD 0) mdl
            htc hclr halign hreason4 hdbm
            (s.trail.length + 1) (s.trail.length - 1) acc0 uip learnt2 bjF hwres
            (by omega) hinfe hW3 hLf0 hSeen0 hSemJ
          rw [hle, modelSatClause_iff]
          rcases huipor with huips | ⟨l, hl, hls⟩
          · exact ⟨uip, List.mem_cons_self _ _, huips⟩
          · exact ⟨l, List.mem_cons_of_mem _
              ((pySetList_perm learnt2).mem_iff.mpr hl), hls⟩

/-- `CDCL.unassign` leaves the bookkeeping of any other variable alone. -/
theorem unassignCDCL_book (st : Solver) (var w : Int) (hw : w ≠ var) :
    (unassignCDCL st var).assignment w = st.assignment w ∧
    (unassignCDCL st var).levelOf w = st.levelOf w ∧
    (unassignCDCL st var).reasonOf w = st.reasonOf w := by
  unfold unassignCDCL
  by_cases h : st.assignment var == 0
  · rw [if_pos h]
    exact ⟨rfl, rfl, rfl⟩
  · rw [if_neg h]
    unfold unassignBase
    refine ⟨?_, ?_, ?_⟩
    · show updFn st.assignment var 0 w = st.assignment w
      unfold updFn
      rw [if_neg hw]
    · show updFn st.levelOf var (-1) w = st.levelOf w
      unfold updFn
      rw [if_neg hw]
    · show updFn st.reasonOf var none w = st.reasonOf w
      unfold updFn
      rw [if_neg hw]

/-- `CDCL.unassign` leaves the trail alone. -/
theorem unassignCDCL_trail (st : Solver) (var : Int) :
    (unassignCDCL st var).trail = st.trail := by
  unfold unassignCDCL
  by_cases h : st.assignment var == 0
  · rw [if_pos h]
  · rw [if_neg h]
    rfl

/-- Popping the trail leaves the bookkeeping of every variable that does not
occur in the popped suffix alone. -/
theorem popTrailLoop_book :
    ∀ (fuel target : Nat) (s : Solver) (v : Int),
    (∀ q, target ≤ q → q < s.trail.length → iabs (trailAt s q) ≠ v) →
    (popTrailLoop unassignCDCL fuel target s).assignment v = s.assignment v ∧
    (popTrailLoop unassignCDCL fuel target s).levelOf v = s.levelOf v ∧
    (popTrailLoop unassignCDCL fuel target s).reasonOf v = s.reasonOf v := by
  intro fuel
  induction fuel with
  | zero =>
    intro target s v _
    rw [popTrailLoop]
    exact ⟨rfl, rfl, rfl⟩
  | succ f ih =>
    intro target s v hv
    rw [popTrailLoop]
    by_cases hlt : target < s.trail.length
    · simp only [hlt, if_true]
      rcases hg : s.trail.getLast? with _ | lit
      · exact ⟨rfl, rfl, rfl⟩
      · have hne : s.trail ≠ [] := by
          intro hemp
          rw [hemp] at hg
          exact Option.noConfusion hg
        have hgl : s.trail.getLast hne = lit := by
          rw [List.getLast?_eq_getLast s.trail hne] at hg
          exact Option.some.inj hg
        have hlast : s.trail.get? (s.trail.length - 1) = some lit := by
          rw [← List.getLast?_eq_get?]
          exact hg
        have htal : trailAt s (s.trail.length - 1) = lit := by
          unfold trailAt
          rw [hlast]
          rfl
        have hvlit : iabs lit ≠ v := by
          rw [← htal]
          exact hv (s.trail.length - 1) (by omega) (by omega)
        set st1 : Solver := { s with trail := s.trail.dropLast } with hst1
        obtain ⟨hb1, hb2, hb3⟩ := unassignCDCL_book st1 (iabs lit) v
          (fun hveq => hvlit hveq.symm)
        have htr2 : (unassignCDCL st1 (iabs lit)).trail = s.trail.dropLast :=
          unassignCDCL_trail st1 (iabs lit)
        have hvrec : ∀ q, target ≤ q →
            q < (unassignCDCL st1 (iabs lit)).trail.length →
            iabs (trailAt (unassignCDCL st1 (iabs lit)) q) ≠ v := by
          intro q hq1 hq2
          rw [htr2, List.length_dropLast] at hq2
          have hta : trailAt (unassignCDCL st1 (iabs lit)) q = trailAt s q := by
            unfold trailAt
            rw [htr2, get?_dropLast_lt hq2]
          rw [hta]
          exact hv q hq1 (by omega)
        obtain ⟨hc1, hc2, hc3⟩ := ih target (unassignCDCL st1 (iabs lit)) v hvrec
        exact ⟨hc1.trans hb1, hc2.trans hb2, hc3.trans hb3⟩
    · rw [if_neg hlt]
      exact ⟨rfl, rfl, rfl⟩

/-- A falsified clause that the CNF implies, at a state whose whole trail is
implied, makes the CNF unsatisfiable. -/
theorem falsified_implied_clause_unsat (cnf : List (List Int)) (s : Solver)
    (htc : TrailConsistent s) (himp : ∀ l ∈ s.trail, Implied cnf l)
    (c : List Int) (himpc : ImpliedClause cnf c)
    (hrange : ∀ m ∈ c, m ≠ 0 ∧ iabs m ≤ Int.ofNat s.numVars)
    (hfalse : ∀ m ∈ c, litIsFalse s m = true) :
    ∀ mdl, satCnf mdl cnf ≠ true := by
  intro mdl hsat
  have hcs := himpc mdl hsat
  rw [modelSatClause_iff] at hcs
  obtain ⟨m, hm, hms⟩ := hcs
  obtain ⟨hm0, hmr⟩ := hrange m hm
  have hneg : -m ∈ s.trail :=
    false_lit_negation_on_trail s m htc (hfalse m hm) hm0 hmr
  have himl := himp (-m) hneg mdl hsat
  rw [modelSatLit_neg mdl m hm0, hms] at himl
  exact Bool.noConfusion himl

/-- A single implied literal is an implied unit clause. -/
theorem impliedClause_singleton (cnf : List (List Int)) (l : Int)
    (h : Implied cnf l) : ImpliedClause cnf [l] := by
  intro mdl hsat
  rw [modelSatClause_iff]
  exact ⟨l, List.mem_singleton.mpr rfl, h mdl hsat⟩

/-- Every literal's level is at most the level fold of its clause. -/
theorem maxLevelOf_ge (s : Solver) (ls : List Int) (l : Int) (hl : l ∈ ls) :
    s.levelOf (iabs l) ≤ maxLevelOf s ls := by
  unfold maxLevelOf
  have hgen : ∀ (xs : List Int) (a : Int), l ∈ xs ∨ s.levelOf (iabs l) ≤ a →
      s.levelOf (iabs l) ≤ (xs.map (fun x => s.levelOf (iabs x))).foldl max a := by
    intro xs
    induction xs with
    | nil =>
      intro a ha
      rcases ha with ha | ha
      · exact absurd ha (List.not_mem_nil l)
      · exact ha
    | cons x rest ih =>
      intro a ha
      rw [List.map_cons, List.foldl_cons]
      rcases ha with ha | ha
      · rcases List.mem_cons.mp ha with rfl | ha2
        · exact ih _ (Or.inr (le_max_right _ _))
        · exact ih _ (Or.inl ha2)
      · exact ih _ (Or.inr (le_trans ha (le_max_left _ _)))
  exact hgen ls 0 (Or.inl hl)

/-- Membership in a watch list extended by `addWatch`. -/
theorem mem_addWatch {w : Int → List Nat} {l : Int} {n : Nat} {x : Int} {ci : Nat} :
    ci ∈ addWatch w l n x ↔ ci ∈ w x ∨ (x = l ∧ ci = n) := by
  unfold addWatch
  by_cases h : x = l
  · rw [if_pos h, List.mem_append, List.mem_singleton]
    constructor
    · intro hc
      rcases hc with hc | hc
      · exact Or.inl hc
      · exact Or.inr ⟨h, hc⟩
    · intro hc
      rcases hc with hc | ⟨_, hc⟩
      · exact Or.inl hc
      · exact Or.inr hc
  · rw [if_neg h]
    constructor
    · exact Or.inl
    · intro hc
      rcases hc with hc | ⟨he, _⟩
      · exact hc
      · exact absurd he h

/-- `CDCL.add_clause` preserves the soundness bundle and registers the new
clause at the old database length. -/
theorem addClause_sem (cnf : List (List Int)) (s : Solver) (lits : List Int)
    (hInv : PropInv s) (hwp : WatchPos s) (hwd : WatchDup s) (hdb : DbImplied cnf s)
    (hlc : LevelChar s) (hri : RInv s) (hrp : RPres s) (hzl : ZL cnf s)
    (himp : ImpliedClause cnf lits)
    (hlr : ∀ l ∈ lits, l ≠ 0 ∧ iabs l ≤ Int.ofNat s.numVars) :
    ∀ newCi s2, addClause s lits = (newCi, s2) →
    newCi = s.clauses.length ∧
    s2.clauses = s.clauses ++ [lits] ∧ s2.trail = s.trail ∧
    s2.assignment = s.assignment ∧ s2.levelOf = s.levelOf ∧
    s2.reasonOf = s.reasonOf ∧ s2.decisions = s.decisions ∧
    s2.levelStart = s.levelStart ∧ s2.numVars = s.numVars ∧
    s2.unitQueue = s.unitQueue ∧
    PropInv s2 ∧ WatchPos s2 ∧ WatchDup s2 ∧ DbImplied cnf s2 ∧
    LevelChar s2 ∧ RInv s2 ∧ RPres s2 ∧ ZL cnf s2 := by
  intro newCi s2 hac
  have hgetNew : (s.clauses ++ [lits]).get? s.clauses.length = some lits :=
    get?_append_boundary
  have hgetOld : ∀ (ci : Nat) (c : List Int), s.clauses.get? ci = some c →
      (s.clauses ++ [lits]).get? ci = some c := by
    intro ci c hc
    rw [get?_append_lt (get?_lt_length _ _ _ hc)]
    exact hc
  have hfreshN : ∀ lw : Int, List.count s.clauses.length (s.watches lw) = 0 := by
    intro lw
    rw [List.count_eq_zero]
    intro hmem
    obtain ⟨c, hc, _⟩ := hwp lw s.clauses.length hmem
    have := get?_lt_length _ _ _ hc
    omega
  have hBook : ∀ (s' : Solver), s'.clauses = s.clauses ++ [lits] →
      s'.trail = s.trail → s'.assignment = s.assignment →
      s'.levelOf = s.levelOf → s'.reasonOf = s.reasonOf →
      s'.levelStart = s.levelStart → s'.numVars = s.numVars →
      TrailConsistent s' ∧ ClauseLitsInRange s' ∧ DbImplied cnf s' ∧
      LevelChar s' ∧ RInv s' ∧ RPres s' ∧ ZL cnf s' := by
    intro s' hcl htr ha hlo hro hls hnv
    have hta : ∀ q, trailAt s' q = trailAt s q := by
      intro q
      unfold trailAt
      rw [htr]
    refine ⟨⟨?_, ?_⟩, ?_, ?_, ?_, ?_, ?_, ?_⟩
    · have hav : assignedVars s' = assignedVars s := by
        unfold assignedVars
        rw [ha, hnv]
      rw [htr, hav]
      exact hInv.1.1
    · intro l hl
      rw [htr] at hl
      rw [ha]
      exact hInv.1.2 l hl
    · intro c hc l hl
      rw [hcl] at hc
      rcases List.mem_append.mp hc with hc | hc
      · rw [hnv]
        exact hInv.2.1 c hc l hl
      · rw [List.mem_singleton.mp hc] at hl
        rw [hnv]
        exact hlr l hl
    · intro c hc
      rw [hcl] at hc
      rcases List.mem_append.mp hc with hc | hc
      · exact hdb c hc
      · rw [List.mem_singleton.mp hc]
        exact himp
    · intro p hp
      rw [htr] at hp
      rw [hta, hlo, hls]
      exact hlc p hp
    · intro p hp hg rci hrci
      rw [htr] at hp
      rw [hta, hlo] at hg
      rw [hta, hro] at hrci
      obtain ⟨h1, h2, h3, h4⟩ := hri p hp hg rci hrci
      obtain ⟨c, hc⟩ : ∃ c, s.clauses.get? rci = some c := by
        rw [List.get?_eq_get h1]
        exact ⟨_, rfl⟩
      have hc2 : s'.clauses.get? rci = some c := by
        rw [hcl]
        exact hgetOld rci c hc
      rw [hc] at h2 h3 h4
      simp only [Option.getD_some] at h2 h3 h4
      rw [hc2]
      simp only [Option.getD_some]
      refine ⟨by rw [hcl, List.length_append]; omega, by rw [hta]; exact h2, ?_, ?_⟩
      · intro m hm hmv
        rw [hta] at hmv
        obtain ⟨hf, q, hq, hqv⟩ := h3 m hm hmv
        refine ⟨?_, q, hq, by rw [hta]; exact hqv⟩
        unfold litIsFalse
        rw [ha]
        exact hf
      · intro m hm hmv
        rw [hta] at hmv ⊢
        exact h4 m hm hmv
    · intro p hp hg hnls
      rw [htr] at hp
      rw [hta, hlo] at hg
      rw [hls] at hnls
      rw [hta, hro]
      exact hrp p hp hg hnls
    · intro l hl hlev
      rw [htr] at hl
      rw [hlo] at hlev
      exact hzl l hl hlev
  rcases lits with _ | ⟨l1, _ | ⟨l2, tl⟩⟩
  · replace hac : ((s.clauses.length,
        { s with clauses := s.clauses ++ [([] : List Int)] }) :
        Nat × Solver) = (newCi, s2) := hac
    have hnewCi : newCi = s.clauses.length := (congrArg Prod.fst hac).symm
    have hs2 : s2 = { s with clauses := s.clauses ++ [([] : List Int)] } :=
      (congrArg Prod.snd hac).symm
    subst hs2
    obtain ⟨hb1, hb2, hb3, hb4, hb5, hb6, hb7⟩ :=
      hBook { s with clauses := s.clauses ++ [([] : List Int)] }
        rfl rfl rfl rfl rfl rfl rfl
    refine ⟨hnewCi, rfl, rfl, rfl, rfl, rfl, rfl, rfl, rfl, rfl,
      ⟨hb1, hb2, ?_⟩, ?_, ?_, hb3, hb4, hb5, hb6, hb7⟩
    · intro lw hlw ci hci
      obtain ⟨c, hc, hlen⟩ := hInv.2.2 lw hlw ci hci
      exact ⟨c, hgetOld ci c hc, hlen⟩
    · intro lw ci hci
      obtain ⟨c, hc, hpos⟩ := hwp lw ci hci
      exact ⟨c, hgetOld ci c hc, hpos⟩
    · intro lw ci
      refine ⟨(hwd lw ci).1, ?_⟩
      intro h2c
      obtain ⟨c, hc, hp0, hp1⟩ := (hwd lw ci).2 h2c
      exact ⟨c, hgetOld ci c hc, hp0, hp1⟩
  · replace hac : ((s.clauses.length,
        { s with clauses := s.clauses ++ [[l1]] }) :
        Nat × Solver) = (newCi, s2) := hac
    have hnewCi : newCi = s.clauses.length := (congrArg Prod.fst hac).symm
    have hs2 : s2 = { s with clauses := s.clauses ++ [[l1]] } :=
      (congrArg Prod.snd hac).symm
    subst hs2
    obtain ⟨hb1, hb2, hb3, hb4, hb5, hb6, hb7⟩ :=
      hBook { s with clauses := s.clauses ++ [[l1]] } rfl rfl rfl rfl rfl rfl rfl
    refine ⟨hnewCi, rfl, rfl, rfl, rfl, rfl, rfl, rfl, rfl, rfl,
      ⟨hb1, hb2, ?_⟩, ?_, ?_, hb3, hb4, hb5, hb6, hb7⟩
    · intro lw hlw ci hci
      obtain ⟨c, hc, hlen⟩ := hInv.2.2 lw hlw ci hci
      exact ⟨c, hgetOld ci c hc, hlen⟩
    · intro lw ci hci
      obtain ⟨c, hc, hpos⟩ := hwp lw ci hci
      exact ⟨c, hgetOld ci c hc, hpos⟩
    · intro lw ci
      refine ⟨(hwd lw ci).1, ?_⟩
      intro h2c
      obtain ⟨c, hc, hp0, hp1⟩ := (hwd lw ci).2 h2c
      exact ⟨c, hgetOld ci c hc, hp0, hp1⟩
  · replace hac : ((s.clauses.length,
        { s with clauses := s.clauses ++ [l1 :: l2 :: tl]
                 watches := addWatch (addWatch s.watches l1 s.clauses.length) l2
                   s.clauses.length }) :
        Nat × Solver) = (newCi, s2) := hac
    have hnewCi : newCi = s.clauses.length := (congrArg Prod.fst hac).symm
    have hs2 : s2 = { s with clauses := s.clauses ++ [l1 :: l2 :: tl]
                             watches := addWatch
                               (addWatch s.watches l1 s.clauses.length) l2
                               s.clauses.length } :=
      (congrArg Prod.snd hac).symm
    subst hs2
    obtain ⟨hb1, hb2, hb3, hb4, hb5, hb6, hb7⟩ :=
      hBook { s with clauses := s.clauses ++ [l1 :: l2 :: tl]
                     watches := addWatch
                       (addWatch s.watches l1 s.clauses.length) l2
                       s.clauses.length } rfl rfl rfl rfl rfl rfl rfl
    have hsplit : ∀ (lw : Int) (ci : Nat),
        ci ∈ addWatch (addWatch s.watches l1 s.clauses.length) l2
          s.clauses.length lw →
        ci ∈ s.watches lw ∨ ci = s.clauses.length := by
      intro lw ci hci
      rcases mem_addWatch.mp hci with hci | ⟨_, hci⟩
      · rcases mem_addWatch.mp hci with hci | ⟨_, hci⟩
        · exact Or.inl hci
        · exact Or.inr hci
      · exact Or.inr hci
    refine ⟨hnewCi, rfl, rfl, rfl, rfl, rfl, rfl, rfl, rfl, rfl,
      ⟨hb1, hb2, ?_⟩, ?_, ?_, hb3, hb4, hb5, hb6, hb7⟩
    · intro lw hlw ci hci
      rcases hsplit lw ci hci with hci | hci
      · obtain ⟨c, hc, hlen⟩ := hInv.2.2 lw hlw ci hci
        exact ⟨c, hgetOld ci c hc, hlen⟩
      · rw [hci]
        refine ⟨l1 :: l2 :: tl, hgetNew, ?_⟩
        simp only [List.length_cons]
        omega
    · intro lw ci hci
      rcases mem_addWatch.mp hci with hci | ⟨hlw2, hci⟩
      · rcases mem_addWatch.mp hci with hci | ⟨hlw1, hci⟩
        · obtain ⟨c, hc, hpos⟩ := hwp lw ci hci
          exact ⟨c, hgetOld ci c hc, hpos⟩
        · rw [hci]
          refine ⟨l1 :: l2 :: tl, hgetNew, Or.inl ?_⟩
          rw [hlw1]
          rfl
      · rw [hci]
        refine ⟨l1 :: l2 :: tl, hgetNew, Or.inr ?_⟩
        rw [hlw2]
        rfl
    · intro lw ci
      have hcnt : List.count ci
          (addWatch (addWatch s.watches l1 s.clauses.length) l2
            s.clauses.length lw) =
          List.count ci (s.watches lw) +
            ((if lw = l1 then (if ci = s.clauses.length then 1 else 0) else 0) +
             (if lw = l2 then (if ci = s.clauses.length then 1 else 0) else 0)) := by
        rw [count_addWatch, count_addWatch]
        omega
      by_cases hk : ci = s.clauses.length
      · have hz : List.count ci (s.watches lw) = 0 := by
          rw [hk]
          exact hfreshN lw
        constructor
        · rw [hcnt, hz]
          by_cases h1 : lw = l1 <;> by_cases h2 : lw = l2 <;>
            simp [h1, h2, hk] <;> split_ifs <;> omega
        · intro h2c
          rw [hcnt, hz] at h2c
          refine ⟨l1 :: l2 :: tl, by rw [hk]; exact hgetNew, ?_, ?_⟩
          · by_cases h1 : lw = l1
            · rw [h1]
              rfl
            · exfalso
              rw [if_neg h1] at h2c
              by_cases h2 : lw = l2 <;> simp [h2, hk] at h2c
          · by_cases h2 : lw = l2
            · rw [h2]
              rfl
            · exfalso
              rw [if_neg h2] at h2c
              by_cases h1 : lw = l1 <;> simp [h1, hk] at h2c
      · have hsame : List.count ci
            (addWatch (addWatch s.watches l1 s.clauses.length) l2
              s.clauses.length lw) = List.count ci (s.watches lw) := by
          rw [hcnt]
          by_cases h1 : lw = l1 <;> by_cases h2 : lw = l2 <;> simp [h1, h2, hk]
        constructor
        · rw [hsame]
          exact (hwd lw ci).1
        · intro h2c
          rw [hsame] at h2c
          obtain ⟨c, hc, hp0, hp1⟩ := (hwd lw ci).2 h2c
          exact ⟨c, hgetOld ci c hc, hp0, hp1⟩

/-- `countLE` adds over appends of the level stack. -/
theorem countLE_append (l1 l2 : List Nat) (q : Nat) :
    countLE (l1 ++ l2) q = countLE l1 q + countLE l2 q := by
  unfold countLE
  rw [List.filter_append, List.length_append]

/-- Starts above `q` contribute nothing to the count. -/
theorem countLE_drop_zero (l : List Nat) (q : Nat)
    (h : ∀ e ∈ l, q < e) : countLE l q = 0 := by
  unfold countLE
  rw [List.length_eq_zero, List.filter_eq_nil]
  intro e he
  have h2 := h e he
  simp only [decide_eq_true_eq]
  omega

/-- Truncating level starts that all lie above `q` keeps the count. -/
theorem countLE_take_eq (ls : List Nat) (k q : Nat)
    (h : ∀ e ∈ ls.drop k, q < e) : countLE ls q = countLE (ls.take k) q := by
  conv_lhs => rw [← List.take_append_drop k ls]
  rw [countLE_append, countLE_drop_zero (ls.drop k) q h]
  omega

/-- A prefix of the level stack counts at most as much. -/
theorem countLE_prefix_le (ls : List Nat) (k q : Nat) :
    countLE (ls.take k) q ≤ countLE ls q := by
  conv_rhs => rw [← List.take_append_drop k ls]
  rw [countLE_append]
  omega

/-- Members of a dropped suffix live at indices past the split. -/
theorem mem_drop_get? {α : Type} (l : List α) (k : Nat) (x : α) (hx : x ∈ l.drop k) :
    ∃ j, k ≤ j ∧ j < l.length ∧ l.get? j = some x := by
  rw [List.mem_iff_get?] at hx
  obtain ⟨j, hj⟩ := hx
  rw [List.get?_drop] at hj
  exact ⟨k + j, by omega, get?_lt_length _ _ _ hj, hj⟩

/-- `CDCL.backjump` re-establishes the soundness bundle.  At backjump level
0 the pop target is trail position 0, so the whole trail is discarded; the
re-asserted learnt literal then sits at level 0, where the reason invariant
is not required and implication is supplied by hypothesis. -/
theorem cdclBackjump_sem (cnf : List (List Int)) (s : Solver) (L : Int)
    (learntCi : Nat) (A : Int) (s2 : Solver)
    (hb : cdclBackjump s L learntCi A = some s2)
    (hInv : PropInv s) (hwp : WatchPos s) (hwd : WatchDup s) (hdb : DbImplied cnf s)
    (hso : StackOk s) (hlc : LevelChar s) (hri : RInv s) (hrp : RPres s)
    (hzl : ZL cnf s)
    (hL0 : 0 ≤ L) (hLlt : L < Int.ofNat s.decisions.length)
    (learntCl : List Int) (hlcl : s.clauses.get? learntCi = some learntCl)
    (hmemA : A ∈ learntCl)
    (htail : ∀ m ∈ learntCl, iabs m ≠ iabs A →
      litIsFalse s m = true ∧ 0 ≤ s.levelOf (iabs m) ∧ s.levelOf (iabs m) ≤ L)
    (huniq : ∀ m ∈ learntCl, iabs m = iabs A → m = A)
    (hlevA : s.levelOf (iabs A) = Int.ofNat s.decisions.length)
    (hA0 : A ≠ 0) (hAr : iabs A ≤ Int.ofNat s.numVars)
    (himpA0 : L = 0 → Implied cnf A) :
    PropInv s2 ∧ WatchPos s2 ∧ WatchDup s2 ∧ DbImplied cnf s2 ∧
    StackOk s2 ∧ LevelChar s2 ∧ RInv s2 ∧ RPres s2 ∧ ZL cnf s2 ∧
    s2.unitQueue = s.unitQueue ∧ s2.clauses = s.clauses ∧
    s2.numVars = s.numVars ∧ s2.watches = s.watches := by
  rcases htgt : bjTarget s L with _ | target
  · rw [cdclBackjump, htgt] at hb
    simp at hb
  · have hbj := hb
    rw [cdclBackjump, htgt] at hb
    simp only [Option.some.injEq] at hb
    have hdllen := hso.1
    have hdlen : L.toNat < s.levelStart.length := by
      rw [hdllen]
      simp only [Int.ofNat_eq_coe] at hLlt
      omega
    have hLk : Int.ofNat L.toNat = L := by
      simp only [Int.ofNat_eq_coe]
      omega
    have htgtchar : (L = 0 ∧ target = 0) ∨
        (1 ≤ L ∧ s.levelStart.get? L.toNat = some target) := by
      unfold bjTarget at htgt
      by_cases hL : L = 0
      · left
        rw [if_pos (by simpa using hL)] at htgt
        exact ⟨hL, (Option.some.inj htgt).symm⟩
      · right
        rw [if_neg (by simpa using hL)] at htgt
        exact ⟨by omega, htgt⟩
    have hkept : ∀ e ∈ s.levelStart.take L.toNat, e < target := by
      intro e he
      obtain ⟨j, hj, hje⟩ := mem_take_pos he
      rcases htgtchar with ⟨hL0e, _⟩ | ⟨hL1, htgk⟩
      · exfalso
        have hke : L.toNat = 0 := by omega
        rw [hke] at hj
        omega
      · have hm := hso.2.2 j L.toNat hj hdlen
        rw [hje, htgk] at hm
        simpa using hm
    have hdropge : ∀ e ∈ s.levelStart.drop L.toNat, target ≤ e := by
      intro e he
      rcases htgtchar with ⟨_, htg0⟩ | ⟨hL1, htgk⟩
      · omega
      · obtain ⟨j, hjk, hjlen, hje⟩ := mem_drop_get? s.levelStart L.toNat e he
        by_cases hjek : j = L.toNat
        · rw [hjek, htgk] at hje
          have := Option.some.inj hje
          omega
        · have hm := hso.2.2 L.toNat j (by omega) hjlen
          rw [htgk, hje] at hm
          simp only [Option.getD_some] at hm
          omega
    have htgtle : target ≤ s.trail.length := by
      rcases htgtchar with ⟨_, htg0⟩ | ⟨hL1, htgk⟩
      · omega
      · have hbd := hso.2.1 L.toNat hdlen
        rw [htgk] at hbd
        simp only [Option.getD_some] at hbd
        omega
    set s1 := popTrailLoop unassignCDCL s.trail.length target s with hs1
    have hunproj : ∀ (st : Solver) (v : Int),
        (unassignCDCL st v).trail = st.trail ∧
        (unassignCDCL st v).numVars = st.numVars ∧
        (unassignCDCL st v).clauses = st.clauses ∧
        (unassignCDCL st v).watches = st.watches ∧
        (unassignCDCL st v).decisions = st.decisions ∧
        (unassignCDCL st v).levelStart = st.levelStart := by
      intro st v
      unfold unassignCDCL
      by_cases h : st.assignment v == 0
      · rw [if_pos h]
        exact ⟨rfl, rfl, rfl, rfl, rfl, rfl⟩
      · rw [if_neg h]
        exact ⟨rfl, rfl, rfl, rfl, rfl, rfl⟩
    have htr1 : s1.trail = s.trail.take target :=
      popTrailLoop_trail unassignCDCL (fun st v => (hunproj st v).1)
        s.trail.length target s (by omega)
    have hproj1 := popTrailLoop_proj unassignCDCL
      (fun st v => ⟨(hunproj st v).1, (hunproj st v).2.1, (hunproj st v).2.2.1,
        (hunproj st v).2.2.2.1, (hunproj st v).2.2.2.2.1, (hunproj st v).2.2.2.2.2⟩)
      s.trail.length target s
    have hq1 := popTrailLoop_queue unassignCDCL (fun st v => by
      unfold unassignCDCL
      by_cases h : st.assignment v == 0
      · rw [if_pos h]
        exact ⟨rfl, rfl⟩
      · rw [if_neg h]
        exact ⟨rfl, rfl⟩) s.trail.length target s
    have hsurv : ∀ q, q < target →
        s1.assignment (iabs (trailAt s q)) = s.assignment (iabs (trailAt s q)) ∧
        s1.levelOf (iabs (trailAt s q)) = s.levelOf (iabs (trailAt s q)) ∧
        s1.reasonOf (iabs (trailAt s q)) = s.reasonOf (iabs (trailAt s q)) := by
      intro q hq
      apply popTrailLoop_book
      intro q2 hq2a hq2b heq
      have hqe : q2 = q := trail_pos_unique s hInv.1 q2 q hq2b (by omega) heq
      omega
    have htrF : s2.trail = s1.trail ++ [A] := by rw [← hb]; rfl
    have haF : s2.assignment = updFn s1.assignment (iabs A) (signVal A) := by
      rw [← hb]; rfl
    have hloF : s2.levelOf = updFn s1.levelOf (iabs A) L := by rw [← hb]; rfl
    have hroF : s2.reasonOf = updFn s1.reasonOf (iabs A) (some learntCi) := by
      rw [← hb]; rfl
    have hdecF : s2.decisions = s1.decisions.take L.toNat := by rw [← hb]; rfl
    have hlsF : s2.levelStart = s1.levelStart.take L.toNat := by rw [← hb]; rfl
    have hnvF : s2.numVars = s1.numVars := by rw [← hb]; rfl
    have hclF : s2.clauses = s1.clauses := by rw [← hb]; rfl
    have hwtF : s2.watches = s1.watches := by rw [← hb]; rfl
    have hquF : s2.unitQueue = s1.unitQueue := by rw [← hb]; rfl
    have hclS : s2.clauses = s.clauses := hclF.trans hproj1.2.1
    have hwtS : s2.watches = s.watches := hwtF.trans hproj1.2.2.1
    have hnvS : s2.numVars = s.numVars := hnvF.trans hproj1.1
    have hquS : s2.unitQueue = s.unitQueue := hquF.trans hq1.1
    have hdecS : s2.decisions = s.decisions.take L.toNat := by
      rw [hdecF, hproj1.2.2.2.1]
    have hlsS : s2.levelStart = s.levelStart.take L.toNat := by
      rw [hlsF, hproj1.2.2.2.2]
    have htrS : s2.trail = s.trail.take target ++ [A] := by rw [htrF, htr1]
    have htklen : (s.trail.take target).length = target := by
      rw [List.length_take]
      omega
    have hlen2 : s2.trail.length = target + 1 := by
      rw [htrS, List.length_append, htklen]
      rfl
    have htaOld : ∀ q, q < target → trailAt s2 q = trailAt s q := by
      intro q hq
      unfold trailAt
      rw [htrS, get?_append_lt (by rw [htklen]; omega), get?_take_lt hq]
    have htaNew : trailAt s2 target = A := by
      have hget : s2.trail.get? target = some A := by
        rw [htrS]
        have h1 : (s.trail.take target ++ [A]).get? target =
            (s.trail.take target ++ [A]).get? (s.trail.take target).length := by
          rw [htklen]
        rw [h1, get?_append_boundary]
        rfl
      unfold trailAt
      rw [hget]
      rfl
    have hlev_surv : ∀ q, q < target →
        0 ≤ s.levelOf (iabs (trailAt s q)) ∧ s.levelOf (iabs (trailAt s q)) ≤ L := by
      intro q hq
      have hql : q < s.trail.length := by omega
      rw [hlc q hql]
      have hcc : countLE s.levelStart q = countLE (s.levelStart.take L.toNat) q :=
        countLE_take_eq s.levelStart L.toNat q
          (fun e he => by have := hdropge e he; omega)
      have hcb : countLE (s.levelStart.take L.toNat) q ≤
          (s.levelStart.take L.toNat).length := by
        unfold countLE
        exact List.length_filter_le _ _
      rw [List.length_take] at hcb
      simp only [Int.ofNat_eq_coe] at hLk ⊢
      omega
    have hvar_surv_ne : ∀ q, q < target → iabs (trailAt s q) ≠ iabs A := by
      intro q hq heq
      have hle := (hlev_surv q hq).2
      rw [heq, hlevA] at hle
      simp only [Int.ofNat_eq_coe] at hle hLlt
      omega
    have hassign_surv : ∀ q, q < target →
        s2.assignment (iabs (trailAt s q)) = s.assignment (iabs (trailAt s q)) := by
      intro q hq
      rw [haF]
      unfold updFn
      rw [if_neg (hvar_surv_ne q hq)]
      exact (hsurv q hq).1
    have hlo_surv : ∀ q, q < target →
        s2.levelOf (iabs (trailAt s q)) = s.levelOf (iabs (trailAt s q)) := by
      intro q hq
      rw [hloF]
      unfold updFn
      rw [if_neg (hvar_surv_ne q hq)]
      exact (hsurv q hq).2.1
    have hro_surv : ∀ q, q < target →
        s2.reasonOf (iabs (trailAt s q)) = s.reasonOf (iabs (trailAt s q)) := by
      intro q hq
      rw [hroF]
      unfold updFn
      rw [if_neg (hvar_surv_ne q hq)]
      exact (hsurv q hq).2.2
    have hassign_var : ∀ v, (∃ q, q < target ∧ iabs (trailAt s q) = v) →
        s2.assignment v = s.assignment v := by
      intro v hv
      obtain ⟨q, hq, hqv⟩ := hv
      rw [← hqv]
      exact hassign_surv q hq
    have hfalse_pres : ∀ m, (∃ q, q < target ∧ iabs (trailAt s q) = iabs m) →
        litIsFalse s2 m = litIsFalse s m := by
      intro m hm
      unfold litIsFalse
      rw [hassign_var (iabs m) hm]
    have htc2 : TrailConsistent s2 := by
      apply cdclBackjump_tc s L learntCi A s2 hInv.1
        (mem_intRange s.numVars (iabs A) |>.mpr
          ⟨iabs_pos_of_ne_zero A hA0, hAr⟩) ?_ hbj
      intro tgt htgt2 l hl
      rw [htgt] at htgt2
      have htge : tgt = target := (Option.some.inj htgt2).symm
      rw [htge] at hl
      obtain ⟨q, hq, hqe⟩ := mem_take_pos hl
      have hta : trailAt s q = l := by
        unfold trailAt
        rw [hqe]
        rfl
      rw [← hta]
      exact hvar_surv_ne q hq
    refine ⟨⟨htc2, ?_, ?_⟩, watchPos_transport s s2 hclS hwtS hwp,
      watchDup_transport s s2 hclS hwtS hwd,
      dbImplied_transport cnf s s2 hclS hdb, ?_, ?_, ?_, ?_, ?_,
      hquS, hclS, hnvS, hwtS⟩
    · intro c hc l hl
      rw [hclS] at hc
      rw [hnvS]
      exact hInv.2.1 c hc l hl
    · intro lit hlit ci hci
      rw [hnvS] at hlit
      rw [hwtS] at hci
      obtain ⟨c, hc, hlen⟩ := hInv.2.2 lit hlit ci hci
      rw [hclS]
      exact ⟨c, hc, hlen⟩
    · -- StackOk
      refine ⟨?_, ?_, ?_⟩
      · rw [hlsS, hdecS, List.length_take, List.length_take, hdllen]
      · intro j hj
        rw [hlsS, List.length_take] at hj
        have hjk : j < L.toNat := by omega
        rw [hlsS, get?_take_lt hjk]
        obtain ⟨e, he⟩ : ∃ e, s.levelStart.get? j = some e := by
          rw [List.get?_eq_get (show j < s.levelStart.length by omega)]
          exact ⟨_, rfl⟩
        rw [he]
        simp only [Option.getD_some]
        have hmem : e ∈ s.levelStart.take L.toNat := by
          rw [← get?_take_lt hjk] at he
          exact List.get?_mem he
        have := hkept e hmem
        rw [hlen2]
        omega
      · intro i j hij hj
        rw [hlsS, List.length_take] at hj
        rw [hlsS, get?_take_lt (show i < L.toNat by omega),
          get?_take_lt (show j < L.toNat by omega)]
        exact hso.2.2 i j hij (by omega)
    · -- LevelChar
      intro p hp
      rw [hlen2] at hp
      by_cases hpt : p < target
      · rw [htaOld p hpt, hlo_surv p hpt, hlc p (by omega), hlsS]
        congr 1
        exact countLE_take_eq s.levelStart L.toNat p
          (fun e he => by have := hdropge e he; omega)
      · have hpe : p = target := by omega
        rw [hpe, htaNew, hloF]
        unfold updFn
        rw [if_pos rfl, hlsS]
        have hcall : countLE (s.levelStart.take L.toNat) target =
            (s.levelStart.take L.toNat).length :=
          countLE_all _ target (fun e he => le_of_lt (hkept e he))
        rw [hcall, List.length_take]
        rw [show min L.toNat s.levelStart.length = L.toNat from by omega]
        exact hLk.symm
    · -- RInv
      intro p hp hg rci hrci
      rw [hlen2] at hp
      by_cases hpt : p < target
      · rw [htaOld p hpt] at hg hrci ⊢
        rw [hlo_surv p hpt] at hg
        rw [hro_surv p hpt] at hrci
        obtain ⟨h1, h2, h3, h4⟩ := hri p (by omega) hg rci hrci
        rw [hclS]
        refine ⟨h1, h2, ?_, h4⟩
        intro m hm hmv
        obtain ⟨hf, q, hq, hqv⟩ := h3 m hm hmv
        refine ⟨?_, q, hq, ?_⟩
        · rw [hfalse_pres m ⟨q, by omega, hqv⟩]
          exact hf
        · rw [htaOld q (by omega)]
          exact hqv
      · have hpe : p = target := by omega
        rw [hpe, htaNew] at hg hrci ⊢
        rw [hloF] at hg
        unfold updFn at hg
        rw [if_pos rfl] at hg
        rw [hroF] at hrci
        unfold updFn at hrci
        rw [if_pos rfl] at hrci
        have hrcie : rci = learntCi := (Option.some.inj hrci).symm
        rw [hrcie, hclS, hlcl]
        simp only [Option.getD_some]
        refine ⟨get?_lt_length _ _ _ hlcl, hmemA, ?_, huniq⟩
        intro m hm hmv
        obtain ⟨hmf, hml0, hmlL⟩ := htail m hm hmv
        have hmr := hInv.2.1 learntCl (List.get?_mem hlcl) m hm
        have hmav := false_lit_assigned s m hmf hmr.1 hmr.2
        obtain ⟨q, hq, hqv⟩ := assigned_trail_pos s hInv.1 (iabs m) hmav
        have hqt : q < target := by
          by_contra hcon
          rcases htgtchar with ⟨hL0e, _⟩ | ⟨hL1, htgk⟩
          · rw [hL0e] at hg
            omega
          · have hkk1 : L.toNat + 1 ≤ s.levelStart.length := by omega
            have halltk : ∀ e ∈ s.levelStart.take (L.toNat + 1), e ≤ q := by
              intro e he
              obtain ⟨j, hj, hje⟩ := mem_take_pos he
              by_cases hjk : j = L.toNat
              · rw [hjk, htgk] at hje
                have := Option.some.inj hje
                omega
              · have hm2 := hso.2.2 j L.toNat (by omega) hdlen
                rw [hje, htgk] at hm2
                simp only [Option.getD_some] at hm2
                omega
            have hc1 : countLE (s.levelStart.take (L.toNat + 1)) q =
                L.toNat + 1 := by
              rw [countLE_all _ q halltk, List.length_take]
              omega
            have hc2 : countLE (s.levelStart.take (L.toNat + 1)) q ≤
                countLE s.levelStart q := countLE_prefix_le _ _ _
            have hlev := hlc q hq
            rw [hqv] at hlev
            rw [hlev] at hmlL
            simp only [Int.ofNat_eq_coe] at hmlL hLk
            omega
        refine ⟨?_, q, ?_, ?_⟩
        · rw [hfalse_pres m ⟨q, hqt, hqv⟩]
          exact hmf
        · omega
        · rw [htaOld q hqt]
          exact hqv
    · -- RPres
      intro p hp hg hnls
      rw [hlen2] at hp
      by_cases hpt : p < target
      · rw [htaOld p hpt] at hg ⊢
        rw [hlo_surv p hpt] at hg
        rw [hro_surv p hpt]
        apply hrp p (by omega) hg
        intro hmem
        have hsplit := List.take_append_drop L.toNat s.levelStart
        rw [← hsplit] at hmem
        rcases List.mem_append.mp hmem with hmem | hmem
        · apply hnls
          rw [hlsS]
          exact hmem
        · have := hdropge p hmem
          omega
      · have hpe : p = target := by omega
        rw [hpe, htaNew, hroF]
        unfold updFn
        rw [if_pos rfl]
        exact Option.noConfusion
    · -- ZL
      intro l hl hlev
      rw [htrS] at hl
      rcases List.mem_append.mp hl with hl | hl
      · obtain ⟨q, hq, hqe⟩ := mem_take_pos hl
        have hta : trailAt s q = l := by
          unfold trailAt
          rw [hqe]
          rfl
        have hlo2 : s2.levelOf (iabs l) = s.levelOf (iabs l) := by
          rw [← hta]
          exact hlo_surv q hq
        rw [hlo2] at hlev
        exact hzl l (List.take_subset _ _ hl) hlev
      · rw [List.mem_singleton.mp hl] at hlev ⊢
        rw [hloF] at hlev
        unfold updFn at hlev
        rw [if_pos rfl] at hlev
        exact himpA0 hlev

/-- A single level start contributes one to the count exactly when it lies
at or below `q`. -/
theorem countLE_singleton (e q : Nat) :
    countLE [e] q = if e ≤ q then 1 else 0 := by
  unfold countLE
  by_cases h : e ≤ q
  · rw [if_pos h]
    simp [h]
  · rw [if_neg h]
    simp [h]

/-- `CDCL.push_decision_level` re-establishes the soundness bundle with one
more decision. -/
theorem cdclPushDecision_sem (cnf : List (List Int)) (s : Solver) (lit : Int)
    (hInv : PropInv s) (hwp : WatchPos s) (hwd : WatchDup s) (hdb : DbImplied cnf s)
    (hso : StackOk s) (hlc : LevelChar s) (hri : RInv s) (hrp : RPres s)
    (hzl : ZL cnf s)
    (hv : iabs lit ∈ intRange s.numVars)
    (h0 : s.assignment (iabs lit) = 0) :
    PropInv (cdclPushDecision s lit) ∧ WatchPos (cdclPushDecision s lit) ∧
    WatchDup (cdclPushDecision s lit) ∧ DbImplied cnf (cdclPushDecision s lit) ∧
    StackOk (cdclPushDecision s lit) ∧ LevelChar (cdclPushDecision s lit) ∧
    RInv (cdclPushDecision s lit) ∧ RPres (cdclPushDecision s lit) ∧
    ZL cnf (cdclPushDecision s lit) ∧
    (cdclPushDecision s lit).unitQueue = s.unitQueue ∧
    (cdclPushDecision s lit).decisions ≠ [] := by
  set sp := cdclPushDecision s lit with hsp
  have htr : sp.trail = s.trail ++ [lit] := rfl
  have ha : sp.assignment = updFn s.assignment (iabs lit) (signVal lit) := rfl
  have hlo : sp.levelOf = updFn s.levelOf (iabs lit)
      (Int.ofNat s.decisions.length + 1) := rfl
  have hro : sp.reasonOf = updFn s.reasonOf (iabs lit) none := rfl
  have hls : sp.levelStart = s.levelStart ++ [s.trail.length] := rfl
  have hdec : sp.decisions = s.decisions ++ [(iabs lit, decide (lit < 0))] := rfl
  have hcl : sp.clauses = s.clauses := rfl
  have hwt : sp.watches = s.watches := rfl
  have hnv : sp.numVars = s.numVars := rfl
  have hqu : sp.unitQueue = s.unitQueue := rfl
  have hlenS : sp.trail.length = s.trail.length + 1 := by
    rw [htr, List.length_append, List.length_singleton]
  have htaold : ∀ p, p < s.trail.length → trailAt sp p = trailAt s p := by
    intro p hp
    unfold trailAt
    rw [htr, get?_append_lt hp]
  have htanew : trailAt sp s.trail.length = lit := by
    unfold trailAt
    rw [htr, get?_append_boundary]
    rfl
  have holdvar : ∀ p, p < s.trail.length → iabs (trailAt s p) ≠ iabs lit := by
    intro p hp hveq
    obtain ⟨l, hl⟩ : ∃ l, s.trail.get? p = some l := by
      rw [List.get?_eq_get hp]
      exact ⟨_, rfl⟩
    have hlm : l ∈ s.trail := List.get?_mem hl
    have hassigned := hInv.1.2 l hlm
    have htal : trailAt s p = l := by
      unfold trailAt
      rw [hl]
      rfl
    rw [htal] at hveq
    rw [hveq, h0] at hassigned
    exact signVal_ne_zero l hassigned.symm
  have hlonew : ∀ v, v ≠ iabs lit → sp.levelOf v = s.levelOf v := by
    intro v hv2
    rw [hlo]
    unfold updFn
    rw [if_neg hv2]
  have hronew : ∀ v, v ≠ iabs lit → sp.reasonOf v = s.reasonOf v := by
    intro v hv2
    rw [hro]
    unfold updFn
    rw [if_neg hv2]
  have hmono : ∀ v, s.assignment v ≠ 0 → sp.assignment v = s.assignment v := by
    intro v hv2
    rw [ha]
    unfold updFn
    rw [if_neg (fun hveq => hv2 (by rw [hveq]; exact h0))]
  have hallst : ∀ e ∈ s.levelStart, e < s.trail.length := by
    intro e he
    obtain ⟨j, hj, hje⟩ := mem_levelStart_pos s.levelStart e he
    have := hso.2.1 j hj
    rw [hje] at this
    simpa using this
  have htcsp : TrailConsistent sp := cdclPushDecision_tc s lit hv h0 hInv.1
  refine ⟨⟨htcsp, ?_, ?_⟩, ?_, ?_, ?_, ?_, ?_, ?_, ?_, ?_, hqu, ?_⟩
  · intro c hc l hl
    rw [hcl] at hc
    rw [hnv]
    exact hInv.2.1 c hc l hl
  · intro l hl ci hci
    rw [hnv] at hl
    rw [hwt] at hci
    obtain ⟨c, hc, hlen⟩ := hInv.2.2 l hl ci hci
    rw [hcl]
    exact ⟨c, hc, hlen⟩
  · exact watchPos_transport s sp hcl hwt hwp
  · exact watchDup_transport s sp hcl hwt hwd
  · exact dbImplied_transport cnf s sp hcl hdb
  · -- StackOk
    refine ⟨?_, ?_, ?_⟩
    · rw [hls, hdec, List.length_append, List.length_append, hso.1]
      rfl
    · intro j hj
      rw [hls, List.length_append, List.length_singleton] at hj
      rw [hls, hlenS]
      by_cases hjo : j < s.levelStart.length
      · rw [get?_append_lt hjo]
        have := hso.2.1 j hjo
        omega
      · have hje : j = s.levelStart.length := by omega
        rw [hje, get?_append_boundary]
        show (some s.trail.length).getD 0 < s.trail.length + 1
        simp only [Option.getD_some]
        omega
    · intro i j hij hj
      rw [hls, List.length_append, List.length_singleton] at hj
      by_cases hjo : j < s.levelStart.length
      · rw [hls, get?_append_lt hjo, get?_append_lt (by omega)]
        exact hso.2.2 i j hij hjo
      · have hje : j = s.levelStart.length := by omega
        rw [hls, hje, get?_append_boundary, get?_append_lt (by omega)]
        have hb := hso.2.1 i (by omega)
        obtain ⟨e, he⟩ : ∃ e, s.levelStart.get? i = some e := by
          rw [List.get?_eq_get (show i < s.levelStart.length by omega)]
          exact ⟨_, rfl⟩
        rw [he] at hb ⊢
        simp only [Option.getD_some] at hb ⊢
        simpa using hb
  · -- LevelChar
    intro p hp
    rw [hlenS] at hp
    rw [hls]
    by_cases hpo : p < s.trail.length
    · rw [htaold p hpo, hlonew _ (holdvar p hpo), countLE_append,
        countLE_singleton]
      rw [if_neg (by omega)]
      have := hlc p hpo
      rw [this]
      rfl
    · have hpe : p = s.trail.length := by omega
      rw [hpe, htanew, hlo]
      unfold updFn
      rw [if_pos rfl, countLE_append, countLE_singleton, if_pos (le_refl _)]
      rw [countLE_all s.levelStart s.trail.length
        (fun e he => le_of_lt (hallst e he))]
      rw [hso.1]
      simp only [Int.ofNat_eq_coe]
      omega
  · -- RInv
    intro p hp hg rci hrci
    rw [hlenS] at hp
    by_cases hpo : p < s.trail.length
    · rw [htaold p hpo] at hg hrci ⊢
      rw [hlonew _ (holdvar p hpo)] at hg
      rw [hronew _ (holdvar p hpo)] at hrci
      obtain ⟨h1, h2, h3, h4⟩ := hri p hpo hg rci hrci
      rw [hcl]
      refine ⟨h1, h2, ?_, h4⟩
      intro m hm hmv
      obtain ⟨hf, q, hq, hqv⟩ := h3 m hm hmv
      refine ⟨litIsFalse_mono s sp m hmono hf, q, hq, ?_⟩
      rw [htaold q (by omega)]
      exact hqv
    · have hpe : p = s.trail.length := by omega
      rw [hpe, htanew] at hrci
      rw [hro] at hrci
      unfold updFn at hrci
      rw [if_pos rfl] at hrci
      exact Option.noConfusion hrci
  · -- RPres
    intro p hp hg hnls
    rw [hlenS] at hp
    rw [hls] at hnls
    by_cases hpo : p < s.trail.length
    · rw [htaold p hpo] at hg ⊢
      rw [hlonew _ (holdvar p hpo)] at hg
      rw [hronew _ (holdvar p hpo)]
      apply hrp p hpo hg
      intro hmem
      exact hnls (List.mem_append.mpr (Or.inl hmem))
    · have hpe : p = s.trail.length := by omega
      exfalso
      apply hnls
      rw [hpe]
      exact List.mem_append.mpr (Or.inr (List.mem_singleton.mpr rfl))
  · -- ZL
    intro l hl hlev
    rw [htr] at hl
    rcases List.mem_append.mp hl with hl | hl
    · by_cases hveq : iabs l = iabs lit
      · exfalso
        have hassigned := hInv.1.2 l hl
        rw [hveq, h0] at hassigned
        exact signVal_ne_zero l hassigned.symm
      · rw [hlonew _ hveq] at hlev
        exact hzl l hl hlev
    · exfalso
      rw [List.mem_singleton.mp hl] at hlev
      rw [hlo] at hlev
      unfold updFn at hlev
      rw [if_pos rfl] at hlev
      simp only [Int.ofNat_eq_coe] at hlev
      omega
  · rw [hdec]
    simp


/-- The inner conflict loop of `CDCL.solve` preserves the loop invariant on
resumption and is sound on its UNSAT exit. -/
theorem cdclInnerLoop_sem (cnf : List (List Int)) (pfuel : Nat) :
    ∀ (fuel : Nat) (s : Solver) (res : Sum Solver (String × Option (List Int))),
    cdclInnerLoop pfuel fuel s = some res →
    CdclOk cnf s →
    (∀ s1, res = Sum.inl s1 → CdclOk cnf s1) ∧
    (∀ r, res = Sum.inr r → r = ("UNSAT", none) ∧
      ∀ mdl, satCnf mdl cnf ≠ true) := by
  intro fuel
  induction fuel with
  | zero =>
    intro s res h _
    rw [cdclInnerLoop] at h
    exact absurd h (by simp)
  | succ f ih =>
    intro s res h hOk
    obtain ⟨hInv, hwp, hwd, hdb, hso, hlc, hri, hrp, hzl, hqe⟩ := hOk
    rw [cdclInnerLoop] at h
    cases hprop : cdclPropagate pfuel s with
    | none =>
      rw [hprop] at h
      exact absurd h (by simp)
    | some pres =>
      obtain ⟨r, s1⟩ := pres
      rw [hprop] at h
      have hps := cdclPropagate_sem cnf pfuel s r s1 hprop
        (fun hq => absurd hqe hq)
        (fun l hl => absurd (hqe ▸ hl) (List.not_mem_nil l))
        (fun l hl => absurd (hqe ▸ hl) (List.not_mem_nil l))
        hInv hwp hwd hdb hso hlc hri hrp hzl
      obtain ⟨hInv1, hwp1, hwd1, hdb1, hmono1, ⟨tl1, htl1⟩, ⟨hdec1, hls1, hnv1⟩,
        ⟨hqn1, hqs1⟩, hagre1, hconf1, ⟨hlc1, hri1, hrp1⟩, hzl1, hbk1, hstrong1⟩ := hps
      have hso1 : StackOk s1 := by
        refine ⟨by rw [hls1, hdec1]; exact hso.1, ?_, ?_⟩
        · intro j hj
          rw [hls1] at hj ⊢
          have := hso.2.1 j hj
          rw [htl1, List.length_append]
          omega
        · intro i j hij hj
          rw [hls1] at hj ⊢
          exact hso.2.2 i j hij hj
      cases r with
      | none =>
        replace h : some (Sum.inl s1) = some res := h
        have hres : res = Sum.inl s1 := (Option.some.inj h).symm
        constructor
        · intro s2 hs2
          rw [hres] at hs2
          have hse : s1 = s2 := Sum.inl.inj hs2
          rw [← hse]
          exact ⟨hInv1, hwp1, hwd1, hdb1, hso1, hlc1, hri1, hrp1, hzl1, hqn1 rfl⟩
        · intro r2 hr2
          rw [hres] at hr2
          exact absurd hr2 (by simp)
      | some confCi =>
        replace h : (match analyzeConflict s1 confCi with
          | none => none
          | some (learnt, bjLevel) =>
            if bjLevel < 0 then some (Sum.inr ("UNSAT", none))
            else
              match addClause s1 learnt with
              | (newCi, s2) =>
                match learnt.get? 0 with
                | none => none
                | some assertingLit =>
                  match cdclBackjump s2 bjLevel newCi assertingLit with
                  | none => none
                  | some s3 => cdclInnerLoop pfuel f s3) = some res := h
        cases hana : analyzeConflict s1 confCi with
        | none =>
          rw [hana] at h
          exact absurd h (by simp)
        | some ares =>
          obtain ⟨learnt, bjLevel⟩ := ares
          rw [hana] at h
          replace h : (if bjLevel < 0 then
              some (Sum.inr (("UNSAT", none) : String × Option (List Int)))
            else
              match addClause s1 learnt with
              | (newCi, s2) =>
                match learnt.get? 0 with
                | none => none
                | some assertingLit =>
                  match cdclBackjump s2 bjLevel newCi assertingLit with
                  | none => none
                  | some s3 => cdclInnerLoop pfuel f s3) = some res := h
          have hcc := hconf1 confCi rfl
          by_cases hdecE : s.decisions = []
          · have hana0 : analyzeConflict s1 confCi = some ([], -1) := by
              simp [analyzeConflict, hdec1, hdecE]
            rw [hana] at hana0
            have h2 := Option.some.inj hana0
            have hbje : bjLevel = -1 := congrArg Prod.snd h2
            rw [hbje] at h
            rw [if_pos (by omega : (-1 : Int) < 0)] at h
            have hres : res = Sum.inr ("UNSAT", none) := (Option.some.inj h).symm
            constructor
            · intro s2 hs2
              rw [hres] at hs2
              exact absurd hs2 (by simp)
            · intro r2 hr2
              rw [hres] at hr2
              have hr2e : r2 = ("UNSAT", none) := (Sum.inr.inj hr2).symm
              refine ⟨hr2e, ?_⟩
              have himpTr : ∀ l ∈ s1.trail, Implied cnf l := hstrong1 hdecE
              rcases hcc with ⟨cnat, hcie, c2, hc2, hc2f⟩ |
                ⟨_, _, l, hlimp, hlf, hl0, hlr⟩
              · exact falsified_implied_clause_unsat cnf s1 hInv1.1 himpTr c2
                  (hdb1 c2 (List.get?_mem hc2))
                  (fun m hm => hInv1.2.1 c2 (List.get?_mem hc2) m hm)
                  hc2f
              · exact falsified_implied_clause_unsat cnf s1 hInv1.1 himpTr [l]
                  (impliedClause_singleton cnf l hlimp)
                  (fun m hm => by rw [List.mem_singleton.mp hm]; exact ⟨hl0, hlr⟩)
                  (fun m hm => by rw [List.mem_singleton.mp hm]; exact hlf)
          · have hdecE1 : s1.decisions ≠ [] := by
              rw [hdec1]
              exact hdecE
            rcases hcc with ⟨cnat, hcie, c2, hc2, hc2f⟩ | ⟨_, hdec0, _⟩
            · have hsound := analyzeConflict_sound cnf s1 cnat hInv1.1 hInv1.2.1
                hso1 hlc1 hri1 hrp1 hdb1 hdecE1
                (by rw [hc2]; intro m hm; exact hc2f m hm)
                learnt bjLevel (by rw [← hcie]; exact hana)
              obtain ⟨p, learnt2, hp1, hp2, hleq, hbjeq, hlev2, hlfalse, hrange,
                hlimp⟩ := hsound
              have hbj0 : 0 ≤ bjLevel := by
                rw [hbjeq]
                exact maxLevelOf_nonneg s1 learnt2
              have hdlen1 : 0 < s1.decisions.length := List.length_pos.mpr hdecE1
              have hbjlt : bjLevel < Int.ofNat s1.decisions.length := by
                rw [hbjeq]
                apply maxLevelOf_lt s1 learnt2 (Int.ofNat s1.decisions.length)
                  (by simp only [Int.ofNat_eq_coe]; omega)
                intro l hl
                exact (hlev2 l hl).2
              rw [if_neg (by omega)] at h
              rcases hadd : addClause s1 learnt with ⟨newCi, s2p⟩
              rw [hadd] at h
              have hget0 : learnt.get? 0 = some (-(trailAt s1 p)) := by
                rw [hleq]
                rfl
              replace h : (match learnt.get? 0 with
                | none => none
                | some assertingLit =>
                  match cdclBackjump s2p bjLevel newCi assertingLit with
                  | none => none
                  | some s3 => cdclInnerLoop pfuel f s3) = some res := h
              rw [hget0] at h
              replace h : (match cdclBackjump s2p bjLevel newCi
                  (-(trailAt s1 p)) with
                | none => none
                | some s3 => cdclInnerLoop pfuel f s3) = some res := h
              have haddS := addClause_sem cnf s1 learnt hInv1 hwp1 hwd1 hdb1
                hlc1 hri1 hrp1 hzl1 hlimp hrange newCi s2p hadd
              obtain ⟨hnewCi, hcl2, htr2, ha2, hlo2, hro2, hdec2, hls2, hnv2,
                hqu2, hInv2, hwp2, hwd2, hdb2, hlc2, hri2, hrp2, hzl2⟩ := haddS
              have hso2 : StackOk s2p := by
                refine ⟨by rw [hls2, hdec2]; exact hso1.1, ?_, ?_⟩
                · intro j hj
                  rw [hls2] at hj ⊢
                  rw [htr2]
                  exact hso1.2.1 j hj
                · intro i j hij hj
                  rw [hls2] at hj ⊢
                  exact hso1.2.2 i j hij hj
              cases hbj3 : cdclBackjump s2p bjLevel newCi (-(trailAt s1 p)) with
              | none =>
                rw [hbj3] at h
                exact absurd h (by simp)
              | some s3 =>
                rw [hbj3] at h
                -- facts about the asserting literal
                obtain ⟨plit, hplit⟩ : ∃ plit, s1.trail.get? p = some plit := by
                  rw [List.get?_eq_get hp2]
                  exact ⟨_, rfl⟩
                have hptat : trailAt s1 p = plit := by
                  unfold trailAt
                  rw [hplit]
                  rfl
                have hplitm : plit ∈ s1.trail := List.get?_mem hplit
                have hplit0 : plit ≠ 0 := trail_lit_ne_zero s1 plit hInv1.1 hplitm
                have hlevA : s1.levelOf (iabs (-(trailAt s1 p))) =
                    Int.ofNat s1.decisions.length := by
                  rw [iabs_neg]
                  exact (cur_level_align s1 hso1 hlc1 hdecE1 p hp2).mpr hp1
                have hclgetnew : s2p.clauses.get? newCi = some learnt := by
                  rw [hcl2, hnewCi]
                  exact get?_append_boundary
                have htailB : ∀ m ∈ learnt, iabs m ≠ iabs (-(trailAt s1 p)) →
                    litIsFalse s2p m = true ∧ 0 ≤ s2p.levelOf (iabs m) ∧
                    s2p.levelOf (iabs m) ≤ bjLevel := by
                  intro m hm hmv
                  have hmf : litIsFalse s2p m = true := by
                    unfold litIsFalse
                    rw [ha2]
                    exact hlfalse m hm
                  rw [hleq] at hm
                  rcases List.mem_cons.mp hm with rfl | hm2
                  · exact absurd rfl hmv
                  · have hm3 : m ∈ learnt2 :=
                      (pySetList_perm learnt2).mem_iff.mp hm2
                    refine ⟨hmf, ?_, ?_⟩
                    · rw [hlo2]
                      exact (hlev2 m hm3).1
                    · rw [hlo2, hbjeq]
                      exact maxLevelOf_ge s1 learnt2 m hm3
                have huniqB : ∀ m ∈ learnt, iabs m = iabs (-(trailAt s1 p)) →
                    m = -(trailAt s1 p) := by
                  intro m hm hmv
                  rw [hleq] at hm
                  rcases List.mem_cons.mp hm with rfl | hm2
                  · rfl
                  · exfalso
                    have hm3 : m ∈ learnt2 :=
                      (pySetList_perm learnt2).mem_iff.mp hm2
                    have := (hlev2 m hm3).2
                    rw [hmv, hlevA] at this
                    simp only [Int.ofNat_eq_coe] at this
                    omega
                have hA0 : -(trailAt s1 p) ≠ 0 := by
                  rw [hptat]
                  intro hz
                  exact hplit0 (by omega)
                have hAr : iabs (-(trailAt s1 p)) ≤ Int.ofNat s2p.numVars := by
                  rw [iabs_neg, hnv2, hptat]
                  exact trail_lit_range s1 plit hInv1.1 hplitm
                have himpA0 : bjLevel = 0 → Implied cnf (-(trailAt s1 p)) := by
                  intro hbj0e mdl hsat
                  have hlsat := hlimp mdl hsat
                  rw [modelSatClause_iff] at hlsat
                  obtain ⟨m, hm, hms⟩ := hlsat
                  have hmmem := hm
                  rw [hleq] at hm
                  rcases List.mem_cons.mp hm with rfl | hm2
                  · exact hms
                  · exfalso
                    have hm3 : m ∈ learnt2 :=
                      (pySetList_perm learnt2).mem_iff.mp hm2
                    have hmrange := hrange m hmmem
                    have hmf : litIsFalse s1 m = true := hlfalse m hmmem
                    have hlev0 : s1.levelOf (iabs m) = 0 := by
                      have h1 := (hlev2 m hm3).1
                      have h2 := maxLevelOf_ge s1 learnt2 m hm3
                      rw [← hbjeq, hbj0e] at h2
                      omega
                    have hneg : -m ∈ s1.trail :=
                      false_lit_negation_on_trail s1 m hInv1.1 hmf
                        hmrange.1 hmrange.2
                    have himn := hzl1 (-m) hneg (by rw [iabs_neg]; exact hlev0)
                    have hmn := himn mdl hsat
                    rw [modelSatLit_neg mdl m hmrange.1, hms] at hmn
                    exact Bool.noConfusion hmn
                have hbjS := cdclBackjump_sem cnf s2p bjLevel newCi
                  (-(trailAt s1 p)) s3 hbj3 hInv2 hwp2 hwd2 hdb2 hso2 hlc2
                  hri2 hrp2 hzl2 hbj0 (by rw [hdec2]; exact hbjlt)
                  learnt hclgetnew
                  (by rw [hleq]; exact List.mem_cons_self _ _)
                  htailB huniqB (by rw [hlo2, hdec2]; exact hlevA) hA0 hAr himpA0
                obtain ⟨hInv3, hwp3, hwd3, hdb3, hso3, hlc3, hri3, hrp3, hzl3,
                  hqu3, _, _, _⟩ := hbjS
                have hq3 : s3.unitQueue = [] := by
                  rw [hqu3, hqu2]
                  apply hqs1 confCi rfl
                  rw [hcie]
                  simp only [Int.ofNat_eq_coe]
                  omega
                exact ih s3 res h ⟨hInv3, hwp3, hwd3, hdb3, hso3, hlc3, hri3,
                  hrp3, hzl3, hq3⟩
            · exact absurd hdec0 hdecE

/-- The CDCL decision loop, run with any branching heuristic that picks
unassigned in-range variables, is sound on its UNSAT answer. -/
theorem cdclSolveLoop_sem (cnf : List (List Int)) (pick : Solver → Option Int)
    (hpick : ∀ st lit, pick st = some lit →
      iabs lit ∈ intRange st.numVars ∧ st.assignment (iabs lit) = 0)
    (pfuel : Nat) :
    ∀ (fuel : Nat) (s : Solver) (res : String × Option (List Int)),
    cdclSolveLoop pick pfuel fuel s = some res →
    CdclOk cnf s → res.1 = "UNSAT" →
    ∀ mdl, satCnf mdl cnf ≠ true := by
  intro fuel
  induction fuel with
  | zero =>
    intro s res h
    rw [cdclSolveLoop] at h
    exact absurd h (by simp)
  | succ f ih =>
    intro s res h hOk hU
    rw [cdclSolveLoop] at h
    cases hp : pick s with
    | none =>
      rw [hp] at h
      replace h : some (("SAT" : String), some (trueVars s)) = some res := h
      have hres : res = ("SAT", some (trueVars s)) := (Option.some.inj h).symm
      rw [hres] at hU
      simp at hU
    | some lit =>
      rw [hp] at h
      replace h : (match cdclInnerLoop pfuel (f + 1) (cdclPushDecision s lit) with
        | none => none
        | some (Sum.inr r) => some r
        | some (Sum.inl s1) => cdclSolveLoop pick pfuel f s1) = some res := h
      obtain ⟨hvr, h0⟩ := hpick s lit hp
      obtain ⟨hInv, hwp, hwd, hdb, hso, hlc, hri, hrp, hzl, hqe⟩ := hOk
      have hpd := cdclPushDecision_sem cnf s lit hInv hwp hwd hdb hso hlc hri
        hrp hzl hvr h0
      obtain ⟨hInvP, hwpP, hwdP, hdbP, hsoP, hlcP, hriP, hrpP, hzlP, hquP, _⟩ :=
        hpd
      have hOkP : CdclOk cnf (cdclPushDecision s lit) :=
        ⟨hInvP, hwpP, hwdP, hdbP, hsoP, hlcP, hriP, hrpP, hzlP,
          by rw [hquP]; exact hqe⟩
      cases hil : cdclInnerLoop pfuel (f + 1) (cdclPushDecision s lit) with
      | none =>
        rw [hil] at h
        exact absurd h (by simp)
      | some ires =>
        rw [hil] at h
        have hinner := cdclInnerLoop_sem cnf pfuel (f + 1)
          (cdclPushDecision s lit) ires hil hOkP
        cases ires with
        | inl s1 =>
          replace h : cdclSolveLoop pick pfuel f s1 = some res := h
          exact ih s1 res h (hinner.1 s1 rfl) hU
        | inr r =>
          obtain ⟨_, hunsat⟩ := hinner.2 r rfl
          exact hunsat

/-- UNSAT soundness of `CDCL.solve` for any branching heuristic that picks
unassigned in-range variables: under the range precondition with at least
one variable, an `UNSAT` answer means no assignment satisfies all
clauses. -/
theorem cdclSolve_unsat_sound (pick : Solver → Option Int)
    (hpick : ∀ st lit, pick st = some lit →
      iabs lit ∈ intRange st.numVars ∧ st.assignment (iabs lit) = 0)
    (clauses : List (List Int)) (numVars : Nat) (pfuel fuel : Nat)
    (hr : clausesInRange clauses numVars = true) (hn : 1 ≤ numVars)
    (h : cdclSolve pick pfuel fuel clauses numVars = some ("UNSAT", none)) :
    ∀ mdl, satCnf mdl clauses ≠ true := by
  obtain ⟨⟨hInv0, hwp0, hwd0, hdb0⟩, hqi0, hqr0, hcl0, hdec0, htr0, hls0⟩ :=
    mkSolver_semInv clauses numVars hr hn
  set s0 := mkSolver clauses numVars with hs0
  replace h : (match cdclPropagate pfuel s0 with
    | none => none
    | some (some _, _) => some (("UNSAT" : String), (none : Option (List Int)))
    | some (none, s1) => cdclSolveLoop pick pfuel fuel s1) =
      some ("UNSAT", none) := h
  have hso0 : StackOk s0 := by
    refine ⟨?_, ?_, ?_⟩
    · rw [hls0, hdec0]
      rfl
    · intro j hj
      rw [hls0] at hj
      simp at hj
    · intro i j _ hj
      rw [hls0] at hj
      simp at hj
  have hlc0 : LevelChar s0 := by
    intro p hp
    rw [htr0] at hp
    simp at hp
  have hri0 : RInv s0 := by
    intro p hp
    rw [htr0] at hp
    simp at hp
  have hrp0 : RPres s0 := by
    intro p hp
    rw [htr0] at hp
    simp at hp
  have hzl0 : ZL clauses s0 := by
    intro l hl
    rw [htr0] at hl
    exact absurd hl (List.not_mem_nil l)
  rcases hpr : cdclPropagate pfuel s0 with _ | ⟨r, s1⟩
  · rw [hpr] at h
    exact absurd h (by simp)
  · rw [hpr] at h
    have hqd0 : s0.unitQueue ≠ [] → s0.decisions = [] ∧ s0.levelStart = [] :=
      fun _ => ⟨hdec0, hls0⟩
    have hps := cdclPropagate_sem clauses pfuel s0 r s1 hpr hqd0 hqi0 hqr0
      hInv0 hwp0 hwd0 hdb0 hso0 hlc0 hri0 hrp0 hzl0
    obtain ⟨hInv1, hwp1, hwd1, hdb1, hmono1, ⟨tl1, htl1⟩, ⟨hdec1, hls1, hnv1⟩,
      ⟨hqn1, hqs1⟩, hagre1, hconf1, ⟨hlc1, hri1, hrp1⟩, hzl1, hbk1, hstrong1⟩ :=
      hps
    cases r with
    | some confCi =>
      intro mdl hsat
      have himpTr : ∀ l ∈ s1.trail, Implied clauses l := hstrong1 hdec0
      have hcc := hconf1 confCi rfl
      rcases hcc with ⟨cnat, hcie, c2, hc2, hc2f⟩ |
        ⟨_, _, l, hlimp, hlf, hl0, hlr⟩
      · exact falsified_implied_clause_unsat clauses s1 hInv1.1 himpTr c2
          (hdb1 c2 (List.get?_mem hc2))
          (fun m hm => hInv1.2.1 c2 (List.get?_mem hc2) m hm) hc2f mdl hsat
      · exact falsified_implied_clause_unsat clauses s1 hInv1.1 himpTr [l]
          (impliedClause_singleton clauses l hlimp)
          (fun m hm => by rw [List.mem_singleton.mp hm]; exact ⟨hl0, hlr⟩)
          (fun m hm => by rw [List.mem_singleton.mp hm]; exact hlf) mdl hsat
    | none =>
      replace h : cdclSolveLoop pick pfuel fuel s1 = some ("UNSAT", none) := h
      have hso1 : StackOk s1 := by
        refine ⟨?_, ?_, ?_⟩
        · rw [hls1, hdec1, hls0, hdec0]
          rfl
        · intro j hj
          rw [hls1, hls0] at hj
          simp at hj
        · intro i j _ hj
          rw [hls1, hls0] at hj
          simp at hj
      exact cdclSolveLoop_sem clauses pick hpick pfuel fuel s1 ("UNSAT", none) h
        ⟨hInv1, hwp1, hwd1, hdb1, hso1, hlc1, hri1, hrp1, hzl1, hqn1 rfl⟩ rfl

/-- `FirstPick.pick_unassigned_literal` only returns unassigned in-range
variables. -/
theorem firstPick_contract (st : Solver) (lit : Int)
    (hp : firstPick st = some lit) :
    iabs lit ∈ intRange st.numVars ∧ st.assignment (iabs lit) = 0 := by
  unfold firstPick at hp
  have hmem := List.mem_of_find?_eq_some hp
  have hprop := List.find?_some hp
  have hpos : 1 ≤ lit := ((mem_intRange st.numVars lit).mp hmem).1
  have hab : iabs lit = lit := by
    unfold iabs
    rw [if_neg (by omega)]
  rw [hab]
  exact ⟨hmem, by simpa using hprop⟩

/-- On no variables and no clauses, `CDCL.solve` with the first-pick
heuristic never answers UNSAT. -/
theorem cdclSolve_empty (pfuel fuel : Nat)
    (h : cdclSolve firstPick pfuel fuel [] 0 = some ("UNSAT", none)) : False := by
  cases pfuel with
  | zero =>
    simp [cdclSolve, cdclPropagate, drainQueue, mkSolver, initClausesLoop,
      propTrailLoop] at h
  | succ p =>
    cases fuel with
    | zero =>
      simp [cdclSolve, cdclPropagate, drainQueue, mkSolver, initClausesLoop,
        propTrailLoop, cdclSolveLoop] at h
    | succ f =>
      simp [cdclSolve, cdclPropagate, drainQueue, mkSolver, initClausesLoop,
        propTrailLoop, cdclSolveLoop, firstPick, intRange] at h

/-- C2: confirmed.  UNSAT soundness of both solvers: for every clause list
whose literals are nonzero and within `[-numVars, numVars]`, if
`DPLL.solve`, or `CDCL.solve` run with the `FirstPick` heuristic, returns
`("UNSAT", none)`, then no assignment satisfies all clauses simultaneously —
`satCnf mdl clauses` is false for every model list `mdl`, in particular for
every total assignment of the variables `1..numVars`. -/
theorem c2_unsat_sound (clauses : List (List Int)) (numVars : Nat)
    (pfuel fuel : Nat) (hr : clausesInRange clauses numVars = true) :
    (dpllSolve pfuel fuel clauses numVars = some ("UNSAT", none) →
      ∀ mdl, satCnf mdl clauses ≠ true) ∧
    (cdclSolve firstPick pfuel fuel clauses numVars = some ("UNSAT", none) →
      ∀ mdl, satCnf mdl clauses ≠ true) := by
  constructor
  · exact fun h => dpllSolve_unsat_sound clauses numVars pfuel fuel hr h
  · intro h
    by_cases hn : 1 ≤ numVars
    · exact cdclSolve_unsat_sound firstPick firstPick_contract clauses numVars
        pfuel fuel hr hn h
    · have hz : numVars = 0 := by omega
      rw [hz] at h hr
      by_cases hemp : ([] : List Int) ∈ clauses
      · exact satCnf_empty_clause clauses hemp
      · rw [clausesInRange_zero clauses hr hemp] at h
        exact absurd (cdclSolve_empty pfuel fuel h) (fun hf => hf)

/-- C2 witness: on the contradictory pair `{1}, {-1}` over one variable both
solvers answer UNSAT, and indeed the assignment making variable 1 true does
not satisfy the clause list. -/
theorem c2_witness :
    clausesInRange [[1], [-1]] 1 = true ∧
    dpllSolve 1 1 [[1], [-1]] 1 = some ("UNSAT", none) ∧
    cdclSolve firstPick 1 1 [[1], [-1]] 1 = some ("UNSAT", none) ∧
    satCnf [1] [[1], [-1]] ≠ true :=
  ⟨by decide, by decide, by decide,
    (c2_unsat_sound [[1], [-1]] 1 1 1 (by decide)).2 (by decide) [1]⟩
